import Mathlib

namespace Samegame

/-! # The Samegame board of Polygames (`src/games/samegame.cc`)

## Data model

The class `Samegame::Board` is embedded as the structure `Board` and its member functions
as functions on boards, under the names of the source (`play(int)` is `play`,
`play(int, int)` is `playIJ`).

* A `std::vector` is a `List`, an `int` is an `Int`; the two dimensions are natural numbers
  (a negative dimension makes the constructor throw). Overflow of `int` is not modelled:
  the dimensions are taken small enough for `nbI * nbJ` to fit, and the theorems on what
  the constructor returns for given arguments state it as the hypothesis `FitsInt`.
* A failed `assert` and an out-of-range vector access both make the operation return
  `none`, so a theorem that an operation returns `some` says that it runs without either.
* A counted `for` loop is `forRange`; a `while` loop takes fuel and returns `none` when the
  fuel runs out, so a theorem that it returns `some` says that the fuel given suffices.
* Values of the C++ type `double` are kept symbolic: a `Dbl` is the tree of floating-point
  operations that produced the value, so that no rounding behaviour is assumed.
* The fill function of the constructor is the sequence of the values it returns; as a
  callable with state it is the argument of `Board.construct`. -/

/-- Symbolic `double` value: the expression that computed it. -/
inductive Dbl where
  | ofInt (n : Int)
  | add (x y : Dbl)
  | mul (x y : Dbl)
  | div (x y : Dbl)
  | pow (x y : Dbl)
deriving DecidableEq, Repr

/-- Entry of the move list: `{_i, _j, _color, _eval}`. -/
structure Move where
  i : Int
  j : Int
  color : Int
  eval : Dbl
deriving DecidableEq, Repr

/-- State of `Samegame::Board`. -/
structure Board where
  nbI : Nat
  nbJ : Nat
  nbColors : Int
  estimatedMaxScore : Dbl
  dataColors : List Int
  dataGroups : List Int
  groupSizes : List Int
  lastIs : List Int
  lastJs : List Int
  score : Dbl
  moves : List Move
deriving DecidableEq, Repr

/-- Read `v[k]` of a `std::vector`. -/
def vget {α : Type} (v : List α) (k : Int) : Option α :=
  if 0 ≤ k then v[k.toNat]? else none

/-- Write `v[k] = x` of a `std::vector`. -/
def vset {α : Type} (v : List α) (k : Int) (x : α) : Option (List α) :=
  if 0 ≤ k ∧ k.toNat < v.length then some (v.set k.toNat x) else none

/-- Counted loop `for (int i = i0; ...; ++i)` running `n` times. -/
def forLoop {σ : Type} (body : σ → Int → Option σ) : Nat → Int → σ → Option σ
  | 0, _, s => some s
  | n + 1, i, s =>
    match body s i with
    | none => none
    | some s1 => forLoop body n (i + 1) s1

/-- The loop `for (int i = lo; i < hi; ++i) body`, for a bound `hi` the body leaves alone. -/
def forRange {σ : Type} (lo hi : Int) (body : σ → Int → Option σ) (s : σ) : Option σ :=
  forLoop body (hi - lo).toNat lo s

/-- Source: `isValid`. -/
def isValid (b : Board) (i j : Int) : Prop :=
  0 ≤ i ∧ i < b.nbI ∧ 0 ≤ j ∧ j < b.nbJ

instance (b : Board) (i j : Int) : Decidable (isValid b i j) := by
  unfold isValid; infer_instance

/-- Source: `ind`, with its assertion. -/
def ind (b : Board) (i j : Int) : Option Int :=
  if isValid b i j then some (i * b.nbJ + j) else none

/-- Source: `dataColors(i, j)`. -/
def dataColorsAt (b : Board) (i j : Int) : Option Int :=
  (ind b i j).bind (vget b.dataColors)

/-- Pushes of the four neighbours in `buildGroup`, the last push on top. -/
def pushNeighbours (b : Board) (i j : Int) (st : List (Int × Int)) : List (Int × Int) :=
  let s1 := if isValid b (i - 1) j then (i - 1, j) :: st else st
  let s2 := if isValid b (i + 1) j then (i + 1, j) :: s1 else s1
  let s3 := if isValid b i (j - 1) then (i, j - 1) :: s2 else s2
  if isValid b i (j + 1) then (i, j + 1) :: s3 else s3

/-- The `while (not cellsToSee.empty())` loop of `buildGroup`; the stack is a
list with its top at the head.  `none` when the fuel runs out. -/
def spread (color0 group : Int) : Nat → Board → List (Int × Int) → Option Board
  | _, b, [] => some b
  | 0, _, _ :: _ => none
  | fuel + 1, b, (i, j) :: rest =>
    match ind b i j with
    | none => none
    | some k =>
      match vget b.dataColors k with
      | none => none
      | some c =>
        if c = color0 then
          match vget b.dataGroups k with
          | none => none
          | some g =>
            if g = -1 then
              match vset b.dataGroups k group, vget b.groupSizes group with
              | some dg, some sz =>
                match vset b.groupSizes group (sz + 1) with
                | some gs =>
                  spread color0 group fuel { b with dataGroups := dg, groupSizes := gs }
                    (pushNeighbours b i j rest)
                | none => none
              | _, _ => none
            else spread color0 group fuel b rest
        else spread color0 group fuel b rest

/-- Fuel given to `spread`: every cell is labelled at most once and pushes at
most four cells. -/
def spreadFuel (b : Board) : Nat := 4 * b.dataGroups.length + 1

/-- Source: `buildGroup`. -/
def buildGroup (b : Board) (i0 j0 : Int) : Option Board :=
  match ind b i0 j0 with
  | none => none
  | some k0 =>
    match vget b.dataColors k0, vget b.dataGroups k0 with
    | some color0, some g0 =>
      if g0 = -1 ∧ color0 ≠ -1 then
        let group : Int := b.groupSizes.length
        spread color0 group (spreadFuel b) { b with groupSizes := b.groupSizes ++ [0] } [(i0, j0)]
      else some b
    | _, _ => none

/-- Source: `findGroups`. -/
def findGroups (b : Board) : Option Board :=
  forRange 0 b.nbI
    (fun b1 i => forRange 0 b1.nbJ (fun b2 j => buildGroup b2 i j) b1)
    { b with dataGroups := List.replicate b.dataGroups.length (-1), groupSizes := [] }

/-- Body of the double loop of `findMoves` at cell `(i, j)`. -/
def findMovesCell (b : Board) (i j : Int) : Option Board :=
  match ind b i j with
  | none => none
  | some k =>
    match vget b.dataColors k with
    | none => none
    | some color =>
      if color ≠ -1 then
        match vget b.dataGroups k with
        | none => none
        | some group =>
          if 0 ≤ group ∧ group < b.groupSizes.length then
            match vget b.groupSizes group with
            | none => none
            | some groupSize =>
              if groupSize > 1 then
                let groupSize2 := Dbl.ofInt (max 0 (groupSize - 2))
                let eval := Dbl.div (Dbl.mul groupSize2 groupSize2) b.estimatedMaxScore
                some { b with moves := b.moves ++ [⟨i, j, color, eval⟩] }
              else some b
          else none
      else some b

/-- Source: `findMoves`. -/
def findMoves (b : Board) : Option Board :=
  forRange 0 b.nbI
    (fun b1 i => forRange 0 b1.nbJ (fun b2 j => findMovesCell b2 i j) b1)
    { b with moves := [] }

/-- Body of the shifting loop of `contractI`. -/
def contractIStep (j0 : Int) (b : Board) (i : Int) : Option Board :=
  match ind b i j0, ind b (i + 1) j0 with
  | some k, some k1 =>
    match vget b.dataColors k1 with
    | none => none
    | some c =>
      match vset b.dataColors k c with
      | none => none
      | some dc =>
        match vget b.dataGroups k1 with
        | none => none
        | some g =>
          match vset b.dataGroups k g with
          | none => none
          | some dg => some { b with dataColors := dc, dataGroups := dg }
  | _, _ => none

/-- Source: `contractI`. -/
def contractI (b : Board) (i0 j0 : Int) : Option Board :=
  match vget b.lastIs j0 with
  | none => none
  | some l =>
    if l ≥ 0 then
      match forRange i0 l (contractIStep j0) b with
      | none => none
      | some b1 =>
        match ind b1 l j0 with
        | none => none
        | some k =>
          match vset b1.dataColors k (-1), vset b1.dataGroups k (-1), vset b1.lastIs j0 (l - 1) with
          | some dc, some dg, some li =>
            some { b1 with dataColors := dc, dataGroups := dg, lastIs := li }
          | _, _, _ => none
    else none

/-- Body of the first loop of `contractJ`: `_lastIs[j] = _lastIs[j+1]`. -/
def contractJLast (b : Board) (j : Int) : Option Board :=
  match vget b.lastIs (j + 1) with
  | none => none
  | some x =>
    match vset b.lastIs j x with
    | none => none
    | some li => some { b with lastIs := li }

/-- Body of the innermost loop of `contractJ`: one colour moves a column left. -/
def contractJStep (i : Int) (b : Board) (j : Int) : Option Board :=
  match ind b i j, ind b i (j + 1) with
  | some k, some k1 =>
    match vget b.dataColors k1 with
    | none => none
    | some c =>
      match vset b.dataColors k c with
      | none => none
      | some dc => some { b with dataColors := dc }
  | _, _ => none

/-- Body of the row loop of `contractJ`. -/
def contractJRow (j0 : Int) (b : Board) (i : Int) : Option Board :=
  match vget b.lastJs i with
  | none => none
  | some lj =>
    if lj ≥ j0 then
      match forRange j0 lj (contractJStep i) b with
      | none => none
      | some b1 =>
        match ind b1 i lj with
        | none => none
        | some k =>
          match vset b1.dataColors k (-1), vset b1.lastJs i (lj - 1) with
          | some dc, some ljs => some { b1 with dataColors := dc, lastJs := ljs }
          | _, _ => none
    else some b

/-- Source: `contractJ`. -/
def contractJ (b : Board) (j0 : Int) : Option Board :=
  match vget b.lastIs j0 with
  | none => none
  | some l =>
    if l = -1 then
      match vget b.lastJs 0 with
      | none => none
      | some lj0 =>
        match forRange j0 lj0 contractJLast b with
        | none => none
        | some b1 =>
          match vset b1.lastIs lj0 (-1) with
          | none => none
          | some li => forRange 0 b1.nbI (contractJRow j0) { b1 with lastIs := li }
    else none

/-- The loop `while (i <= _lastIs[j])` of `play`; `none` when the fuel runs out. -/
def iContractions (group j : Int) : Nat → Board → Int → Option Board
  | 0, _, _ => none
  | fuel + 1, b, i =>
    match vget b.lastIs j with
    | none => none
    | some l =>
      if i ≤ l then
        match (ind b i j).bind (vget b.dataGroups) with
        | none => none
        | some g =>
          if g = group then
            match contractI b i j with
            | none => none
            | some b1 => iContractions group j fuel b1 i
          else iContractions group j fuel b (i + 1)
      else some b

/-- The loop `while (j <= _lastJs[0])` of `play`; `none` when the fuel runs out. -/
def jContractions : Nat → Board → Int → Option Board
  | 0, _, _ => none
  | fuel + 1, b, j =>
    match vget b.lastJs 0 with
    | none => none
    | some lj0 =>
      if j ≤ lj0 then
        match vget b.lastIs j with
        | none => none
        | some l =>
          if l = -1 then
            match contractJ b j with
            | none => none
            | some b1 => jContractions fuel b1 j
          else jContractions fuel b (j + 1)
      else some b

/-- Source: `play(int n)`. -/
def play (b : Board) (n : Int) : Option Board :=
  if 0 ≤ n ∧ n < b.moves.length then
    match vget b.moves n with
    | none => none
    | some m =>
      match (ind b m.i m.j).bind (vget b.dataGroups) with
      | none => none
      | some group =>
        if 0 ≤ group ∧ group < b.dataGroups.length then
          match forRange 0 b.nbJ
              (fun b1 j => iContractions group j (b1.nbI + 1) b1 0)
              { b with score := Dbl.add b.score m.eval } with
          | none => none
          | some b2 =>
            match jContractions (b2.nbJ + 1) b2 0 with
            | none => none
            | some b3 => (findGroups b3).bind findMoves
        else none
  else none

/-- The loop of `play(int i, int j)` over the move indices still to try. -/
def playIJLoop (b : Board) (i j : Int) : Nat → Int → Option (Bool × Board)
  | 0, _ => some (false, b)
  | k + 1, n =>
    match vget b.moves n with
    | none => none
    | some m =>
      if m.i = i ∧ m.j = j then
        match play b n with
        | none => none
        | some b1 => some (true, b1)
      else playIJLoop b i j k (n + 1)

/-- Source: `play(int i, int j)`; the returned `bool` and the board afterwards. -/
def playIJ (b : Board) (i j : Int) : Option (Bool × Board) :=
  playIJLoop b i j b.moves.length 0

/-- Source: `isTerminated`. -/
def isTerminated (b : Board) : Bool := b.moves.isEmpty

/-- Source: the constructor `Board(nbI, nbJ, nbColors, fillFunc)`;
`fillFunc k` is the value returned by the k-th call of the fill function. -/
def Board.new (nbI nbJ : Nat) (nbColors : Int) (fillFunc : Nat → Int) : Option Board :=
  let dataColors := (List.range (nbI * nbJ)).map fillFunc
  if ∀ c ∈ dataColors, 0 ≤ c ∧ c < nbColors then
    (findGroups
      { nbI := nbI, nbJ := nbJ, nbColors := nbColors,
        estimatedMaxScore :=
          Dbl.pow (Dbl.div (Dbl.ofInt ((nbI : Int) * nbJ)) (Dbl.ofInt nbColors)) (Dbl.ofInt 2),
        dataColors := dataColors,
        dataGroups := List.replicate (nbI * nbJ) 0,
        groupSizes := [],
        lastIs := List.replicate nbJ ((nbI : Int) - 1),
        lastJs := List.replicate nbI ((nbJ : Int) - 1),
        score := Dbl.ofInt 0,
        moves := [] }).bind findMoves
  else none

/-- Source: level 0 of `DATASETS` (the literals are natural numbers). -/
def dataset0 : List Nat := [
  3, 1, 1, 4, 1, 0, 4, 0, 4, 4, 1, 1, 0, 2, 3,
  3, 3, 2, 0, 4, 4, 1, 3, 1, 2, 0, 0, 4, 0, 4,
  0, 2, 3, 4, 3, 0, 3, 0, 0, 3, 4, 4, 1, 1, 1,
  2, 3, 4, 0, 2, 3, 0, 2, 4, 4, 4, 3, 0, 2, 3,
  1, 2, 1, 3, 1, 2, 0, 1, 2, 1, 0, 3, 4, 0, 1,
  0, 4, 4, 3, 0, 3, 4, 2, 2, 2, 0, 2, 3, 4, 0,
  2, 4, 3, 4, 2, 3, 1, 1, 1, 3, 4, 1, 0, 3, 1,
  1, 0, 0, 4, 0, 3, 1, 2, 1, 0, 4, 1, 3, 3, 1,
  1, 3, 3, 2, 0, 4, 3, 1, 3, 0, 4, 1, 0, 0, 3,
  0, 3, 3, 4, 2, 3, 0, 0, 2, 1, 2, 3, 4, 0, 1,
  0, 4, 1, 2, 0, 1, 3, 4, 3, 3, 4, 1, 4, 0, 4,
  2, 2, 3, 1, 0, 4, 0, 1, 2, 4, 1, 3, 3, 0, 1,
  3, 3, 0, 2, 3, 2, 1, 4, 3, 1, 3, 0, 2, 1, 3,
  1, 0, 3, 2, 1, 4, 4, 4, 4, 0, 4, 2, 1, 3, 4,
  1, 0, 1, 0, 1, 1, 2, 2, 1, 0, 0, 1, 4, 3, 2
]

/-- Source: level 1 of `DATASETS` (the literals are natural numbers). -/
def dataset1 : List Nat := [
  3, 3, 0, 1, 0, 2, 1, 2, 3, 2, 3, 1, 1, 1, 0,
  4, 1, 3, 4, 0, 3, 3, 2, 2, 4, 0, 2, 4, 0, 0,
  2, 3, 2, 2, 0, 3, 1, 0, 4, 4, 0, 2, 4, 0, 4,
  0, 3, 4, 4, 2, 2, 1, 3, 3, 1, 3, 0, 3, 3, 4,
  0, 0, 2, 1, 2, 1, 3, 4, 3, 2, 1, 2, 3, 1, 4,
  1, 2, 4, 2, 0, 0, 0, 1, 1, 1, 0, 0, 2, 4, 4,
  1, 0, 3, 3, 3, 2, 1, 0, 4, 2, 4, 1, 4, 3, 0,
  4, 4, 3, 3, 0, 2, 3, 3, 4, 3, 0, 3, 0, 0, 4,
  3, 3, 3, 1, 4, 3, 3, 3, 0, 4, 2, 0, 3, 2, 0,
  2, 4, 1, 1, 1, 1, 4, 0, 0, 3, 0, 4, 0, 4, 3,
  3, 3, 0, 1, 4, 1, 2, 1, 1, 0, 3, 4, 2, 1, 0,
  2, 2, 3, 3, 2, 0, 4, 3, 3, 4, 0, 4, 3, 3, 1,
  0, 1, 3, 2, 1, 2, 1, 1, 0, 2, 4, 1, 4, 0, 3,
  4, 1, 4, 0, 2, 1, 3, 1, 3, 1, 4, 0, 1, 0, 3,
  1, 3, 2, 3, 2, 2, 4, 2, 2, 4, 3, 0, 3, 1, 1
]

/-- Source: level 2 of `DATASETS` (the literals are natural numbers). -/
def dataset2 : List Nat := [
  4, 2, 4, 3, 1, 0, 3, 3, 2, 2, 4, 3, 1, 4, 2,
  3, 0, 3, 4, 0, 3, 3, 3, 2, 4, 4, 3, 1, 3, 3,
  2, 0, 4, 4, 0, 1, 2, 2, 2, 3, 4, 0, 4, 4, 0,
  0, 4, 3, 0, 0, 2, 4, 2, 1, 2, 0, 3, 2, 4, 2,
  0, 2, 0, 2, 0, 1, 1, 3, 2, 1, 1, 2, 3, 4, 0,
  1, 0, 1, 0, 4, 3, 3, 3, 4, 2, 2, 2, 3, 4, 1,
  2, 3, 4, 3, 4, 2, 2, 4, 2, 4, 3, 4, 4, 0, 1,
  4, 2, 3, 2, 2, 0, 1, 2, 4, 3, 3, 0, 0, 2, 1,
  3, 4, 4, 3, 0, 4, 3, 4, 1, 0, 0, 2, 1, 4, 3,
  4, 0, 1, 3, 1, 0, 2, 3, 0, 2, 0, 2, 3, 0, 1,
  4, 2, 0, 0, 0, 2, 2, 1, 0, 2, 3, 1, 1, 3, 1,
  0, 3, 1, 1, 3, 3, 2, 1, 2, 0, 0, 4, 2, 4, 1,
  2, 1, 4, 4, 4, 0, 3, 3, 4, 2, 0, 0, 2, 0, 0,
  1, 0, 4, 4, 0, 1, 3, 2, 4, 0, 4, 2, 0, 0, 1,
  2, 2, 2, 2, 3, 3, 0, 4, 3, 3, 4, 0, 4, 1, 2
]

/-- Source: level 3 of `DATASETS` (the literals are natural numbers). -/
def dataset3 : List Nat := [
  4, 2, 2, 4, 1, 3, 3, 2, 4, 0, 4, 2, 3, 4, 2,
  2, 0, 2, 1, 2, 1, 0, 1, 2, 1, 1, 3, 0, 4, 2,
  0, 2, 3, 2, 0, 0, 4, 1, 0, 4, 3, 0, 0, 3, 2,
  2, 2, 3, 1, 1, 0, 0, 1, 0, 1, 1, 4, 3, 0, 0,
  4, 2, 0, 4, 2, 2, 0, 3, 0, 0, 2, 2, 1, 4, 2,
  1, 4, 3, 3, 2, 3, 0, 4, 4, 0, 0, 2, 2, 3, 0,
  2, 1, 1, 4, 1, 0, 1, 0, 4, 4, 1, 0, 4, 1, 3,
  3, 3, 0, 2, 1, 3, 1, 1, 4, 0, 2, 3, 3, 3, 3,
  2, 3, 3, 1, 3, 1, 0, 4, 1, 0, 1, 2, 3, 0, 4,
  3, 2, 1, 1, 3, 4, 0, 2, 4, 2, 4, 2, 0, 2, 0,
  0, 3, 0, 1, 4, 0, 0, 0, 4, 2, 1, 0, 2, 4, 0,
  2, 0, 1, 4, 2, 3, 1, 4, 2, 0, 1, 0, 3, 4, 2,
  0, 4, 2, 0, 3, 4, 4, 3, 1, 1, 3, 4, 2, 1, 4,
  4, 2, 4, 0, 4, 3, 0, 2, 2, 4, 1, 4, 3, 4, 1,
  4, 3, 2, 2, 2, 1, 1, 2, 3, 3, 1, 2, 0, 3, 2
]

/-- Source: level 4 of `DATASETS` (the literals are natural numbers). -/
def dataset4 : List Nat := [
  3, 4, 4, 3, 2, 3, 2, 1, 3, 4, 1, 2, 3, 3, 2,
  2, 0, 2, 0, 3, 1, 0, 3, 1, 1, 2, 1, 4, 3, 4,
  1, 3, 1, 0, 3, 1, 3, 2, 3, 4, 0, 0, 1, 4, 1,
  0, 2, 1, 0, 2, 2, 2, 4, 1, 0, 4, 4, 3, 3, 2,
  2, 3, 1, 3, 0, 4, 0, 2, 3, 0, 1, 4, 4, 2, 3,
  3, 1, 3, 3, 2, 3, 0, 1, 0, 4, 3, 4, 0, 1, 4,
  4, 4, 4, 2, 2, 3, 0, 0, 0, 1, 0, 1, 2, 1, 3,
  2, 1, 3, 4, 4, 0, 4, 1, 0, 4, 0, 1, 2, 1, 3,
  3, 4, 3, 1, 2, 0, 1, 3, 3, 0, 1, 4, 2, 0, 0,
  2, 3, 0, 1, 2, 4, 3, 3, 0, 1, 1, 2, 2, 3, 3,
  4, 4, 1, 0, 3, 3, 4, 4, 2, 2, 4, 2, 0, 3, 0,
  3, 1, 0, 4, 3, 2, 0, 2, 3, 1, 4, 3, 1, 2, 2,
  2, 2, 3, 0, 2, 4, 1, 3, 0, 3, 2, 1, 3, 4, 2,
  2, 4, 3, 1, 3, 0, 3, 2, 0, 4, 3, 2, 2, 3, 4,
  0, 4, 2, 2, 2, 3, 2, 0, 1, 1, 4, 0, 1, 3, 3
]

/-- Source: level 5 of `DATASETS` (the literals are natural numbers). -/
def dataset5 : List Nat := [
  2, 4, 2, 0, 4, 2, 2, 3, 1, 0, 1, 3, 4, 2, 0,
  2, 3, 3, 2, 3, 1, 3, 3, 0, 1, 4, 1, 0, 0, 1,
  0, 4, 3, 0, 3, 1, 3, 3, 3, 1, 0, 2, 4, 2, 1,
  3, 0, 1, 0, 1, 2, 3, 0, 0, 2, 1, 1, 1, 4, 4,
  0, 1, 1, 1, 2, 0, 2, 1, 3, 4, 2, 0, 3, 1, 0,
  1, 1, 1, 4, 1, 1, 0, 0, 1, 1, 4, 1, 1, 2, 1,
  3, 3, 0, 1, 1, 3, 2, 0, 0, 0, 0, 1, 2, 0, 1,
  0, 3, 0, 3, 4, 0, 1, 1, 2, 1, 4, 2, 1, 0, 2,
  1, 2, 2, 2, 2, 3, 4, 1, 3, 1, 4, 2, 4, 1, 1,
  2, 2, 0, 3, 3, 0, 2, 2, 3, 3, 2, 2, 1, 0, 3,
  2, 4, 0, 0, 4, 0, 4, 3, 4, 4, 3, 4, 1, 4, 4,
  2, 1, 2, 3, 1, 1, 2, 2, 1, 0, 3, 1, 4, 4, 0,
  2, 3, 2, 2, 1, 1, 4, 0, 1, 4, 4, 0, 4, 3, 3,
  1, 1, 3, 0, 3, 1, 4, 3, 4, 1, 0, 4, 1, 1, 4,
  0, 4, 4, 4, 2, 2, 4, 3, 1, 1, 3, 2, 4, 4, 1
]

/-- Source: level 6 of `DATASETS` (the literals are natural numbers). -/
def dataset6 : List Nat := [
  3, 4, 0, 3, 1, 2, 0, 1, 3, 1, 2, 4, 1, 1, 3,
  3, 1, 4, 3, 0, 0, 1, 3, 0, 2, 0, 4, 4, 4, 4,
  0, 4, 3, 2, 1, 1, 0, 2, 2, 1, 3, 4, 0, 2, 3,
  2, 4, 0, 1, 3, 3, 3, 2, 2, 2, 2, 0, 2, 2, 0,
  0, 4, 0, 0, 2, 1, 0, 1, 4, 3, 3, 3, 1, 0, 2,
  1, 0, 4, 1, 2, 4, 4, 2, 2, 0, 0, 0, 3, 4, 4,
  4, 2, 1, 3, 1, 2, 0, 1, 3, 4, 2, 2, 1, 3, 2,
  1, 1, 1, 0, 3, 0, 3, 1, 3, 3, 1, 1, 2, 3, 0,
  1, 2, 4, 3, 1, 4, 1, 1, 1, 0, 2, 3, 0, 3, 3,
  0, 4, 1, 3, 4, 0, 4, 1, 4, 0, 4, 2, 3, 0, 1,
  0, 4, 3, 4, 2, 4, 1, 3, 1, 3, 0, 4, 3, 0, 0,
  3, 1, 1, 1, 0, 4, 2, 0, 3, 0, 4, 4, 2, 4, 4,
  4, 0, 4, 3, 1, 4, 1, 3, 2, 3, 0, 1, 0, 1, 1,
  3, 3, 4, 2, 4, 4, 2, 0, 3, 4, 3, 0, 1, 0, 3,
  0, 2, 3, 4, 4, 2, 4, 1, 0, 0, 0, 4, 2, 4, 0
]

/-- Source: level 7 of `DATASETS` (the literals are natural numbers). -/
def dataset7 : List Nat := [
  3, 1, 3, 1, 4, 4, 2, 2, 0, 4, 0, 2, 2, 3, 1,
  1, 1, 2, 3, 3, 1, 0, 2, 2, 2, 0, 2, 4, 1, 1,
  4, 4, 1, 2, 4, 2, 1, 4, 1, 2, 3, 3, 2, 1, 4,
  1, 0, 2, 2, 3, 4, 1, 3, 2, 2, 1, 3, 4, 3, 2,
  3, 1, 1, 0, 0, 1, 2, 0, 3, 2, 4, 3, 4, 3, 1,
  1, 1, 3, 0, 4, 2, 1, 3, 0, 1, 2, 4, 4, 0, 3,
  0, 1, 1, 1, 0, 1, 2, 3, 3, 1, 0, 1, 0, 0, 3,
  2, 3, 2, 3, 1, 1, 1, 2, 4, 0, 2, 1, 2, 3, 3,
  0, 1, 3, 0, 4, 3, 1, 1, 4, 0, 1, 3, 0, 3, 0,
  1, 3, 3, 0, 3, 0, 0, 0, 3, 4, 1, 3, 0, 0, 0,
  4, 4, 2, 1, 3, 1, 0, 1, 1, 3, 1, 3, 2, 4, 3,
  0, 3, 0, 2, 3, 1, 1, 1, 3, 3, 1, 2, 3, 2, 2,
  3, 2, 2, 0, 3, 0, 3, 1, 0, 0, 3, 3, 2, 4, 2,
  0, 1, 2, 2, 0, 2, 4, 4, 1, 3, 4, 3, 1, 1, 4,
  4, 4, 3, 0, 4, 3, 3, 3, 4, 1, 3, 4, 4, 3, 1
]

/-- Source: level 8 of `DATASETS` (the literals are natural numbers). -/
def dataset8 : List Nat := [
  1, 3, 4, 0, 2, 1, 4, 3, 0, 0, 1, 2, 3, 1, 1,
  0, 0, 3, 0, 3, 2, 3, 0, 1, 4, 0, 3, 3, 3, 2,
  2, 4, 1, 2, 0, 1, 2, 1, 0, 0, 3, 1, 0, 2, 2,
  0, 2, 1, 2, 1, 1, 0, 0, 0, 3, 3, 0, 1, 1, 3,
  1, 4, 2, 3, 1, 3, 3, 0, 4, 2, 3, 1, 0, 4, 4,
  2, 1, 1, 4, 1, 1, 4, 0, 4, 4, 2, 0, 0, 4, 0,
  3, 4, 4, 3, 0, 0, 2, 0, 4, 1, 2, 4, 0, 3, 3,
  1, 4, 0, 4, 0, 0, 3, 3, 4, 4, 0, 2, 2, 4, 4,
  0, 1, 0, 4, 2, 3, 3, 0, 0, 2, 0, 4, 3, 4, 1,
  3, 1, 1, 4, 2, 4, 0, 0, 2, 0, 3, 1, 2, 4, 3,
  0, 0, 4, 2, 4, 1, 2, 0, 0, 0, 3, 0, 3, 3, 3,
  0, 0, 1, 0, 1, 2, 2, 0, 3, 4, 3, 2, 4, 3, 4,
  1, 1, 0, 2, 0, 4, 3, 3, 1, 1, 4, 3, 2, 4, 1,
  0, 1, 2, 2, 3, 4, 0, 3, 1, 4, 0, 0, 3, 1, 1,
  0, 3, 0, 0, 1, 0, 1, 1, 1, 3, 1, 2, 0, 0, 0
]

/-- Source: level 9 of `DATASETS` (the literals are natural numbers). -/
def dataset9 : List Nat := [
  0, 1, 3, 3, 4, 3, 4, 3, 2, 4, 4, 0, 3, 2, 1,
  4, 0, 1, 1, 0, 0, 0, 1, 2, 0, 3, 0, 0, 2, 1,
  1, 2, 4, 3, 0, 2, 0, 2, 3, 4, 3, 1, 2, 2, 3,
  3, 4, 3, 0, 1, 3, 3, 2, 3, 1, 1, 0, 3, 4, 2,
  2, 0, 0, 3, 2, 0, 2, 3, 3, 3, 0, 1, 1, 1, 1,
  2, 4, 2, 2, 1, 4, 3, 2, 1, 4, 0, 1, 4, 4, 1,
  0, 0, 0, 2, 2, 3, 4, 3, 2, 3, 0, 3, 4, 3, 4,
  1, 2, 0, 4, 1, 2, 2, 4, 0, 2, 4, 2, 4, 0, 3,
  3, 4, 3, 3, 1, 1, 0, 4, 4, 2, 1, 0, 0, 1, 3,
  1, 2, 2, 2, 4, 3, 2, 0, 2, 1, 0, 1, 0, 1, 3,
  2, 3, 4, 2, 1, 0, 1, 2, 3, 2, 4, 0, 2, 4, 3,
  1, 3, 2, 4, 3, 0, 4, 4, 1, 1, 4, 1, 2, 4, 0,
  3, 0, 2, 2, 1, 4, 3, 4, 1, 2, 2, 1, 1, 3, 1,
  2, 0, 2, 1, 0, 4, 1, 4, 0, 3, 2, 3, 0, 2, 4,
  0, 3, 1, 1, 0, 1, 4, 1, 4, 1, 1, 1, 0, 4, 2
]

/-- Source: level 10 of `DATASETS` (the literals are natural numbers). -/
def dataset10 : List Nat := [
  4, 1, 2, 0, 2, 3, 4, 1, 4, 4, 1, 4, 3, 1, 3,
  1, 3, 1, 3, 4, 0, 3, 4, 2, 3, 3, 2, 3, 4, 1,
  1, 3, 2, 2, 3, 4, 2, 3, 4, 0, 3, 4, 1, 2, 3,
  1, 3, 2, 4, 0, 2, 0, 0, 1, 2, 1, 3, 4, 4, 2,
  4, 0, 2, 2, 0, 1, 1, 0, 0, 1, 0, 2, 3, 2, 4,
  2, 2, 0, 3, 4, 1, 0, 4, 3, 4, 4, 2, 3, 3, 4,
  4, 4, 0, 2, 0, 3, 4, 1, 1, 4, 4, 2, 0, 1, 1,
  3, 1, 0, 4, 1, 1, 1, 3, 2, 4, 1, 3, 2, 0, 2,
  0, 2, 0, 0, 1, 1, 2, 0, 4, 1, 1, 0, 2, 2, 4,
  3, 1, 0, 4, 3, 4, 3, 1, 1, 0, 0, 3, 2, 3, 4,
  4, 4, 1, 2, 4, 0, 4, 2, 0, 3, 2, 3, 4, 0, 0,
  2, 4, 3, 0, 1, 3, 1, 3, 1, 0, 1, 0, 0, 1, 4,
  1, 2, 1, 2, 0, 0, 3, 0, 1, 1, 0, 2, 3, 1, 2,
  3, 2, 0, 1, 3, 0, 2, 4, 3, 4, 4, 4, 0, 3, 0,
  2, 3, 3, 0, 2, 2, 4, 3, 0, 2, 1, 2, 3, 2, 0
]

/-- Source: level 11 of `DATASETS` (the literals are natural numbers). -/
def dataset11 : List Nat := [
  1, 2, 2, 4, 2, 3, 4, 2, 4, 1, 2, 2, 3, 3, 4,
  3, 1, 1, 4, 1, 1, 1, 1, 1, 2, 1, 1, 4, 1, 0,
  1, 4, 1, 4, 4, 2, 1, 4, 0, 3, 4, 0, 2, 3, 3,
  3, 3, 1, 2, 0, 3, 3, 3, 2, 4, 0, 1, 2, 3, 0,
  4, 3, 4, 1, 3, 0, 4, 4, 3, 4, 0, 4, 0, 0, 2,
  2, 0, 3, 1, 2, 4, 4, 4, 0, 0, 2, 3, 0, 0, 3,
  0, 4, 0, 3, 4, 2, 1, 1, 0, 3, 3, 3, 2, 2, 1,
  0, 2, 0, 3, 1, 4, 0, 0, 1, 2, 0, 3, 4, 1, 2,
  3, 2, 2, 2, 1, 1, 1, 4, 3, 2, 0, 2, 4, 2, 2,
  4, 3, 3, 0, 3, 0, 0, 4, 0, 0, 2, 2, 3, 3, 1,
  4, 2, 3, 4, 1, 2, 3, 1, 3, 0, 4, 4, 4, 0, 2,
  0, 1, 3, 1, 2, 3, 2, 4, 3, 3, 1, 2, 4, 0, 1,
  4, 1, 3, 3, 1, 0, 3, 2, 0, 1, 4, 0, 2, 0, 2,
  4, 0, 2, 4, 1, 0, 0, 4, 2, 0, 0, 4, 4, 3, 0,
  1, 1, 1, 3, 4, 2, 3, 2, 1, 2, 0, 1, 4, 1, 0
]

/-- Source: level 12 of `DATASETS` (the literals are natural numbers). -/
def dataset12 : List Nat := [
  4, 0, 1, 4, 3, 3, 1, 4, 1, 2, 4, 1, 0, 0, 2,
  0, 1, 4, 0, 3, 0, 0, 2, 4, 2, 2, 3, 3, 2, 4,
  0, 2, 1, 0, 3, 3, 3, 0, 0, 4, 4, 3, 1, 1, 4,
  4, 4, 2, 1, 0, 2, 4, 3, 3, 2, 2, 4, 2, 4, 0,
  3, 0, 0, 4, 4, 2, 2, 1, 3, 4, 3, 2, 4, 2, 0,
  0, 4, 1, 4, 4, 4, 4, 4, 1, 2, 3, 4, 2, 3, 3,
  0, 1, 2, 0, 0, 2, 2, 1, 3, 4, 2, 0, 0, 4, 1,
  4, 3, 3, 2, 0, 0, 1, 0, 1, 4, 3, 2, 3, 1, 1,
  3, 4, 2, 2, 0, 2, 3, 3, 3, 0, 0, 1, 2, 1, 3,
  1, 3, 2, 1, 2, 2, 4, 1, 1, 1, 2, 3, 1, 3, 1,
  0, 0, 2, 1, 2, 1, 1, 4, 1, 1, 0, 2, 1, 2, 0,
  4, 1, 2, 1, 0, 3, 1, 0, 3, 4, 0, 4, 3, 3, 2,
  4, 3, 0, 0, 3, 4, 3, 3, 3, 3, 1, 1, 3, 2, 1,
  0, 1, 1, 3, 0, 1, 1, 0, 4, 0, 4, 0, 2, 0, 4,
  2, 2, 1, 4, 4, 2, 2, 0, 3, 4, 3, 0, 2, 4, 3
]

/-- Source: level 13 of `DATASETS` (the literals are natural numbers). -/
def dataset13 : List Nat := [
  2, 2, 4, 0, 2, 4, 0, 0, 1, 4, 0, 3, 4, 3, 3,
  0, 4, 3, 1, 0, 3, 2, 0, 1, 2, 2, 1, 4, 4, 0,
  2, 1, 2, 3, 3, 2, 1, 2, 3, 3, 0, 4, 2, 1, 0,
  4, 4, 3, 3, 2, 4, 1, 0, 1, 4, 4, 0, 4, 2, 1,
  3, 3, 0, 1, 2, 2, 3, 1, 3, 0, 1, 3, 2, 3, 3,
  1, 2, 0, 3, 4, 0, 4, 2, 2, 2, 1, 3, 3, 3, 1,
  4, 0, 0, 1, 1, 1, 1, 4, 3, 3, 2, 1, 3, 2, 0,
  4, 1, 4, 4, 1, 0, 0, 2, 0, 3, 2, 2, 0, 2, 3,
  2, 3, 3, 1, 4, 3, 0, 1, 0, 4, 4, 0, 0, 2, 1,
  0, 1, 2, 2, 4, 3, 1, 1, 4, 4, 2, 4, 4, 2, 4,
  2, 4, 1, 1, 0, 3, 3, 3, 0, 4, 4, 0, 0, 2, 0,
  3, 2, 1, 3, 0, 4, 4, 2, 3, 0, 2, 1, 1, 3, 1,
  0, 4, 3, 3, 1, 2, 0, 2, 2, 1, 2, 3, 0, 0, 1,
  4, 3, 4, 2, 1, 1, 3, 0, 4, 1, 4, 1, 4, 2, 0,
  2, 1, 3, 2, 0, 1, 4, 0, 1, 4, 0, 4, 0, 4, 3
]

/-- Source: level 14 of `DATASETS` (the literals are natural numbers). -/
def dataset14 : List Nat := [
  0, 1, 2, 1, 3, 4, 3, 2, 1, 2, 1, 2, 2, 3, 4,
  4, 0, 0, 1, 3, 0, 4, 2, 0, 4, 4, 4, 2, 1, 1,
  3, 0, 0, 1, 2, 1, 1, 3, 0, 0, 3, 2, 4, 0, 0,
  4, 2, 1, 4, 4, 1, 4, 0, 0, 3, 2, 0, 2, 2, 0,
  3, 3, 4, 2, 1, 2, 4, 1, 3, 4, 0, 4, 2, 3, 0,
  0, 4, 4, 1, 2, 2, 1, 4, 4, 2, 3, 3, 4, 4, 1,
  3, 1, 1, 3, 2, 2, 0, 3, 2, 3, 4, 4, 3, 2, 0,
  2, 4, 1, 3, 2, 0, 2, 4, 4, 4, 1, 4, 4, 0, 0,
  1, 4, 2, 1, 2, 0, 3, 3, 0, 1, 3, 3, 2, 4, 3,
  2, 2, 3, 2, 1, 1, 0, 0, 1, 1, 3, 1, 2, 4, 3,
  2, 1, 0, 2, 2, 0, 3, 2, 2, 1, 4, 1, 1, 4, 0,
  0, 1, 3, 2, 1, 0, 4, 0, 0, 3, 3, 0, 3, 0, 4,
  1, 2, 1, 3, 4, 3, 1, 1, 3, 0, 0, 4, 3, 1, 4,
  0, 3, 3, 3, 1, 1, 4, 0, 0, 4, 2, 4, 1, 0, 3,
  3, 0, 3, 2, 1, 4, 0, 3, 3, 1, 2, 2, 0, 4, 2
]

/-- Source: level 15 of `DATASETS` (the literals are natural numbers). -/
def dataset15 : List Nat := [
  2, 0, 1, 4, 4, 3, 1, 4, 2, 0, 4, 0, 4, 0, 1,
  3, 3, 0, 2, 1, 1, 1, 4, 2, 4, 3, 4, 2, 1, 0,
  4, 1, 4, 4, 1, 2, 1, 1, 1, 2, 3, 1, 0, 3, 3,
  4, 4, 2, 3, 3, 0, 2, 0, 3, 2, 1, 4, 4, 1, 4,
  1, 4, 1, 3, 3, 3, 1, 0, 2, 2, 2, 2, 2, 3, 0,
  0, 4, 2, 3, 0, 3, 1, 0, 1, 1, 3, 1, 3, 2, 1,
  2, 0, 2, 4, 1, 1, 2, 1, 3, 1, 1, 1, 2, 2, 2,
  1, 3, 3, 3, 1, 1, 0, 0, 3, 3, 0, 2, 1, 1, 1,
  0, 0, 0, 4, 4, 1, 3, 2, 4, 1, 0, 0, 3, 3, 0,
  4, 3, 2, 3, 1, 3, 3, 3, 4, 3, 1, 2, 2, 1, 1,
  1, 1, 1, 1, 2, 0, 2, 1, 4, 1, 3, 1, 1, 1, 2,
  0, 1, 2, 1, 0, 4, 0, 2, 3, 1, 0, 0, 0, 1, 0,
  0, 1, 1, 4, 3, 3, 4, 4, 0, 0, 1, 0, 1, 2, 4,
  3, 2, 2, 1, 1, 4, 0, 2, 1, 0, 1, 0, 4, 4, 4,
  4, 0, 1, 1, 2, 2, 4, 3, 4, 1, 2, 4, 4, 3, 4
]

/-- Source: level 16 of `DATASETS` (the literals are natural numbers). -/
def dataset16 : List Nat := [
  0, 2, 2, 2, 4, 1, 2, 0, 4, 0, 2, 3, 0, 2, 2,
  4, 4, 4, 2, 2, 2, 1, 2, 3, 2, 3, 0, 0, 2, 1,
  3, 2, 0, 1, 2, 3, 2, 4, 3, 1, 0, 4, 2, 0, 2,
  2, 1, 2, 0, 0, 2, 2, 3, 4, 3, 2, 2, 2, 1, 3,
  0, 2, 0, 3, 2, 0, 2, 1, 2, 2, 2, 3, 3, 0, 2,
  3, 1, 0, 4, 3, 0, 1, 1, 0, 3, 0, 0, 2, 3, 4,
  0, 3, 4, 1, 3, 4, 3, 1, 1, 3, 3, 1, 2, 1, 3,
  4, 2, 3, 1, 1, 0, 3, 3, 4, 4, 1, 1, 4, 4, 3,
  3, 0, 4, 1, 1, 1, 3, 3, 1, 4, 1, 1, 4, 4, 2,
  2, 1, 3, 0, 2, 2, 4, 2, 4, 2, 1, 1, 2, 2, 0,
  0, 1, 3, 2, 4, 4, 0, 0, 0, 4, 2, 2, 4, 2, 2,
  3, 0, 1, 2, 4, 1, 0, 3, 3, 1, 0, 4, 0, 2, 2,
  4, 2, 1, 4, 2, 2, 2, 2, 0, 2, 1, 0, 4, 3, 0,
  0, 4, 3, 2, 0, 2, 3, 2, 4, 2, 1, 1, 1, 3, 4,
  4, 2, 4, 4, 0, 2, 0, 1, 3, 4, 2, 4, 2, 3, 1
]

/-- Source: level 17 of `DATASETS` (the literals are natural numbers). -/
def dataset17 : List Nat := [
  0, 2, 2, 4, 4, 3, 3, 3, 3, 0, 4, 3, 0, 2, 3,
  4, 1, 4, 4, 4, 1, 3, 1, 4, 1, 0, 3, 0, 2, 1,
  0, 4, 1, 3, 0, 3, 1, 3, 3, 2, 4, 0, 4, 3, 2,
  1, 2, 3, 3, 4, 2, 1, 0, 2, 3, 3, 3, 2, 3, 4,
  0, 4, 1, 4, 1, 1, 2, 3, 0, 2, 1, 3, 1, 0, 2,
  3, 1, 3, 4, 1, 3, 3, 1, 4, 3, 3, 2, 4, 4, 0,
  0, 2, 4, 4, 1, 0, 0, 3, 2, 3, 2, 3, 3, 3, 2,
  0, 1, 4, 3, 3, 1, 2, 1, 3, 2, 3, 1, 2, 0, 2,
  0, 2, 0, 2, 3, 1, 3, 4, 1, 1, 0, 2, 1, 4, 1,
  0, 3, 4, 0, 0, 2, 3, 2, 4, 3, 3, 0, 0, 0, 3,
  2, 4, 0, 2, 2, 0, 3, 1, 0, 2, 3, 2, 3, 2, 3,
  4, 3, 1, 1, 4, 3, 1, 1, 3, 1, 3, 0, 4, 1, 3,
  4, 2, 1, 1, 3, 3, 0, 3, 0, 4, 0, 3, 4, 3, 0,
  1, 2, 4, 4, 2, 4, 3, 4, 1, 4, 3, 0, 0, 0, 2,
  4, 3, 3, 2, 3, 3, 0, 0, 1, 1, 2, 3, 3, 4, 2
]

/-- Source: level 18 of `DATASETS` (the literals are natural numbers). -/
def dataset18 : List Nat := [
  4, 4, 1, 4, 1, 1, 2, 4, 0, 3, 3, 0, 1, 2, 0,
  4, 1, 1, 4, 3, 1, 1, 2, 2, 3, 0, 2, 4, 0, 3,
  3, 2, 3, 4, 0, 1, 4, 0, 2, 4, 4, 1, 2, 3, 0,
  0, 4, 3, 4, 0, 2, 4, 0, 4, 4, 4, 1, 4, 3, 4,
  4, 0, 1, 4, 2, 0, 1, 2, 4, 3, 0, 1, 4, 4, 3,
  3, 1, 4, 2, 2, 1, 2, 1, 2, 2, 4, 2, 1, 2, 2,
  2, 4, 2, 0, 4, 0, 3, 4, 3, 0, 2, 3, 3, 3, 0,
  3, 4, 3, 4, 0, 0, 0, 1, 1, 4, 1, 2, 1, 3, 3,
  4, 4, 4, 1, 2, 4, 2, 4, 0, 1, 4, 1, 4, 4, 3,
  0, 4, 2, 2, 4, 0, 3, 1, 3, 2, 4, 1, 4, 4, 4,
  0, 0, 2, 1, 4, 0, 2, 4, 3, 4, 0, 0, 4, 3, 0,
  4, 2, 1, 0, 2, 2, 4, 2, 2, 2, 3, 3, 1, 0, 0,
  4, 1, 3, 3, 4, 3, 1, 3, 2, 1, 1, 3, 1, 4, 2,
  1, 1, 4, 0, 4, 3, 3, 2, 0, 2, 4, 3, 1, 4, 0,
  3, 3, 1, 4, 1, 4, 0, 4, 0, 4, 3, 0, 4, 4, 0
]

/-- Source: level 19 of `DATASETS` (the literals are natural numbers). -/
def dataset19 : List Nat := [
  3, 0, 1, 3, 3, 0, 0, 1, 0, 0, 2, 4, 0, 0, 1,
  1, 2, 2, 3, 2, 2, 0, 4, 0, 2, 3, 2, 2, 2, 1,
  3, 1, 0, 0, 0, 0, 4, 4, 1, 3, 1, 3, 2, 0, 4,
  0, 1, 0, 2, 0, 3, 4, 3, 2, 3, 0, 2, 0, 3, 4,
  2, 3, 2, 2, 0, 3, 3, 0, 0, 3, 0, 3, 4, 1, 1,
  0, 3, 3, 2, 0, 4, 1, 2, 4, 1, 2, 4, 4, 1, 0,
  3, 2, 4, 0, 4, 1, 4, 3, 2, 1, 1, 4, 0, 0, 2,
  1, 4, 1, 3, 0, 4, 0, 3, 2, 3, 2, 0, 0, 0, 1,
  0, 0, 0, 1, 4, 2, 1, 0, 4, 4, 4, 3, 1, 0, 4,
  3, 3, 3, 1, 0, 3, 1, 2, 0, 2, 4, 3, 4, 1, 1,
  1, 1, 1, 3, 0, 2, 2, 3, 0, 4, 3, 4, 4, 1, 1,
  0, 2, 0, 0, 2, 0, 0, 1, 3, 0, 2, 3, 0, 2, 4,
  4, 3, 3, 2, 4, 0, 0, 0, 4, 3, 1, 0, 4, 1, 2,
  2, 2, 3, 2, 0, 4, 2, 0, 0, 4, 1, 4, 4, 0, 1,
  3, 4, 1, 4, 4, 0, 0, 0, 0, 1, 0, 2, 1, 0, 0
]

/-- Source: the literals of `DATASETS` in order. -/
def datasetLiterals : List Nat :=
  dataset0 ++ dataset1 ++ dataset2 ++ dataset3 ++ dataset4 ++ dataset5 ++ dataset6 ++ dataset7 ++ dataset8 ++ dataset9 ++
  dataset10 ++ dataset11 ++ dataset12 ++ dataset13 ++ dataset14 ++ dataset15 ++ dataset16 ++ dataset17 ++ dataset18 ++ dataset19

/-- Source: `DATASETS`, a `std::vector<int>`. -/
def DATASETS : List Int := datasetLiterals.map Int.ofNat

/-- Body of the double loop of `reset` at cell `(i, j)`. -/
def resetCell (iDataset : Int) (b : Board) (i j : Int) : Option Board :=
  match vget DATASETS (b.nbI * b.nbJ * iDataset + (b.nbI - i - 1) * b.nbJ + j) with
  | none => none
  | some c =>
    match vset b.dataColors (i * b.nbJ + j) c with
    | none => none
    | some dc => some { b with dataColors := dc }

/-- Source: `reset`. -/
def reset (b : Board) (iDataset : Int) : Option Board :=
  if 0 ≤ iDataset ∧ iDataset < 20 then
    match forRange 0 b.nbI
        (fun b1 i => forRange 0 b1.nbJ (fun b2 j => resetCell iDataset b2 i j) b1) b with
    | none => none
    | some b1 =>
      (findGroups
        { b1 with
          lastIs := List.replicate b1.lastIs.length ((b1.nbI : Int) - 1),
          lastJs := List.replicate b1.lastJs.length ((b1.nbJ : Int) - 1),
          score := Dbl.ofInt 0 }).bind findMoves
  else none

/-- Source: the default constructor `Board()`. -/
def Board.default : Board :=
  { nbI := 15, nbJ := 15, nbColors := 5,
    estimatedMaxScore :=
      Dbl.pow (Dbl.div (Dbl.ofInt ((15 : Int) * 15)) (Dbl.ofInt 5)) (Dbl.ofInt 2),
    dataColors := List.replicate (15 * 15) 0,
    dataGroups := List.replicate (15 * 15) 0,
    groupSizes := [],
    lastIs := List.replicate 15 ((15 : Int) - 1),
    lastJs := List.replicate 15 ((15 : Int) - 1),
    score := Dbl.ofInt 0,
    moves := [] }

/-- The boards a caller can hold: built by the fill-source constructor or by `reset` (of
the default-constructed board or of a board already reached), then changed by `play`. -/
inductive Reachable : Board → Prop where
  | ctor (nbI nbJ : Nat) (nbColors : Int) (fillFunc : Nat → Int) (b : Board) :
      Board.new nbI nbJ nbColors fillFunc = some b → Reachable b
  | resetDefault (iDataset : Int) (b : Board) :
      reset Board.default iDataset = some b → Reachable b
  | reset (b0 : Board) (iDataset : Int) (b : Board) :
      Reachable b0 → reset b0 iDataset = some b → Reachable b
  | play (b0 : Board) (n : Int) (b : Board) :
      Reachable b0 → play b0 n = some b → Reachable b

/-! ## Specification vocabulary -/

/-- Colour stored for cell `(i, j)`. -/
def colorAt (b : Board) (i j : Int) : Int :=
  b.dataColors.getD (i * b.nbJ + j).toNat (-1)

/-- Group id stored for cell `(i, j)`. -/
def groupAt (b : Board) (i j : Int) : Int :=
  b.dataGroups.getD (i * b.nbJ + j).toNat (-1)

/-- Both cell vectors have `nbI * nbJ` entries. -/
def WellSized (b : Board) : Prop :=
  b.dataColors.length = b.nbI * b.nbJ ∧ b.dataGroups.length = b.nbI * b.nbJ

instance (b : Board) : Decidable (WellSized b) := by
  unfold WellSized; infer_instance

/-- Cells `a` and `c` are neighbours up, down, left or right. -/
def Adj (a c : Int × Int) : Prop :=
  (a.1 = c.1 ∧ (a.2 = c.2 + 1 ∨ c.2 = a.2 + 1)) ∨ (a.2 = c.2 ∧ (a.1 = c.1 + 1 ∨ c.1 = a.1 + 1))

/-- Two in-bounds neighbouring cells of equal colour. -/
def SameStep (b : Board) (a c : Int × Int) : Prop :=
  isValid b a.1 a.2 ∧ isValid b c.1 c.2 ∧ Adj a c ∧ colorAt b a.1 a.2 = colorAt b c.1 c.2

/-- The cells `a` and `c` are joined by a path of in-bounds 4-adjacent cells that all have
the same colour. -/
def Connected (b : Board) (a c : Int × Int) : Prop :=
  Relation.ReflTransGen (SameStep b) a c

/-- What holds of the labels between two calls of `buildGroup`. -/
structure LInv (t : Board) : Prop where
  ws : WellSized t
  rng : ∀ x ∈ t.dataGroups, x = -1 ∨ (0 ≤ x ∧ x < (t.groupSizes.length : Int))
  col : ∀ k : Nat, k < t.dataGroups.length → t.dataGroups.getD k (-1) ≠ -1 →
    t.dataColors.getD k (-1) ≠ -1
  closed : ∀ a c, SameStep t a c → groupAt t a.1 a.2 ≠ -1 →
    groupAt t c.1 c.2 = groupAt t a.1 a.2
  conn : ∀ a c, isValid t a.1 a.2 → isValid t c.1 c.2 → groupAt t a.1 a.2 ≠ -1 →
    groupAt t a.1 a.2 = groupAt t c.1 c.2 → Connected t a c
  cnt : ∀ g : Nat, g < t.groupSizes.length →
    t.groupSizes.getD g 0 = (List.count (g : Int) t.dataGroups : Int)
  sum : t.groupSizes.sum = (List.countP (fun x => x != -1) t.dataGroups : Int)

/-- Invariant of the loop of `buildGroup` started at cell `s` on the board `B0`:
`t` is the current board and `st` the stack. -/
structure SpreadInv (B0 : Board) (s : Int × Int) (t : Board) (st : List (Int × Int)) : Prop where
  frame : t = { B0 with dataGroups := t.dataGroups, groupSizes := t.groupSizes }
  len : t.dataGroups.length = B0.dataGroups.length
  rngF : ∀ x ∈ t.dataGroups, x = -1 ∨ (0 ≤ x ∧ x ≤ (B0.groupSizes.length : Int))
  colF : ∀ k : Nat, k < t.dataGroups.length → t.dataGroups.getD k (-1) ≠ -1 →
    B0.dataColors.getD k (-1) ≠ -1
  monoF : ∀ k : Nat, B0.dataGroups.getD k (-1) ≠ -1 →
    t.dataGroups.getD k (-1) = B0.dataGroups.getD k (-1)
  old : ∀ a : Int × Int, isValid B0 a.1 a.2 →
    groupAt t a.1 a.2 = groupAt B0 a.1 a.2 ∨
      (groupAt B0 a.1 a.2 = -1 ∧ groupAt t a.1 a.2 = B0.groupSizes.length ∧ Connected B0 s a)
  stk : ∀ a ∈ st, isValid B0 a.1 a.2 ∧
    (a = s ∨ ∃ x : Int × Int, isValid B0 x.1 x.2 ∧ groupAt t x.1 x.2 = B0.groupSizes.length ∧
      Adj x a)
  front : ∀ x : Int × Int, isValid B0 x.1 x.2 → groupAt t x.1 x.2 = B0.groupSizes.length →
    ∀ a : Int × Int, isValid B0 a.1 a.2 → Adj x a → colorAt B0 a.1 a.2 = colorAt B0 s.1 s.2 →
      groupAt t a.1 a.2 = B0.groupSizes.length ∨ a ∈ st
  start : groupAt t s.1 s.2 = B0.groupSizes.length ∨ s ∈ st
  cnt : t.groupSizes = B0.groupSizes ++ [(List.count (B0.groupSizes.length : Int) t.dataGroups : Int)]
  cntOld : ∀ g : Int, g ≠ B0.groupSizes.length → g ≠ -1 →
    List.count g t.dataGroups = List.count g B0.dataGroups
  lab : List.countP (fun x => x != -1) t.dataGroups =
    List.countP (fun x => x != -1) B0.dataGroups + List.count (B0.groupSizes.length : Int) t.dataGroups

/-- What the row-major scan of `findGroups` has established before the cell of flat
index `p`. -/
structure SInv (p : Int) (t : Board) : Prop where
  done : ∀ k : Nat, (k : Int) < p → k < t.dataGroups.length →
    t.dataColors.getD k (-1) ≠ -1 → t.dataGroups.getD k (-1) ≠ -1
  seen : ∀ g : Nat, g < t.groupSizes.length →
    ∃ a : Int × Int, isValid t a.1 a.2 ∧ a.1 * t.nbJ + a.2 < p ∧ groupAt t a.1 a.2 = g
  ord : ∀ g h : Nat, g < h → h < t.groupSizes.length →
    ∃ a : Int × Int, isValid t a.1 a.2 ∧ groupAt t a.1 a.2 = g ∧
      ∀ c : Int × Int, isValid t c.1 c.2 → groupAt t c.1 c.2 = h →
        a.1 * t.nbJ + a.2 < c.1 * t.nbJ + c.2

/-- Board `t` differs from `b` in the group labels and sizes at most. -/
def GFrame (b t : Board) : Prop :=
  t = { b with dataGroups := t.dataGroups, groupSizes := t.groupSizes }

/-- Cell of flat index `k`: row `k / nbJ`, column `k % nbJ`. -/
def cellOf (b : Board) (k : Nat) : Int × Int :=
  (((k / b.nbJ : Nat) : Int), ((k % b.nbJ : Nat) : Int))

/-- All cells of the board in row-major order. -/
def cells (b : Board) : List (Int × Int) :=
  (List.range (b.nbI * b.nbJ)).map (cellOf b)

/-- Cell `a` is the first cell, in row-major order, that carries the group id `g`. -/
def FirstCell (b : Board) (g : Int) (a : Int × Int) : Prop :=
  isValid b a.1 a.2 ∧ groupAt b a.1 a.2 = g ∧
    ∀ c : Int × Int, isValid b c.1 c.2 → groupAt b c.1 c.2 = g →
      a.1 * (b.nbJ : Int) + a.2 ≤ c.1 * b.nbJ + c.2

/-- A 2 x 2 grid used to instantiate the theorems: rows `[0, 1]` and `[2, 2]`, labels
not yet computed. -/
def sampleGrid : Board :=
  { nbI := 2, nbJ := 2, nbColors := 3,
    estimatedMaxScore := Dbl.pow (Dbl.div (Dbl.ofInt 4) (Dbl.ofInt 3)) (Dbl.ofInt 2),
    dataColors := [0, 1, 2, 2],
    dataGroups := [0, 0, 0, 0],
    groupSizes := [],
    lastIs := [1, 1],
    lastJs := [1, 1],
    score := Dbl.ofInt 0,
    moves := [] }

/-- Size stored in `groupSizes` for the group of cell `a`. -/
def sizeAt (b : Board) (a : Int × Int) : Int :=
  b.groupSizes.getD (groupAt b a.1 a.2).toNat 0

/-- Evaluation that `findMoves` attaches to a move on a group of `size` cells:
`groupSize2 * groupSize2 / _estimatedMaxScore` with `groupSize2 = max(0, size - 2)`. -/
def evalOfSize (b : Board) (size : Int) : Dbl :=
  Dbl.div (Dbl.mul (Dbl.ofInt (max 0 (size - 2))) (Dbl.ofInt (max 0 (size - 2))))
    b.estimatedMaxScore

/-- Cell `a` is not empty and its group has more than one cell. -/
def playable (b : Board) (a : Int × Int) : Prop :=
  colorAt b a.1 a.2 ≠ -1 ∧ 1 < sizeAt b a

instance (b : Board) (a : Int × Int) : Decidable (playable b a) := by
  unfold playable; infer_instance

/-- Move entry for cell `a`. -/
def moveAt (b : Board) (a : Int × Int) : Move :=
  { i := a.1, j := a.2, color := colorAt b a.1 a.2, eval := evalOfSize b (sizeAt b a) }

/-- Number of cells that carry the same group id as cell `a`. -/
def compSize (b : Board) (a : Int × Int) : Nat :=
  ((cells b).filter (fun c => groupAt b c.1 c.2 = groupAt b a.1 a.2)).length

/-- Board `t` differs from `b` in the move list at most. -/
def MFrame (b t : Board) : Prop :=
  t = { b with moves := t.moves }

/-- Board `t` differs from `b` at most in the colours, the labels and the two fill vectors:
what the contractions of `play` may touch. -/
def CFrame (b t : Board) : Prop :=
  t = { b with dataColors := t.dataColors, dataGroups := t.dataGroups,
               lastIs := t.lastIs, lastJs := t.lastJs }

/-- Colour and group id of cell `(i, j)`. -/
def content (b : Board) (i j : Int) : Int × Int := (colorAt b i j, groupAt b i j)

/-- The board seen as its occupied columns: `A` lists the columns `0 .. lastJs`, each column
listing its cells from row 0 up to `lastIs[j]`; `cell i j` is what is stored for a cell and
`d` what is stored for a cell that no column of `A` covers. -/
structure Rep {α : Type} (cell : Int → Int → α) (d : α) (b : Board) (A : List (List α)) :
    Prop where
  hIs : b.lastIs.length = b.nbJ
  hJs : b.lastJs.length = b.nbI
  lenA : A.length ≤ b.nbJ
  lenC : ∀ c ∈ A, c.length ≤ b.nbI
  lastJ : ∀ i : Nat, i < b.nbI → b.lastJs.getD i 0 = (A.length : Int) - 1
  lastI : ∀ j : Nat, j < b.nbJ → b.lastIs.getD j 0 = ((A.getD j []).length : Int) - 1
  cell : ∀ i j : Int, isValid b i j → cell i j = (A.getD j.toNat []).getD i.toNat d

/-- What the vertical contractions leave of a column: the cells outside the group `g`. -/
def filtCol (g : Int) (col : List (Int × Int)) : List (Int × Int) :=
  col.filter (fun p => p.2 ≠ g)

/-- Columns `A` with `f` applied to the first `j` of them. -/
def mapUpTo {α : Type} (f : List α → List α) (A : List (List α)) (j : Nat) : List (List α) :=
  (A.take j).map f ++ A.drop j

/-- Columns of colours `A` paired, cell by cell, with the group ids stored on the board. -/
def pairCols (b : Board) (A : List (List Int)) : List (List (Int × Int)) :=
  (List.range A.length).map
    (fun (j : Nat) =>
      (List.range (A.getD j []).length).map (fun (i : Nat) => content b (i : Int) (j : Int)))

/-- Columns left by a play on the group `g`: the cells of `g` leave every column (vertical
contractions), the group ids are forgotten, and the emptied columns are dropped
(horizontal contractions). -/
def playCols (b : Board) (A : List (List Int)) (g : Int) : List (List Int) :=
  (((pairCols b A).map (filtCol g)).map (List.map Prod.fst)).filter (fun c => c ≠ [])

/-- The board is packed: some non-empty columns of non-empty cells represent it, which
makes every column bottom-packed and the occupied columns left-packed. -/
def Packed (b : Board) : Prop :=
  ∃ A : List (List Int), Rep (colorAt b) (-1) b A ∧ (∀ c ∈ A, c ≠ []) ∧
    ∀ c ∈ A, ∀ x ∈ c, x ≠ -1

/-- The labels and the move list are those that `findGroups` and `findMoves` compute. -/
def Fresh (b : Board) : Prop :=
  LInv b ∧ SInv ((b.nbI : Int) * b.nbJ) b ∧
    b.moves = ((cells b).filter (fun a => playable b a)).map (moveAt b)

/-- Fill source of the 2 x 2 board with rows `[0, 1]` and `[2, 2]`. -/
def gapFill : Nat → Int := fun k => [0, 1, 2, 2].getD k 0

/-- The board that `Board(2, 2, 3, gapFill)` constructs. -/
def gapStart : Board :=
  { nbI := 2, nbJ := 2, nbColors := 3,
    estimatedMaxScore := Dbl.pow (Dbl.div (Dbl.ofInt 4) (Dbl.ofInt 3)) (Dbl.ofInt 2),
    dataColors := [0, 1, 2, 2],
    dataGroups := [0, 1, 2, 2],
    groupSizes := [1, 1, 2],
    lastIs := [1, 1],
    lastJs := [1, 1],
    score := Dbl.ofInt 0,
    moves :=
      [ { i := 1, j := 0, color := 2,
          eval := Dbl.div (Dbl.mul (Dbl.ofInt 0) (Dbl.ofInt 0))
            (Dbl.pow (Dbl.div (Dbl.ofInt 4) (Dbl.ofInt 3)) (Dbl.ofInt 2)) },
        { i := 1, j := 1, color := 2,
          eval := Dbl.div (Dbl.mul (Dbl.ofInt 0) (Dbl.ofInt 0))
            (Dbl.pow (Dbl.div (Dbl.ofInt 4) (Dbl.ofInt 3)) (Dbl.ofInt 2)) } ] }

/-- The board `gapStart` after `play(0)`: the upper row is gone. -/
def gapBoard : Board :=
  { nbI := 2, nbJ := 2, nbColors := 3,
    estimatedMaxScore := Dbl.pow (Dbl.div (Dbl.ofInt 4) (Dbl.ofInt 3)) (Dbl.ofInt 2),
    dataColors := [0, 1, -1, -1],
    dataGroups := [0, 1, -1, -1],
    groupSizes := [1, 1],
    lastIs := [0, 0],
    lastJs := [1, 1],
    score := Dbl.add (Dbl.ofInt 0)
      (Dbl.div (Dbl.mul (Dbl.ofInt 0) (Dbl.ofInt 0))
        (Dbl.pow (Dbl.div (Dbl.ofInt 4) (Dbl.ofInt 3)) (Dbl.ofInt 2))),
    moves := [] }

/-- Board `b` has the dimensions, the colour count and the score scale of `b0`. -/
def Const (b0 b : Board) : Prop :=
  b.nbI = b0.nbI ∧ b.nbJ = b0.nbJ ∧ b.nbColors = b0.nbColors ∧
    b.estimatedMaxScore = b0.estimatedMaxScore

/-- The score scale is the one both constructors compute:
`pow(_nbI*_nbJ/double(_nbColors), 2.0)`. -/
def EstOK (b : Board) : Prop :=
  b.estimatedMaxScore
    = Dbl.pow (Dbl.div (Dbl.ofInt ((b.nbI : Int) * b.nbJ)) (Dbl.ofInt b.nbColors)) (Dbl.ofInt 2)

/-- Move list that the spec prescribes for a labelled board: one entry for every non-empty
cell whose component has at least 2 cells, in row-major order, with the colour of the cell
and the evaluation of the component size. -/
def specMoves (b : Board) : List Move :=
  ((cells b).filter (fun a => colorAt b a.1 a.2 ≠ -1 ∧ 2 ≤ compSize b a)).map
    (fun a => ({ i := a.1, j := a.2, color := colorAt b a.1 a.2,
                 eval := evalOfSize b (compSize b a) } : Move))

/-- Reference compaction, column `j`: the colours of the occupied cells of column `j`
outside the group `g`, in increasing row order. -/
def keptCol (b : Board) (g : Int) (j : Nat) : List Int :=
  ((List.range b.nbI).filter
      (fun (i : Nat) => colorAt b (i : Int) (j : Int) ≠ -1 ∧ groupAt b (i : Int) (j : Int) ≠ g)).map
    (fun (i : Nat) => colorAt b (i : Int) (j : Int))

/-- Reference compaction: the kept columns that are not empty, in their left-to-right
order. -/
def compactCols (b : Board) (g : Int) : List (List Int) :=
  ((List.range b.nbJ).map (keptCol b g)).filter (fun c => c ≠ [])

/-- Reference compaction: colour of cell `(i, j)` of the new grid; the kept columns are
stored as columns 0, 1, 2, ... from row 0 upward and every other cell is `-1`. -/
def compactColor (b : Board) (g : Int) (i j : Int) : Int :=
  ((compactCols b g).getD j.toNat []).getD i.toNat (-1)

/-! ## Vocabulary of the claims on scores, sequences of plays and scenarios -/

/-- Number that a symbolic double stands for when every floating-point operation returns
the rounding `rnd` of its exact result; the conversion of an `int` is exact. `none` for a
division by zero and for a power whose exponent is not a natural number (the source raises
to the power `2.0` only). Overflow is not modelled. -/
def Dbl.value (rnd : ℚ → ℚ) : Dbl → Option ℚ
  | Dbl.ofInt n => some (n : ℚ)
  | Dbl.add x y =>
    match Dbl.value rnd x, Dbl.value rnd y with
    | some a, some c => some (rnd (a + c))
    | _, _ => none
  | Dbl.mul x y =>
    match Dbl.value rnd x, Dbl.value rnd y with
    | some a, some c => some (rnd (a * c))
    | _, _ => none
  | Dbl.div x y =>
    match Dbl.value rnd x, Dbl.value rnd y with
    | some a, some c => if c = 0 then none else some (rnd (a / c))
    | _, _ => none
  | Dbl.pow x y =>
    match Dbl.value rnd x, Dbl.value rnd y with
    | some a, some c => if c.den = 1 ∧ 0 ≤ c.num then some (rnd (a ^ c.num.toNat)) else none
    | _, _ => none

/-- What is assumed of the rounding of floating-point results: it is monotone, keeps zero
and the sign of a positive number (no underflow to zero), and leaves a rounded number
alone. The identity (exact arithmetic) is one such rounding. -/
structure Rounding (rnd : ℚ → ℚ) : Prop where
  mono : ∀ x y : ℚ, x ≤ y → rnd x ≤ rnd y
  zero : rnd 0 = 0
  pos : ∀ x : ℚ, 0 < x → 0 < rnd x
  idem : ∀ x : ℚ, rnd (rnd x) = rnd x

/-- The part of `play(int)` that follows its assertions, for the group id `group` and the
evaluation `eval` of the move: the score grows, the cells of the group leave the columns,
the empty columns leave the board, and the labels and moves are recomputed. -/
def playWith (b : Board) (group : Int) (eval : Dbl) : Option Board :=
  match forRange 0 b.nbJ
      (fun b1 j => iContractions group j (b1.nbI + 1) b1 0)
      { b with score := Dbl.add b.score eval } with
  | none => none
  | some b2 =>
    match jContractions (b2.nbJ + 1) b2 0 with
    | none => none
    | some b3 => (findGroups b3).bind findMoves

/-- A caller playing the move indices `ns` one after the other with `play(int)`. -/
def playSeq : Board → List Int → Option Board
  | b, [] => some b
  | b, n :: ns => (play b n).bind (fun b1 => playSeq b1 ns)

/-- Number of occupied cells of the grid. -/
def occupied (b : Board) : Nat :=
  ((cells b).filter (fun a => colorAt b a.1 a.2 ≠ -1)).length

/-- A game played to its end: while the board is not terminated, the move of index
`pick b` is played; `none` when more than `fuel` plays would be needed. -/
def playOut (pick : Board → Int) : Nat → Board → Option Board
  | 0, b => if isTerminated b then some b else none
  | fuel + 1, b =>
    if isTerminated b then some b else (play b (pick b)).bind (playOut pick fuel)

/-- Index into `DATASETS` that `reset` reads for the cell of flat index `k`:
`_nbI*_nbJ*iDataset + (_nbI-i-1)*_nbJ + j` with `i = k / nbJ` and `j = k % nbJ`. -/
def datasetIndex (nbI nbJ : Nat) (iDataset : Int) (k : Nat) : Int :=
  (nbI : Int) * nbJ * iDataset + ((nbI : Int) - ((k / nbJ : Nat) : Int) - 1) * nbJ
    + ((k % nbJ : Nat) : Int)

/-- Colours that `reset` stores: the level `iDataset` with its rows in reverse order. -/
def resetColors (nbI nbJ : Nat) (iDataset : Int) : List Int :=
  (List.range (nbI * nbJ)).map (fun k => DATASETS.getD (datasetIndex nbI nbJ iDataset k).toNat 0)

/-- Every index that `reset` reads lies inside `DATASETS`. -/
def DatasetCovers (nbI nbJ : Nat) (iDataset : Int) : Prop :=
  ∀ k : Nat, k < nbI * nbJ →
    0 ≤ datasetIndex nbI nbJ iDataset k ∧
      (datasetIndex nbI nbJ iDataset k).toNat < DATASETS.length

/-- State of the object when the body of the constructor has filled the colours and
checked them: what `findGroups` and `findMoves` then run on. -/
def Board.blank (nbI nbJ : Nat) (nbColors : Int) (fillFunc : Nat → Int) : Board :=
  { nbI := nbI, nbJ := nbJ, nbColors := nbColors,
    estimatedMaxScore :=
      Dbl.pow (Dbl.div (Dbl.ofInt ((nbI : Int) * nbJ)) (Dbl.ofInt nbColors)) (Dbl.ofInt 2),
    dataColors := (List.range (nbI * nbJ)).map fillFunc,
    dataGroups := List.replicate (nbI * nbJ) 0,
    groupSizes := [],
    lastIs := List.replicate nbJ ((nbI : Int) - 1),
    lastJs := List.replicate nbI ((nbJ : Int) - 1),
    score := Dbl.ofInt 0,
    moves := [] }

/-- State of the object in `reset` when the colours, the fill vectors and the score are
set: what `findGroups` and `findMoves` then run on. -/
def resetGrid (b : Board) (iDataset : Int) : Board :=
  { b with
    dataColors := resetColors b.nbI b.nbJ iDataset,
    lastIs := List.replicate b.lastIs.length ((b.nbI : Int) - 1),
    lastJs := List.replicate b.lastJs.length ((b.nbJ : Int) - 1),
    score := Dbl.ofInt 0 }

/-- Fill source of the scenario with four cells in a line: colours `A, A, A, B`. -/
def lineFill (A B : Int) : Nat → Int := fun k => if k < 3 then A else B

/-- The 4-row, 1-column board with colours `A, A, A, B` from row 0 upward, as built by
the constructor. -/
def lineCol (A B : Int) : Board :=
  { nbI := 4, nbJ := 1, nbColors := 2,
    estimatedMaxScore := Dbl.pow (Dbl.div (Dbl.ofInt 4) (Dbl.ofInt 2)) (Dbl.ofInt 2),
    dataColors := [A, A, A, B],
    dataGroups := [0, 0, 0, 1],
    groupSizes := [3, 1],
    lastIs := [3],
    lastJs := [0, 0, 0, 0],
    score := Dbl.ofInt 0,
    moves :=
      [ { i := 0, j := 0, color := A,
          eval := Dbl.div (Dbl.mul (Dbl.ofInt 1) (Dbl.ofInt 1))
            (Dbl.pow (Dbl.div (Dbl.ofInt 4) (Dbl.ofInt 2)) (Dbl.ofInt 2)) },
        { i := 1, j := 0, color := A,
          eval := Dbl.div (Dbl.mul (Dbl.ofInt 1) (Dbl.ofInt 1))
            (Dbl.pow (Dbl.div (Dbl.ofInt 4) (Dbl.ofInt 2)) (Dbl.ofInt 2)) },
        { i := 2, j := 0, color := A,
          eval := Dbl.div (Dbl.mul (Dbl.ofInt 1) (Dbl.ofInt 1))
            (Dbl.pow (Dbl.div (Dbl.ofInt 4) (Dbl.ofInt 2)) (Dbl.ofInt 2)) } ] }

/-- The board `lineCol A B` after a play on its group of three cells. -/
def lineColEnd (B : Int) : Board :=
  { nbI := 4, nbJ := 1, nbColors := 2,
    estimatedMaxScore := Dbl.pow (Dbl.div (Dbl.ofInt 4) (Dbl.ofInt 2)) (Dbl.ofInt 2),
    dataColors := [B, -1, -1, -1],
    dataGroups := [0, -1, -1, -1],
    groupSizes := [1],
    lastIs := [0],
    lastJs := [0, 0, 0, 0],
    score := Dbl.add (Dbl.ofInt 0)
      (Dbl.div (Dbl.mul (Dbl.ofInt 1) (Dbl.ofInt 1))
        (Dbl.pow (Dbl.div (Dbl.ofInt 4) (Dbl.ofInt 2)) (Dbl.ofInt 2))),
    moves := [] }

/-- The 1-row, 4-column board with colours `A, A, A, B` from column 0 rightward, as built
by the constructor. -/
def lineRow (A B : Int) : Board :=
  { nbI := 1, nbJ := 4, nbColors := 2,
    estimatedMaxScore := Dbl.pow (Dbl.div (Dbl.ofInt 4) (Dbl.ofInt 2)) (Dbl.ofInt 2),
    dataColors := [A, A, A, B],
    dataGroups := [0, 0, 0, 1],
    groupSizes := [3, 1],
    lastIs := [0, 0, 0, 0],
    lastJs := [3],
    score := Dbl.ofInt 0,
    moves :=
      [ { i := 0, j := 0, color := A,
          eval := Dbl.div (Dbl.mul (Dbl.ofInt 1) (Dbl.ofInt 1))
            (Dbl.pow (Dbl.div (Dbl.ofInt 4) (Dbl.ofInt 2)) (Dbl.ofInt 2)) },
        { i := 0, j := 1, color := A,
          eval := Dbl.div (Dbl.mul (Dbl.ofInt 1) (Dbl.ofInt 1))
            (Dbl.pow (Dbl.div (Dbl.ofInt 4) (Dbl.ofInt 2)) (Dbl.ofInt 2)) },
        { i := 0, j := 2, color := A,
          eval := Dbl.div (Dbl.mul (Dbl.ofInt 1) (Dbl.ofInt 1))
            (Dbl.pow (Dbl.div (Dbl.ofInt 4) (Dbl.ofInt 2)) (Dbl.ofInt 2)) } ] }

/-- The board `lineRow A B` after a play on its group of three cells. -/
def lineRowEnd (B : Int) : Board :=
  { nbI := 1, nbJ := 4, nbColors := 2,
    estimatedMaxScore := Dbl.pow (Dbl.div (Dbl.ofInt 4) (Dbl.ofInt 2)) (Dbl.ofInt 2),
    dataColors := [B, -1, -1, -1],
    dataGroups := [0, -1, -1, -1],
    groupSizes := [1],
    lastIs := [0, -1, -1, -1],
    lastJs := [0],
    score := Dbl.add (Dbl.ofInt 0)
      (Dbl.div (Dbl.mul (Dbl.ofInt 1) (Dbl.ofInt 1))
        (Dbl.pow (Dbl.div (Dbl.ofInt 4) (Dbl.ofInt 2)) (Dbl.ofInt 2))),
    moves := [] }

/-- Fill source of the two-colour checkerboard with `nbJ` columns: cell `(i, j)` gets the
colour `(i + j) mod 2`. -/
def checkerFill (nbJ : Nat) : Nat → Int :=
  fun k => (((k / nbJ + k % nbJ) % 2 : Nat) : Int)

/-! ## Vocabulary of the claim on the fill widths -/

/-- Number of non-empty columns: the columns that hold an occupied cell. -/
def nonEmptyCols (b : Board) : Nat :=
  ((List.range b.nbJ).filter
    (fun (j : Nat) =>
      (List.range b.nbI).any
        (fun (i : Nat) => decide (colorAt b (i : Int) (j : Int) ≠ -1)))).length

/-- Fill source of the 2 x 2 board with rows `[2, 0]` and `[2, 1]`: its column 0 is one
group. -/
def slideFill : Nat → Int := fun k => [2, 0, 2, 1].getD k 0

/-- The board that `Board(2, 2, 3, slideFill)` constructs. -/
def slideStart : Board :=
  { nbI := 2, nbJ := 2, nbColors := 3,
    estimatedMaxScore := Dbl.pow (Dbl.div (Dbl.ofInt 4) (Dbl.ofInt 3)) (Dbl.ofInt 2),
    dataColors := [2, 0, 2, 1],
    dataGroups := [0, 1, 0, 2],
    groupSizes := [2, 1, 1],
    lastIs := [1, 1],
    lastJs := [1, 1],
    score := Dbl.ofInt 0,
    moves :=
      [ { i := 0, j := 0, color := 2,
          eval := Dbl.div (Dbl.mul (Dbl.ofInt 0) (Dbl.ofInt 0))
            (Dbl.pow (Dbl.div (Dbl.ofInt 4) (Dbl.ofInt 3)) (Dbl.ofInt 2)) },
        { i := 1, j := 0, color := 2,
          eval := Dbl.div (Dbl.mul (Dbl.ofInt 0) (Dbl.ofInt 0))
            (Dbl.pow (Dbl.div (Dbl.ofInt 4) (Dbl.ofInt 3)) (Dbl.ofInt 2)) } ] }

/-- The board `slideStart` after `play(0)`: column 0 is gone and column 1 has slid to its
place. -/
def slideBoard : Board :=
  { nbI := 2, nbJ := 2, nbColors := 3,
    estimatedMaxScore := Dbl.pow (Dbl.div (Dbl.ofInt 4) (Dbl.ofInt 3)) (Dbl.ofInt 2),
    dataColors := [0, -1, 1, -1],
    dataGroups := [0, -1, 1, -1],
    groupSizes := [1, 1],
    lastIs := [1, -1],
    lastJs := [0, 0],
    score := Dbl.add (Dbl.ofInt 0)
      (Dbl.div (Dbl.mul (Dbl.ofInt 0) (Dbl.ofInt 0))
        (Dbl.pow (Dbl.div (Dbl.ofInt 4) (Dbl.ofInt 3)) (Dbl.ofInt 2))),
    moves := [] }

/-! ## Vocabulary of the claims on the constructor: the range of `int` and the fill
function as a callable with state -/

/-- Largest value of the C++ type `int`, of 32 bits. -/
def intMax : Nat := 2147483647

/-- The arguments `nbI`, `nbJ`, `nbColors` of the constructor are values of the type `int`,
and the product `nbI * nbJ` that it computes in `int` does not overflow. -/
def FitsInt (nbI nbJ : Nat) (nbColors : Int) : Prop :=
  nbI ≤ intMax ∧ nbJ ≤ intMax ∧ nbI * nbJ ≤ intMax ∧
    -((intMax : Int) + 1) ≤ nbColors ∧ nbColors ≤ (intMax : Int)

instance (nbI nbJ : Nat) (nbColors : Int) : Decidable (FitsInt nbI nbJ nbColors) := by
  unfold FitsInt; infer_instance

/-- Source: `std::generate(first, last, gen)` on `n` elements, for a generator `gen` that
is a callable with a state of type `σ` (a call returns a value and the state it leaves):
`gen` is called once per element, in the order of the elements. Returns the elements
written and the state of the generator after the last call. -/
def generate {σ : Type} (gen : σ → Int × σ) : Nat → σ → List Int × σ
  | 0, s => ([], s)
  | n + 1, s =>
    let r := generate gen n (gen s).2
    ((gen s).1 :: r.1, r.2)

/-- Source: the constructor `Board(nbI, nbJ, nbColors, fillFunc)` with `fillFunc` a callable
with state; returns the board and the state in which the calls have left the fill
function. -/
def Board.construct {σ : Type} (nbI nbJ : Nat) (nbColors : Int) (fillFunc : σ → Int × σ)
    (s : σ) : Option (Board × σ) :=
  let filled := generate fillFunc (nbI * nbJ) s
  if ∀ c ∈ filled.1, 0 ≤ c ∧ c < nbColors then
    ((findGroups
      { nbI := nbI, nbJ := nbJ, nbColors := nbColors,
        estimatedMaxScore :=
          Dbl.pow (Dbl.div (Dbl.ofInt ((nbI : Int) * nbJ)) (Dbl.ofInt nbColors)) (Dbl.ofInt 2),
        dataColors := filled.1,
        dataGroups := List.replicate (nbI * nbJ) 0,
        groupSizes := [],
        lastIs := List.replicate nbJ ((nbI : Int) - 1),
        lastJs := List.replicate nbI ((nbJ : Int) - 1),
        score := Dbl.ofInt 0,
        moves := [] }).bind findMoves).map (fun b => (b, filled.2))
  else none

/-- State of a callable after `k` calls from the state `s`. -/
def genState {σ : Type} (gen : σ → Int × σ) : Nat → σ → σ
  | 0, s => s
  | k + 1, s => genState gen k (gen s).2

/-- Value that call number `k` (from 0) of a callable returns, from the state `s`. -/
def genOutput {σ : Type} (gen : σ → Int × σ) (s : σ) (k : Nat) : Int :=
  (gen (genState gen k s)).1

/-- The callable `gen` with a counter of its calls added to its state. -/
def counted {σ : Type} (gen : σ → Int × σ) : σ × Nat → Int × (σ × Nat) :=
  fun p => ((gen p.1).1, ((gen p.1).2, p.2 + 1))

/-- The fill source `gapFill` as a callable whose state is the number of calls made. -/
def gapGen : Nat → Int × Nat := fun k => (gapFill k, k + 1)

/-! ## Vector access -/

theorem vget_of_lt {α : Type} (v : List α) (k : Int) (d : α) (h0 : 0 ≤ k)
    (h : k.toNat < v.length) : vget v k = some (v.getD k.toNat d) := by
  unfold vget
  rw [if_pos h0, List.getD_eq_getElem?_getD, List.getElem?_eq_getElem h]
  rfl

theorem vget_eq_some {α : Type} {v : List α} {k : Int} {x : α} (h : vget v k = some x) :
    0 ≤ k ∧ k.toNat < v.length ∧ ∀ d, v.getD k.toNat d = x := by
  unfold vget at h
  by_cases h0 : 0 ≤ k
  · rw [if_pos h0] at h
    obtain ⟨hlt, hx⟩ := List.getElem?_eq_some_iff.mp h
    refine ⟨h0, hlt, fun d => ?_⟩
    rw [List.getD_eq_getElem?_getD, h]
    rfl
  · rw [if_neg h0] at h
    exact absurd h (by simp)

theorem vset_of_lt {α : Type} (v : List α) (k : Int) (x : α) (h0 : 0 ≤ k)
    (h : k.toNat < v.length) : vset v k x = some (v.set k.toNat x) := by
  unfold vset
  rw [if_pos ⟨h0, h⟩]

theorem vset_eq_some {α : Type} {v w : List α} {k : Int} {x : α} (h : vset v k x = some w) :
    0 ≤ k ∧ k.toNat < v.length ∧ w = v.set k.toNat x := by
  unfold vset at h
  by_cases hc : 0 ≤ k ∧ k.toNat < v.length
  · rw [if_pos hc] at h
    exact ⟨hc.1, hc.2, (Option.some.inj h).symm⟩
  · rw [if_neg hc] at h
    exact absurd h (by simp)

theorem getD_set_eq {α : Type} (v : List α) (n : Nat) (x d : α) (h : n < v.length) :
    (v.set n x).getD n d = x := by
  rw [List.getD_eq_getElem?_getD, List.getElem?_set_self h]
  rfl

theorem getD_set_ne {α : Type} (v : List α) (n m : Nat) (x d : α) (h : n ≠ m) :
    (v.set n x).getD m d = v.getD m d := by
  rw [List.getD_eq_getElem?_getD, List.getD_eq_getElem?_getD, List.getElem?_set_ne h]

/-! ## Counted loops -/

theorem forLoop_spec {σ : Type} (body : σ → Int → Option σ) (Inv : Int → σ → Prop) :
    ∀ (n : Nat) (i0 : Int) (s : σ), Inv i0 s →
      (∀ i t, i0 ≤ i → i < i0 + n → Inv i t → ∃ t1, body t i = some t1 ∧ Inv (i + 1) t1) →
      ∃ s1, forLoop body n i0 s = some s1 ∧ Inv (i0 + n) s1 := by
  intro n
  induction n with
  | zero =>
    intro i0 s h0 _
    exact ⟨s, rfl, by simpa using h0⟩
  | succ n ih =>
    intro i0 s h0 hstep
    obtain ⟨t1, hb, hi⟩ := hstep i0 s (le_refl _) (by push_cast; omega) h0
    obtain ⟨s1, hs1, hinv⟩ := ih (i0 + 1) t1 hi (fun i t hlo hhi hI =>
      hstep i t (by omega) (by push_cast; omega) hI)
    refine ⟨s1, ?_, ?_⟩
    · simp only [forLoop, hb]
      exact hs1
    · have : i0 + ((n + 1 : Nat) : Int) = i0 + 1 + (n : Int) := by push_cast; ring
      rw [this]
      exact hinv

theorem forRange_spec {σ : Type} (body : σ → Int → Option σ) (Inv : Int → σ → Prop)
    (lo hi : Int) (s : σ) (hle : lo ≤ hi) (h0 : Inv lo s)
    (hstep : ∀ i t, lo ≤ i → i < hi → Inv i t → ∃ t1, body t i = some t1 ∧ Inv (i + 1) t1) :
    ∃ s1, forRange lo hi body s = some s1 ∧ Inv hi s1 := by
  have hn : lo + (((hi - lo).toNat : Nat) : Int) = hi := by omega
  obtain ⟨s1, h1, h2⟩ := forLoop_spec body Inv (hi - lo).toNat lo s h0
    (fun i t hlo hhi hI => hstep i t hlo (by omega) hI)
  exact ⟨s1, h1, by rw [hn] at h2; exact h2⟩

theorem forRange_empty {σ : Type} (body : σ → Int → Option σ) (lo hi : Int) (s : σ)
    (h : hi ≤ lo) : forRange lo hi body s = some s := by
  unfold forRange
  have : (hi - lo).toNat = 0 := by omega
  rw [this]
  rfl

/-! ## Cells and flat indices -/

theorem idx_nonneg {b : Board} {i j : Int} (h : isValid b i j) : 0 ≤ i * b.nbJ + j := by
  obtain ⟨h1, _, h3, _⟩ := h
  have : 0 ≤ i * (b.nbJ : Int) := Int.mul_nonneg h1 (Int.ofNat_nonneg _)
  omega

theorem idx_lt {b : Board} {i j : Int} (h : isValid b i j) :
    i * b.nbJ + j < (b.nbI : Int) * b.nbJ := by
  obtain ⟨h1, h2, h3, h4⟩ := h
  have : (i + 1) * (b.nbJ : Int) ≤ (b.nbI : Int) * b.nbJ :=
    Int.mul_le_mul_of_nonneg_right (by omega) (Int.ofNat_nonneg _)
  have e : (i + 1) * (b.nbJ : Int) = i * b.nbJ + b.nbJ := by ring
  omega

theorem idx_toNat_lt {b : Board} {i j : Int} (h : isValid b i j) :
    (i * b.nbJ + j).toNat < b.nbI * b.nbJ := by
  have h1 := idx_nonneg h
  have h2 := idx_lt h
  have : ((b.nbI * b.nbJ : Nat) : Int) = (b.nbI : Int) * b.nbJ := by push_cast; rfl
  omega

theorem idx_lt_of_lex {b : Board} {i j i1 j1 : Int} (h : isValid b i j) (h1 : isValid b i1 j1)
    (hlt : i < i1) : i * b.nbJ + j < i1 * b.nbJ + j1 := by
  obtain ⟨_, _, _, h4⟩ := h
  obtain ⟨_, _, h7, _⟩ := h1
  have : (i + 1) * (b.nbJ : Int) ≤ i1 * b.nbJ :=
    Int.mul_le_mul_of_nonneg_right (by omega) (Int.ofNat_nonneg _)
  have e : (i + 1) * (b.nbJ : Int) = i * b.nbJ + b.nbJ := by ring
  omega

theorem idx_inj {b : Board} {i j i1 j1 : Int} (h : isValid b i j) (h1 : isValid b i1 j1)
    (he : i * b.nbJ + j = i1 * b.nbJ + j1) : i = i1 ∧ j = j1 := by
  have hi : i = i1 := by
    rcases lt_trichotomy i i1 with hlt | heq | hgt
    · have := idx_lt_of_lex h h1 hlt; omega
    · exact heq
    · have := idx_lt_of_lex h1 h hgt; omega
  subst hi
  exact ⟨rfl, by omega⟩

theorem idx_toNat_inj {b : Board} {i j i1 j1 : Int} (h : isValid b i j) (h1 : isValid b i1 j1)
    (he : (i * b.nbJ + j).toNat = (i1 * b.nbJ + j1).toNat) : i = i1 ∧ j = j1 := by
  have a := idx_nonneg h
  have c := idx_nonneg h1
  exact idx_inj h h1 (by omega)

theorem ind_of_valid {b : Board} {i j : Int} (h : isValid b i j) :
    ind b i j = some (i * b.nbJ + j) := by
  unfold ind
  rw [if_pos h]

theorem ind_eq_some {b : Board} {i j k : Int} (h : ind b i j = some k) :
    isValid b i j ∧ k = i * b.nbJ + j := by
  unfold ind at h
  by_cases hv : isValid b i j
  · rw [if_pos hv] at h
    exact ⟨hv, (Option.some.inj h).symm⟩
  · rw [if_neg hv] at h
    exact absurd h (by simp)

theorem vget_colors {b : Board} (hs : WellSized b) {i j : Int} (h : isValid b i j) :
    vget b.dataColors (i * b.nbJ + j) = some (colorAt b i j) :=
  vget_of_lt _ _ _ (idx_nonneg h) (by rw [hs.1]; exact idx_toNat_lt h)

theorem vget_groups {b : Board} (hs : WellSized b) {i j : Int} (h : isValid b i j) :
    vget b.dataGroups (i * b.nbJ + j) = some (groupAt b i j) :=
  vget_of_lt _ _ _ (idx_nonneg h) (by rw [hs.2]; exact idx_toNat_lt h)

/-! ## List counting lemmas -/

theorem countP_set_add (p : Int → Bool) (v d : Int) :
    ∀ (l : List Int) (k : Nat), k < l.length →
      List.countP p (l.set k v) + (if p (l.getD k d) then 1 else 0)
        = List.countP p l + (if p v then 1 else 0) := by
  intro l
  induction l with
  | nil => intro k hk; simp at hk
  | cons x xs ih =>
    intro k hk
    cases k with
    | zero =>
      simp only [List.set_cons_zero, List.countP_cons, List.getD_cons_zero]
      omega
    | succ k =>
      have hk1 : k < xs.length := by simpa using hk
      have := ih k hk1
      simp only [List.set_cons_succ, List.countP_cons, List.getD_cons_succ]
      omega

theorem count_set_add (x v d : Int) (l : List Int) (k : Nat) (hk : k < l.length) :
    List.count x (l.set k v) + (if l.getD k d = x then 1 else 0)
      = List.count x l + (if v = x then 1 else 0) := by
  have := countP_set_add (fun y => y == x) v d l k hk
  simpa [List.count] using this

theorem getD_mem {l : List Int} {k : Nat} (hk : k < l.length) (d : Int) : l.getD k d ∈ l := by
  rw [List.getD_eq_getElem?_getD, List.getElem?_eq_getElem hk]
  exact List.getElem_mem hk

theorem set_append_last (l : List Int) (x y : Int) :
    (l ++ [x]).set l.length y = l ++ [y] := by
  induction l with
  | nil => rfl
  | cons a as ih => simp [ih]

theorem getD_append_last (l : List Int) (x d : Int) : (l ++ [x]).getD l.length d = x := by
  induction l with
  | nil => rfl
  | cons a as ih =>
    rw [List.cons_append, List.length_cons, List.getD_cons_succ]
    exact ih

theorem getD_append_left (l : List Int) (x d : Int) (k : Nat) (hk : k < l.length) :
    (l ++ [x]).getD k d = l.getD k d := by
  rw [List.getD_eq_getElem?_getD, List.getD_eq_getElem?_getD, List.getElem?_append_left hk]

/-! ## Connectivity of cells -/

theorem adj_symm {a c : Int × Int} (h : Adj a c) : Adj c a := by
  unfold Adj at *
  omega

theorem sameStep_symm {b : Board} {a c : Int × Int} (h : SameStep b a c) : SameStep b c a :=
  ⟨h.2.1, h.1, adj_symm h.2.2.1, h.2.2.2.symm⟩

theorem connected_symm {b : Board} {a c : Int × Int} (h : Connected b a c) : Connected b c a := by
  induction h with
  | refl => exact Relation.ReflTransGen.refl
  | tail _ hs ih => exact Relation.ReflTransGen.head (sameStep_symm hs) ih

theorem connected_color {b : Board} {a c : Int × Int} (h : Connected b a c) :
    colorAt b c.1 c.2 = colorAt b a.1 a.2 := by
  induction h with
  | refl => rfl
  | tail _ hs ih => rw [← hs.2.2.2, ih]

theorem connected_valid {b : Board} {a c : Int × Int} (h : Connected b a c)
    (ha : isValid b a.1 a.2) : isValid b c.1 c.2 := by
  induction h with
  | refl => exact ha
  | tail _ hs _ => exact hs.2.1

theorem SameStep_congr {b t : Board} (hI : t.nbI = b.nbI) (hJ : t.nbJ = b.nbJ)
    (hC : t.dataColors = b.dataColors) : SameStep t = SameStep b := by
  funext a c
  simp only [SameStep, isValid, colorAt, hI, hJ, hC]

theorem Connected_congr {b t : Board} (hI : t.nbI = b.nbI) (hJ : t.nbJ = b.nbJ)
    (hC : t.dataColors = b.dataColors) : Connected t = Connected b := by
  funext a c
  simp only [Connected, SameStep_congr hI hJ hC]

/-! ## The neighbour pushes -/

theorem mem_pushNeighbours {b : Board} {i j : Int} {st : List (Int × Int)} {a : Int × Int} :
    a ∈ pushNeighbours b i j st ↔
      a ∈ st ∨ (isValid b a.1 a.2 ∧ Adj (i, j) a) := by
  obtain ⟨x, y⟩ := a
  unfold pushNeighbours
  constructor
  · intro h
    split_ifs at h <;> simp only [List.mem_cons, Prod.mk.injEq] at h <;>
      (first
        | (left; exact h)
        | (rcases h with h | h | h | h | h <;>
            first
            | (left; exact h)
            | (right; obtain ⟨rfl, rfl⟩ := h; refine ⟨by assumption, ?_⟩; unfold Adj; simp))
        | (rcases h with h | h | h | h <;>
            first
            | (left; exact h)
            | (right; obtain ⟨rfl, rfl⟩ := h; refine ⟨by assumption, ?_⟩; unfold Adj; simp))
        | (rcases h with h | h | h <;>
            first
            | (left; exact h)
            | (right; obtain ⟨rfl, rfl⟩ := h; refine ⟨by assumption, ?_⟩; unfold Adj; simp))
        | (rcases h with h | h <;>
            first
            | (left; exact h)
            | (right; obtain ⟨rfl, rfl⟩ := h; refine ⟨by assumption, ?_⟩; unfold Adj; simp)))
  · rintro (h | ⟨hv, hadj⟩)
    · split_ifs <;> simp [h]
    · unfold Adj at hadj
      simp only at hadj hv
      have hcases : (x = i - 1 ∧ y = j) ∨ (x = i + 1 ∧ y = j) ∨ (x = i ∧ y = j - 1) ∨
          (x = i ∧ y = j + 1) := by omega
      rcases hcases with ⟨rfl, rfl⟩ | ⟨rfl, rfl⟩ | ⟨rfl, rfl⟩ | ⟨rfl, rfl⟩ <;>
        simp only [hv, if_true] <;> split_ifs <;> simp

theorem length_pushNeighbours_le (b : Board) (i j : Int) (st : List (Int × Int)) :
    (pushNeighbours b i j st).length ≤ st.length + 4 := by
  unfold pushNeighbours
  split_ifs <;> simp only [List.length_cons] <;> omega

/-! ## Invariants of the labelling -/

theorem spreadInv_nbI {B0 t : Board} {s : Int × Int} {st : List (Int × Int)}
    (h : SpreadInv B0 s t st) : t.nbI = B0.nbI := by
  have := congrArg Board.nbI h.frame
  exact this

theorem spreadInv_nbJ {B0 t : Board} {s : Int × Int} {st : List (Int × Int)}
    (h : SpreadInv B0 s t st) : t.nbJ = B0.nbJ := by
  have := congrArg Board.nbJ h.frame
  exact this

theorem spreadInv_dataColors {B0 t : Board} {s : Int × Int} {st : List (Int × Int)}
    (h : SpreadInv B0 s t st) : t.dataColors = B0.dataColors := by
  have := congrArg Board.dataColors h.frame
  exact this

theorem group_ne_size {B0 : Board} (hB : LInv B0) {a : Int × Int}
    (ha : isValid B0 a.1 a.2) : groupAt B0 a.1 a.2 ≠ B0.groupSizes.length := by
  have hm : groupAt B0 a.1 a.2 ∈ B0.dataGroups :=
    getD_mem (by rw [hB.ws.2]; exact idx_toNat_lt ha) (-1)
  rcases hB.rng _ hm with h | h <;> omega

/-- A cell labelled with the new id is connected to the start cell and was unlabelled. -/
theorem spreadInv_of_new {B0 t : Board} {s : Int × Int} {st : List (Int × Int)}
    (h : SpreadInv B0 s t st) (hB : LInv B0) {a : Int × Int} (ha : isValid B0 a.1 a.2)
    (hg : groupAt t a.1 a.2 = B0.groupSizes.length) :
    groupAt B0 a.1 a.2 = -1 ∧ Connected B0 s a := by
  rcases h.old a ha with h1 | ⟨h1, _, h3⟩
  · exact absurd (h1 ▸ hg) ((group_ne_size hB) ha)
  · exact ⟨h1, h3⟩

theorem groupAt_set {t : Board} (dg gs : List Int) (a : Int × Int) :
    groupAt { t with dataGroups := dg, groupSizes := gs } a.1 a.2
      = dg.getD (a.1 * t.nbJ + a.2).toNat (-1) := rfl

theorem frame_update {B0 t : Board}
    (hf : t = { B0 with dataGroups := t.dataGroups, groupSizes := t.groupSizes })
    (dg gs : List Int) :
    ({ t with dataGroups := dg, groupSizes := gs } : Board)
      = { B0 with dataGroups := dg, groupSizes := gs } := by
  cases t
  cases B0
  simp only [Board.mk.injEq] at hf ⊢
  obtain ⟨h1, h2, h3, h4, h5, -, -, h8, h9, h10, h11⟩ := hf
  exact ⟨h1, h2, h3, h4, h5, trivial, trivial, h8, h9, h10, h11⟩

/-- The popped cell has the start colour and no label: it is labelled and its neighbours
are pushed. -/
theorem spreadInv_label {B0 t : Board} {s : Int × Int} {i j : Int} {rest : List (Int × Int)}
    (h : SpreadInv B0 s t ((i, j) :: rest)) (hB : LInv B0)
    (hc : colorAt B0 i j = colorAt B0 s.1 s.2) (hcs : colorAt B0 s.1 s.2 ≠ -1)
    (hg : groupAt t i j = -1) :
    SpreadInv B0 s
      { t with
        dataGroups := t.dataGroups.set (i * t.nbJ + j).toNat B0.groupSizes.length,
        groupSizes := B0.groupSizes ++
          [(List.count (B0.groupSizes.length : Int) t.dataGroups : Int) + 1] }
      (pushNeighbours t i j rest) := by
  have hJ := (spreadInv_nbJ h)
  have hI := (spreadInv_nbI h)
  have hv : isValid B0 i j := (h.stk (i, j) (List.mem_cons_self _ _)).1
  have hK : (i * (B0.nbJ : Int) + j).toNat < t.dataGroups.length := by
    rw [h.len, hB.ws.2]; exact idx_toNat_lt hv
  have hgK : t.dataGroups.getD (i * (B0.nbJ : Int) + j).toNat (-1) = -1 := by
    have := hg; unfold groupAt at this; rw [hJ] at this; exact this
  have hgid : ((B0.groupSizes.length : Nat) : Int) ≠ -1 := by omega
  -- group of a cell after the update
  have hnew : ∀ a : Int × Int, isValid B0 a.1 a.2 →
      groupAt { t with
        dataGroups := t.dataGroups.set (i * t.nbJ + j).toNat B0.groupSizes.length,
        groupSizes := B0.groupSizes ++
          [(List.count (B0.groupSizes.length : Int) t.dataGroups : Int) + 1] } a.1 a.2
        = if a = (i, j) then (B0.groupSizes.length : Int) else groupAt t a.1 a.2 := by
    intro a ha
    rw [groupAt_set, hJ]
    by_cases hai : a = (i, j)
    · subst hai
      rw [if_pos rfl]
      exact getD_set_eq _ _ _ _ hK
    · rw [if_neg hai]
      unfold groupAt
      rw [hJ]
      apply getD_set_ne
      intro he
      have := idx_toNat_inj hv ha he
      exact hai (Prod.ext this.1.symm this.2.symm)
  have hvt : ∀ a : Int × Int, isValid t a.1 a.2 ↔ isValid B0 a.1 a.2 := by
    intro a; unfold isValid; rw [hI, hJ]
  have hkeep : ∀ a : Int × Int, isValid B0 a.1 a.2 →
      groupAt t a.1 a.2 = B0.groupSizes.length →
      groupAt { t with
        dataGroups := t.dataGroups.set (i * t.nbJ + j).toNat B0.groupSizes.length,
        groupSizes := B0.groupSizes ++
          [(List.count (B0.groupSizes.length : Int) t.dataGroups : Int) + 1] } a.1 a.2
        = B0.groupSizes.length := by
    intro a ha hga
    rw [hnew a ha]
    split_ifs <;> simp [hga]
  have hconn : Connected B0 s (i, j) := by
    rcases (h.stk (i, j) (List.mem_cons_self _ _)).2 with he | ⟨x, hx, hgx, hadj⟩
    · rw [he]; exact Relation.ReflTransGen.refl
    · have hxs := ((spreadInv_of_new h) hB hx hgx).2
      refine Relation.ReflTransGen.tail hxs ⟨hx, hv, hadj, ?_⟩
      rw [(connected_color hxs)]; exact hc.symm
  have hcountNew := count_set_add (B0.groupSizes.length : Int) (B0.groupSizes.length : Int) (-1)
    t.dataGroups _ hK
  rw [hgK, if_neg (by omega), if_pos rfl] at hcountNew
  constructor
  · exact frame_update h.frame _ _
  · simp only [List.length_set]; exact h.len
  · intro x hx
    rcases List.mem_or_eq_of_mem_set hx with hx | hx
    · exact h.rngF x hx
    · right; omega
  · intro k hk hne
    simp only [List.length_set] at hk
    by_cases hkK : (i * (t.nbJ : Int) + j).toNat = k
    · subst hkK
      have : colorAt B0 i j ≠ -1 := by rw [hc]; exact hcs
      unfold colorAt at this
      rw [hJ]; exact this
    · simp only [] at hne
      rw [getD_set_ne _ _ _ _ _ hkK] at hne
      exact h.colF k hk hne
  · intro k hne
    simp only []
    rw [hJ]
    by_cases hkK : (i * (B0.nbJ : Int) + j).toNat = k
    · subst hkK
      have := h.monoF _ hne
      rw [hgK] at this
      exact absurd this.symm hne
    · rw [getD_set_ne _ _ _ _ _ hkK]
      exact h.monoF k hne
  · intro a ha
    rw [hnew a ha]
    by_cases hai : a = (i, j)
    · subst hai
      rw [if_pos rfl]
      right
      refine ⟨?_, rfl, hconn⟩
      rcases h.old (i, j) ha with h1 | ⟨h1, _, _⟩
      · rw [← h1]; exact hg
      · exact h1
    · rw [if_neg hai]
      exact h.old a ha
  · intro a ha
    rcases mem_pushNeighbours.mp ha with hr | ⟨hva, hadj⟩
    · obtain ⟨h1, h2⟩ := h.stk a (List.mem_cons_of_mem _ hr)
      refine ⟨h1, ?_⟩
      rcases h2 with h2 | ⟨x, hx, hgx, hadj⟩
      · exact Or.inl h2
      · exact Or.inr ⟨x, hx, hkeep x hx hgx, hadj⟩
    · have hva1 := (hvt a).mp hva
      refine ⟨hva1, Or.inr ⟨(i, j), hv, ?_, hadj⟩⟩
      rw [hnew (i, j) hv, if_pos rfl]
  · intro x hx hgx a ha hadj hca
    rw [hnew x hx] at hgx
    rw [hnew a ha]
    by_cases hai : a = (i, j)
    · left; rw [if_pos hai]
    · rw [if_neg hai]
      by_cases hxi : x = (i, j)
      · subst hxi
        right
        exact mem_pushNeighbours.mpr (Or.inr ⟨(hvt a).mpr ha, hadj⟩)
      · rw [if_neg hxi] at hgx
        rcases h.front x hx hgx a ha hadj hca with h1 | h1
        · exact Or.inl h1
        · rcases List.mem_cons.mp h1 with h1 | h1
          · exact absurd h1 hai
          · exact Or.inr (mem_pushNeighbours.mpr (Or.inl h1))
  · rcases h.start with h1 | h1
    · left
      by_cases hsv : isValid B0 s.1 s.2
      · exact hkeep s hsv h1
      · exfalso
        rcases (h.stk (i, j) (List.mem_cons_self _ _)) with ⟨_, _⟩
        have := connected_valid (connected_symm hconn) hv
        exact hsv this
    · rcases List.mem_cons.mp h1 with h1 | h1
      · left
        have hsv : isValid B0 s.1 s.2 := by rw [h1]; exact hv
        rw [hnew s hsv, if_pos h1]
      · exact Or.inr (mem_pushNeighbours.mpr (Or.inl h1))
  · simp only []
    have : (List.count (B0.groupSizes.length : Int)
        (t.dataGroups.set (i * (t.nbJ : Int) + j).toNat B0.groupSizes.length) : Int)
        = (List.count (B0.groupSizes.length : Int) t.dataGroups : Int) + 1 := by
      rw [hJ]; omega
    rw [this]
  · intro g hg1 hg2
    simp only []
    have := count_set_add g (B0.groupSizes.length : Int) (-1) t.dataGroups _ hK
    rw [hgK, if_neg (by omega), if_neg (by omega)] at this
    rw [hJ, ← h.cntOld g hg1 hg2]
    omega
  · simp only []
    have := countP_set_add (fun x => x != -1) (B0.groupSizes.length : Int) (-1) t.dataGroups _ hK
    rw [hgK] at this
    simp only [bne_self_eq_false, Bool.false_eq_true, if_false, bne_iff_ne, ne_eq, hgid,
      not_false_eq_true, if_true, add_zero] at this
    rw [hJ, this, h.lab]
    omega

/-- The popped cell is of another colour or already labelled: it is dropped. -/
theorem spreadInv_skip {B0 t : Board} {s : Int × Int} {i j : Int} {rest : List (Int × Int)}
    (h : SpreadInv B0 s t ((i, j) :: rest)) (hB : LInv B0)
    (hgs : groupAt B0 s.1 s.2 = -1)
    (hn : ¬ (colorAt B0 i j = colorAt B0 s.1 s.2 ∧ groupAt t i j = -1)) :
    SpreadInv B0 s t rest := by
  have hv : isValid B0 i j := (h.stk (i, j) (List.mem_cons_self _ _)).1
  -- a cell of the start colour that carries a label carries the new one
  have key : colorAt B0 i j = colorAt B0 s.1 s.2 →
      ((i, j) = s ∨ ∃ x : Int × Int, isValid B0 x.1 x.2 ∧
        groupAt t x.1 x.2 = B0.groupSizes.length ∧ Adj x (i, j)) →
      groupAt t i j = B0.groupSizes.length := by
    intro hc hor
    have hg : groupAt t i j ≠ -1 := fun hg => hn ⟨hc, hg⟩
    rcases h.old (i, j) hv with h1 | ⟨_, h2, _⟩
    · exfalso
      simp only at h1
      rcases hor with he | ⟨x, hx, hgx, hadj⟩
      · rw [← he] at hgs
        simp only at hgs
        rw [h1] at hg
        exact hg hgs
      · obtain ⟨hx0, hxs⟩ := (spreadInv_of_new h) hB hx hgx
        have hstep : SameStep B0 (i, j) x := ⟨hv, hx, adj_symm hadj, by rw [(connected_color hxs)]; exact hc⟩
        have := hB.closed (i, j) x hstep (by simp only; rw [← h1]; exact hg)
        simp only at this
        rw [hx0, ← h1] at this
        exact hg this.symm
    · exact h2
  constructor
  · exact h.frame
  · exact h.len
  · exact h.rngF
  · exact h.colF
  · exact h.monoF
  · exact h.old
  · intro a ha
    exact h.stk a (List.mem_cons_of_mem _ ha)
  · intro x hx hgx a ha hadj hca
    rcases h.front x hx hgx a ha hadj hca with h1 | h1
    · exact Or.inl h1
    · rcases List.mem_cons.mp h1 with h1 | h1
      · left
        subst h1
        exact key hca (Or.inr ⟨x, hx, hgx, hadj⟩)
      · exact Or.inr h1
  · rcases h.start with h1 | h1
    · exact Or.inl h1
    · rcases List.mem_cons.mp h1 with h1 | h1
      · left
        subst h1
        exact key rfl (Or.inl rfl)
      · exact Or.inr h1
  · exact h.cnt
  · exact h.cntOld
  · exact h.lab

/-- The loop of `buildGroup` ends within its fuel, with an empty stack and the invariant. -/
theorem spread_spec {B0 : Board} {s : Int × Int} (hB : LInv B0)
    (hgs : groupAt B0 s.1 s.2 = -1) (hcs : colorAt B0 s.1 s.2 ≠ -1) :
    ∀ (fuel : Nat) (t : Board) (st : List (Int × Int)), SpreadInv B0 s t st →
      4 * List.count (-1) t.dataGroups + st.length ≤ fuel →
      ∃ t1, spread (colorAt B0 s.1 s.2) B0.groupSizes.length fuel t st = some t1 ∧
        SpreadInv B0 s t1 [] := by
  intro fuel
  induction fuel with
  | zero =>
    intro t st h hf
    cases st with
    | nil => exact ⟨t, by simp [spread], h⟩
    | cons a rest => simp at hf
  | succ fuel ih =>
    intro t st h hf
    cases st with
    | nil => exact ⟨t, by simp [spread], h⟩
    | cons a rest =>
      obtain ⟨i, j⟩ := a
      have hJ := (spreadInv_nbJ h)
      have hI := (spreadInv_nbI h)
      have hC := (spreadInv_dataColors h)
      have hv : isValid B0 i j := (h.stk (i, j) (List.mem_cons_self _ _)).1
      have hvt : isValid t i j := by unfold isValid at hv ⊢; rw [hI, hJ]; exact hv
      have hwt : WellSized t := by
        unfold WellSized; rw [hC, hI, hJ, h.len]; exact hB.ws
      have hcol : colorAt t i j = colorAt B0 i j := by unfold colorAt; rw [hC, hJ]
      have hK : (i * (t.nbJ : Int) + j).toNat < t.dataGroups.length := by
        rw [hwt.2]; exact idx_toNat_lt hvt
      have hgsl : t.groupSizes.length = B0.groupSizes.length + 1 := by
        rw [h.cnt]; simp
      by_cases hcond : colorAt t i j = colorAt B0 s.1 s.2 ∧ groupAt t i j = -1
      · have hlab := (spreadInv_label h) hB (hcol ▸ hcond.1) hcs hcond.2
        have hcount := count_set_add (-1) (B0.groupSizes.length : Int) (-1) t.dataGroups _ hK
        have hg1 : t.dataGroups.getD (i * (t.nbJ : Int) + j).toNat (-1) = -1 := hcond.2
        rw [hg1, if_pos rfl, if_neg (by omega)] at hcount
        have hlen := length_pushNeighbours_le t i j rest
        obtain ⟨t1, ht1, hinv⟩ := ih _ _ hlab (by
          simp only [List.length_cons] at hf ⊢
          omega)
        refine ⟨t1, ?_, hinv⟩
        rw [← ht1]
        have e1 : vset t.dataGroups (i * (t.nbJ : Int) + j) (B0.groupSizes.length : Int)
            = some (t.dataGroups.set (i * (t.nbJ : Int) + j).toNat B0.groupSizes.length) :=
          vset_of_lt _ _ _ (idx_nonneg hvt) hK
        have e2 : vget t.groupSizes (B0.groupSizes.length : Int)
            = some ((List.count (B0.groupSizes.length : Int) t.dataGroups : Nat) : Int) := by
          rw [vget_of_lt _ _ 0 (by omega) (by simp [hgsl])]
          rw [h.cnt]
          simp only [Int.toNat_ofNat]
          rw [getD_append_last]
        have e3 : vset t.groupSizes (B0.groupSizes.length : Int)
            ((List.count (B0.groupSizes.length : Int) t.dataGroups : Int) + 1)
            = some (B0.groupSizes ++
                [(List.count (B0.groupSizes.length : Int) t.dataGroups : Int) + 1]) := by
          rw [vset_of_lt _ _ _ (by omega) (by simp [hgsl])]
          simp only [Int.toNat_ofNat]
          conv_lhs => rw [h.cnt]
          rw [set_append_last]
        simp only [spread, ind_of_valid hvt, vget_colors hwt hvt, vget_groups hwt hvt, hcond.1,
          hcond.2, if_true, e1, e2, e3]
      · have hskip := (spreadInv_skip h) hB hgs (hcol ▸ hcond)
        obtain ⟨t1, ht1, hinv⟩ := ih _ _ hskip (by
          simp only [List.length_cons] at hf
          omega)
        refine ⟨t1, ?_, hinv⟩
        rw [← ht1]
        by_cases hc1 : colorAt t i j = colorAt B0 s.1 s.2
        · have hg1 : ¬ groupAt t i j = -1 := fun hg => hcond ⟨hc1, hg⟩
          simp only [spread, ind_of_valid hvt, vget_colors hwt hvt, vget_groups hwt hvt, hc1,
            if_true]
          rw [if_neg hg1]
        · simp only [spread, ind_of_valid hvt, vget_colors hwt hvt]
          rw [if_neg hc1]

theorem spreadInv_init {B0 : Board} (hB : LInv B0) (s : Int × Int) (hs : isValid B0 s.1 s.2) :
    SpreadInv B0 s { B0 with groupSizes := B0.groupSizes ++ [0] } [s] := by
  have hzero : List.count (B0.groupSizes.length : Int) B0.dataGroups = 0 := by
    rw [List.count_eq_zero]
    intro hm
    rcases hB.rng _ hm with h | h <;> omega
  constructor
  · rfl
  · rfl
  · intro x hx
    rcases hB.rng x hx with h | h
    · exact Or.inl h
    · exact Or.inr ⟨h.1, by omega⟩
  · exact hB.col
  · intro k _; rfl
  · intro a _; exact Or.inl rfl
  · intro a ha
    rw [List.mem_singleton] at ha
    subst ha
    exact ⟨hs, Or.inl rfl⟩
  · intro x hx hgx
    exact absurd hgx ((group_ne_size hB) hx)
  · exact Or.inr (List.mem_singleton_self s)
  · simp only [hzero]; rfl
  · intro g _ _; rfl
  · simp only [hzero, add_zero]

/-- When the stack is empty the new id labels the whole component of the start cell. -/
theorem spreadInv_all_reached {B0 t : Board} {s : Int × Int} (h : SpreadInv B0 s t [])
    {c : Int × Int} (hc : Connected B0 s c) :
    groupAt t c.1 c.2 = B0.groupSizes.length := by
  induction hc with
  | refl =>
    rcases h.start with h1 | h1
    · exact h1
    · simp at h1
  | tail hx hstep ih =>
    rename_i x c
    have hcol : colorAt B0 c.1 c.2 = colorAt B0 s.1 s.2 := by
      rw [← hstep.2.2.2]; exact connected_color hx
    rcases h.front x hstep.1 ih c hstep.2.1 hstep.2.2.1 hcol with h1 | h1
    · exact h1
    · simp at h1

theorem spreadInv_finish_LInv {B0 t : Board} {s : Int × Int} (h : SpreadInv B0 s t [])
    (hB : LInv B0) : LInv t := by
  have hJ := (spreadInv_nbJ h)
  have hI := (spreadInv_nbI h)
  have hC := (spreadInv_dataColors h)
  have hgsl : t.groupSizes.length = B0.groupSizes.length + 1 := by rw [h.cnt]; simp
  have hval : ∀ a : Int × Int, isValid t a.1 a.2 ↔ isValid B0 a.1 a.2 := by
    intro a; unfold isValid; rw [hI, hJ]
  have hstep : SameStep t = SameStep B0 := SameStep_congr hI hJ hC
  have hconn : Connected t = Connected B0 := Connected_congr hI hJ hC
  constructor
  · unfold WellSized; rw [hC, hI, hJ, h.len]; exact hB.ws
  · intro x hx
    rcases h.rngF x hx with h1 | h1
    · exact Or.inl h1
    · right; rw [hgsl]; push_cast; omega
  · intro k hk hne
    rw [hC]; exact h.colF k hk hne
  · intro a c hac hga
    rw [hstep] at hac
    rcases h.old a hac.1 with h1 | ⟨_, h2, h3⟩
    · rw [h1] at hga ⊢
      have hcl := hB.closed a c hac hga
      rcases h.old c hac.2.1 with h4 | ⟨h4, _, _⟩
      · rw [h4]; exact hcl
      · rw [h4] at hcl; exact absurd hcl.symm hga
    · rw [h2]
      have hcol : colorAt B0 c.1 c.2 = colorAt B0 s.1 s.2 := by
        rw [← hac.2.2.2]; exact (connected_color h3)
      rcases h.front a hac.1 h2 c hac.2.1 hac.2.2.1 hcol with h5 | h5
      · exact h5
      · simp at h5
  · intro a c ha hc hga hgac
    rw [hconn]
    rw [hval] at ha hc
    rcases h.old a ha with h1 | ⟨_, h2, h3⟩
    · rcases h.old c hc with h4 | ⟨_, h5, _⟩
      · exact LInv.conn hB a c ha hc (h1 ▸ hga) (by rw [← h1, ← h4]; exact hgac)
      · exfalso
        rw [h5, h1] at hgac
        exact group_ne_size hB ha hgac
    · rcases h.old c hc with h4 | ⟨_, _, h6⟩
      · exfalso
        rw [h2, h4] at hgac
        exact group_ne_size hB hc hgac.symm
      · exact Relation.ReflTransGen.trans (connected_symm h3) h6
  · intro g hg
    rw [hgsl] at hg
    by_cases hgl : g = B0.groupSizes.length
    · subst hgl
      rw [h.cnt, getD_append_last]
    · have hlt : g < B0.groupSizes.length := by omega
      rw [h.cntOld g (by omega) (by omega), ← LInv.cnt hB g hlt]
      conv_lhs => rw [h.cnt]
      exact getD_append_left _ _ _ _ hlt
  · rw [h.cnt, List.sum_append, LInv.sum hB, h.lab]
    simp

theorem spreadInv_finish_SInv {B0 t : Board} {s : Int × Int} (h : SpreadInv B0 s t [])
    (hB : LInv B0) (hS : SInv (s.1 * B0.nbJ + s.2) B0) (hs : isValid B0 s.1 s.2)
    (hcs : colorAt B0 s.1 s.2 ≠ -1) : SInv (s.1 * B0.nbJ + s.2 + 1) t := by
  have hJ := (spreadInv_nbJ h)
  have hI := (spreadInv_nbI h)
  have hC := (spreadInv_dataColors h)
  have hgsl : t.groupSizes.length = B0.groupSizes.length + 1 := by rw [h.cnt]; simp
  have hval : ∀ a : Int × Int, isValid t a.1 a.2 ↔ isValid B0 a.1 a.2 := by
    intro a; unfold isValid; rw [hI, hJ]
  have hstart : groupAt t s.1 s.2 = B0.groupSizes.length :=
    (spreadInv_all_reached h) Relation.ReflTransGen.refl
  -- an old label is kept
  have hkeep : ∀ (a : Int × Int) (g : Nat), isValid B0 a.1 a.2 → groupAt B0 a.1 a.2 = g →
      groupAt t a.1 a.2 = g := by
    intro a g ha hg
    rcases h.old a ha with h1 | ⟨h1, _, _⟩
    · rw [h1]; exact hg
    · rw [h1] at hg; omega
  -- a cell with the new label is not before the start cell
  have hnew : ∀ c : Int × Int, isValid B0 c.1 c.2 → groupAt t c.1 c.2 = B0.groupSizes.length →
      s.1 * (B0.nbJ : Int) + s.2 ≤ c.1 * B0.nbJ + c.2 := by
    intro c hc hgc
    obtain ⟨h0, hsc⟩ := (spreadInv_of_new h) hB hc hgc
    by_contra hlt
    have hnn := idx_nonneg hc
    have hd := hS.done (c.1 * (B0.nbJ : Int) + c.2).toNat (by omega)
      (by rw [hB.ws.2]; exact idx_toNat_lt hc)
      (by
        have : colorAt B0 c.1 c.2 ≠ -1 := by rw [(connected_color hsc)]; exact hcs
        exact this)
    exact hd h0
  constructor
  · intro k hk hlen hcol
    by_cases hkp : (k : Int) < s.1 * B0.nbJ + s.2
    · have := hS.done k hkp (by rw [← h.len]; exact hlen) (by rw [← hC]; exact hcol)
      rw [h.monoF k this]; exact this
    · have hk2 : k = (s.1 * (B0.nbJ : Int) + s.2).toNat := by omega
      have : t.dataGroups.getD k (-1) = B0.groupSizes.length := by
        rw [hk2]
        have := hstart
        unfold groupAt at this
        rw [hJ] at this
        exact this
      rw [this]; omega
  · intro g hg
    rw [hgsl] at hg
    by_cases hgl : g = B0.groupSizes.length
    · subst hgl
      exact ⟨s, (hval s).mpr hs, by rw [hJ]; omega, hstart⟩
    · obtain ⟨a, ha, hlt, hga⟩ := hS.seen g (by omega)
      exact ⟨a, (hval a).mpr ha, by rw [hJ]; omega, hkeep a g ha hga⟩
  · intro g k hgk hk
    rw [hgsl] at hk
    by_cases hkl : k = B0.groupSizes.length
    · subst hkl
      obtain ⟨a, ha, hlt, hga⟩ := hS.seen g hgk
      refine ⟨a, (hval a).mpr ha, hkeep a g ha hga, ?_⟩
      intro c hc hgc
      have := hnew c ((hval c).mp hc) hgc
      rw [hJ]; omega
    · obtain ⟨a, ha, hga, hall⟩ := hS.ord g k hgk (by omega)
      refine ⟨a, (hval a).mpr ha, hkeep a g ha hga, ?_⟩
      intro c hc hgc
      rw [hJ]
      apply hall c ((hval c).mp hc)
      rcases h.old c ((hval c).mp hc) with h1 | ⟨_, h2, _⟩
      · rw [← h1]; exact hgc
      · rw [h2] at hgc
        have : (B0.groupSizes.length : Int) = (k : Int) := hgc
        omega

/-- One call of `buildGroup` during the scan. -/
theorem buildGroup_spec {t : Board} {i0 j0 : Int} (hB : LInv t) (hv : isValid t i0 j0)
    (hS : SInv (i0 * t.nbJ + j0) t) :
    ∃ t1, buildGroup t i0 j0 = some t1 ∧
      t1 = { t with dataGroups := t1.dataGroups, groupSizes := t1.groupSizes } ∧
      LInv t1 ∧ SInv (i0 * t.nbJ + j0 + 1) t1 := by
  by_cases hcond : groupAt t i0 j0 = -1 ∧ colorAt t i0 j0 ≠ -1
  · have hinit := spreadInv_init hB (i0, j0) hv
    obtain ⟨t1, ht1, hinv⟩ := spread_spec (s := (i0, j0)) hB hcond.1 hcond.2
      (spreadFuel t) _ _ hinit (by
        have := List.count_le_length (-1 : Int) t.dataGroups
        simp only [spreadFuel, List.length_singleton]
        omega)
    refine ⟨t1, ?_, hinv.frame, (spreadInv_finish_LInv hinv) hB, (spreadInv_finish_SInv hinv) hB hS hv hcond.2⟩
    simp only [buildGroup, ind_of_valid hv, vget_colors hB.ws hv, vget_groups hB.ws hv, hcond,
      ne_eq, not_false_eq_true, and_self, if_true]
    exact ht1
  · refine ⟨t, ?_, rfl, hB, ?_⟩
    · simp only [buildGroup, ind_of_valid hv, vget_colors hB.ws hv, vget_groups hB.ws hv]
      rw [if_neg hcond]
    · constructor
      · intro k hk hlen hcol
        by_cases hkp : (k : Int) < i0 * t.nbJ + j0
        · exact hS.done k hkp hlen hcol
        · have hnn := idx_nonneg hv
          have hk2 : k = (i0 * (t.nbJ : Int) + j0).toNat := by omega
          subst hk2
          intro hg
          exact hcond ⟨hg, hcol⟩
      · intro g hg
        obtain ⟨a, ha, hlt, hga⟩ := hS.seen g hg
        exact ⟨a, ha, by omega, hga⟩
      · exact hS.ord

theorem gframe_trans {a b c : Board} (h1 : GFrame a b) (h2 : GFrame b c) : GFrame a c := by
  unfold GFrame at *
  cases a; cases b; cases c
  simp only [Board.mk.injEq] at h1 h2 ⊢
  obtain ⟨a1, a2, a3, a4, a5, -, -, a8, a9, a10, a11⟩ := h1
  obtain ⟨c1, c2, c3, c4, c5, -, -, c8, c9, c10, c11⟩ := h2
  exact ⟨c1.trans a1, c2.trans a2, c3.trans a3, c4.trans a4, c5.trans a5, trivial, trivial,
    c8.trans a8, c9.trans a9, c10.trans a10, c11.trans a11⟩

theorem gframe_nbI {b t : Board} (h : GFrame b t) : t.nbI = b.nbI := by
  unfold GFrame at h
  have := congrArg Board.nbI h
  exact this

theorem gframe_nbJ {b t : Board} (h : GFrame b t) : t.nbJ = b.nbJ := by
  unfold GFrame at h
  have := congrArg Board.nbJ h
  exact this

theorem gframe_dataColors {b t : Board} (h : GFrame b t) : t.dataColors = b.dataColors := by
  unfold GFrame at h
  have := congrArg Board.dataColors h
  exact this

theorem getD_replicate_self (n k : Nat) (x : Int) : (List.replicate n x).getD k x = x := by
  induction n generalizing k with
  | zero => rfl
  | succ n ih =>
    cases k with
    | zero => rfl
    | succ k => simp [List.replicate_succ]

theorem lInv_init {b : Board} (hw : WellSized b) :
    LInv { b with dataGroups := List.replicate b.dataGroups.length (-1), groupSizes := [] } := by
  have hg : ∀ a : Int × Int, groupAt
      { b with dataGroups := List.replicate b.dataGroups.length (-1), groupSizes := [] } a.1 a.2
      = -1 := fun a => getD_replicate_self _ _ _
  constructor
  · exact ⟨hw.1, by simp only [List.length_replicate]; exact hw.2⟩
  · intro x hx
    exact Or.inl (List.eq_of_mem_replicate hx)
  · intro k _ hne
    exact absurd (getD_replicate_self _ _ _) hne
  · intro a c _ hne
    exact absurd (hg a) hne
  · intro a c _ _ hne
    exact absurd (hg a) hne
  · intro g hg
    simp at hg
  · simp only [List.sum_nil]
    rw [List.countP_eq_zero.mpr]
    · rfl
    · intro x hx
      rw [List.eq_of_mem_replicate hx]
      simp

theorem sInv_init (t : Board) (hg : t.groupSizes = []) : SInv 0 t := by
  constructor
  · intro k hk; omega
  · intro g hlt; rw [hg] at hlt; simp at hlt
  · intro g h _ hlt; rw [hg] at hlt; simp at hlt

/-- The labelling runs to completion on every well-sized board and establishes the
labelling invariants for all cells. -/
theorem findGroups_spec (b : Board) (hw : WellSized b) :
    ∃ b1, findGroups b = some b1 ∧ GFrame b b1 ∧ LInv b1 ∧ SInv ((b.nbI : Int) * b.nbJ) b1 := by
  have hb0 : GFrame b
      { b with dataGroups := List.replicate b.dataGroups.length (-1), groupSizes := [] } := rfl
  obtain ⟨b1, h1, hf, hL, hS⟩ := forRange_spec
    (fun b1 i => forRange 0 b1.nbJ (fun b2 j => buildGroup b2 i j) b1)
    (fun i t => GFrame b t ∧ LInv t ∧ SInv (i * (b.nbJ : Int)) t)
    0 b.nbI
    { b with dataGroups := List.replicate b.dataGroups.length (-1), groupSizes := [] }
    (Int.ofNat_nonneg _)
    ⟨hb0, lInv_init hw, by rw [zero_mul]; exact sInv_init _ rfl⟩
    (by
      intro i t hi0 hi1 ⟨hf, hL, hS⟩
      have hJ := (gframe_nbJ hf)
      have hI := (gframe_nbI hf)
      obtain ⟨t1, ht1, hf1, hL1, hS1⟩ := forRange_spec
        (fun b2 j => buildGroup b2 i j)
        (fun j t1 => GFrame b t1 ∧ LInv t1 ∧ SInv (i * (b.nbJ : Int) + j) t1)
        0 t.nbJ t (Int.ofNat_nonneg _)
        ⟨hf, hL, by rw [add_zero]; exact hS⟩
        (by
          intro j u hj0 hj1 ⟨hfu, hLu, hSu⟩
          have hJu := (gframe_nbJ hfu)
          have hIu := (gframe_nbI hfu)
          have hv : isValid u i j := by
            unfold isValid; rw [hIu, hJu]; rw [hJ] at hj1; exact ⟨hi0, hi1, hj0, hj1⟩
          rw [← hJu] at hSu
          obtain ⟨u1, hu1, hfu1, hLu1, hSu1⟩ := buildGroup_spec hLu hv hSu
          refine ⟨u1, hu1, gframe_trans hfu hfu1, hLu1, ?_⟩
          rw [hJu] at hSu1
          rw [← add_assoc]
          exact hSu1)
      refine ⟨t1, ht1, hf1, hL1, ?_⟩
      rw [hJ] at hS1
      have e : (i + 1) * (b.nbJ : Int) = i * b.nbJ + b.nbJ := by ring
      rw [e]
      exact hS1)
  exact ⟨b1, h1, hf, hL, hS⟩

/-! ## Cells in row-major order -/

theorem cellOf_idx (b : Board) (k : Nat) :
    (cellOf b k).1 * (b.nbJ : Int) + (cellOf b k).2 = k := by
  unfold cellOf
  simp only
  have := Nat.div_add_mod k b.nbJ
  have e : ((k / b.nbJ : Nat) : Int) * (b.nbJ : Int) + ((k % b.nbJ : Nat) : Int)
      = ((b.nbJ * (k / b.nbJ) + k % b.nbJ : Nat) : Int) := by push_cast; ring
  rw [e, this]

theorem cellOf_valid (b : Board) (k : Nat) (hk : k < b.nbI * b.nbJ) :
    isValid b (cellOf b k).1 (cellOf b k).2 := by
  have hJ : 0 < b.nbJ := by
    rcases Nat.eq_zero_or_pos b.nbJ with h | h
    · rw [h] at hk; simp at hk
    · exact h
  unfold cellOf isValid
  simp only
  refine ⟨Int.ofNat_nonneg _, ?_, Int.ofNat_nonneg _, ?_⟩
  · exact_mod_cast (Nat.div_lt_iff_lt_mul hJ).mpr hk
  · exact_mod_cast Nat.mod_lt k hJ

theorem cellOf_of_valid (b : Board) {i j : Int} (h : isValid b i j) :
    cellOf b (i * b.nbJ + j).toNat = (i, j) := by
  have hv := cellOf_valid b (i * b.nbJ + j).toNat (idx_toNat_lt h)
  have hi := cellOf_idx b (i * b.nbJ + j).toNat
  have hn := idx_nonneg h
  rw [Int.toNat_of_nonneg hn] at hi
  have := idx_inj hv h hi
  exact Prod.ext this.1 this.2

theorem mem_cells {b : Board} {a : Int × Int} : a ∈ cells b ↔ isValid b a.1 a.2 := by
  unfold cells
  rw [List.mem_map]
  constructor
  · rintro ⟨k, hk, rfl⟩
    exact cellOf_valid b k (List.mem_range.mp hk)
  · intro h
    exact ⟨(a.1 * b.nbJ + a.2).toNat, List.mem_range.mpr (idx_toNat_lt h), cellOf_of_valid b h⟩

theorem map_getD_range (v : List Int) (d : Int) :
    (List.range v.length).map (fun k => v.getD k d) = v := by
  apply List.ext_getElem
  · simp
  · intro k h1 h2
    simp only [List.getElem_map, List.getElem_range]
    rw [List.getD_eq_getElem?_getD, List.getElem?_eq_getElem h2]
    rfl

theorem cells_map_groupAt (b : Board) (hw : WellSized b) :
    (cells b).map (fun a => groupAt b a.1 a.2) = b.dataGroups := by
  unfold cells
  rw [List.map_map]
  have : ((fun a : Int × Int => groupAt b a.1 a.2) ∘ cellOf b)
      = fun k => b.dataGroups.getD k (-1) := by
    funext k
    simp only [Function.comp, groupAt, cellOf_idx, Int.toNat_ofNat]
  rw [this, ← hw.2]
  exact map_getD_range _ _

theorem cells_map_colorAt (b : Board) (hw : WellSized b) :
    (cells b).map (fun a => colorAt b a.1 a.2) = b.dataColors := by
  unfold cells
  rw [List.map_map]
  have : ((fun a : Int × Int => colorAt b a.1 a.2) ∘ cellOf b)
      = fun k => b.dataColors.getD k (-1) := by
    funext k
    simp only [Function.comp, colorAt, cellOf_idx, Int.toNat_ofNat]
  rw [this, ← hw.1]
  exact map_getD_range _ _

/-- Counting a group id in the label vector counts the cells that carry it. -/
theorem count_groups_eq_cells (b : Board) (hw : WellSized b) (g : Int) :
    List.count g b.dataGroups = ((cells b).filter (fun a => groupAt b a.1 a.2 = g)).length := by
  conv_lhs => rw [← cells_map_groupAt b hw]
  rw [List.count, List.countP_map, List.countP_eq_length_filter]
  congr 1

theorem countP_colors_eq_cells (b : Board) (hw : WellSized b) :
    List.countP (fun x => x != -1) b.dataColors
      = ((cells b).filter (fun a => colorAt b a.1 a.2 ≠ -1)).length := by
  conv_lhs => rw [← cells_map_colorAt b hw]
  rw [List.countP_map, List.countP_eq_length_filter]
  congr 1
  apply List.filter_congr
  intro a _
  by_cases h : colorAt b a.1 a.2 = -1 <;> simp [h]

theorem countP_congr_getD (p q : Int → Bool) (d : Int) :
    ∀ (l1 l2 : List Int), l1.length = l2.length →
      (∀ k, k < l1.length → p (l1.getD k d) = q (l2.getD k d)) →
      List.countP p l1 = List.countP q l2 := by
  intro l1
  induction l1 with
  | nil =>
    intro l2 hl _
    cases l2 with
    | nil => rfl
    | cons y ys => simp at hl
  | cons x xs ih =>
    intro l2 hl hp
    cases l2 with
    | nil => simp at hl
    | cons y ys =>
      have h0 := hp 0 (by simp)
      simp only [List.getD_cons_zero] at h0
      have hrest := ih ys (by simpa using hl) (fun k hk => by
        have := hp (k + 1) (by simpa using hk)
        simpa using this)
      simp only [List.countP_cons, h0, hrest]

theorem closed_conn {t : Board} (hL : LInv t) {a c : Int × Int} (h : Connected t a c)
    (hg : groupAt t a.1 a.2 ≠ -1) : groupAt t c.1 c.2 = groupAt t a.1 a.2 := by
  induction h with
  | refl => rfl
  | tail _ hs ih =>
    rw [← ih]
    exact hL.closed _ _ hs (by rw [ih]; exact hg)

/-- A labelled cell exactly when the cell is not empty. -/
theorem labelled_iff {t : Board} (hL : LInv t) (hS : SInv ((t.nbI : Int) * t.nbJ) t)
    {i j : Int} (hv : isValid t i j) : groupAt t i j = -1 ↔ colorAt t i j = -1 := by
  have hk : (i * (t.nbJ : Int) + j).toNat < t.dataGroups.length := by
    rw [hL.ws.2]; exact idx_toNat_lt hv
  constructor
  · intro hg
    by_contra hc
    have hlt := idx_lt hv
    have hnn := idx_nonneg hv
    exact hS.done _ (by omega) hk hc hg
  · intro hc
    by_contra hg
    exact hL.col _ hk hg hc

/-! ## Claims about `findGroups` -/

/-- C1: on every grid whose two cell vectors have `nbI * nbJ` entries, `findGroups` returns;
it changes nothing but the labels and sizes; afterwards a cell has group id `-1` iff its
colour is `-1`, and two non-empty cells have the same group id iff they are joined by a path
of in-bounds 4-adjacent cells of one colour. -/
theorem findGroups_components (b : Board) (hw : WellSized b) :
    ∃ b1, findGroups b = some b1 ∧ GFrame b b1 ∧
      (∀ i j, isValid b i j → (groupAt b1 i j = -1 ↔ colorAt b i j = -1)) ∧
      (∀ a c : Int × Int, isValid b a.1 a.2 → isValid b c.1 c.2 →
        colorAt b a.1 a.2 ≠ -1 → colorAt b c.1 c.2 ≠ -1 →
        (groupAt b1 a.1 a.2 = groupAt b1 c.1 c.2 ↔ Connected b a c)) := by
  obtain ⟨b1, h1, hf, hL, hS⟩ := findGroups_spec b hw
  have hI := (gframe_nbI hf)
  have hJ := (gframe_nbJ hf)
  have hC := (gframe_dataColors hf)
  have hval : ∀ i j, isValid b1 i j ↔ isValid b i j := by
    intro i j; unfold isValid; rw [hI, hJ]
  have hcol : ∀ i j, colorAt b1 i j = colorAt b i j := by
    intro i j; unfold colorAt; rw [hC, hJ]
  rw [← hI, ← hJ] at hS
  refine ⟨b1, h1, hf, ?_, ?_⟩
  · intro i j hv
    rw [← hcol]
    exact labelled_iff hL hS ((hval i j).mpr hv)
  · intro a c ha hc hca hcc
    rw [← Connected_congr hI hJ hC]
    have hga : groupAt b1 a.1 a.2 ≠ -1 := by
      intro hg
      exact hca ((hcol _ _) ▸ (labelled_iff hL hS ((hval _ _).mpr ha)).mp hg)
    constructor
    · intro he
      exact hL.conn a c ((hval _ _).mpr ha) ((hval _ _).mpr hc) hga he
    · intro hconn
      exact ((closed_conn hL) hconn hga).symm

/-- C1, instance: the theorem applied to the sample grid. -/
theorem findGroups_components_witness :
    WellSized sampleGrid ∧
    ∃ b1, findGroups sampleGrid = some b1 ∧ GFrame sampleGrid b1 ∧
      (∀ i j, isValid sampleGrid i j → (groupAt b1 i j = -1 ↔ colorAt sampleGrid i j = -1)) ∧
      (∀ a c : Int × Int, isValid sampleGrid a.1 a.2 → isValid sampleGrid c.1 c.2 →
        colorAt sampleGrid a.1 a.2 ≠ -1 → colorAt sampleGrid c.1 c.2 ≠ -1 →
        (groupAt b1 a.1 a.2 = groupAt b1 c.1 c.2 ↔ Connected sampleGrid a c)) :=
  ⟨by decide, findGroups_components sampleGrid (by decide)⟩

theorem exists_firstCell {t : Board} {g : Int} {a0 : Int × Int} (h0 : isValid t a0.1 a0.2)
    (hg0 : groupAt t a0.1 a0.2 = g) : ∃ a, FirstCell t g a := by
  classical
  have hex : ∃ n : Nat, ∃ a : Int × Int, isValid t a.1 a.2 ∧ groupAt t a.1 a.2 = g ∧
      (a.1 * (t.nbJ : Int) + a.2).toNat = n := ⟨_, a0, h0, hg0, rfl⟩
  obtain ⟨a, ha, hga, hn⟩ := Nat.find_spec hex
  refine ⟨a, ha, hga, ?_⟩
  intro c hc hgc
  have hmin := Nat.find_min' hex ⟨c, hc, hgc, rfl⟩
  have h1 := idx_nonneg ha
  have h2 := idx_nonneg hc
  omega

/-- C10: after `findGroups` the group ids in use are exactly `0 .. k-1` with
`k = groupSizes.size()`: every cell carries `-1` or an id below `k`, and every id below `k`
has a first cell in row-major order; for ids `g < h` the first cell of `g` comes strictly
before the first cell of `h`; and the first non-empty cell of the grid has id `0`. -/
theorem findGroups_discovery_order (b : Board) (hw : WellSized b) :
    ∃ b1, findGroups b = some b1 ∧
      (∀ i j, isValid b1 i j →
        groupAt b1 i j = -1 ∨ (0 ≤ groupAt b1 i j ∧ groupAt b1 i j < b1.groupSizes.length)) ∧
      (∀ g : Nat, g < b1.groupSizes.length → ∃ a, FirstCell b1 g a) ∧
      (∀ (g h : Nat) (ag ah : Int × Int), g < h → h < b1.groupSizes.length →
        FirstCell b1 g ag → FirstCell b1 h ah →
        ag.1 * (b1.nbJ : Int) + ag.2 < ah.1 * b1.nbJ + ah.2) ∧
      (∀ a : Int × Int, isValid b1 a.1 a.2 → colorAt b1 a.1 a.2 ≠ -1 →
        (∀ c : Int × Int, isValid b1 c.1 c.2 → colorAt b1 c.1 c.2 ≠ -1 →
          a.1 * (b1.nbJ : Int) + a.2 ≤ c.1 * b1.nbJ + c.2) →
        groupAt b1 a.1 a.2 = 0) := by
  obtain ⟨b1, h1, hf, hL, hS⟩ := findGroups_spec b hw
  rw [← (gframe_nbI hf), ← (gframe_nbJ hf)] at hS
  have hrng : ∀ i j, isValid b1 i j →
      groupAt b1 i j = -1 ∨ (0 ≤ groupAt b1 i j ∧ groupAt b1 i j < b1.groupSizes.length) := by
    intro i j hv
    exact hL.rng _ (getD_mem (by rw [hL.ws.2]; exact idx_toNat_lt hv) (-1))
  refine ⟨b1, h1, hrng, ?_, ?_, ?_⟩
  · intro g hg
    obtain ⟨a, ha, _, hga⟩ := hS.seen g hg
    exact exists_firstCell ha hga
  · intro g h ag ah hgh hh hfg hfh
    obtain ⟨a, ha, hga, hall⟩ := hS.ord g h hgh hh
    have h1 := hfg.2.2 a ha hga
    have h2 := hall ah hfh.1 hfh.2.1
    omega
  · intro a ha hca hfirst
    have hga : groupAt b1 a.1 a.2 ≠ -1 := fun hg => hca ((labelled_iff hL hS ha).mp hg)
    rcases hrng a.1 a.2 ha with h0 | ⟨h0, h1⟩
    · exact absurd h0 hga
    · by_contra hne
      have hpos : 0 < (groupAt b1 a.1 a.2).toNat := by omega
      have hlt : (groupAt b1 a.1 a.2).toNat < b1.groupSizes.length := by omega
      obtain ⟨c, hc, hgc, hall⟩ := hS.ord 0 _ hpos hlt
      have hcc : colorAt b1 c.1 c.2 ≠ -1 := by
        intro hcc
        have := (labelled_iff hL hS hc).mpr hcc
        rw [hgc] at this
        simp at this
      have h2 := hall a ha (by omega)
      have h3 := hfirst c hc hcc
      omega

/-- C10, instance: the theorem applied to the sample grid. -/
theorem findGroups_discovery_order_witness :
    WellSized sampleGrid ∧
    ∃ b1, findGroups sampleGrid = some b1 ∧
      (∀ i j, isValid b1 i j →
        groupAt b1 i j = -1 ∨ (0 ≤ groupAt b1 i j ∧ groupAt b1 i j < b1.groupSizes.length)) ∧
      (∀ g : Nat, g < b1.groupSizes.length → ∃ a, FirstCell b1 g a) ∧
      (∀ (g h : Nat) (ag ah : Int × Int), g < h → h < b1.groupSizes.length →
        FirstCell b1 g ag → FirstCell b1 h ah →
        ag.1 * (b1.nbJ : Int) + ag.2 < ah.1 * b1.nbJ + ah.2) ∧
      (∀ a : Int × Int, isValid b1 a.1 a.2 → colorAt b1 a.1 a.2 ≠ -1 →
        (∀ c : Int × Int, isValid b1 c.1 c.2 → colorAt b1 c.1 c.2 ≠ -1 →
          a.1 * (b1.nbJ : Int) + a.2 ≤ c.1 * b1.nbJ + c.2) →
        groupAt b1 a.1 a.2 = 0) :=
  ⟨by decide, findGroups_discovery_order sampleGrid (by decide)⟩

/-! ## Move enumeration -/

theorem findMovesCell_spec {t : Board} {i j : Int} (hw : WellSized t) (hv : isValid t i j)
    (hg : colorAt t i j ≠ -1 →
      0 ≤ groupAt t i j ∧ groupAt t i j < (t.groupSizes.length : Int))
    (ms : List Move) :
    findMovesCell { t with moves := ms } i j
      = some { t with moves := ms ++ (if playable t (i, j) then [moveAt t (i, j)] else []) } := by
  have hv1 : isValid { t with moves := ms } i j := hv
  have hw1 : WellSized { t with moves := ms } := hw
  have hc : vget t.dataColors (i * (t.nbJ : Int) + j) = some (colorAt t i j) :=
    vget_colors hw hv
  have hgr : vget t.dataGroups (i * (t.nbJ : Int) + j) = some (groupAt t i j) :=
    vget_groups hw hv
  unfold findMovesCell
  rw [ind_of_valid hv1]
  simp only [hc, hgr]
  by_cases hcol : colorAt t i j = -1
  · have hnp : ¬ playable t (i, j) := fun h => h.1 hcol
    simp [hcol, hnp]
  · obtain ⟨h0, h1⟩ := hg hcol
    have hsz : vget t.groupSizes (groupAt t i j) = some (sizeAt t (i, j)) :=
      vget_of_lt _ _ 0 h0 (by omega)
    rw [if_pos hcol, if_pos ⟨h0, h1⟩]
    simp only [hsz]
    by_cases hs : sizeAt t (i, j) > 1
    · have hp : playable t (i, j) := ⟨hcol, hs⟩
      rw [if_pos hs, if_pos hp]
      rfl
    · have hnp : ¬ playable t (i, j) := fun h => hs h.2
      rw [if_neg hs, if_neg hnp]
      simp

theorem range_toNat_succ (p : Int) (hp : 0 ≤ p) :
    List.range (p + 1).toNat = List.range p.toNat ++ [p.toNat] := by
  have : (p + 1).toNat = p.toNat + 1 := by omega
  rw [this, List.range_succ]

/-- `findMoves` returns on every board whose non-empty cells carry a valid group id; it
changes the move list only, to the entries of the playable cells in row-major order. -/
theorem findMoves_spec (t : Board) (hw : WellSized t)
    (hg : ∀ i j, isValid t i j → colorAt t i j ≠ -1 →
      0 ≤ groupAt t i j ∧ groupAt t i j < (t.groupSizes.length : Int)) :
    ∃ t1, findMoves t = some t1 ∧ MFrame t t1 ∧
      t1.moves = ((cells t).filter (fun a => playable t a)).map (moveAt t) := by
  obtain ⟨t1, h1, ms, hms, hfr⟩ := forRange_spec
    (fun b1 i => forRange 0 b1.nbJ (fun b2 j => findMovesCell b2 i j) b1)
    (fun i u => ∃ ms, ms = (((List.range (i * (t.nbJ : Int)).toNat).map (cellOf t)).filter
        (fun a => playable t a)).map (moveAt t) ∧ u = { t with moves := ms })
    0 t.nbI { t with moves := [] } (Int.ofNat_nonneg _)
    ⟨[], by simp, rfl⟩
    (by
      rintro i u hi0 hi1 ⟨ms, hms, rfl⟩
      obtain ⟨u1, hu1, ms1, hms1, hfr1⟩ := forRange_spec
        (fun b2 j => findMovesCell b2 i j)
        (fun j u => ∃ ms, ms = (((List.range (i * (t.nbJ : Int) + j).toNat).map (cellOf t)).filter
            (fun a => playable t a)).map (moveAt t) ∧ u = { t with moves := ms })
        0 t.nbJ { t with moves := ms } (Int.ofNat_nonneg _)
        ⟨ms, by rw [add_zero]; exact hms, rfl⟩
        (by
          rintro j u hj0 hj1 ⟨ms2, hms2, rfl⟩
          have hv : isValid t i j := ⟨hi0, hi1, hj0, hj1⟩
          refine ⟨_, findMovesCell_spec hw hv (hg i j hv) ms2, _, ?_, rfl⟩
          have e : i * (t.nbJ : Int) + (j + 1) = (i * (t.nbJ : Int) + j) + 1 := by ring
          rw [e, range_toNat_succ _ (idx_nonneg hv), List.map_append, List.filter_append,
            List.map_append, ← hms2]
          congr 1
          simp only [List.map_cons, List.map_nil, cellOf_of_valid t hv]
          by_cases hp : playable t (i, j)
          · simp [hp]
          · simp [hp])
      refine ⟨u1, hu1, ms1, ?_, hfr1⟩
      have e : (i + 1) * (t.nbJ : Int) = i * (t.nbJ : Int) + t.nbJ := by ring
      rw [e]
      exact hms1)
  refine ⟨t1, h1, ?_, ?_⟩
  · rw [hfr]; rfl
  · rw [hfr]
    simp only
    rw [hms]
    unfold cells
    have : ((t.nbI : Int) * (t.nbJ : Int)).toNat = t.nbI * t.nbJ := by
      have : ((t.nbI * t.nbJ : Nat) : Int) = (t.nbI : Int) * t.nbJ := by push_cast; rfl
      omega
    rw [this]

/-! ## Frames and cell updates -/

theorem cframe_refl (b : Board) : CFrame b b := rfl

theorem cframe_trans {a b c : Board} (h1 : CFrame a b) (h2 : CFrame b c) : CFrame a c := by
  unfold CFrame at *
  cases a; cases b; cases c
  simp only [Board.mk.injEq] at h1 h2 ⊢
  obtain ⟨a1, a2, a3, a4, -, -, a7, -, -, a10, a11⟩ := h1
  obtain ⟨c1, c2, c3, c4, -, -, c7, -, -, c10, c11⟩ := h2
  exact ⟨c1.trans a1, c2.trans a2, c3.trans a3, c4.trans a4, trivial, trivial,
    c7.trans a7, trivial, trivial, c10.trans a10, c11.trans a11⟩

theorem cframe_nbI {b t : Board} (h : CFrame b t) : t.nbI = b.nbI := by
  unfold CFrame at h
  have := congrArg Board.nbI h
  exact this

theorem cframe_nbJ {b t : Board} (h : CFrame b t) : t.nbJ = b.nbJ := by
  unfold CFrame at h
  have := congrArg Board.nbJ h
  exact this

theorem isValid_congr {b t : Board} (hI : t.nbI = b.nbI) (hJ : t.nbJ = b.nbJ) (i j : Int) :
    isValid t i j ↔ isValid b i j := by
  unfold isValid; rw [hI, hJ]

theorem getD_set_idx (u : Board) (v : List Int) {i j : Int} (hv : isValid u i j)
    (hlen : v.length = u.nbI * u.nbJ) (x d : Int) (r c : Int) (hrc : isValid u r c) :
    (v.set (i * (u.nbJ : Int) + j).toNat x).getD (r * (u.nbJ : Int) + c).toNat d
      = if r = i ∧ c = j then x else v.getD (r * (u.nbJ : Int) + c).toNat d := by
  by_cases h : r = i ∧ c = j
  · obtain ⟨rfl, rfl⟩ := h
    rw [if_pos ⟨rfl, rfl⟩]
    exact getD_set_eq _ _ _ _ (by rw [hlen]; exact idx_toNat_lt hv)
  · rw [if_neg h]
    apply getD_set_ne
    intro he
    have := idx_toNat_inj hv hrc he
    exact h ⟨this.1.symm, this.2.symm⟩

/-- One iteration of the shifting loop of `contractI`. -/
theorem contractIStep_spec {u : Board} {i j0 : Int} (hw : WellSized u) (hv : isValid u i j0)
    (hv1 : isValid u (i + 1) j0) :
    ∃ t, contractIStep j0 u i = some t ∧ CFrame u t ∧ t.lastIs = u.lastIs ∧
      t.lastJs = u.lastJs ∧ WellSized t ∧
      ∀ r c, isValid u r c →
        content t r c = if r = i ∧ c = j0 then content u (i + 1) j0 else content u r c := by
  have hk : (i * (u.nbJ : Int) + j0).toNat < u.nbI * u.nbJ := idx_toNat_lt hv
  have hk0 := idx_nonneg hv
  refine ⟨{ u with
      dataColors := u.dataColors.set (i * (u.nbJ : Int) + j0).toNat (colorAt u (i + 1) j0),
      dataGroups := u.dataGroups.set (i * (u.nbJ : Int) + j0).toNat (groupAt u (i + 1) j0) },
    ?_, rfl, rfl, rfl, ?_, ?_⟩
  · unfold contractIStep
    rw [ind_of_valid hv, ind_of_valid hv1]
    simp only [vget_colors hw hv1, vget_groups hw hv1,
      vset_of_lt _ _ _ hk0 (hw.1.symm ▸ hk), vset_of_lt _ _ _ hk0 (hw.2.symm ▸ hk)]
  · exact ⟨by simp only [List.length_set]; exact hw.1, by simp only [List.length_set]; exact hw.2⟩
  · intro r c hrc
    have hc := getD_set_idx u u.dataColors hv hw.1 (colorAt u (i + 1) j0) (-1) r c hrc
    have hg := getD_set_idx u u.dataGroups hv hw.2 (groupAt u (i + 1) j0) (-1) r c hrc
    change ((u.dataColors.set _ _).getD (r * (u.nbJ : Int) + c).toNat (-1),
      (u.dataGroups.set _ _).getD (r * (u.nbJ : Int) + c).toNat (-1)) = _
    rw [hc, hg]
    split_ifs <;> rfl

/-! ## `contractI` removes one cell of a column -/

theorem getD_eraseIdx {α : Type} (l : List α) (k n : Nat) (d : α) :
    (l.eraseIdx k).getD n d = if n < k then l.getD n d else l.getD (n + 1) d := by
  simp only [List.getD_eq_getElem?_getD, List.getElem?_eraseIdx]
  split_ifs <;> rfl

theorem getD_nonempty_lt {α : Type} (A : List (List α)) (j : Nat)
    (h : 0 < (A.getD j []).length) : j < A.length := by
  by_contra hge
  rw [List.getD_eq_default _ _ (by omega)] at h
  simp at h

theorem getD_mem_of_lt {α : Type} (A : List α) (j : Nat) (d : α) (h : j < A.length) :
    A.getD j d ∈ A := by
  rw [List.getD_eq_getElem _ _ h]
  exact List.getElem_mem h

/-- `contractI(i0, j0)` on a board represented by the columns `A` removes the entry `i0`
of column `j0`. -/
theorem contractI_spec {b : Board} {A : List (List (Int × Int))} {i0 j0 : Int}
    (hw : WellSized b) (hR : Rep (content b) (-1, -1) b A) (hi0 : 0 ≤ i0) (hj0 : 0 ≤ j0)
    (hj1 : j0 < b.nbJ) (hlt : i0.toNat < (A.getD j0.toNat []).length) :
    ∃ t, contractI b i0 j0 = some t ∧ CFrame b t ∧ WellSized t ∧
      Rep (content t) (-1, -1) t
        (A.set j0.toNat ((A.getD j0.toNat []).eraseIdx i0.toNat)) := by
  have hjA : j0.toNat < A.length := getD_nonempty_lt A _ (by omega)
  have hlenC : (A.getD j0.toNat []).length ≤ b.nbI := hR.lenC _ (getD_mem_of_lt A _ _ hjA)
  have hj0n : j0.toNat < b.nbJ := by omega
  have hl := hR.lastI j0.toNat hj0n
  have hgl : vget b.lastIs j0 = some (((A.getD j0.toNat []).length : Int) - 1) := by
    rw [vget_of_lt _ _ 0 hj0 (by rw [hR.hIs]; exact hj0n), hl]
  -- the shifting loop
  obtain ⟨b1, hb1, hf1, hw1, hI1, hJ1, hc1⟩ := forRange_spec (contractIStep j0)
    (fun i u => CFrame b u ∧ WellSized u ∧ u.lastIs = b.lastIs ∧ u.lastJs = b.lastJs ∧
      ∀ r c, isValid b r c →
        content u r c = if c = j0 ∧ i0 ≤ r ∧ r < i then content b (r + 1) c else content b r c)
    i0 (((A.getD j0.toNat []).length : Int) - 1) b (by omega)
    ⟨cframe_refl b, hw, rfl, rfl, by
      intro r c _
      rw [if_neg (by omega)]⟩
    (by
      rintro i u hi hil ⟨hf, hwu, hIu, hJu, hcu⟩
      have hnI := cframe_nbI hf
      have hnJ := cframe_nbJ hf
      have hv : isValid u i j0 := by
        unfold isValid; rw [hnI, hnJ]; exact ⟨by omega, by omega, hj0, hj1⟩
      have hv1 : isValid u (i + 1) j0 := by
        unfold isValid; rw [hnI, hnJ]; exact ⟨by omega, by omega, hj0, hj1⟩
      obtain ⟨t, ht, hft, hIt, hJt, hwt, hct⟩ := contractIStep_spec hwu hv hv1
      refine ⟨t, ht, cframe_trans hf hft, hwt, hIt.trans hIu, hJt.trans hJu, ?_⟩
      intro r c hrc
      have hrcu : isValid u r c := (isValid_congr hnI hnJ r c).mpr hrc
      rw [hct r c hrcu]
      by_cases hic : r = i ∧ c = j0
      · obtain ⟨rfl, rfl⟩ := hic
        rw [if_pos ⟨rfl, rfl⟩, if_pos ⟨rfl, hi, by omega⟩]
        have hv1b : isValid b (r + 1) c := (isValid_congr hnI hnJ _ _).mp hv1
        rw [hcu _ _ hv1b, if_neg (by omega)]
      · rw [if_neg hic, hcu r c hrc]
        by_cases h1 : c = j0 ∧ i0 ≤ r ∧ r < i
        · rw [if_pos h1, if_pos ⟨h1.1, h1.2.1, by omega⟩]
        · rw [if_neg h1, if_neg (by
            rintro ⟨h2, h3, h4⟩
            by_cases h5 : r = i
            · exact hic ⟨h5, h2⟩
            · exact h1 ⟨h2, h3, by omega⟩)])
  have hnI := cframe_nbI hf1
  have hnJ := cframe_nbJ hf1
  have hvl : isValid b1 (((A.getD j0.toNat []).length : Int) - 1) j0 := by
    unfold isValid; rw [hnI, hnJ]; exact ⟨by omega, by omega, hj0, hj1⟩
  have hk := idx_toNat_lt hvl
  have hk0 := idx_nonneg hvl
  refine ⟨{ b1 with
      dataColors := b1.dataColors.set
        ((((A.getD j0.toNat []).length : Int) - 1) * (b1.nbJ : Int) + j0).toNat (-1),
      dataGroups := b1.dataGroups.set
        ((((A.getD j0.toNat []).length : Int) - 1) * (b1.nbJ : Int) + j0).toNat (-1),
      lastIs := b1.lastIs.set j0.toNat (((A.getD j0.toNat []).length : Int) - 1 - 1) },
    ?_, ?_, ?_, ?_⟩
  · unfold contractI
    rw [hgl]
    simp only [ge_iff_le]
    rw [if_pos (by omega), hb1]
    have e1 : vset b1.dataColors
        ((((A.getD j0.toNat []).length : Int) - 1) * (b1.nbJ : Int) + j0) (-1)
        = some (b1.dataColors.set
          ((((A.getD j0.toNat []).length : Int) - 1) * (b1.nbJ : Int) + j0).toNat (-1)) :=
      vset_of_lt _ _ _ hk0 (by rw [hw1.1]; exact hk)
    have e2 : vset b1.dataGroups
        ((((A.getD j0.toNat []).length : Int) - 1) * (b1.nbJ : Int) + j0) (-1)
        = some (b1.dataGroups.set
          ((((A.getD j0.toNat []).length : Int) - 1) * (b1.nbJ : Int) + j0).toNat (-1)) :=
      vset_of_lt _ _ _ hk0 (by rw [hw1.2]; exact hk)
    have e3 : vset b1.lastIs j0 (((A.getD j0.toNat []).length : Int) - 1 - 1)
        = some (b1.lastIs.set j0.toNat (((A.getD j0.toNat []).length : Int) - 1 - 1)) :=
      vset_of_lt _ _ _ hj0 (by rw [hI1, hR.hIs]; exact hj0n)
    simp only [ind_of_valid hvl, e1, e2, e3]
  · exact cframe_trans hf1 rfl
  · exact ⟨by simp only [List.length_set]; exact hw1.1,
      by simp only [List.length_set]; exact hw1.2⟩
  · have hcont : ∀ r c, isValid b r c →
        content { b1 with
          dataColors := b1.dataColors.set
            ((((A.getD j0.toNat []).length : Int) - 1) * (b1.nbJ : Int) + j0).toNat (-1),
          dataGroups := b1.dataGroups.set
            ((((A.getD j0.toNat []).length : Int) - 1) * (b1.nbJ : Int) + j0).toNat (-1),
          lastIs := b1.lastIs.set j0.toNat (((A.getD j0.toNat []).length : Int) - 1 - 1) } r c
          = if r = ((A.getD j0.toNat []).length : Int) - 1 ∧ c = j0 then (-1, -1)
            else content b1 r c := by
      intro r c hrc
      have hrc1 : isValid b1 r c := (isValid_congr hnI hnJ r c).mpr hrc
      have hc := getD_set_idx b1 b1.dataColors hvl hw1.1 (-1) (-1) r c hrc1
      have hg := getD_set_idx b1 b1.dataGroups hvl hw1.2 (-1) (-1) r c hrc1
      change ((b1.dataColors.set _ _).getD (r * (b1.nbJ : Int) + c).toNat (-1),
        (b1.dataGroups.set _ _).getD (r * (b1.nbJ : Int) + c).toNat (-1)) = _
      rw [hc, hg]
      split_ifs <;> rfl
    constructor
    · simp only [List.length_set]; rw [hI1, hnJ]; exact hR.hIs
    · show b1.lastJs.length = b1.nbI
      rw [hJ1, hnI]; exact hR.hJs
    · simp only [List.length_set]; rw [hnJ]; exact hR.lenA
    · intro c hc
      rcases List.mem_or_eq_of_mem_set hc with h | h
      · rw [hnI]; exact hR.lenC c h
      · rw [h, hnI]
        exact le_trans (List.length_eraseIdx_le _ _) hlenC
    · intro i hi
      simp only [List.length_set]
      show b1.lastJs.getD i 0 = _
      rw [hJ1]
      exact hR.lastJ i (by rw [← hnI]; exact hi)
    · intro j hj
      show (b1.lastIs.set j0.toNat _).getD j 0 = _
      by_cases hjj : j0.toNat = j
      · subst hjj
        rw [getD_set_eq _ _ _ _ (by rw [hI1, hR.hIs]; exact hj0n),
          getD_set_eq _ _ _ _ hjA, List.length_eraseIdx_of_lt hlt]
        omega
      · rw [getD_set_ne _ _ _ _ _ hjj, getD_set_ne _ _ _ _ _ hjj, hI1]
        exact hR.lastI j (by rw [← hnJ]; exact hj)
    · intro r c hrc
      have hrcb : isValid b r c := (isValid_congr hnI hnJ r c).mp hrc
      rw [hcont r c hrcb]
      by_cases hcj : c = j0
      · subst hcj
        rw [getD_set_eq _ _ _ _ hjA, getD_eraseIdx]
        have hr0 : 0 ≤ r := hrcb.1
        by_cases hrl : r = ((A.getD c.toNat []).length : Int) - 1
        · rw [if_pos ⟨hrl, rfl⟩, if_neg (by omega), List.getD_eq_default _ _ (by omega)]
        · rw [if_neg (by tauto), hc1 r c hrcb]
          by_cases hr1 : i0 ≤ r ∧ r < ((A.getD c.toNat []).length : Int) - 1
          · rw [if_pos ⟨rfl, hr1⟩, if_neg (by omega)]
            have hv2 : isValid b (r + 1) c := ⟨by omega, by omega, hrcb.2.2.1, hrcb.2.2.2⟩
            rw [hR.cell _ _ hv2]
            have : (r + 1).toNat = r.toNat + 1 := by omega
            rw [this]
          · rw [if_neg (by tauto), hR.cell _ _ hrcb]
            by_cases hr2 : r < i0
            · rw [if_pos (by omega)]
            · rw [if_neg (by omega), List.getD_eq_default _ _ (by omega),
                List.getD_eq_default _ _ (by omega)]
      · have hne : j0.toNat ≠ c.toNat := by
          have := hrcb.2.2.1
          omega
        rw [if_neg (by tauto), hc1 r c hrcb, if_neg (by tauto), getD_set_ne _ _ _ _ _ hne]
        exact hR.cell r c hrcb

/-! ## The loop of vertical contractions in one column -/

theorem set_getD_self {α : Type} (A : List α) (j : Nat) (d : α) : A.set j (A.getD j d) = A := by
  induction A generalizing j with
  | nil => rfl
  | cons x xs ih =>
    cases j with
    | zero => rfl
    | succ j => simp only [List.set_cons_succ, List.getD_cons_succ, ih]

theorem getD_append_mid {α : Type} (pre rest : List α) (p d : α) :
    (pre ++ p :: rest).getD pre.length d = p := by
  induction pre with
  | nil => rfl
  | cons x xs ih => simpa using ih

theorem eraseIdx_append_mid {α : Type} (pre rest : List α) (p : α) :
    (pre ++ p :: rest).eraseIdx pre.length = pre ++ rest := by
  rw [List.eraseIdx_append_of_length_le (le_refl _)]
  simp

theorem getD_set_self_of_lt {α : Type} (A : List α) (j : Nat) (x d : α) (h : j < A.length) :
    (A.set j x).getD j d = x := getD_set_eq A j x d h

/-- The loop `while (i <= _lastIs[j])` of `play` removes from column `j` the cells of the
group played, starting at row `pre.length`. -/
theorem iContractions_spec (g j : Int) (hj0 : 0 ≤ j) :
    ∀ (fuel : Nat) (t : Board) (A : List (List (Int × Int))) (pre rest : List (Int × Int)),
      WellSized t → Rep (content t) (-1, -1) t A → j < t.nbJ →
      A.getD j.toNat [] = pre ++ rest → rest.length < fuel →
      ∃ t1, iContractions g j fuel t pre.length = some t1 ∧ CFrame t t1 ∧ WellSized t1 ∧
        Rep (content t1) (-1, -1) t1
          (A.set j.toNat (pre ++ rest.filter (fun p => p.2 ≠ g))) := by
  intro fuel
  induction fuel with
  | zero => intro t A pre rest _ _ _ _ hf; omega
  | succ fuel ih =>
    intro t A pre rest hw hR hj1 hcol hf
    have hjn : j.toNat < t.nbJ := by omega
    have hl := hR.lastI j.toNat hjn
    rw [hcol, List.length_append] at hl
    have hgl : vget t.lastIs j
        = some (((pre.length + rest.length : Nat) : Int) - 1) := by
      rw [vget_of_lt _ _ 0 hj0 (by rw [hR.hIs]; exact hjn), hl]
    cases rest with
    | nil =>
      refine ⟨t, ?_, cframe_refl t, hw, ?_⟩
      · simp only [iContractions, hgl]
        rw [if_neg (by simp)]
      · simp only [List.filter_nil]
        rw [← hcol, set_getD_self]
        exact hR
    | cons p rest1 =>
      have hjA : j.toNat < A.length := getD_nonempty_lt A _ (by rw [hcol]; simp)
      have hlenC : (pre ++ p :: rest1).length ≤ t.nbI := by
        rw [← hcol]; exact hR.lenC _ (getD_mem_of_lt A _ _ hjA)
      simp only [List.length_append, List.length_cons] at hlenC
      have hv : isValid t pre.length j := ⟨by omega, by omega, hj0, hj1⟩
      have hcell := hR.cell pre.length j hv
      rw [hcol, Int.toNat_ofNat, getD_append_mid] at hcell
      have hgp : groupAt t pre.length j = p.2 := by
        have := congrArg Prod.snd hcell
        exact this
      have hread : (ind t pre.length j).bind (vget t.dataGroups) = some p.2 := by
        rw [ind_of_valid hv]
        show vget t.dataGroups _ = _
        rw [vget_groups hw hv, hgp]
      by_cases hpg : p.2 = g
      · obtain ⟨t1, ht1, hf1, hw1, hR1⟩ := contractI_spec hw hR (Int.ofNat_nonneg pre.length) hj0 hj1
          (by rw [hcol, Int.toNat_ofNat]; simp)
        rw [hcol, Int.toNat_ofNat, eraseIdx_append_mid] at hR1
        obtain ⟨t2, ht2, hf2, hw2, hR2⟩ := ih t1 _ pre rest1 hw1 hR1
          (by rw [cframe_nbJ hf1]; exact hj1)
          (by rw [getD_set_self_of_lt _ _ _ _ hjA])
          (by simp only [List.length_cons] at hf; omega)
        refine ⟨t2, ?_, cframe_trans hf1 hf2, hw2, ?_⟩
        · simp only [iContractions, hgl, hread]
          rw [if_pos (by simp only [List.length_cons]; push_cast; omega), if_pos hpg, ht1]
          exact ht2
        · rw [List.set_set] at hR2
          rw [List.filter_cons_of_neg (by simpa using hpg)]
          exact hR2
      · have hcol2 : A.getD j.toNat [] = (pre ++ [p]) ++ rest1 := by
          rw [hcol]; simp
        obtain ⟨t2, ht2, hf2, hw2, hR2⟩ := ih t A (pre ++ [p]) rest1 hw hR hj1 hcol2
          (by simp only [List.length_cons] at hf; omega)
        refine ⟨t2, ?_, hf2, hw2, ?_⟩
        · simp only [iContractions, hgl, hread]
          rw [if_pos (by simp only [List.length_cons]; push_cast; omega), if_neg hpg]
          have : ((pre ++ [p]).length : Int) = (pre.length : Int) + 1 := by simp
          rw [this] at ht2
          exact ht2
        · rw [List.filter_cons_of_pos (by simpa using hpg)]
          rw [List.append_assoc] at hR2
          exact hR2

/-! ## Vertical contractions in all columns -/

theorem mapUpTo_zero {α : Type} (f : List α → List α) (A : List (List α)) :
    mapUpTo f A 0 = A := by
  simp [mapUpTo]

theorem mapUpTo_of_le {α : Type} (f : List α → List α) (A : List (List α)) (j : Nat)
    (h : A.length ≤ j) : mapUpTo f A j = A.map f := by
  simp [mapUpTo, List.take_of_length_le h, List.drop_of_length_le h]

theorem mapUpTo_getD {α : Type} (f : List α → List α) :
    ∀ (A : List (List α)) (j : Nat), (mapUpTo f A j).getD j [] = A.getD j [] := by
  intro A
  induction A with
  | nil => intro j; simp [mapUpTo]
  | cons x xs ih =>
    intro j
    cases j with
    | zero => simp [mapUpTo]
    | succ j =>
      have := ih j
      simp only [mapUpTo, List.take_succ_cons, List.map_cons, List.drop_succ_cons,
        List.cons_append, List.getD_cons_succ] at this ⊢
      exact this

theorem mapUpTo_step {α : Type} (f : List α → List α) :
    ∀ (A : List (List α)) (j : Nat),
      (mapUpTo f A j).set j (f (A.getD j [])) = mapUpTo f A (j + 1) := by
  intro A
  induction A with
  | nil => intro j; simp [mapUpTo]
  | cons x xs ih =>
    intro j
    cases j with
    | zero => simp [mapUpTo]
    | succ j =>
      have := ih j
      simp only [mapUpTo, List.take_succ_cons, List.map_cons, List.drop_succ_cons,
        List.cons_append, List.getD_cons_succ, List.set_cons_succ] at this ⊢
      rw [this]

theorem mapUpTo_length {α : Type} (f : List α → List α) (A : List (List α)) (j : Nat) :
    (mapUpTo f A j).length = A.length := by
  simp only [mapUpTo, List.length_append, List.length_map, List.length_take, List.length_drop]
  omega

/-- The first loop of `play`: every column loses its cells of the group `g`. -/
theorem iPhase_spec {b : Board} {A : List (List (Int × Int))} (g : Int) (hw : WellSized b)
    (hR : Rep (content b) (-1, -1) b A) :
    ∃ t, forRange 0 b.nbJ (fun b1 j => iContractions g j (b1.nbI + 1) b1 0) b = some t ∧
      CFrame b t ∧ WellSized t ∧ Rep (content t) (-1, -1) t (A.map (filtCol g)) := by
  obtain ⟨t, ht, hf, hwt, hRt⟩ := forRange_spec
    (fun b1 j => iContractions g j (b1.nbI + 1) b1 0)
    (fun j u => CFrame b u ∧ WellSized u ∧
      Rep (content u) (-1, -1) u (mapUpTo (filtCol g) A j.toNat))
    0 b.nbJ b (Int.ofNat_nonneg _)
    ⟨cframe_refl b, hw, by rw [Int.toNat_zero, mapUpTo_zero]; exact hR⟩
    (by
      rintro j u hj0 hj1 ⟨hfu, hwu, hRu⟩
      have hnI := cframe_nbI hfu
      have hnJ := cframe_nbJ hfu
      have hcol : (mapUpTo (filtCol g) A j.toNat).getD j.toNat []
          = ([] : List (Int × Int)) ++ A.getD j.toNat [] := by
        rw [mapUpTo_getD]; rfl
      have hlen : (A.getD j.toNat []).length ≤ u.nbI := by
        by_cases hjA : j.toNat < A.length
        · rw [← mapUpTo_getD (filtCol g)]
          exact hRu.lenC _ (getD_mem_of_lt _ _ _ (by rw [mapUpTo_length]; exact hjA))
        · rw [List.getD_eq_default _ _ (by omega)]
          simp
      obtain ⟨t1, ht1, hf1, hw1, hR1⟩ := iContractions_spec g j hj0 (u.nbI + 1) u _ [] _ hwu hRu
        (by rw [hnJ]; exact hj1) hcol (by omega)
      refine ⟨t1, ht1, cframe_trans hfu hf1, hw1, ?_⟩
      have e : (j + 1).toNat = j.toNat + 1 := by omega
      rw [e, ← mapUpTo_step]
      exact hR1)
  refine ⟨t, ht, hf, hwt, ?_⟩
  rw [mapUpTo_of_le _ _ _ (by
    have := hR.lenA
    omega)] at hRt
  exact hRt

/-! ## `contractJ` removes one empty column -/

theorem contractJStep_spec {u : Board} {i j : Int} (hw : WellSized u) (hv : isValid u i j)
    (hv1 : isValid u i (j + 1)) :
    ∃ t, contractJStep i u j = some t ∧ CFrame u t ∧ t.lastIs = u.lastIs ∧
      t.lastJs = u.lastJs ∧ WellSized t ∧
      ∀ r c, isValid u r c →
        colorAt t r c = if r = i ∧ c = j then colorAt u i (j + 1) else colorAt u r c := by
  have hk : (i * (u.nbJ : Int) + j).toNat < u.nbI * u.nbJ := idx_toNat_lt hv
  have hk0 := idx_nonneg hv
  refine ⟨{ u with
      dataColors := u.dataColors.set (i * (u.nbJ : Int) + j).toNat (colorAt u i (j + 1)) },
    ?_, rfl, rfl, rfl, ?_, ?_⟩
  · unfold contractJStep
    rw [ind_of_valid hv, ind_of_valid hv1]
    simp only [vget_colors hw hv1, vset_of_lt _ _ _ hk0 (hw.1.symm ▸ hk)]
  · exact ⟨by simp only [List.length_set]; exact hw.1, hw.2⟩
  · intro r c hrc
    exact getD_set_idx u u.dataColors hv hw.1 (colorAt u i (j + 1)) (-1) r c hrc

/-- One row of `contractJ`: the colours right of column `j0` move one column to the left. -/
theorem contractJRow_spec {u : Board} {i j0 L : Int} (hw : WellSized u)
    (hJs : u.lastJs.length = u.nbI) (hi0 : 0 ≤ i) (hi1 : i < u.nbI) (hj0 : 0 ≤ j0)
    (hjL : j0 ≤ L) (hL : L < u.nbJ) (hlast : u.lastJs.getD i.toNat 0 = L) :
    ∃ t, contractJRow j0 u i = some t ∧ CFrame u t ∧ t.lastIs = u.lastIs ∧
      t.lastJs = u.lastJs.set i.toNat (L - 1) ∧ WellSized t ∧
      ∀ r c, isValid u r c →
        colorAt t r c =
          if r = i then
            (if j0 ≤ c ∧ c < L then colorAt u r (c + 1) else if c = L then -1 else colorAt u r c)
          else colorAt u r c := by
  have hin : i.toNat < u.lastJs.length := by rw [hJs]; omega
  have hgl : vget u.lastJs i = some L := by
    rw [vget_of_lt _ _ 0 hi0 hin, hlast]
  obtain ⟨b1, hb1, hf1, hw1, hI1, hJ1, hc1⟩ := forRange_spec (contractJStep i)
    (fun j v => CFrame u v ∧ WellSized v ∧ v.lastIs = u.lastIs ∧ v.lastJs = u.lastJs ∧
      ∀ r c, isValid u r c →
        colorAt v r c = if r = i ∧ j0 ≤ c ∧ c < j then colorAt u r (c + 1) else colorAt u r c)
    j0 L u hjL
    ⟨cframe_refl u, hw, rfl, rfl, by
      intro r c _
      rw [if_neg (by omega)]⟩
    (by
      rintro j v hj hjl ⟨hf, hwv, hIv, hJv, hcv⟩
      have hnI := cframe_nbI hf
      have hnJ := cframe_nbJ hf
      have hv : isValid v i j := by
        unfold isValid; rw [hnI, hnJ]; exact ⟨hi0, hi1, by omega, by omega⟩
      have hv1 : isValid v i (j + 1) := by
        unfold isValid; rw [hnI, hnJ]; exact ⟨hi0, hi1, by omega, by omega⟩
      obtain ⟨t, ht, hft, hIt, hJt, hwt, hct⟩ := contractJStep_spec hwv hv hv1
      refine ⟨t, ht, cframe_trans hf hft, hwt, hIt.trans hIv, hJt.trans hJv, ?_⟩
      intro r c hrc
      have hrcv : isValid v r c := (isValid_congr hnI hnJ r c).mpr hrc
      rw [hct r c hrcv]
      by_cases hic : r = i ∧ c = j
      · obtain ⟨rfl, rfl⟩ := hic
        rw [if_pos ⟨rfl, rfl⟩, if_pos ⟨rfl, hj, by omega⟩]
        have hv1u : isValid u r (c + 1) := (isValid_congr hnI hnJ _ _).mp hv1
        rw [hcv _ _ hv1u, if_neg (by omega)]
      · rw [if_neg hic, hcv r c hrc]
        by_cases h1 : r = i ∧ j0 ≤ c ∧ c < j
        · rw [if_pos h1, if_pos ⟨h1.1, h1.2.1, by omega⟩]
        · rw [if_neg h1, if_neg (by
            rintro ⟨h2, h3, h4⟩
            by_cases h5 : c = j
            · exact hic ⟨h2, h5⟩
            · exact h1 ⟨h2, h3, by omega⟩)])
  have hnI := cframe_nbI hf1
  have hnJ := cframe_nbJ hf1
  have hvl : isValid b1 i L := by
    unfold isValid; rw [hnI, hnJ]; exact ⟨hi0, hi1, by omega, hL⟩
  have hk := idx_toNat_lt hvl
  have hk0 := idx_nonneg hvl
  refine ⟨{ b1 with
      dataColors := b1.dataColors.set (i * (b1.nbJ : Int) + L).toNat (-1),
      lastJs := b1.lastJs.set i.toNat (L - 1) },
    ?_, ?_, ?_, ?_, ?_, ?_⟩
  · unfold contractJRow
    rw [hgl]
    simp only [ge_iff_le]
    rw [if_pos hjL, hb1]
    have e1 : vset b1.dataColors (i * (b1.nbJ : Int) + L) (-1)
        = some (b1.dataColors.set (i * (b1.nbJ : Int) + L).toNat (-1)) :=
      vset_of_lt _ _ _ hk0 (by rw [hw1.1]; exact hk)
    have e2 : vset b1.lastJs i (L - 1) = some (b1.lastJs.set i.toNat (L - 1)) :=
      vset_of_lt _ _ _ hi0 (by rw [hJ1]; exact hin)
    simp only [ind_of_valid hvl, e1, e2]
  · exact cframe_trans hf1 rfl
  · exact hI1
  · show b1.lastJs.set i.toNat (L - 1) = _
    rw [hJ1]
  · exact ⟨by simp only [List.length_set]; exact hw1.1, hw1.2⟩
  · intro r c hrc
    have hrc1 : isValid b1 r c := (isValid_congr hnI hnJ r c).mpr hrc
    have hc := getD_set_idx b1 b1.dataColors hvl hw1.1 (-1) (-1) r c hrc1
    change (b1.dataColors.set _ _).getD (r * (b1.nbJ : Int) + c).toNat (-1) = _
    rw [hc]
    have hb : b1.dataColors.getD (r * (b1.nbJ : Int) + c).toNat (-1) = colorAt b1 r c := rfl
    rw [hb, hc1 r c hrc]
    by_cases hri : r = i
    · subst hri
      by_cases hcL : c = L
      · subst hcL
        rw [if_pos ⟨rfl, rfl⟩, if_pos rfl, if_neg (by omega), if_pos rfl]
      · rw [if_neg (by tauto), if_pos rfl]
        by_cases h1 : j0 ≤ c ∧ c < L
        · rw [if_pos ⟨rfl, h1⟩, if_pos h1]
        · rw [if_neg (by tauto), if_neg h1, if_neg hcL]
    · rw [if_neg (by tauto), if_neg (by tauto), if_neg hri]

theorem contractJLast_spec {u : Board} {j : Int} (hj0 : 0 ≤ j)
    (hj1 : (j + 1).toNat < u.lastIs.length) :
    contractJLast u j
      = some { u with lastIs := u.lastIs.set j.toNat (u.lastIs.getD (j + 1).toNat 0) } := by
  unfold contractJLast
  rw [vget_of_lt _ _ 0 (by omega) hj1]
  simp only
  rw [vset_of_lt _ _ _ hj0 (by omega)]

/-- `contractJ(j0)` on a board represented by the colour columns `A`, whose column `j0` is
empty, removes that column. -/
theorem contractJ_spec {b : Board} {A : List (List Int)} {j0 : Int} (hw : WellSized b)
    (hR : Rep (colorAt b) (-1) b A) (hI : 0 < b.nbI) (hj0 : 0 ≤ j0)
    (hjA : j0.toNat < A.length) (hemp : A.getD j0.toNat [] = []) :
    ∃ t, contractJ b j0 = some t ∧ CFrame b t ∧ WellSized t ∧
      Rep (colorAt t) (-1) t (A.eraseIdx j0.toNat) := by
  have hlenA := hR.lenA
  have hj0n : j0.toNat < b.nbJ := by omega
  have hgl : vget b.lastIs j0 = some (-1) := by
    rw [vget_of_lt _ _ 0 hj0 (by rw [hR.hIs]; exact hj0n), hR.lastI _ hj0n, hemp]
    rfl
  have hgj : vget b.lastJs 0 = some ((A.length : Int) - 1) := by
    rw [vget_of_lt _ _ 0 (le_refl _) (by rw [hR.hJs]; exact hI)]
    exact congrArg some (hR.lastJ 0 hI)
  -- the loop over `_lastIs`
  obtain ⟨b1, hb1, hf1, hw1, hJ1, hC1, hlen1, hl1⟩ := forRange_spec contractJLast
    (fun j u => CFrame b u ∧ WellSized u ∧ u.lastJs = b.lastJs ∧
      u.dataColors = b.dataColors ∧ u.lastIs.length = b.nbJ ∧
      ∀ c : Nat, u.lastIs.getD c 0 =
        if j0 ≤ (c : Int) ∧ (c : Int) < j then b.lastIs.getD (c + 1) 0 else b.lastIs.getD c 0)
    j0 ((A.length : Int) - 1) b (by omega)
    ⟨cframe_refl b, hw, rfl, rfl, hR.hIs, by
      intro c
      rw [if_neg (by omega)]⟩
    (by
      rintro j u hj hjl ⟨hf, hwu, hJu, hCu, hlenu, hlu⟩
      refine ⟨_, contractJLast_spec (by omega) (by rw [hlenu]; omega), cframe_trans hf rfl,
        hwu, hJu, hCu, by simp only [List.length_set]; exact hlenu, ?_⟩
      intro c
      show (u.lastIs.set j.toNat _).getD c 0 = _
      by_cases hcj : j.toNat = c
      · subst hcj
        rw [getD_set_eq _ _ _ _ (by rw [hlenu]; omega), hlu, if_neg (by omega),
          if_pos (by omega)]
        have : (j + 1).toNat = j.toNat + 1 := by omega
        rw [this]
      · rw [getD_set_ne _ _ _ _ _ hcj, hlu]
        by_cases h1 : j0 ≤ (c : Int) ∧ (c : Int) < j
        · rw [if_pos h1, if_pos ⟨h1.1, by omega⟩]
        · rw [if_neg h1, if_neg (by omega)])
  have hnI1 := cframe_nbI hf1
  have hnJ1 := cframe_nbJ hf1
  have e3 : vset b1.lastIs ((A.length : Int) - 1) (-1)
      = some (b1.lastIs.set ((A.length : Int) - 1).toNat (-1)) :=
    vset_of_lt _ _ _ (by omega) (by rw [hlen1]; omega)
  -- the loop over the rows
  obtain ⟨t, ht, hft, hwt, hIt, hJlen, hJt, hct⟩ := forRange_spec (contractJRow j0)
    (fun i u => CFrame b u ∧ WellSized u ∧
      u.lastIs = b1.lastIs.set ((A.length : Int) - 1).toNat (-1) ∧
      u.lastJs.length = b.nbI ∧
      (∀ r : Nat, r < b.nbI → u.lastJs.getD r 0 =
        if (r : Int) < i then (A.length : Int) - 1 - 1 else (A.length : Int) - 1) ∧
      ∀ r c, isValid b r c →
        colorAt u r c =
          if r < i then
            (if j0 ≤ c ∧ c < (A.length : Int) - 1 then colorAt b r (c + 1)
             else if c = (A.length : Int) - 1 then -1 else colorAt b r c)
          else colorAt b r c)
    0 b1.nbI { b1 with lastIs := b1.lastIs.set ((A.length : Int) - 1).toNat (-1) }
    (Int.ofNat_nonneg _)
    ⟨cframe_trans hf1 rfl, hw1, rfl, by show b1.lastJs.length = _; rw [hJ1]; exact hR.hJs,
      by
        intro r hr
        show b1.lastJs.getD r 0 = _
        rw [hJ1, if_neg (by omega)]
        exact hR.lastJ r hr,
      by
        intro r c hrc
        rw [if_neg (by have := hrc.1; omega)]
        show b1.dataColors.getD (r * (b1.nbJ : Int) + c).toNat (-1) = _
        rw [hC1, hnJ1]
        rfl⟩
    (by
      rintro i u hi0 hi1 ⟨hf, hwu, hIu, hJlenu, hJu, hcu⟩
      have hnI := cframe_nbI hf
      have hnJ := cframe_nbJ hf
      rw [hnI1] at hi1
      obtain ⟨t, ht, hft, hIt, hJt, hwt, hct⟩ := contractJRow_spec (L := (A.length : Int) - 1)
        hwu (by rw [hJlenu, hnI]) hi0 (by rw [hnI]; exact hi1) hj0 (by omega)
        (by rw [hnJ]; omega)
        (by rw [hJu i.toNat (by omega), if_neg (by omega)])
      refine ⟨t, ht, cframe_trans hf hft, hwt, hIt.trans hIu,
        by rw [hJt]; simp only [List.length_set]; exact hJlenu, ?_, ?_⟩
      · intro r hr
        rw [hJt]
        by_cases hri : i.toNat = r
        · subst hri
          rw [getD_set_eq _ _ _ _ (by rw [hJlenu]; exact hr), if_pos (by omega)]
        · rw [getD_set_ne _ _ _ _ _ hri, hJu r hr]
          by_cases h1 : (r : Int) < i
          · rw [if_pos h1, if_pos (by omega)]
          · rw [if_neg h1, if_neg (by omega)]
      · intro r c hrc
        have hrcu : isValid u r c := (isValid_congr hnI hnJ r c).mpr hrc
        rw [hct r c hrcu]
        by_cases hri : r = i
        · subst hri
          rw [if_pos rfl, if_pos (show r < r + 1 by omega)]
          by_cases h1 : j0 ≤ c ∧ c < (A.length : Int) - 1
          · rw [if_pos h1, if_pos h1]
            have hv2 : isValid b r (c + 1) := ⟨hrc.1, hrc.2.1, by omega, by omega⟩
            rw [hcu _ _ hv2, if_neg (show ¬ r < r by omega)]
          · rw [if_neg h1, if_neg h1]
            by_cases h2 : c = (A.length : Int) - 1
            · rw [if_pos h2, if_pos h2]
            · rw [if_neg h2, if_neg h2, hcu _ _ hrc, if_neg (show ¬ r < r by omega)]
        · rw [if_neg hri, hcu r c hrc]
          by_cases h1 : r < i
          · rw [if_pos h1, if_pos (show r < i + 1 by omega)]
          · rw [if_neg h1, if_neg (show ¬ r < i + 1 by omega)])
  have hnI := cframe_nbI hft
  have hnJ := cframe_nbJ hft
  refine ⟨t, ?_, hft, hwt, ?_⟩
  · unfold contractJ
    simp only [hgl, hgj, hb1, e3, if_true]
    exact ht
  · have hAl : (A.eraseIdx j0.toNat).length = A.length - 1 := List.length_eraseIdx_of_lt hjA
    constructor
    · rw [hIt, hnJ]; simp only [List.length_set]; exact hlen1
    · rw [hJlen, hnI]
    · rw [hAl, hnJ]; omega
    · intro c hc
      rw [hnI]
      exact hR.lenC c (List.mem_of_mem_eraseIdx hc)
    · intro i hi
      rw [hnI] at hi
      rw [hJt i hi, if_pos (by rw [hnI1]; exact_mod_cast hi), hAl]
      omega
    · intro c hc
      rw [hnJ] at hc
      rw [hIt, getD_eraseIdx]
      by_cases hcL : ((A.length : Int) - 1).toNat = c
      · rw [← hcL, getD_set_eq _ _ _ _ (by rw [hlen1]; omega), if_neg (by omega),
          List.getD_eq_default _ _ (by omega)]
        rfl
      · rw [getD_set_ne _ _ _ _ _ hcL, hl1 c]
        by_cases h1 : j0 ≤ (c : Int) ∧ (c : Int) < (A.length : Int) - 1
        · rw [if_pos h1, if_neg (by omega)]
          exact hR.lastI (c + 1) (by omega)
        · rw [if_neg h1]
          by_cases h2 : c < j0.toNat
          · rw [if_pos h2]
            exact hR.lastI c hc
          · rw [if_neg h2, hR.lastI c hc, List.getD_eq_default _ _ (by omega),
              List.getD_eq_default _ _ (by omega)]
    · intro r c hrc
      have hrcb : isValid b r c := (isValid_congr hnI hnJ r c).mp hrc
      rw [hct r c hrcb, if_pos (by rw [hnI1]; exact hrcb.2.1), getD_eraseIdx]
      have hc0 := hrcb.2.2.1
      by_cases h1 : j0 ≤ c ∧ c < (A.length : Int) - 1
      · rw [if_pos h1, if_neg (by omega)]
        have hv2 : isValid b r (c + 1) := ⟨hrcb.1, hrcb.2.1, by omega, by omega⟩
        rw [hR.cell _ _ hv2]
        have : (c + 1).toNat = c.toNat + 1 := by omega
        rw [this]
      · rw [if_neg h1]
        by_cases h2 : c = (A.length : Int) - 1
        · rw [if_pos h2, if_neg (by omega), List.getD_eq_default A [] (by omega)]
          rfl
        · rw [if_neg h2, hR.cell _ _ hrcb]
          by_cases h3 : c.toNat < j0.toNat
          · rw [if_pos h3]
          · rw [if_neg h3, List.getD_eq_default A [] (by omega),
              List.getD_eq_default A [] (by omega)]

/-! ## The loop of horizontal contractions -/

/-- The loop `while (j <= _lastJs[0])` of `play` removes the empty columns, starting at
column `pre.length`. -/
theorem jContractions_spec :
    ∀ (fuel : Nat) (t : Board) (pre rest : List (List Int)),
      WellSized t → Rep (colorAt t) (-1) t (pre ++ rest) → 0 < t.nbI → rest.length < fuel →
      ∃ t1, jContractions fuel t pre.length = some t1 ∧ CFrame t t1 ∧ WellSized t1 ∧
        Rep (colorAt t1) (-1) t1 (pre ++ rest.filter (fun c => c ≠ [])) := by
  intro fuel
  induction fuel with
  | zero => intro t pre rest _ _ _ hf; omega
  | succ fuel ih =>
    intro t pre rest hw hR hI hf
    have hgj : vget t.lastJs 0 = some (((pre ++ rest).length : Int) - 1) := by
      rw [vget_of_lt _ _ 0 (le_refl _) (by rw [hR.hJs]; exact hI)]
      exact congrArg some (hR.lastJ 0 hI)
    cases rest with
    | nil =>
      refine ⟨t, ?_, cframe_refl t, hw, ?_⟩
      · simp only [jContractions, hgj]
        rw [if_neg (by simp)]
      · simpa using hR
    | cons c rest1 =>
      have hlenA := hR.lenA
      simp only [List.length_append, List.length_cons] at hlenA
      have hjn : pre.length < t.nbJ := by omega
      have hl := hR.lastI pre.length hjn
      rw [getD_append_mid] at hl
      have hgl : vget t.lastIs (pre.length : Int) = some ((c.length : Int) - 1) := by
        rw [vget_of_lt _ _ 0 (Int.ofNat_nonneg _) (by rw [hR.hIs]; simpa using hjn)]
        simpa using hl
      have hcond : (pre.length : Int) ≤ ((pre ++ c :: rest1).length : Int) - 1 := by
        simp only [List.length_append, List.length_cons]; push_cast; omega
      by_cases hc : c = []
      · subst hc
        obtain ⟨t1, ht1, hf1, hw1, hR1⟩ := @contractJ_spec t (pre ++ [] :: rest1) (pre.length : Int) hw hR hI
          (Int.ofNat_nonneg _) (by simp) (by simpa using getD_append_mid pre rest1 [] [])
        rw [Int.toNat_ofNat, eraseIdx_append_mid] at hR1
        obtain ⟨t2, ht2, hf2, hw2, hR2⟩ := ih t1 pre rest1 hw1 hR1
          (by rw [cframe_nbI hf1]; exact hI)
          (by simp only [List.length_cons] at hf; omega)
        refine ⟨t2, ?_, cframe_trans hf1 hf2, hw2, ?_⟩
        · simp only [jContractions, hgj, hgl]
          rw [if_pos hcond]
          simp only [List.length_nil, Nat.cast_zero, zero_sub, if_true, ht1]
          exact ht2
        · rw [List.filter_cons_of_neg (by simp)]
          exact hR2
      · have hR' : Rep (colorAt t) (-1) t ((pre ++ [c]) ++ rest1) := by
          rw [List.append_assoc]; exact hR
        obtain ⟨t2, ht2, hf2, hw2, hR2⟩ := ih t (pre ++ [c]) rest1 hw hR' hI
          (by simp only [List.length_cons] at hf; omega)
        refine ⟨t2, ?_, hf2, hw2, ?_⟩
        · simp only [jContractions, hgj, hgl]
          have hne : ¬ ((c.length : Int) - 1 = -1) := by
            have : 0 < c.length := List.length_pos.mpr hc
            omega
          rw [if_pos hcond, if_neg hne]
          have : ((pre ++ [c]).length : Int) = (pre.length : Int) + 1 := by simp
          rw [this] at ht2
          exact ht2
        · rw [List.filter_cons_of_pos (by simpa using hc)]
          rw [List.append_assoc] at hR2
          exact hR2

/-! ## Changing the representation -/

theorem rep_colors {t : Board} {A : List (List (Int × Int))}
    (hR : Rep (content t) (-1, -1) t A) :
    Rep (colorAt t) (-1) t (A.map (List.map Prod.fst)) := by
  have hget : ∀ j : Nat, (A.map (List.map Prod.fst)).getD j []
      = (A.getD j []).map Prod.fst := by
    intro j
    have := List.getD_map (l := A) (d := []) (n := j) (List.map Prod.fst)
    exact this
  constructor
  · exact hR.hIs
  · exact hR.hJs
  · simp only [List.length_map]; exact hR.lenA
  · intro c hc
    obtain ⟨c0, hc0, rfl⟩ := List.mem_map.mp hc
    simp only [List.length_map]
    exact hR.lenC c0 hc0
  · intro i hi
    simp only [List.length_map]
    exact hR.lastJ i hi
  · intro j hj
    rw [hget, List.length_map]
    exact hR.lastI j hj
  · intro i j hv
    rw [hget]
    have h1 := hR.cell i j hv
    have h2 := List.getD_map (l := A.getD j.toNat []) (d := ((-1 : Int), (-1 : Int)))
      (n := i.toNat) Prod.fst
    rw [h2, ← h1]
    rfl

theorem rep_congr {α : Type} {cell : Int → Int → α} {d : α} {t u : Board} {A : List (List α)}
    (hR : Rep cell d t A) (hI : u.nbI = t.nbI) (hJ : u.nbJ = t.nbJ) (hlI : u.lastIs = t.lastIs)
    (hlJ : u.lastJs = t.lastJs) : Rep cell d u A := by
  constructor
  · rw [hlI, hJ]; exact hR.hIs
  · rw [hlJ, hI]; exact hR.hJs
  · rw [hJ]; exact hR.lenA
  · rw [hI]; exact hR.lenC
  · rw [hlJ, hI]; exact hR.lastJ
  · rw [hlI, hJ]; exact hR.lastI
  · intro i j hv
    exact hR.cell i j ((isValid_congr hI hJ i j).mp hv)

theorem getD_map_range {α : Type} (f : Nat → α) (n k : Nat) (d : α) :
    ((List.range n).map f).getD k d = if k < n then f k else d := by
  by_cases h : k < n
  · rw [if_pos h, List.getD_eq_getElem _ _ (by simpa using h)]
    simp
  · rw [if_neg h, List.getD_eq_default _ _ (by simpa using h)]

/-- A board represented by colour columns, whose empty cells carry no group id, is
represented by these columns paired with the group ids. -/
theorem rep_pairCols {b : Board} {A : List (List Int)} (hR : Rep (colorAt b) (-1) b A)
    (hg : ∀ i j, isValid b i j → colorAt b i j = -1 → groupAt b i j = -1) :
    Rep (content b) (-1, -1) b (pairCols b A) := by
  have hget : ∀ j : Nat, ((pairCols b A).getD j []).length = (A.getD j []).length := by
    intro j
    unfold pairCols
    rw [getD_map_range]
    by_cases h : j < A.length
    · rw [if_pos h]; simp
    · rw [if_neg h, List.getD_eq_default _ _ (by omega)]
      rfl
  constructor
  · exact hR.hIs
  · exact hR.hJs
  · simp only [pairCols, List.length_map, List.length_range]; exact hR.lenA
  · intro c hc
    unfold pairCols at hc
    obtain ⟨j, hj, rfl⟩ := List.mem_map.mp hc
    simp only [List.length_map, List.length_range]
    exact hR.lenC _ (getD_mem_of_lt A j [] (List.mem_range.mp hj))
  · intro i hi
    simp only [pairCols, List.length_map, List.length_range]
    exact hR.lastJ i hi
  · intro j hj
    rw [hget]
    exact hR.lastI j hj
  · intro i j hv
    have hc := hR.cell i j hv
    unfold pairCols
    rw [getD_map_range]
    by_cases h : j.toNat < A.length
    · rw [if_pos h, getD_map_range]
      by_cases h2 : i.toNat < (A.getD j.toNat []).length
      · rw [if_pos h2]
        have hi : ((i.toNat : Nat) : Int) = i := Int.toNat_of_nonneg hv.1
        have hj : ((j.toNat : Nat) : Int) = j := Int.toNat_of_nonneg hv.2.2.1
        rw [hi, hj]
      · rw [if_neg h2]
        rw [List.getD_eq_default _ _ (by omega)] at hc
        unfold content
        rw [hc, hg i j hv hc]
    · rw [if_neg h]
      rw [List.getD_eq_default A [] (by omega)] at hc
      have hc' : colorAt b i j = -1 := hc
      unfold content
      rw [hc', hg i j hv hc']
      rfl

/-! ## `play` as a whole -/

theorem length_le_sum (l : List Int) (h : ∀ k : Nat, k < l.length → 1 ≤ l.getD k 0) :
    (l.length : Int) ≤ l.sum := by
  induction l with
  | nil => simp
  | cons x xs ih =>
    have h0 := h 0 (by simp)
    have hrest := ih (fun k hk => by
      have := h (k + 1) (by simpa using hk)
      simpa using this)
    simp only [List.getD_cons_zero] at h0
    simp only [List.length_cons, List.sum_cons]
    push_cast
    omega

theorem groupSizes_length_le {t : Board} {p : Int} (hL : LInv t) (hS : SInv p t) :
    t.groupSizes.length ≤ t.dataGroups.length := by
  have h1 : (t.groupSizes.length : Int) ≤ t.groupSizes.sum := by
    apply length_le_sum
    intro g hg
    rw [hL.cnt g hg]
    obtain ⟨a, ha, _, hga⟩ := hS.seen g hg
    have hm : groupAt t a.1 a.2 ∈ t.dataGroups :=
      getD_mem (by rw [hL.ws.2]; exact idx_toNat_lt ha) (-1)
    rw [hga] at hm
    have := List.count_pos_iff.mpr hm
    omega
  rw [hL.sum] at h1
  have h2 := List.countP_le_length (fun x => x != -1) (l := t.dataGroups)
  omega

theorem fresh_of_mframe {t1 t2 : Board} (hL : LInv t1) (hS : SInv ((t1.nbI : Int) * t1.nbJ) t1)
    (hM : MFrame t1 t2)
    (hm : t2.moves = ((cells t1).filter (fun a => playable t1 a)).map (moveAt t1)) :
    Fresh t2 := by
  unfold MFrame at hM
  generalize t2.moves = ms at hM hm
  subst hM
  exact ⟨⟨hL.ws, hL.rng, hL.col, hL.closed, hL.conn, hL.cnt, hL.sum⟩,
    ⟨hS.done, hS.seen, hS.ord⟩, hm⟩

/-- `findGroups` followed by `findMoves` returns on every well-sized board, with fresh
labels and moves. -/
theorem fresh_find (t : Board) (hw : WellSized t) :
    ∃ t1 t2, findGroups t = some t1 ∧ findMoves t1 = some t2 ∧ GFrame t t1 ∧ MFrame t1 t2 ∧
      Fresh t2 := by
  obtain ⟨t1, h1, hf, hL, hS⟩ := findGroups_spec t hw
  rw [← gframe_nbI hf, ← gframe_nbJ hf] at hS
  obtain ⟨t2, h2, hM, hm⟩ := findMoves_spec t1 hL.ws (by
    intro i j hv hc
    have hg : groupAt t1 i j ≠ -1 := fun hg => hc ((labelled_iff hL hS hv).mp hg)
    rcases hL.rng _ (getD_mem (by rw [hL.ws.2]; exact idx_toNat_lt hv) (-1)) with h | h
    · exact absurd h hg
    · exact h)
  exact ⟨t1, t2, h1, h2, hf, hM, fresh_of_mframe hL hS hM hm⟩

/-- A move of a fresh board names a non-empty cell. -/
theorem move_cell {b : Board} (hF : Fresh b) {m : Move} (hm : m ∈ b.moves) :
    isValid b m.i m.j ∧ playable b (m.i, m.j) ∧ m = moveAt b (m.i, m.j) := by
  rw [hF.2.2] at hm
  obtain ⟨a, ha, rfl⟩ := List.mem_map.mp hm
  obtain ⟨hac, hp⟩ := List.mem_filter.mp ha
  exact ⟨mem_cells.mp hac, by simpa using hp, rfl⟩

/-- `play(n)` with a valid index returns: the vertical and horizontal contractions leave
the columns `playCols`, and the labels and moves are computed afresh. -/
theorem play_spec {b : Board} {A : List (List Int)} (hF : Fresh b)
    (hR : Rep (colorAt b) (-1) b A) (n : Int) (hn0 : 0 ≤ n) (hn1 : n < b.moves.length) :
    ∃ m b3 b4 b5, vget b.moves n = some m ∧ m ∈ b.moves ∧ play b n = some b5 ∧
      CFrame { b with score := Dbl.add b.score m.eval } b3 ∧ WellSized b3 ∧
      Rep (colorAt b3) (-1) b3 (playCols b A (groupAt b m.i m.j)) ∧
      findGroups b3 = some b4 ∧ findMoves b4 = some b5 ∧ GFrame b3 b4 ∧ MFrame b4 b5 ∧
      Fresh b5 := by
  obtain ⟨hL, hS, hmv⟩ := hF
  have hw := hL.ws
  have hnl : n.toNat < b.moves.length := by omega
  have hmem : b.moves.getD n.toNat ⟨0, 0, 0, Dbl.ofInt 0⟩ ∈ b.moves :=
    getD_mem_of_lt _ _ _ hnl
  have hget : vget b.moves n = some (b.moves.getD n.toNat ⟨0, 0, 0, Dbl.ofInt 0⟩) :=
    vget_of_lt _ _ _ hn0 hnl
  generalize b.moves.getD n.toNat ⟨0, 0, 0, Dbl.ofInt 0⟩ = m at hmem hget
  obtain ⟨hv, hp, _⟩ := move_cell ⟨hL, hS, hmv⟩ hmem
  have hcol : colorAt b m.i m.j ≠ -1 := hp.1
  have hg : groupAt b m.i m.j ≠ -1 := fun hg => hcol ((labelled_iff hL hS hv).mp hg)
  have hrng : 0 ≤ groupAt b m.i m.j ∧ groupAt b m.i m.j < (b.groupSizes.length : Int) := by
    rcases hL.rng _ (getD_mem (by rw [hw.2]; exact idx_toNat_lt hv) (-1)) with h | h
    · exact absurd h hg
    · exact h
  have hsz := groupSizes_length_le hL hS
  have hread : (ind b m.i m.j).bind (vget b.dataGroups) = some (groupAt b m.i m.j) := by
    rw [ind_of_valid hv]
    show vget b.dataGroups _ = _
    rw [vget_groups hw hv]
  have hRp := rep_pairCols hR (fun i j hv hc => (labelled_iff hL hS hv).mpr hc)
  have hR0 : Rep (content { b with score := Dbl.add b.score m.eval }) (-1, -1)
      { b with score := Dbl.add b.score m.eval } (pairCols b A) :=
    ⟨hRp.hIs, hRp.hJs, hRp.lenA, hRp.lenC, hRp.lastJ, hRp.lastI, hRp.cell⟩
  have hw0 : WellSized { b with score := Dbl.add b.score m.eval } := hw
  obtain ⟨b2, hb2, hf2, hw2, hR2⟩ := iPhase_spec (groupAt b m.i m.j) hw0 hR0
  have hI2 : 0 < b2.nbI := by
    rw [cframe_nbI hf2]
    have := hv.1
    have := hv.2.1
    show 0 < b.nbI
    omega
  have hlen : ((pairCols b A).map (filtCol (groupAt b m.i m.j))).length ≤ b2.nbJ := hR2.lenA
  obtain ⟨b3, hb3, hf3, hw3, hR3⟩ := jContractions_spec (b2.nbJ + 1) b2 []
    (((pairCols b A).map (filtCol (groupAt b m.i m.j))).map (List.map Prod.fst)) hw2
    (rep_colors hR2) hI2 (by simp only [List.length_map] at hlen ⊢; omega)
  obtain ⟨b4, b5, h4, h5, hf4, hf5, hF5⟩ := fresh_find b3 hw3
  refine ⟨m, b3, b4, b5, hget, hmem, ?_, cframe_trans hf2 hf3, hw3, hR3, h4, h5, hf4, hf5, hF5⟩
  unfold play
  rw [if_pos ⟨hn0, hn1⟩, hget]
  simp only [hread]
  rw [if_pos ⟨hrng.1, by omega⟩]
  have hb2' : forRange 0 (b.nbJ : Int) (fun b1 j => iContractions (groupAt b m.i m.j) j
      (b1.nbI + 1) b1 0) { b with score := Dbl.add b.score m.eval } = some b2 := hb2
  simp only [hb2']
  have hb3' : jContractions (b2.nbJ + 1) b2 0 = some b3 := hb3
  simp only [hb3', h4]
  exact h5

/-! ## Invariants of the reachable boards -/

theorem forLoop_inv {σ : Type} (body : σ → Int → Option σ) (Inv : Int → σ → Prop) :
    ∀ (n : Nat) (i0 : Int) (s s1 : σ), Inv i0 s →
      (∀ i t t1, i0 ≤ i → i < i0 + n → Inv i t → body t i = some t1 → Inv (i + 1) t1) →
      forLoop body n i0 s = some s1 → Inv (i0 + n) s1 := by
  intro n
  induction n with
  | zero =>
    intro i0 s s1 h0 _ hs
    simp only [forLoop, Option.some.injEq] at hs
    subst hs
    simpa using h0
  | succ n ih =>
    intro i0 s s1 h0 hstep hs
    simp only [forLoop] at hs
    cases hb : body s i0 with
    | none => rw [hb] at hs; simp at hs
    | some t1 =>
      rw [hb] at hs
      have h1 := hstep i0 s t1 (le_refl _) (by push_cast; omega) h0 hb
      have := ih (i0 + 1) t1 s1 h1 (fun i t t2 hlo hhi hI hbt =>
        hstep i t t2 (by omega) (by push_cast; omega) hI hbt) hs
      have e : i0 + ((n + 1 : Nat) : Int) = i0 + 1 + (n : Int) := by push_cast; ring
      rw [e]
      exact this

theorem forRange_inv {σ : Type} (body : σ → Int → Option σ) (Inv : Int → σ → Prop)
    (lo hi : Int) (s s1 : σ) (hle : lo ≤ hi) (h0 : Inv lo s)
    (hstep : ∀ i t t1, lo ≤ i → i < hi → Inv i t → body t i = some t1 → Inv (i + 1) t1)
    (hs : forRange lo hi body s = some s1) : Inv hi s1 := by
  have hn : lo + (((hi - lo).toNat : Nat) : Int) = hi := by omega
  have := forLoop_inv body Inv (hi - lo).toNat lo s s1 h0
    (fun i t t1 hlo hhi hI hb => hstep i t t1 hlo (by omega) hI hb) hs
  rw [hn] at this
  exact this

theorem rep_colorAt_congr {t u : Board} {A : List (List Int)} (hR : Rep (colorAt t) (-1) t A)
    (hI : u.nbI = t.nbI) (hJ : u.nbJ = t.nbJ) (hC : u.dataColors = t.dataColors)
    (hlI : u.lastIs = t.lastIs) (hlJ : u.lastJs = t.lastJs) : Rep (colorAt u) (-1) u A := by
  have : colorAt u = colorAt t := by
    funext i j
    unfold colorAt
    rw [hC, hJ]
  rw [this]
  exact rep_congr hR hI hJ hlI hlJ

theorem packed_congr {t u : Board} (hP : Packed t)
    (hI : u.nbI = t.nbI) (hJ : u.nbJ = t.nbJ) (hC : u.dataColors = t.dataColors)
    (hlI : u.lastIs = t.lastIs) (hlJ : u.lastJs = t.lastJs) : Packed u := by
  obtain ⟨A, hR, h1, h2⟩ := hP
  exact ⟨A, rep_colorAt_congr hR hI hJ hC hlI hlJ, h1, h2⟩

/-- Labelling and enumerating a packed board leaves it packed and makes it fresh. -/
theorem packed_find {t b : Board} (hw : WellSized t) (hP : Packed t)
    (hb : (findGroups t).bind findMoves = some b) : Fresh b ∧ Packed b := by
  obtain ⟨t1, t2, h1, h2, hf, hM, hF⟩ := fresh_find t hw
  rw [h1] at hb
  have hb' : findMoves t1 = some b := hb
  rw [h2] at hb'
  have hbt : t2 = b := Option.some.inj hb'
  subst hbt
  refine ⟨hF, ?_⟩
  unfold GFrame at hf
  unfold MFrame at hM
  apply packed_congr hP
  · rw [hM]; show t1.nbI = _; rw [hf]
  · rw [hM]; show t1.nbJ = _; rw [hf]
  · rw [hM]; show t1.dataColors = _; rw [hf]
  · rw [hM]; show t1.lastIs = _; rw [hf]
  · rw [hM]; show t1.lastJs = _; rw [hf]

theorem const_of_gframe {t u : Board} (h : GFrame t u) : Const t u := by
  unfold GFrame at h
  exact ⟨by rw [h], by rw [h], by rw [h], by rw [h]⟩

theorem const_of_mframe {t u : Board} (h : MFrame t u) : Const t u := by
  unfold MFrame at h
  exact ⟨by rw [h], by rw [h], by rw [h], by rw [h]⟩

theorem const_of_cframe {t u : Board} (h : CFrame t u) : Const t u := by
  unfold CFrame at h
  exact ⟨by rw [h], by rw [h], by rw [h], by rw [h]⟩

theorem const_trans {a b c : Board} (h1 : Const a b) (h2 : Const b c) : Const a c :=
  ⟨h2.1.trans h1.1, h2.2.1.trans h1.2.1, h2.2.2.1.trans h1.2.2.1, h2.2.2.2.trans h1.2.2.2⟩

theorem estOK_of_const {a b : Board} (h : Const a b) (ha : EstOK a) : EstOK b := by
  unfold EstOK at *
  rw [h.1, h.2.1, h.2.2.1, h.2.2.2]
  exact ha

theorem find_const {t b : Board} (hw : WellSized t)
    (hb : (findGroups t).bind findMoves = some b) : Const t b := by
  obtain ⟨t1, t2, h1, h2, hf, hM, _⟩ := fresh_find t hw
  rw [h1] at hb
  have hb' : findMoves t1 = some b := hb
  rw [h2] at hb'
  have hbt : t2 = b := Option.some.inj hb'
  subst hbt
  exact const_trans (const_of_gframe hf) (const_of_mframe hM)

/-- A board whose cells are all non-empty and whose fill vectors are those of a full
board is packed. -/
theorem packed_full {t : Board} (hw : WellSized t)
    (hc : ∀ k : Nat, k < t.dataColors.length → t.dataColors.getD k (-1) ≠ -1)
    (hlI : t.lastIs = List.replicate t.nbJ ((t.nbI : Int) - 1))
    (hlJ : t.lastJs = List.replicate t.nbI ((t.nbJ : Int) - 1)) : Packed t := by
  have hcell : ∀ i j, isValid t i j → colorAt t i j ≠ -1 := by
    intro i j hv
    exact hc _ (by rw [hw.1]; exact idx_toNat_lt hv)
  have hrep : ∀ (n k : Nat) (x : Int), k < n → (List.replicate n x).getD k 0 = x := by
    intro n k x hk
    rw [List.getD_eq_getElem _ _ (by simpa using hk)]
    simp
  by_cases hI : t.nbI = 0
  · refine ⟨[], ⟨?_, ?_, ?_, ?_, ?_, ?_, ?_⟩, ?_, ?_⟩
    · rw [hlI]; simp
    · rw [hlJ]; simp
    · simp
    · intro c hc; simp at hc
    · intro i hi; omega
    · intro j hj
      rw [hlI, hrep _ _ _ hj, hI]
      rfl
    · intro i j hv
      have := hv.1
      have := hv.2.1
      omega
    · intro c hc; simp at hc
    · intro c hc; simp at hc
  · have hIpos : 0 < t.nbI := Nat.pos_of_ne_zero hI
    refine ⟨(List.range t.nbJ).map (fun (j : Nat) =>
        (List.range t.nbI).map (fun (i : Nat) => colorAt t (i : Int) (j : Int))),
      ⟨?_, ?_, ?_, ?_, ?_, ?_, ?_⟩, ?_, ?_⟩
    · rw [hlI]; simp
    · rw [hlJ]; simp
    · simp
    · intro c hc
      obtain ⟨j, _, rfl⟩ := List.mem_map.mp hc
      simp
    · intro i hi
      rw [hlJ, hrep _ _ _ hi]
      simp
    · intro j hj
      rw [hlI, hrep _ _ _ hj, getD_map_range, if_pos hj]
      simp
    · intro i j hv
      have h1 : j.toNat < t.nbJ := by have := hv.2.2.1; have := hv.2.2.2; omega
      have h2 : i.toNat < t.nbI := by have := hv.1; have := hv.2.1; omega
      rw [getD_map_range, if_pos h1, getD_map_range, if_pos h2,
        Int.toNat_of_nonneg hv.1, Int.toNat_of_nonneg hv.2.2.1]
    · intro c hc
      obtain ⟨j, _, rfl⟩ := List.mem_map.mp hc
      intro he
      have := congrArg List.length he
      simp at this
      omega
    · intro c hc x hx
      obtain ⟨j, hj, rfl⟩ := List.mem_map.mp hc
      obtain ⟨i, hi, rfl⟩ := List.mem_map.mp hx
      exact hcell _ _ ⟨Int.ofNat_nonneg _, by exact_mod_cast List.mem_range.mp hi,
        Int.ofNat_nonneg _, by exact_mod_cast List.mem_range.mp hj⟩

/-- The constructor yields a fresh, packed board with the score scale of the source. -/
theorem new_inv {nbI nbJ : Nat} {nbColors : Int} {fillFunc : Nat → Int} {b : Board}
    (h : Board.new nbI nbJ nbColors fillFunc = some b) : Fresh b ∧ Packed b ∧ EstOK b := by
  unfold Board.new at h
  simp only at h
  by_cases hc : ∀ c ∈ (List.range (nbI * nbJ)).map fillFunc, 0 ≤ c ∧ c < nbColors
  · rw [if_pos hc] at h
    have hw : WellSized
        { nbI := nbI, nbJ := nbJ, nbColors := nbColors,
          estimatedMaxScore :=
            Dbl.pow (Dbl.div (Dbl.ofInt ((nbI : Int) * nbJ)) (Dbl.ofInt nbColors)) (Dbl.ofInt 2),
          dataColors := (List.range (nbI * nbJ)).map fillFunc,
          dataGroups := List.replicate (nbI * nbJ) 0,
          groupSizes := [],
          lastIs := List.replicate nbJ ((nbI : Int) - 1),
          lastJs := List.replicate nbI ((nbJ : Int) - 1),
          score := Dbl.ofInt 0,
          moves := [] } := ⟨by simp, by simp⟩
    have hP := packed_find hw (by
      apply packed_full hw
      · intro k hk
        have hm := getD_mem hk (-1)
        have := (hc _ hm).1
        omega
      · rfl
      · rfl) h
    exact ⟨hP.1, hP.2, estOK_of_const (find_const hw h) rfl⟩
  · rw [if_neg hc] at h
    exact absurd h (by simp)

theorem datasets_nonneg {k c : Int} (h : vget DATASETS k = some c) : 0 ≤ c := by
  obtain ⟨_, hlt, hget⟩ := vget_eq_some h
  have hm : c ∈ DATASETS := by
    rw [← hget 0]
    exact getD_mem hlt 0
  unfold DATASETS at hm
  obtain ⟨n, _, rfl⟩ := List.mem_map.mp hm
  exact Int.ofNat_nonneg n

theorem resetCell_eq {iDataset : Int} {t t1 : Board} {i j : Int}
    (h : resetCell iDataset t i j = some t1) :
    ∃ c, 0 ≤ c ∧ (i * (t.nbJ : Int) + j).toNat < t.dataColors.length ∧
      0 ≤ i * (t.nbJ : Int) + j ∧
      t1 = { t with dataColors := t.dataColors.set (i * (t.nbJ : Int) + j).toNat c } := by
  unfold resetCell at h
  cases hg : vget DATASETS (↑t.nbI * ↑t.nbJ * iDataset + (↑t.nbI - i - 1) * ↑t.nbJ + j) with
  | none => rw [hg] at h; simp at h
  | some c =>
    rw [hg] at h
    simp only at h
    cases hs : vset t.dataColors (i * ↑t.nbJ + j) c with
    | none => rw [hs] at h; simp at h
    | some dc =>
      rw [hs] at h
      obtain ⟨h0, hlt, hdc⟩ := vset_eq_some hs
      refine ⟨c, datasets_nonneg hg, hlt, h0, ?_⟩
      rw [← hdc]
      exact (Option.some.inj h).symm

/-- `reset` of a board with vectors of the right sizes yields a fresh, packed board. -/
theorem reset_inv {b0 b : Board} {iDataset : Int} (hw : WellSized b0)
    (hlI : b0.lastIs.length = b0.nbJ) (hlJ : b0.lastJs.length = b0.nbI)
    (h : reset b0 iDataset = some b) : Fresh b ∧ Packed b ∧ Const b0 b := by
  unfold reset at h
  by_cases hc : 0 ≤ iDataset ∧ iDataset < 20
  · rw [if_pos hc] at h
    cases hloop : forRange 0 (b0.nbI : Int)
        (fun b1 i => forRange 0 b1.nbJ (fun b2 j => resetCell iDataset b2 i j) b1) b0 with
    | none => rw [hloop] at h; simp at h
    | some b1 =>
      rw [hloop] at h
      simp only at h
      have hinv := forRange_inv
        (fun b1 i => forRange 0 b1.nbJ (fun b2 j => resetCell iDataset b2 i j) b1)
        (fun i t => t = { b0 with dataColors := t.dataColors } ∧
          t.dataColors.length = b0.dataColors.length ∧
          ∀ k : Nat, (k : Int) < i * (b0.nbJ : Int) → k < t.dataColors.length →
            t.dataColors.getD k (-1) ≠ -1)
        0 b0.nbI b0 b1 (Int.ofNat_nonneg _)
        ⟨rfl, rfl, by intro k hk; omega⟩
        (by
          rintro i t t1 hi0 hi1 ⟨hf, hlen, hcl⟩ ht1
          have hJ : t.nbJ = b0.nbJ := by rw [hf]
          have := forRange_inv (fun b2 j => resetCell iDataset b2 i j)
            (fun j u => u = { b0 with dataColors := u.dataColors } ∧
              u.dataColors.length = b0.dataColors.length ∧
              ∀ k : Nat, (k : Int) < i * (b0.nbJ : Int) + j → k < u.dataColors.length →
                u.dataColors.getD k (-1) ≠ -1)
            0 t.nbJ t t1 (Int.ofNat_nonneg _)
            ⟨hf, hlen, by rw [add_zero]; exact hcl⟩
            (by
              rintro j u u1 hj0 hj1 ⟨hfu, hlenu, hclu⟩ hu1
              obtain ⟨c, hc0, hlt, hnn, rfl⟩ := resetCell_eq hu1
              have hJu : u.nbJ = b0.nbJ := by rw [hfu]
              refine ⟨?_, by simp only [List.length_set]; exact hlenu, ?_⟩
              · show _ = { b0 with dataColors := u.dataColors.set _ c }
                rw [hfu]
              · intro k hk hkl
                simp only [List.length_set] at hkl
                show (u.dataColors.set _ c).getD k (-1) ≠ -1
                by_cases hkk : (i * (u.nbJ : Int) + j).toNat = k
                · rw [← hkk, getD_set_eq _ _ _ _ hlt]
                  omega
                · rw [getD_set_ne _ _ _ _ _ hkk]
                  rw [hJu] at hkk hnn
                  exact hclu k (by omega) hkl)
            ht1
          obtain ⟨hf1, hlen1, hcl1⟩ := this
          refine ⟨hf1, hlen1, ?_⟩
          rw [hJ] at hcl1
          have e : (i + 1) * (b0.nbJ : Int) = i * (b0.nbJ : Int) + b0.nbJ := by ring
          rw [e]
          exact hcl1)
        hloop
      obtain ⟨hf, hlen, hcl⟩ := hinv
      have hI1 : b1.nbI = b0.nbI := by rw [hf]
      have hJ1 : b1.nbJ = b0.nbJ := by rw [hf]
      have hG1 : b1.dataGroups = b0.dataGroups := by rw [hf]
      have hlI1 : b1.lastIs = b0.lastIs := by rw [hf]
      have hlJ1 : b1.lastJs = b0.lastJs := by rw [hf]
      have hw1 : WellSized b1 := by
        unfold WellSized
        rw [hlen, hG1, hI1, hJ1]
        exact hw
      have hN1 : b1.nbColors = b0.nbColors := by rw [hf]
      have hE1 : b1.estimatedMaxScore = b0.estimatedMaxScore := by rw [hf]
      have hPk : Packed { b1 with
          lastIs := List.replicate b1.lastIs.length ((b1.nbI : Int) - 1),
          lastJs := List.replicate b1.lastJs.length ((b1.nbJ : Int) - 1),
          score := Dbl.ofInt 0 } := by
        apply packed_full
        · exact hw1
        · intro k hk
          refine hcl k ?_ hk
          have : k < b1.nbI * b1.nbJ := by rw [← hw1.1]; exact hk
          rw [← hI1, ← hJ1]
          exact_mod_cast this
        · show List.replicate b1.lastIs.length _ = List.replicate b1.nbJ _
          rw [hlI1, hlI, hJ1]
        · show List.replicate b1.lastJs.length _ = List.replicate b1.nbI _
          rw [hlJ1, hlJ, hI1]
      have hw2 : WellSized { b1 with
          lastIs := List.replicate b1.lastIs.length ((b1.nbI : Int) - 1),
          lastJs := List.replicate b1.lastJs.length ((b1.nbJ : Int) - 1),
          score := Dbl.ofInt 0 } := hw1
      have hfind := packed_find hw2 hPk h
      have hcst0 := find_const hw2 h
      have hcst : Const b1 b := hcst0
      exact ⟨hfind.1, hfind.2, const_trans ⟨hI1, hJ1, hN1, hE1⟩ hcst⟩
  · rw [if_neg hc] at h
    exact absurd h (by simp)

/-- A successful `play` on a fresh, packed board yields a fresh, packed board. -/
theorem play_inv {b0 b : Board} {n : Int} (hF : Fresh b0) (hP : Packed b0)
    (h : play b0 n = some b) : Fresh b ∧ Packed b ∧ Const b0 b := by
  have hn : 0 ≤ n ∧ n < b0.moves.length := by
    by_contra hn
    unfold play at h
    rw [if_neg hn] at h
    exact absurd h (by simp)
  obtain ⟨A, hR, hne, hel⟩ := hP
  obtain ⟨m, b3, b4, b5, _, _, hplay, hf3, hw3, hR3, h4, h5, hf4, hf5, hF5⟩ :=
    play_spec hF hR n hn.1 hn.2
  rw [h] at hplay
  have hb : b = b5 := Option.some.inj hplay
  subst hb
  have hc3 : Const { b0 with score := Dbl.add b0.score m.eval } b3 := const_of_cframe hf3
  have hc3' : Const b0 b3 := hc3
  have hcst : Const b0 b :=
    const_trans (const_trans hc3' (const_of_gframe hf4)) (const_of_mframe hf5)
  refine ⟨hF5, ?_, hcst⟩
  unfold GFrame at hf4
  unfold MFrame at hf5
  refine ⟨playCols b0 A (groupAt b0 m.i m.j), ?_, ?_, ?_⟩
  · apply rep_colorAt_congr hR3
    · rw [hf5]; show b4.nbI = _; rw [hf4]
    · rw [hf5]; show b4.nbJ = _; rw [hf4]
    · rw [hf5]; show b4.dataColors = _; rw [hf4]
    · rw [hf5]; show b4.lastIs = _; rw [hf4]
    · rw [hf5]; show b4.lastJs = _; rw [hf4]
  · intro c hc
    unfold playCols at hc
    simpa using (List.mem_filter.mp hc).2
  · intro c hc x hx
    unfold playCols at hc
    obtain ⟨hc1, _⟩ := List.mem_filter.mp hc
    obtain ⟨c1, hc1m, rfl⟩ := List.mem_map.mp hc1
    obtain ⟨c2, hc2m, rfl⟩ := List.mem_map.mp hc1m
    obtain ⟨p, hp, rfl⟩ := List.mem_map.mp hx
    unfold filtCol at hp
    have hp2 := (List.mem_filter.mp hp).1
    unfold pairCols at hc2m
    obtain ⟨j, hj, rfl⟩ := List.mem_map.mp hc2m
    obtain ⟨i, hi, rfl⟩ := List.mem_map.mp hp2
    have hjA := List.mem_range.mp hj
    have hiA := List.mem_range.mp hi
    have hcolA : A.getD j [] ∈ A := getD_mem_of_lt A j [] hjA
    have hv : isValid b0 (i : Int) (j : Int) :=
      ⟨Int.ofNat_nonneg _, by have := hR.lenC _ hcolA; exact_mod_cast (by omega : i < b0.nbI),
        Int.ofNat_nonneg _, by have := hR.lenA; exact_mod_cast (by omega : j < b0.nbJ)⟩
    have hcell := hR.cell _ _ hv
    simp only [Int.toNat_ofNat] at hcell
    show colorAt b0 i j ≠ -1
    rw [hcell]
    exact hel _ hcolA _ (getD_mem hiA (-1))

theorem estOK_default : EstOK Board.default := rfl

/-- Every reachable board has fresh labels and moves, is packed, and has the score scale
of the source. -/
theorem reachable_all {b : Board} (h : Reachable b) : Fresh b ∧ Packed b ∧ EstOK b := by
  induction h with
  | ctor nbI nbJ nbColors fillFunc b hb => exact new_inv hb
  | resetDefault iDataset b hb =>
    have := reset_inv ⟨List.length_replicate _ _, List.length_replicate _ _⟩
      (List.length_replicate _ _) (List.length_replicate _ _) hb
    exact ⟨this.1, this.2.1, estOK_of_const this.2.2 estOK_default⟩
  | reset b0 iDataset b _ hb ih =>
    obtain ⟨hF, ⟨A, hR, _, _⟩, hE⟩ := ih
    have := reset_inv hF.1.ws hR.hIs hR.hJs hb
    exact ⟨this.1, this.2.1, estOK_of_const this.2.2 hE⟩
  | play b0 n b _ hb ih =>
    have := play_inv ih.1 ih.2.1 hb
    exact ⟨this.1, this.2.1, estOK_of_const this.2.2 ih.2.2⟩

theorem reachable_inv {b : Board} (h : Reachable b) : Fresh b ∧ Packed b :=
  ⟨(reachable_all h).1, (reachable_all h).2.1⟩

theorem gapStart_new : Board.new 2 2 3 gapFill = some gapStart := by decide

theorem gapBoard_play : play gapStart 0 = some gapBoard := by decide

theorem gapBoard_reachable : Reachable gapBoard :=
  Reachable.play gapStart 0 gapBoard (Reachable.ctor 2 2 3 gapFill gapStart gapStart_new)
    gapBoard_play

/-! ## What a packed representation says about cells -/

theorem rep_occupied {b : Board} {A : List (List Int)} (hR : Rep (colorAt b) (-1) b A)
    (hel : ∀ c ∈ A, ∀ x ∈ c, x ≠ -1) {i j : Int} (hv : isValid b i j) :
    colorAt b i j ≠ -1 ↔ i.toNat < (A.getD j.toNat []).length := by
  rw [hR.cell i j hv]
  constructor
  · intro hne
    by_contra hlt
    exact hne (List.getD_eq_default _ _ (by omega))
  · intro hlt
    have hjA : j.toNat < A.length := getD_nonempty_lt A _ (by omega)
    exact hel _ (getD_mem_of_lt A _ _ hjA) _ (getD_mem hlt (-1))

theorem rep_column_pos {A : List (List Int)} (hne : ∀ c ∈ A, c ≠ []) {j : Nat}
    (hj : j < A.length) : 0 < (A.getD j []).length :=
  List.length_pos.mpr (hne _ (getD_mem_of_lt A j [] hj))

/-! ## Claims about the fill heights and fill widths -/

/-- C5: in every reachable state `_lastIs` has one entry per column, between `-1` and
`nbI - 1`; a cell `(i, j)` is occupied iff `0 <= i <= _lastIs[j]` (so each column is
bottom-packed and `_lastIs[j]` is its highest occupied row, `-1` when it is empty); and no
empty column lies to the left of an occupied one. -/
theorem reachable_columns_packed (b : Board) (h : Reachable b) :
    b.lastIs.length = b.nbJ ∧
    (∀ j : Nat, j < b.nbJ → -1 ≤ b.lastIs.getD j 0 ∧ b.lastIs.getD j 0 < b.nbI) ∧
    (∀ i j, isValid b i j →
      (colorAt b i j ≠ -1 ↔ (0 ≤ i ∧ i ≤ b.lastIs.getD j.toNat 0))) ∧
    (∀ i j j1, isValid b i j1 → colorAt b i j1 ≠ -1 → 0 ≤ j → j < j1 →
      ∃ i1, isValid b i1 j ∧ colorAt b i1 j ≠ -1) := by
  obtain ⟨_, A, hR, hne, hel⟩ := reachable_inv h
  have hlen : ∀ j : Nat, (A.getD j []).length ≤ b.nbI := by
    intro j
    by_cases hj : j < A.length
    · exact hR.lenC _ (getD_mem_of_lt A j [] hj)
    · rw [List.getD_eq_default _ _ (by omega)]
      simp
  refine ⟨hR.hIs, ?_, ?_, ?_⟩
  · intro j hj
    rw [hR.lastI j hj]
    have := hlen j
    omega
  · intro i j hv
    have hj : j.toNat < b.nbJ := by have := hv.2.2.1; have := hv.2.2.2; omega
    rw [rep_occupied hR hel hv, hR.lastI _ hj]
    have := hv.1
    omega
  · intro i j j1 hv hc hj0 hjlt
    have h1 := (rep_occupied hR hel hv).mp hc
    have hj1A : j1.toNat < A.length := getD_nonempty_lt A _ (by omega)
    have hjA : j.toNat < A.length := by omega
    have hv0 : isValid b 0 j :=
      ⟨le_refl _, by have := hv.1; have := hv.2.1; omega, hj0, by have := hv.2.2.2; omega⟩
    refine ⟨0, hv0, (rep_occupied hR hel hv0).mpr ?_⟩
    exact rep_column_pos hne hjA

/-- C5, instance: the theorem applied to the board `gapBoard`. -/
theorem reachable_columns_packed_witness :
    Reachable gapBoard ∧
    (gapBoard.lastIs.length = gapBoard.nbJ ∧
    (∀ j : Nat, j < gapBoard.nbJ →
      -1 ≤ gapBoard.lastIs.getD j 0 ∧ gapBoard.lastIs.getD j 0 < gapBoard.nbI) ∧
    (∀ i j, isValid gapBoard i j →
      (colorAt gapBoard i j ≠ -1 ↔ (0 ≤ i ∧ i ≤ gapBoard.lastIs.getD j.toNat 0))) ∧
    (∀ i j j1, isValid gapBoard i j1 → colorAt gapBoard i j1 ≠ -1 → 0 ≤ j → j < j1 →
      ∃ i1, isValid gapBoard i1 j ∧ colorAt gapBoard i1 j ≠ -1)) :=
  ⟨gapBoard_reachable, reachable_columns_packed gapBoard gapBoard_reachable⟩

/-- C6, as stated, fails: `gapBoard` is reached by a play, its cell `(1, 0)` is empty, and
yet `0 <= 0 <= _lastJs[1]`. -/
theorem rows_contiguous_counterexample :
    Reachable gapBoard ∧ isValid gapBoard 1 0 ∧
    ¬ (colorAt gapBoard 1 0 ≠ -1 ↔ ((0 : Int) ≤ 0 ∧ (0 : Int) ≤ gapBoard.lastJs.getD 1 0)) :=
  ⟨gapBoard_reachable, by decide, by decide⟩

/-- C6, amended: in every reachable state every occupied cell `(i, j)` has
`0 <= j <= _lastJs[i]`, and in row 0 the cell `(0, j)` is occupied iff
`0 <= j <= _lastJs[0]`. -/
theorem reachable_rows_bound (b : Board) (h : Reachable b) :
    b.lastJs.length = b.nbI ∧
    (∀ i j, isValid b i j → colorAt b i j ≠ -1 → 0 ≤ j ∧ j ≤ b.lastJs.getD i.toNat 0) ∧
    (∀ j, isValid b 0 j → (colorAt b 0 j ≠ -1 ↔ (0 ≤ j ∧ j ≤ b.lastJs.getD 0 0))) := by
  obtain ⟨_, A, hR, hne, hel⟩ := reachable_inv h
  refine ⟨hR.hJs, ?_, ?_⟩
  · intro i j hv hc
    have h1 := (rep_occupied hR hel hv).mp hc
    have hjA : j.toNat < A.length := getD_nonempty_lt A _ (by omega)
    have hi : i.toNat < b.nbI := by have := hv.1; have := hv.2.1; omega
    rw [hR.lastJ _ hi]
    have := hv.2.2.1
    omega
  · intro j hv
    have hI : 0 < b.nbI := by have := hv.2.1; omega
    rw [rep_occupied hR hel hv, hR.lastJ 0 hI]
    have hj0 := hv.2.2.1
    constructor
    · intro h1
      have hjA : j.toNat < A.length := getD_nonempty_lt A _ (by omega)
      omega
    · intro h1
      have hjA : j.toNat < A.length := by omega
      exact rep_column_pos hne hjA

/-- C6 amended, instance: the theorem applied to the board `gapBoard`. -/
theorem reachable_rows_bound_witness :
    Reachable gapBoard ∧
    (gapBoard.lastJs.length = gapBoard.nbI ∧
    (∀ i j, isValid gapBoard i j → colorAt gapBoard i j ≠ -1 →
      0 ≤ j ∧ j ≤ gapBoard.lastJs.getD i.toNat 0) ∧
    (∀ j, isValid gapBoard 0 j →
      (colorAt gapBoard 0 j ≠ -1 ↔ (0 ≤ j ∧ j ≤ gapBoard.lastJs.getD 0 0)))) :=
  ⟨gapBoard_reachable, reachable_rows_bound gapBoard gapBoard_reachable⟩

/-- C7, as stated, fails: `gapBoard` is reachable, its row 1 has no occupied cell, and
`_lastJs[1]` is `1`, not `-1`. -/
theorem lastJs_highest_counterexample :
    Reachable gapBoard ∧ (∀ j, isValid gapBoard 1 j → colorAt gapBoard 1 j = -1) ∧
    gapBoard.lastJs.getD 1 0 = 1 ∧ gapBoard.lastJs.getD 1 0 ≠ -1 := by
  refine ⟨gapBoard_reachable, ?_, by decide, by decide⟩
  intro j hv
  have h0 : 0 ≤ j := hv.2.2.1
  have h1 : j < 2 := hv.2.2.2
  have : j = 0 ∨ j = 1 := by omega
  rcases this with rfl | rfl <;> decide

/-- C7, amended: in every reachable state, for every row `i`, `_lastJs[i]` lies between
`-1` and `nbJ - 1`, no occupied cell of the board (in whatever row) has a column index
above it, and when it is not `-1` the cell `(0, _lastJs[i])` is occupied: it is the highest
occupied column index of row 0, `-1` when the board is empty. -/
theorem reachable_lastJs_bound (b : Board) (h : Reachable b) :
    ∀ i : Nat, i < b.nbI →
      -1 ≤ b.lastJs.getD i 0 ∧ b.lastJs.getD i 0 < b.nbJ ∧
      (∀ i1 j, isValid b i1 j → colorAt b i1 j ≠ -1 → j ≤ b.lastJs.getD i 0) ∧
      (0 ≤ b.lastJs.getD i 0 → colorAt b 0 (b.lastJs.getD i 0) ≠ -1) := by
  obtain ⟨_, A, hR, hne, hel⟩ := reachable_inv h
  intro i hi
  rw [hR.lastJ i hi]
  have hlenA := hR.lenA
  refine ⟨by omega, by omega, ?_, ?_⟩
  · intro i1 j hv hc
    have h1 := (rep_occupied hR hel hv).mp hc
    have hjA : j.toNat < A.length := getD_nonempty_lt A _ (by omega)
    have := hv.2.2.1
    omega
  · intro h0
    have hv0 : isValid b 0 ((A.length : Int) - 1) := ⟨le_refl _, by omega, h0, by omega⟩
    rw [rep_occupied hR hel hv0]
    exact rep_column_pos hne (by omega)

/-- C7 amended, instance: the theorem applied to row 0 of the board `gapBoard`. -/
theorem reachable_lastJs_bound_witness :
    Reachable gapBoard ∧ 0 < gapBoard.nbI ∧
    (-1 ≤ gapBoard.lastJs.getD 0 0 ∧ gapBoard.lastJs.getD 0 0 < gapBoard.nbJ ∧
      (∀ i1 j, isValid gapBoard i1 j → colorAt gapBoard i1 j ≠ -1 →
        j ≤ gapBoard.lastJs.getD 0 0) ∧
      (0 ≤ gapBoard.lastJs.getD 0 0 → colorAt gapBoard 0 (gapBoard.lastJs.getD 0 0) ≠ -1)) :=
  ⟨gapBoard_reachable, by decide,
    reachable_lastJs_bound gapBoard gapBoard_reachable 0 (by decide)⟩

/-! ## Claim about `findMoves` -/

theorem sizeAt_eq_compSize {t : Board} (hL : LInv t) (hS : SInv ((t.nbI : Int) * t.nbJ) t)
    {a : Int × Int} (hv : isValid t a.1 a.2) (hc : colorAt t a.1 a.2 ≠ -1) :
    sizeAt t a = (compSize t a : Int) := by
  have hg : groupAt t a.1 a.2 ≠ -1 := fun hg => hc ((labelled_iff hL hS hv).mp hg)
  have hrng : 0 ≤ groupAt t a.1 a.2 ∧ groupAt t a.1 a.2 < (t.groupSizes.length : Int) := by
    rcases hL.rng _ (getD_mem (by rw [hL.ws.2]; exact idx_toNat_lt hv) (-1)) with h | h
    · exact absurd h hg
    · exact h
  unfold sizeAt compSize
  rw [hL.cnt _ (by omega), Int.toNat_of_nonneg hrng.1, count_groups_eq_cells t hL.ws]

theorem moves_eq_specMoves {b : Board} (hF : Fresh b) : b.moves = specMoves b := by
  obtain ⟨hL, hS, hm⟩ := hF
  rw [hm]
  unfold specMoves
  have hfilt : (cells b).filter (fun a => playable b a)
      = (cells b).filter (fun a => colorAt b a.1 a.2 ≠ -1 ∧ 2 ≤ compSize b a) := by
    apply List.filter_congr
    intro a ha
    have hv := mem_cells.mp ha
    by_cases hc : colorAt b a.1 a.2 = -1
    · simp [playable, hc]
    · have := sizeAt_eq_compSize hL hS hv hc
      simp only [playable, this, ne_eq, hc, not_false_eq_true, true_and, decide_eq_decide]
      omega
  rw [hfilt]
  apply List.map_congr_left
  intro a ha
  obtain ⟨hac, hp⟩ := List.mem_filter.mp ha
  have hv := mem_cells.mp hac
  have hc : colorAt b a.1 a.2 ≠ -1 := by
    have := of_decide_eq_true hp
    exact this.1
  unfold moveAt
  rw [sizeAt_eq_compSize hL hS hv hc]

theorem cells_pairwise (b : Board) :
    (cells b).Pairwise
      (fun a c => a.1 * (b.nbJ : Int) + a.2 < c.1 * (b.nbJ : Int) + c.2) := by
  unfold cells
  rw [List.pairwise_map]
  refine List.Pairwise.imp ?_ (List.pairwise_lt_range _)
  intro k k1 hk
  rw [cellOf_idx, cellOf_idx]
  exact_mod_cast hk

theorem specMoves_coords (b : Board) :
    (specMoves b).map (fun m => (m.i, m.j))
      = (cells b).filter (fun a => colorAt b a.1 a.2 ≠ -1 ∧ 2 ≤ compSize b a) := by
  unfold specMoves
  rw [List.map_map]
  have : ((fun m : Move => (m.i, m.j)) ∘ fun a : Int × Int =>
      ({ i := a.1, j := a.2, color := colorAt b a.1 a.2,
         eval := evalOfSize b (compSize b a) } : Move)) = id := by
    funext a
    rfl
  rw [this, List.map_id]

/-- C3: on every well-sized grid `findGroups` and then `findMoves` return, `findMoves`
changes the move list only, and the list is `specMoves`: one entry per non-empty cell whose
component has at least 2 cells, in row-major order (strictly increasing `i * nbJ + j`), with
the colour of the cell and the evaluation `max(0, size - 2)^2 / estimatedMaxScore` of its
component size; the component of a non-empty cell is its set of connected cells. On every
reachable board the move list is this list and `estimatedMaxScore` is
`pow(nbI * nbJ / double(nbColors), 2.0)`. -/
theorem findMoves_entries :
    (∀ b : Board, WellSized b →
      ∃ b1 b2, findGroups b = some b1 ∧ findMoves b1 = some b2 ∧ MFrame b1 b2 ∧
        b2.moves = specMoves b1 ∧
        (b2.moves.map (fun m => (m.i, m.j))).Pairwise
          (fun a c => a.1 * (b.nbJ : Int) + a.2 < c.1 * (b.nbJ : Int) + c.2) ∧
        (∀ i j : Int, (∃ m ∈ b2.moves, m.i = i ∧ m.j = j) ↔
          (isValid b i j ∧ colorAt b i j ≠ -1 ∧ 2 ≤ compSize b1 (i, j))) ∧
        (∀ a c : Int × Int, isValid b a.1 a.2 → isValid b c.1 c.2 →
          colorAt b a.1 a.2 ≠ -1 →
          (groupAt b1 c.1 c.2 = groupAt b1 a.1 a.2 ↔ Connected b a c))) ∧
    (∀ b : Board, Reachable b →
      b.moves = specMoves b ∧
      b.estimatedMaxScore
        = Dbl.pow (Dbl.div (Dbl.ofInt ((b.nbI : Int) * b.nbJ)) (Dbl.ofInt b.nbColors))
            (Dbl.ofInt 2)) := by
  constructor
  · intro b hw
    obtain ⟨b1, b2, h1, h2, hf, hM, hF⟩ := fresh_find b hw
    have hI := gframe_nbI hf
    have hJ := gframe_nbJ hf
    have hC := gframe_dataColors hf
    have hcol : ∀ i j, colorAt b1 i j = colorAt b i j := by
      intro i j; unfold colorAt; rw [hC, hJ]
    have hmv : b2.moves = specMoves b1 := by
      rw [moves_eq_specMoves hF]
      unfold MFrame at hM
      generalize b2.moves = ms at hM
      subst hM
      rfl
    refine ⟨b1, b2, h1, h2, hM, hmv, ?_, ?_, ?_⟩
    · rw [hmv, specMoves_coords, ← hJ]
      exact List.Pairwise.filter _ (cells_pairwise b1)
    · intro i j
      rw [hmv]
      constructor
      · rintro ⟨m, hm, rfl, rfl⟩
        unfold specMoves at hm
        obtain ⟨a, ha, rfl⟩ := List.mem_map.mp hm
        obtain ⟨hac, hp⟩ := List.mem_filter.mp ha
        have hp' := of_decide_eq_true hp
        refine ⟨(isValid_congr hI hJ _ _).mp (mem_cells.mp hac), ?_, hp'.2⟩
        rw [← hcol]
        exact hp'.1
      · rintro ⟨hv, hc, hs⟩
        refine ⟨⟨i, j, colorAt b1 i j, evalOfSize b1 (compSize b1 (i, j))⟩, ?_, rfl, rfl⟩
        unfold specMoves
        refine List.mem_map.mpr ⟨(i, j), List.mem_filter.mpr ⟨?_, ?_⟩, rfl⟩
        · exact mem_cells.mpr ((isValid_congr hI hJ _ _).mpr hv)
        · apply decide_eq_true
          exact ⟨by rw [hcol]; exact hc, hs⟩
    · intro a c ha hc hca
      have hL1 := hF.1
      have hS1 := hF.2.1
      unfold MFrame at hM
      have hg : ∀ x : Int × Int, groupAt b2 x.1 x.2 = groupAt b1 x.1 x.2 := by
        intro x; rw [hM]; rfl
      have hcn : Connected b2 = Connected b := by
        apply Connected_congr
        · rw [hM]; exact hI
        · rw [hM]; exact hJ
        · rw [hM]; exact hC
      have hv2 : ∀ x : Int × Int, isValid b x.1 x.2 → isValid b2 x.1 x.2 := by
        intro x hx
        rw [hM]
        exact (isValid_congr hI hJ _ _).mpr hx
      have hc2 : colorAt b2 a.1 a.2 ≠ -1 := by
        rw [hM]
        show colorAt b1 a.1 a.2 ≠ -1
        rw [hcol]; exact hca
      have hga : groupAt b2 a.1 a.2 ≠ -1 :=
        fun hg0 => hc2 ((labelled_iff hL1 hS1 (hv2 a ha)).mp hg0)
      rw [← hg, ← hg, ← hcn]
      constructor
      · intro he
        exact hL1.conn a c (hv2 a ha) (hv2 c hc) hga he.symm
      · intro hconn
        exact closed_conn hL1 hconn hga
  · intro b h
    obtain ⟨hF, _, hE⟩ := reachable_all h
    exact ⟨moves_eq_specMoves hF, hE⟩

theorem gapStart_reachable : Reachable gapStart :=
  Reachable.ctor 2 2 3 gapFill gapStart gapStart_new

/-- C3, instance: the theorem applied to the sample grid and to the board `gapStart`. -/
theorem findMoves_entries_witness :
    WellSized sampleGrid ∧ Reachable gapStart ∧
    (∃ b1 b2, findGroups sampleGrid = some b1 ∧ findMoves b1 = some b2 ∧ MFrame b1 b2 ∧
        b2.moves = specMoves b1 ∧
        (b2.moves.map (fun m => (m.i, m.j))).Pairwise
          (fun a c => a.1 * (sampleGrid.nbJ : Int) + a.2 < c.1 * (sampleGrid.nbJ : Int) + c.2) ∧
        (∀ i j : Int, (∃ m ∈ b2.moves, m.i = i ∧ m.j = j) ↔
          (isValid sampleGrid i j ∧ colorAt sampleGrid i j ≠ -1 ∧ 2 ≤ compSize b1 (i, j))) ∧
        (∀ a c : Int × Int, isValid sampleGrid a.1 a.2 → isValid sampleGrid c.1 c.2 →
          colorAt sampleGrid a.1 a.2 ≠ -1 →
          (groupAt b1 c.1 c.2 = groupAt b1 a.1 a.2 ↔ Connected sampleGrid a c))) ∧
    (gapStart.moves = specMoves gapStart ∧
      gapStart.estimatedMaxScore
        = Dbl.pow (Dbl.div (Dbl.ofInt ((gapStart.nbI : Int) * gapStart.nbJ))
            (Dbl.ofInt gapStart.nbColors)) (Dbl.ofInt 2)) :=
  ⟨by decide, gapStart_reachable, findMoves_entries.1 sampleGrid (by decide),
    findMoves_entries.2 gapStart gapStart_reachable⟩

/-! ## Claim about the compaction done by `play` -/

theorem filter_range_trunc (P : Nat → Bool) (n : Nat) :
    ∀ m : Nat, n ≤ m → (∀ i, n ≤ i → i < m → P i = false) →
      (List.range m).filter P = (List.range n).filter P := by
  intro m
  induction m with
  | zero =>
    intro hn _
    have : n = 0 := by omega
    rw [this]
  | succ m ih =>
    intro hn hP
    by_cases hnm : n = m + 1
    · rw [hnm]
    · rw [List.range_succ, List.filter_append, ih (by omega) (fun i h1 h2 => hP i h1 (by omega))]
      have := hP m (by omega) (by omega)
      simp [this]

/-- The columns left by the two loops of `play` are those of the reference compaction. -/
theorem playCols_eq {b : Board} {A : List (List Int)} (hR : Rep (colorAt b) (-1) b A)
    (hel : ∀ c ∈ A, ∀ x ∈ c, x ≠ -1) (g : Int) : playCols b A g = compactCols b g := by
  have hlenA := hR.lenA
  have hcolor : ∀ i j : Nat, i < b.nbI → j < b.nbJ →
      (colorAt b (i : Int) (j : Int) ≠ -1 ↔ i < (A.getD j []).length) := by
    intro i j hi hj
    have hv : isValid b (i : Int) (j : Int) :=
      ⟨Int.ofNat_nonneg _, by exact_mod_cast hi, Int.ofNat_nonneg _, by exact_mod_cast hj⟩
    have := rep_occupied hR hel hv
    simpa using this
  have hlen : ∀ j : Nat, (A.getD j []).length ≤ b.nbI := by
    intro j
    by_cases hj : j < A.length
    · exact hR.lenC _ (getD_mem_of_lt A j [] hj)
    · rw [List.getD_eq_default _ _ (by omega)]
      simp
  have hcol : ∀ j : Nat, j < b.nbJ →
      ((filtCol g ((List.range (A.getD j []).length).map
        (fun (i : Nat) => content b (i : Int) (j : Int)))).map Prod.fst) = keptCol b g j := by
    intro j hj
    unfold filtCol keptCol
    rw [List.filter_map, List.map_map]
    have h1 : (List.range b.nbI).filter
        (fun (i : Nat) => colorAt b (i : Int) (j : Int) ≠ -1 ∧ groupAt b (i : Int) (j : Int) ≠ g)
        = (List.range (A.getD j []).length).filter
          (fun (i : Nat) => colorAt b (i : Int) (j : Int) ≠ -1 ∧
            groupAt b (i : Int) (j : Int) ≠ g) := by
      apply filter_range_trunc _ _ _ (hlen j)
      intro i h1 h2
      have := (hcolor i j h2 hj).not.mpr (by omega)
      simp only [ne_eq, not_not] at this
      simp [this]
    rw [h1]
    have h2 : (List.range (A.getD j []).length).filter
        (fun (i : Nat) => colorAt b (i : Int) (j : Int) ≠ -1 ∧ groupAt b (i : Int) (j : Int) ≠ g)
        = (List.range (A.getD j []).length).filter
          ((fun p : Int × Int => decide (p.2 ≠ g)) ∘
            (fun (i : Nat) => content b (i : Int) (j : Int))) := by
      apply List.filter_congr
      intro i hi
      have hi' := List.mem_range.mp hi
      have := (hcolor i j (by have := hlen j; omega) hj).mpr hi'
      simp [content, this]
    rw [h2]
    rfl
  unfold playCols pairCols compactCols
  rw [List.map_map, List.map_map]
  have h3 : (List.range A.length).map
      ((List.map Prod.fst ∘ filtCol g) ∘ fun (j : Nat) =>
        (List.range (A.getD j []).length).map (fun (i : Nat) => content b (i : Int) (j : Int)))
      = (List.range A.length).map (keptCol b g) := by
    apply List.map_congr_left
    intro j hj
    exact hcol j (by have := List.mem_range.mp hj; omega)
  rw [h3, List.filter_map, List.filter_map]
  congr 1
  symm
  apply filter_range_trunc _ _ _ hlenA
  intro j h1 h2
  have hk : keptCol b g j = [] := by
    rw [← hcol j h2, List.getD_eq_default _ _ h1]
    rfl
  simp [hk]

/-- C2: on every reachable board `play(n)` with a valid index returns and keeps the
dimensions; its grid is the reference compaction for the group `G` of the cell of move `n`
(per column the colours of the occupied cells outside `G` in row order, the columns left
empty dropped, the others stored as columns 0, 1, ... from row 0 upward, every other cell
`-1`), and `G` is the set of cells connected to the cell of the move. -/
theorem play_compaction (b : Board) (h : Reachable b) (n : Int) (hn0 : 0 ≤ n)
    (hn1 : n < b.moves.length) :
    ∃ m b1, vget b.moves n = some m ∧ play b n = some b1 ∧
      isValid b m.i m.j ∧ colorAt b m.i m.j ≠ -1 ∧
      b1.nbI = b.nbI ∧ b1.nbJ = b.nbJ ∧ WellSized b1 ∧
      (∀ i j, isValid b i j → colorAt b1 i j = compactColor b (groupAt b m.i m.j) i j) ∧
      (∀ a : Int × Int, isValid b a.1 a.2 → colorAt b a.1 a.2 ≠ -1 →
        (groupAt b a.1 a.2 = groupAt b m.i m.j ↔ Connected b (m.i, m.j) a)) := by
  obtain ⟨hF, A, hR, hne, hel⟩ := reachable_inv h
  obtain ⟨m, b3, b4, b5, hget, hmem, hplay, hf3, hw3, hR3, h4, h5, hf4, hf5, hF5⟩ :=
    play_spec hF hR n hn0 hn1
  obtain ⟨hv, hp, _⟩ := move_cell hF hmem
  have hc3 : Const { b with score := Dbl.add b.score m.eval } b3 := const_of_cframe hf3
  have hc3' : Const b b3 := hc3
  have hcst : Const b b5 :=
    const_trans (const_trans hc3' (const_of_gframe hf4)) (const_of_mframe hf5)
  have hcol5 : ∀ i j, colorAt b5 i j = colorAt b3 i j := by
    intro i j
    unfold GFrame at hf4
    unfold MFrame at hf5
    unfold colorAt
    rw [hf5]
    show b4.dataColors.getD (i * (b4.nbJ : Int) + j).toNat (-1) = _
    rw [hf4]
  have hL := hF.1
  have hS := hF.2.1
  have hg : groupAt b m.i m.j ≠ -1 := fun hg => hp.1 ((labelled_iff hL hS hv).mp hg)
  refine ⟨m, b5, hget, hplay, hv, hp.1, hcst.1, hcst.2.1, hF5.1.ws, ?_, ?_⟩
  · intro i j hvij
    rw [hcol5, hR3.cell i j ((isValid_congr hc3'.1 hc3'.2.1 i j).mpr hvij),
      playCols_eq hR hel]
    rfl
  · intro a ha _
    constructor
    · intro he
      exact hL.conn (m.i, m.j) a hv ha hg he.symm
    · intro hconn
      exact closed_conn hL hconn hg

/-- C2, instance: the theorem applied to move 0 of the board `gapStart`. -/
theorem play_compaction_witness :
    Reachable gapStart ∧ (0 : Int) ≤ 0 ∧ (0 : Int) < gapStart.moves.length ∧
    ∃ m b1, vget gapStart.moves 0 = some m ∧ play gapStart 0 = some b1 ∧
      isValid gapStart m.i m.j ∧ colorAt gapStart m.i m.j ≠ -1 ∧
      b1.nbI = gapStart.nbI ∧ b1.nbJ = gapStart.nbJ ∧ WellSized b1 ∧
      (∀ i j, isValid gapStart i j →
        colorAt b1 i j = compactColor gapStart (groupAt gapStart m.i m.j) i j) ∧
      (∀ a : Int × Int, isValid gapStart a.1 a.2 → colorAt gapStart a.1 a.2 ≠ -1 →
        (groupAt gapStart a.1 a.2 = groupAt gapStart m.i m.j ↔
          Connected gapStart (m.i, m.j) a)) :=
  ⟨gapStart_reachable, by decide, by decide,
    play_compaction gapStart gapStart_reachable 0 (by decide) (by decide)⟩

/-! ## Claim about `play(i, j)` -/

theorem playIJLoop_false (b : Board) (i j : Int) :
    ∀ (k : Nat) (n0 : Int), 0 ≤ n0 → n0 + k ≤ b.moves.length →
      (∀ (n : Int) (m : Move), n0 ≤ n → vget b.moves n = some m → ¬ (m.i = i ∧ m.j = j)) →
      playIJLoop b i j k n0 = some (false, b) := by
  intro k
  induction k with
  | zero => intro n0 _ _ _; rfl
  | succ k ih =>
    intro n0 h0 hlen hno
    have hget : vget b.moves n0 = some (b.moves.getD n0.toNat ⟨0, 0, 0, Dbl.ofInt 0⟩) :=
      vget_of_lt _ _ _ h0 (by push_cast at hlen; omega)
    have hnm := hno n0 _ (le_refl _) hget
    simp only [playIJLoop, hget]
    rw [if_neg hnm]
    exact ih (n0 + 1) (by omega) (by push_cast at hlen ⊢; omega)
      (fun n m hn hm => hno n m (by omega) hm)

theorem playIJLoop_true (b : Board) (i j : Int) (nstar : Int) (m : Move) (b1 : Board)
    (hm : vget b.moves nstar = some m) (hmatch : m.i = i ∧ m.j = j)
    (hplay : play b nstar = some b1) :
    ∀ (k : Nat) (n0 : Int), 0 ≤ n0 → n0 ≤ nstar → nstar < n0 + k →
      (∀ (n : Int) (m1 : Move), n0 ≤ n → n < nstar → vget b.moves n = some m1 →
        ¬ (m1.i = i ∧ m1.j = j)) →
      playIJLoop b i j k n0 = some (true, b1) := by
  intro k
  induction k with
  | zero => intro n0 _ h1 h2 _; simp at h2; omega
  | succ k ih =>
    intro n0 h0 h1 h2 hno
    by_cases he : n0 = nstar
    · subst he
      simp only [playIJLoop, hm]
      rw [if_pos hmatch, hplay]
    · have hlt := (vget_eq_some hm).2.1
      have hget : vget b.moves n0 = some (b.moves.getD n0.toNat ⟨0, 0, 0, Dbl.ofInt 0⟩) :=
        vget_of_lt _ _ _ h0 (by omega)
      have hnm := hno n0 _ (le_refl _) (by omega) hget
      simp only [playIJLoop, hget]
      rw [if_neg hnm]
      exact ih (n0 + 1) (by omega) (by omega) (by push_cast at h2 ⊢; omega)
        (fun n m1 hn hn2 hm1 => hno n m1 (by omega) hn2 hm1)

/-- On a fresh board two different move indices carry different coordinates. -/
theorem moves_coords_lt {b : Board} (hF : Fresh b) {n n1 : Int} {m m1 : Move}
    (hm : vget b.moves n = some m) (hm1 : vget b.moves n1 = some m1) (hlt : n < n1) :
    m.i * (b.nbJ : Int) + m.j < m1.i * (b.nbJ : Int) + m1.j := by
  have hp : (b.moves.map (fun m => (m.i, m.j))).Pairwise
      (fun a c => a.1 * (b.nbJ : Int) + a.2 < c.1 * (b.nbJ : Int) + c.2) := by
    rw [moves_eq_specMoves hF, specMoves_coords]
    exact List.Pairwise.filter _ (cells_pairwise b)
  obtain ⟨h0, hl, hg⟩ := vget_eq_some hm
  obtain ⟨h01, hl1, hg1⟩ := vget_eq_some hm1
  have := List.pairwise_iff_getElem.mp hp n.toNat n1.toNat (by simpa using hl)
    (by simpa using hl1) (by omega)
  simp only [List.getElem_map] at this
  have e : b.moves[n.toNat] = m := by
    rw [← hg m, List.getD_eq_getElem _ _ hl]
  have e1 : b.moves[n1.toNat] = m1 := by
    rw [← hg1 m1, List.getD_eq_getElem _ _ hl1]
  rw [e, e1] at this
  exact this

/-- C4: on every reachable board and for every pair of integers `(i, j)`: if no move has
the coordinates `(i, j)`, `play(i, j)` returns `false` and the board is unchanged in every
field; if the move of index `n` has these coordinates, `play(n)` returns and `play(i, j)`
returns `true` with the board that `play(n)` produces. -/
theorem playIJ_outcome (b : Board) (h : Reachable b) (i j : Int) :
    ((∀ m ∈ b.moves, ¬ (m.i = i ∧ m.j = j)) → playIJ b i j = some (false, b)) ∧
    (∀ (n : Int) (m : Move), vget b.moves n = some m → m.i = i → m.j = j →
      ∃ b1, play b n = some b1 ∧ playIJ b i j = some (true, b1)) := by
  obtain ⟨hF, A, hR, _, _⟩ := reachable_inv h
  constructor
  · intro hno
    unfold playIJ
    apply playIJLoop_false b i j _ 0 (le_refl _) (by omega)
    intro n m _ hm
    obtain ⟨_, hl, hg⟩ := vget_eq_some hm
    apply hno
    rw [← hg m]
    exact getD_mem_of_lt _ _ _ hl
  · intro n m hm hi hj
    obtain ⟨h0, hl, _⟩ := vget_eq_some hm
    have hn1 : n < b.moves.length := by omega
    obtain ⟨_, _, _, b5, _, _, hplay, _⟩ := play_spec hF hR n h0 hn1
    refine ⟨b5, hplay, ?_⟩
    unfold playIJ
    apply playIJLoop_true b i j n m b5 hm ⟨hi, hj⟩ hplay _ 0 (le_refl _) h0 (by omega)
    intro n1 m1 _ hlt hm1 hmatch
    have := moves_coords_lt hF hm1 hm hlt
    rw [hmatch.1, hmatch.2, hi, hj] at this
    omega

/-- C4, instance: on the board `gapStart` the theorem is applied to `(1, 0)`, the cell of
move 0, whose first part is used at the cell `(0, 0)` of no move. -/
theorem playIJ_outcome_witness :
    Reachable gapStart ∧
    (((∀ m ∈ gapStart.moves, ¬ (m.i = 1 ∧ m.j = 0)) →
        playIJ gapStart 1 0 = some (false, gapStart)) ∧
    (∀ (n : Int) (m : Move), vget gapStart.moves n = some m → m.i = 1 → m.j = 0 →
      ∃ b1, play gapStart n = some b1 ∧ playIJ gapStart 1 0 = some (true, b1))) ∧
    (∃ m, vget gapStart.moves 0 = some m ∧ m.i = 1 ∧ m.j = 0) ∧
    (∀ m ∈ gapStart.moves, ¬ (m.i = 0 ∧ m.j = 0)) ∧
    playIJ gapStart 0 0 = some (false, gapStart) :=
  ⟨gapStart_reachable, playIJ_outcome gapStart gapStart_reachable 1 0,
    ⟨_, rfl, rfl, rfl⟩, by decide,
    (playIJ_outcome gapStart gapStart_reachable 0 0).1 (by decide)⟩

/-! ## Claims about `groupSizes` -/

theorem groupSizes_count {t : Board} {p : Int} (hL : LInv t) (hS : SInv p t) (g : Nat)
    (hg : g < t.groupSizes.length) :
    t.groupSizes.getD g 0
      = (((cells t).filter (fun a => groupAt t a.1 a.2 = (g : Int))).length : Int) ∧
    1 ≤ ((cells t).filter (fun a => groupAt t a.1 a.2 = (g : Int))).length := by
  rw [← count_groups_eq_cells t hL.ws]
  refine ⟨hL.cnt g hg, ?_⟩
  obtain ⟨a, ha, _, hga⟩ := hS.seen g hg
  have hm : groupAt t a.1 a.2 ∈ t.dataGroups :=
    getD_mem (by rw [hL.ws.2]; exact idx_toNat_lt ha) (-1)
  rw [hga] at hm
  exact List.count_pos_iff.mpr hm

theorem groupSizes_sum {t : Board} (hL : LInv t) (hS : SInv ((t.nbI : Int) * t.nbJ) t) :
    t.groupSizes.sum
      = (((cells t).filter (fun a => colorAt t a.1 a.2 ≠ -1)).length : Int) := by
  rw [hL.sum, ← countP_colors_eq_cells t hL.ws]
  congr 1
  apply countP_congr_getD _ _ (-1)
  · rw [hL.ws.1, hL.ws.2]
  · intro k hk
    have hlt : (k : Int) < (t.nbI : Int) * t.nbJ := by
      rw [hL.ws.2] at hk
      exact_mod_cast hk
    by_cases hg : t.dataGroups.getD k (-1) = -1
    · have hc : t.dataColors.getD k (-1) = -1 := by
        by_contra hc
        exact hS.done k hlt hk hc hg
      show (t.dataGroups.getD k (-1) != -1) = (t.dataColors.getD k (-1) != -1)
      rw [hg, hc]
    · have hc := hL.col k hk hg
      show (t.dataGroups.getD k (-1) != -1) = (t.dataColors.getD k (-1) != -1)
      rw [bne_iff_ne.mpr hg, bne_iff_ne.mpr hc]

/-- C8: after `findGroups` on any well-sized grid, and in every reachable state, every
entry `groupSizes[g]` equals the number of cells whose group id is `g`, and that number is
at least 1. -/
theorem findGroups_groupSizes :
    (∀ b : Board, WellSized b →
      ∃ b1, findGroups b = some b1 ∧
        ∀ g : Nat, g < b1.groupSizes.length →
          b1.groupSizes.getD g 0
            = (((cells b1).filter (fun a => groupAt b1 a.1 a.2 = (g : Int))).length : Int) ∧
          1 ≤ ((cells b1).filter (fun a => groupAt b1 a.1 a.2 = (g : Int))).length) ∧
    (∀ b : Board, Reachable b →
      ∀ g : Nat, g < b.groupSizes.length →
        b.groupSizes.getD g 0
          = (((cells b).filter (fun a => groupAt b a.1 a.2 = (g : Int))).length : Int) ∧
        1 ≤ ((cells b).filter (fun a => groupAt b a.1 a.2 = (g : Int))).length) := by
  constructor
  · intro b hw
    obtain ⟨b1, h1, _, hL, hS⟩ := findGroups_spec b hw
    exact ⟨b1, h1, groupSizes_count hL hS⟩
  · intro b h
    obtain ⟨⟨hL, hS, _⟩, _⟩ := reachable_inv h
    exact groupSizes_count hL hS

/-- C8, instance: the theorem applied to the sample grid and to the board `gapBoard`. -/
theorem findGroups_groupSizes_witness :
    WellSized sampleGrid ∧ Reachable gapBoard ∧
    (∃ b1, findGroups sampleGrid = some b1 ∧
      ∀ g : Nat, g < b1.groupSizes.length →
        b1.groupSizes.getD g 0
          = (((cells b1).filter (fun a => groupAt b1 a.1 a.2 = (g : Int))).length : Int) ∧
        1 ≤ ((cells b1).filter (fun a => groupAt b1 a.1 a.2 = (g : Int))).length) ∧
    (∀ g : Nat, g < gapBoard.groupSizes.length →
      gapBoard.groupSizes.getD g 0
        = (((cells gapBoard).filter
            (fun a => groupAt gapBoard a.1 a.2 = (g : Int))).length : Int) ∧
      1 ≤ ((cells gapBoard).filter (fun a => groupAt gapBoard a.1 a.2 = (g : Int))).length) :=
  ⟨by decide, gapBoard_reachable, findGroups_groupSizes.1 sampleGrid (by decide),
    findGroups_groupSizes.2 gapBoard gapBoard_reachable⟩

/-- C9: after `findGroups` on any well-sized grid, and in every reachable state, the
entries of `groupSizes` add up to the number of non-empty cells of the grid. -/
theorem findGroups_sum_groupSizes :
    (∀ b : Board, WellSized b →
      ∃ b1, findGroups b = some b1 ∧
        b1.groupSizes.sum
          = (((cells b).filter (fun a => colorAt b a.1 a.2 ≠ -1)).length : Int)) ∧
    (∀ b : Board, Reachable b →
      b.groupSizes.sum
        = (((cells b).filter (fun a => colorAt b a.1 a.2 ≠ -1)).length : Int)) := by
  constructor
  · intro b hw
    obtain ⟨b1, h1, hf, hL, hS⟩ := findGroups_spec b hw
    refine ⟨b1, h1, ?_⟩
    have hI := gframe_nbI hf
    have hJ := gframe_nbJ hf
    have hC := gframe_dataColors hf
    rw [← hI, ← hJ] at hS
    rw [groupSizes_sum hL hS]
    have hcells : cells b1 = cells b := by
      unfold cells cellOf
      rw [hI, hJ]
    have hcol : ∀ i j, colorAt b1 i j = colorAt b i j := by
      intro i j; unfold colorAt; rw [hC, hJ]
    rw [hcells]
    simp only [hcol]
  · intro b h
    obtain ⟨⟨hL, hS, _⟩, _⟩ := reachable_inv h
    exact groupSizes_sum hL hS

/-- C9, instance: the theorem applied to the sample grid and to the board `gapBoard`. -/
theorem findGroups_sum_groupSizes_witness :
    WellSized sampleGrid ∧ Reachable gapBoard ∧
    (∃ b1, findGroups sampleGrid = some b1 ∧
      b1.groupSizes.sum
        = (((cells sampleGrid).filter (fun a => colorAt sampleGrid a.1 a.2 ≠ -1)).length : Int)) ∧
    gapBoard.groupSizes.sum
      = (((cells gapBoard).filter (fun a => colorAt gapBoard a.1 a.2 ≠ -1)).length : Int) :=
  ⟨by decide, gapBoard_reachable, findGroups_sum_groupSizes.1 sampleGrid (by decide),
    findGroups_sum_groupSizes.2 gapBoard gapBoard_reachable⟩

/-! ## `findGroups` does not look at the move list -/

theorem ind_moves (t : Board) (ms : List Move) (i j : Int) :
    ind { t with moves := ms } i j = ind t i j := rfl

theorem pushNeighbours_moves (t : Board) (ms : List Move) (i j : Int) (st : List (Int × Int)) :
    pushNeighbours { t with moves := ms } i j st = pushNeighbours t i j st := rfl

theorem spread_moves (ms : List Move) (c g : Int) :
    ∀ (fuel : Nat) (t : Board) (st : List (Int × Int)),
      spread c g fuel { t with moves := ms } st
        = (spread c g fuel t st).map (fun u => { u with moves := ms }) := by
  intro fuel
  induction fuel with
  | zero => intro t st; cases st <;> rfl
  | succ fuel ih =>
    intro t st
    cases st with
    | nil => rfl
    | cons p rest =>
      obtain ⟨i, j⟩ := p
      simp only [spread, ind_moves, pushNeighbours_moves]
      cases ind t i j with
      | none => rfl
      | some k =>
        simp only
        cases vget t.dataColors k with
        | none => rfl
        | some c1 =>
          simp only
          by_cases hc : c1 = c
          · simp only [hc, if_true]
            cases vget t.dataGroups k with
            | none => rfl
            | some g1 =>
              simp only
              by_cases hg : g1 = -1
              · simp only [hg, if_true]
                cases vset t.dataGroups k g with
                | none => rfl
                | some dg =>
                  cases vget t.groupSizes g with
                  | none => rfl
                  | some sz =>
                    simp only
                    cases vset t.groupSizes g (sz + 1) with
                    | none => rfl
                    | some gs =>
                      simp only
                      exact ih { t with dataGroups := dg, groupSizes := gs } _
              · simp only [hg, if_false]
                exact ih t rest
          · simp only [hc, if_false]
            exact ih t rest

theorem buildGroup_moves (ms : List Move) (t : Board) (i j : Int) :
    buildGroup { t with moves := ms } i j
      = (buildGroup t i j).map (fun u => { u with moves := ms }) := by
  simp only [buildGroup, ind_moves]
  cases ind t i j with
  | none => rfl
  | some k =>
    simp only
    cases vget t.dataColors k with
    | none => rfl
    | some c0 =>
      cases vget t.dataGroups k with
      | none => rfl
      | some g0 =>
        simp only
        by_cases h : g0 = -1 ∧ c0 ≠ -1
        · rw [if_pos h, if_pos h]
          exact spread_moves ms c0 _ _ { t with groupSizes := t.groupSizes ++ [0] } _
        · rw [if_neg h, if_neg h]
          rfl

theorem forLoop_map {σ : Type} (body : σ → Int → Option σ) (f : σ → σ)
    (hb : ∀ s i, body (f s) i = (body s i).map f) :
    ∀ (n : Nat) (i0 : Int) (s : σ), forLoop body n i0 (f s) = (forLoop body n i0 s).map f := by
  intro n
  induction n with
  | zero => intro i0 s; rfl
  | succ n ih =>
    intro i0 s
    simp only [forLoop, hb]
    cases body s i0 with
    | none => rfl
    | some s1 => exact ih (i0 + 1) s1

theorem findGroups_moves (ms : List Move) (t : Board) :
    findGroups { t with moves := ms } = (findGroups t).map (fun u => { u with moves := ms }) := by
  have hin : ∀ (s : Board) (i : Int),
      forRange 0 ({ s with moves := ms } : Board).nbJ (fun b2 j => buildGroup b2 i j)
          { s with moves := ms }
        = (forRange 0 s.nbJ (fun b2 j => buildGroup b2 i j) s).map
            (fun u => { u with moves := ms }) := by
    intro s i
    unfold forRange
    exact forLoop_map (fun b2 j => buildGroup b2 i j) (fun u => { u with moves := ms })
      (fun s1 j => buildGroup_moves ms s1 i j) _ _ s
  show forLoop (fun b1 i => forRange 0 b1.nbJ (fun b2 j => buildGroup b2 i j) b1)
      ((t.nbI : Int) - 0).toNat 0
      { ({ t with dataGroups := List.replicate t.dataGroups.length (-1),
                  groupSizes := [] } : Board) with moves := ms } = _
  exact forLoop_map (fun b1 i => forRange 0 b1.nbJ (fun b2 j => buildGroup b2 i j) b1)
    (fun u => { u with moves := ms }) hin _ _ _

theorem findMoves_moves (ms : List Move) (t : Board) :
    findMoves { t with moves := ms } = findMoves t := rfl

/-- The labelling and the move list depend on the dimensions, the score scale, the colours
and the fill vectors only: of the labels only their number matters. -/
theorem find_congr {t u : Board}
    (h : u = { t with dataGroups := u.dataGroups, groupSizes := u.groupSizes, moves := u.moves })
    (hl : u.dataGroups.length = t.dataGroups.length) :
    (findGroups u).bind findMoves = (findGroups t).bind findMoves := by
  have e : findGroups u = findGroups { t with moves := u.moves } := by
    unfold findGroups
    rw [hl]
    generalize u.moves = ms at h
    generalize u.dataGroups = dg at h
    generalize u.groupSizes = gs at h
    subst h
    rfl
  rw [e, findGroups_moves]
  cases findGroups t with
  | none => rfl
  | some t1 => rfl

theorem find_fields {t b : Board} (hw : WellSized t)
    (h : (findGroups t).bind findMoves = some b) :
    b = { t with dataGroups := b.dataGroups, groupSizes := b.groupSizes, moves := b.moves } ∧
      b.dataGroups.length = t.dataGroups.length := by
  obtain ⟨t1, t2, h1, h2, hf, hM, hF⟩ := fresh_find t hw
  rw [h1] at h
  simp only [Option.some_bind] at h
  rw [h2] at h
  have hb : t2 = b := Option.some.inj h
  subst hb
  have hlen : t2.dataGroups.length = t.dataGroups.length := by
    rw [hF.1.ws.2, hw.2]
    have hI : t2.nbI = t.nbI := by rw [hM]; show t1.nbI = _; rw [hf]
    have hJ : t2.nbJ = t.nbJ := by rw [hM]; show t1.nbJ = _; rw [hf]
    rw [hI, hJ]
  refine ⟨?_, hlen⟩
  unfold GFrame at hf
  unfold MFrame at hM
  generalize t2.moves = ms at hM
  subst hM
  generalize t1.dataGroups = dg at hf
  generalize t1.groupSizes = gs at hf
  subst hf
  rfl

/-- Recomputing the labels and the moves of a board that carries them changes nothing. -/
theorem find_idem {t b : Board} (hw : WellSized t)
    (h : (findGroups t).bind findMoves = some b) :
    (findGroups b).bind findMoves = some b := by
  obtain ⟨hf, hl⟩ := find_fields hw h
  rw [find_congr hf hl]
  exact h

/-! ## The constructor -/

theorem new_eq (nbI nbJ : Nat) (nbColors : Int) (fillFunc : Nat → Int) :
    Board.new nbI nbJ nbColors fillFunc
      = if ∀ c ∈ (List.range (nbI * nbJ)).map fillFunc, 0 ≤ c ∧ c < nbColors then
          (findGroups (Board.blank nbI nbJ nbColors fillFunc)).bind findMoves
        else none := rfl

theorem blank_wellSized (nbI nbJ : Nat) (nbColors : Int) (fillFunc : Nat → Int) :
    WellSized (Board.blank nbI nbJ nbColors fillFunc) := by
  unfold WellSized Board.blank
  simp

/-- What a successful construction says: the colours were in range and the board is the
blank one with labels and moves computed. -/
theorem new_some {nbI nbJ : Nat} {nbColors : Int} {fillFunc : Nat → Int} {b : Board}
    (h : Board.new nbI nbJ nbColors fillFunc = some b) :
    (∀ k : Nat, k < nbI * nbJ → 0 ≤ fillFunc k ∧ fillFunc k < nbColors) ∧
      (findGroups (Board.blank nbI nbJ nbColors fillFunc)).bind findMoves = some b := by
  rw [new_eq] at h
  by_cases hc : ∀ c ∈ (List.range (nbI * nbJ)).map fillFunc, 0 ≤ c ∧ c < nbColors
  · rw [if_pos hc] at h
    refine ⟨?_, h⟩
    intro k hk
    exact hc _ (List.mem_map.mpr ⟨k, List.mem_range.mpr hk, rfl⟩)
  · rw [if_neg hc] at h
    exact absurd h (by simp)

/-- The constructor returns whenever the fill source stays in `[0, nbColors)`. -/
theorem new_total {nbI nbJ : Nat} {nbColors : Int} {fillFunc : Nat → Int}
    (hfill : ∀ k : Nat, k < nbI * nbJ → 0 ≤ fillFunc k ∧ fillFunc k < nbColors) :
    ∃ b, Board.new nbI nbJ nbColors fillFunc = some b := by
  rw [new_eq]
  have hc : ∀ c ∈ (List.range (nbI * nbJ)).map fillFunc, 0 ≤ c ∧ c < nbColors := by
    intro c hc
    obtain ⟨k, hk, rfl⟩ := List.mem_map.mp hc
    exact hfill k (List.mem_range.mp hk)
  rw [if_pos hc]
  obtain ⟨t1, t2, h1, h2, _⟩ := fresh_find _ (blank_wellSized nbI nbJ nbColors fillFunc)
  exact ⟨t2, by rw [h1]; exact h2⟩

theorem new_fields {nbI nbJ : Nat} {nbColors : Int} {fillFunc : Nat → Int} {b : Board}
    (h : Board.new nbI nbJ nbColors fillFunc = some b) :
    b.nbI = nbI ∧ b.nbJ = nbJ ∧ b.nbColors = nbColors ∧
      b.dataColors = (List.range (nbI * nbJ)).map fillFunc ∧
      b.lastIs = List.replicate nbJ ((nbI : Int) - 1) ∧
      b.lastJs = List.replicate nbI ((nbJ : Int) - 1) ∧
      b.score = Dbl.ofInt 0 := by
  obtain ⟨_, hb⟩ := new_some h
  obtain ⟨hf, _⟩ := find_fields (blank_wellSized nbI nbJ nbColors fillFunc) hb
  refine ⟨?_, ?_, ?_, ?_, ?_, ?_, ?_⟩ <;> (rw [hf]; rfl)

theorem colorAt_new {nbI nbJ : Nat} {nbColors : Int} {fillFunc : Nat → Int} {b : Board}
    (h : Board.new nbI nbJ nbColors fillFunc = some b) {i j : Int} (hv : isValid b i j) :
    colorAt b i j = fillFunc (i * (nbJ : Int) + j).toNat := by
  obtain ⟨hI, hJ, _, hC, _⟩ := new_fields h
  have hlt := idx_toNat_lt hv
  rw [hI, hJ] at hlt
  unfold colorAt
  rw [hC, hJ, List.getD_eq_getElem _ _ (by simpa using hlt)]
  simp

/-! ## `reset` -/

set_option maxRecDepth 100000 in
theorem datasets_length : DATASETS.length = 4500 := by
  unfold DATASETS datasetLiterals
  simp only [List.length_map, List.length_append]
  rfl

theorem datasetIndex_cell (b : Board) (iDataset : Int) {i j : Int} (hv : isValid b i j) :
    datasetIndex b.nbI b.nbJ iDataset (i * (b.nbJ : Int) + j).toNat
      = (b.nbI : Int) * b.nbJ * iDataset + ((b.nbI : Int) - i - 1) * b.nbJ + j := by
  have h := cellOf_of_valid b hv
  unfold cellOf at h
  have h1 := congrArg Prod.fst h
  have h2 := congrArg Prod.snd h
  simp only at h1 h2
  unfold datasetIndex
  rw [h1, h2]

/-- One cell of `reset` when the dataset has the entry read. -/
theorem resetCell_of (b0 : Board) (iDataset : Int) (dc : List Int) {i j : Int}
    (hv : isValid b0 i j) (hlen : dc.length = b0.nbI * b0.nbJ)
    (h0 : 0 ≤ datasetIndex b0.nbI b0.nbJ iDataset (i * (b0.nbJ : Int) + j).toNat)
    (h1 : (datasetIndex b0.nbI b0.nbJ iDataset (i * (b0.nbJ : Int) + j).toNat).toNat
      < DATASETS.length) :
    resetCell iDataset { b0 with dataColors := dc } i j
      = some { b0 with
          dataColors :=
            dc.set (i * (b0.nbJ : Int) + j).toNat
              (DATASETS.getD
                (datasetIndex b0.nbI b0.nbJ iDataset (i * (b0.nbJ : Int) + j).toNat).toNat 0) } := by
  rw [datasetIndex_cell b0 iDataset hv] at h0 h1 ⊢
  unfold resetCell
  simp only
  rw [vget_of_lt DATASETS _ 0 h0 h1]
  simp only
  rw [vset_of_lt dc _ _ (idx_nonneg hv) (by rw [hlen]; exact idx_toNat_lt hv)]

/-- One cell of `reset`, when it returns, has read inside the dataset. -/
theorem resetCell_covers (b0 : Board) (iDataset : Int) (dc : List Int) {i j : Int} {u : Board}
    (hv : isValid b0 i j) (h : resetCell iDataset { b0 with dataColors := dc } i j = some u) :
    0 ≤ datasetIndex b0.nbI b0.nbJ iDataset (i * (b0.nbJ : Int) + j).toNat ∧
      (datasetIndex b0.nbI b0.nbJ iDataset (i * (b0.nbJ : Int) + j).toNat).toNat
        < DATASETS.length ∧
      ∃ dc1, u = { b0 with dataColors := dc1 } := by
  rw [datasetIndex_cell b0 iDataset hv]
  unfold resetCell at h
  simp only at h
  cases hg : vget DATASETS ((b0.nbI : Int) * b0.nbJ * iDataset
      + ((b0.nbI : Int) - i - 1) * b0.nbJ + j) with
  | none => rw [hg] at h; simp at h
  | some c =>
    rw [hg] at h
    simp only at h
    obtain ⟨h0, h1, _⟩ := vget_eq_some hg
    cases hs : vset dc (i * (b0.nbJ : Int) + j) c with
    | none => rw [hs] at h; simp at h
    | some dc1 =>
      rw [hs] at h
      exact ⟨h0, h1, dc1, (Option.some.inj h).symm⟩

/-- The double loop of `reset` when the dataset covers the board. -/
theorem reset_loop (b0 : Board) (iDataset : Int) (hlen : b0.dataColors.length = b0.nbI * b0.nbJ)
    (hcov : DatasetCovers b0.nbI b0.nbJ iDataset) :
    forRange 0 b0.nbI
        (fun b1 i => forRange 0 b1.nbJ (fun b2 j => resetCell iDataset b2 i j) b1) b0
      = some { b0 with dataColors := resetColors b0.nbI b0.nbJ iDataset } := by
  obtain ⟨t1, h1, dc, hdc, hdl, hfr⟩ := forRange_spec
    (fun b1 i => forRange 0 b1.nbJ (fun b2 j => resetCell iDataset b2 i j) b1)
    (fun i u => ∃ dc : List Int, dc.length = b0.nbI * b0.nbJ ∧
      (∀ k : Nat, (k : Int) < i * (b0.nbJ : Int) → k < b0.nbI * b0.nbJ →
        dc.getD k 0 = DATASETS.getD (datasetIndex b0.nbI b0.nbJ iDataset k).toNat 0) ∧
      u = { b0 with dataColors := dc })
    0 b0.nbI b0 (Int.ofNat_nonneg _)
    ⟨b0.dataColors, hlen, by intro k hk; omega, rfl⟩
    (by
      rintro i u hi0 hi1 ⟨dc, hdl, hdc, rfl⟩
      obtain ⟨u1, hu1, dc1, hdl1, hdc1, hfr1⟩ := forRange_spec
        (fun b2 j => resetCell iDataset b2 i j)
        (fun j u => ∃ dc : List Int, dc.length = b0.nbI * b0.nbJ ∧
          (∀ k : Nat, (k : Int) < i * (b0.nbJ : Int) + j → k < b0.nbI * b0.nbJ →
            dc.getD k 0 = DATASETS.getD (datasetIndex b0.nbI b0.nbJ iDataset k).toNat 0) ∧
          u = { b0 with dataColors := dc })
        0 b0.nbJ { b0 with dataColors := dc } (Int.ofNat_nonneg _)
        ⟨dc, hdl, by rw [add_zero]; exact hdc, rfl⟩
        (by
          rintro j u hj0 hj1 ⟨dc2, hdl2, hdc2, rfl⟩
          have hv : isValid b0 i j := ⟨hi0, hi1, hj0, hj1⟩
          have hk := idx_toNat_lt hv
          obtain ⟨hc0, hc1⟩ := hcov _ hk
          refine ⟨_, resetCell_of b0 iDataset dc2 hv hdl2 hc0 hc1, _, ?_, ?_, rfl⟩
          · simp only [List.length_set]; exact hdl2
          · intro k hk1 hk2
            have hnn := idx_nonneg hv
            by_cases hkk : (i * (b0.nbJ : Int) + j).toNat = k
            · rw [← hkk, getD_set_eq _ _ _ _ (by rw [hdl2]; exact hk)]
            · rw [getD_set_ne _ _ _ _ _ hkk]
              exact hdc2 k (by omega) hk2)
      refine ⟨u1, hu1, dc1, hdl1, ?_, hfr1⟩
      have e : (i + 1) * (b0.nbJ : Int) = i * (b0.nbJ : Int) + b0.nbJ := by ring
      rw [e]
      exact hdc1)
  rw [h1, hfr]
  have : dc = resetColors b0.nbI b0.nbJ iDataset := by
    unfold resetColors
    rw [← map_getD_range dc 0, hdc]
    apply List.map_congr_left
    intro k hk
    have hk' := List.mem_range.mp hk
    exact hdl k (by exact_mod_cast hk') hk'
  rw [this]

/-- The double loop of `reset`, when it returns, has read inside the dataset only. -/
theorem reset_loop_covers (b0 : Board) (iDataset : Int) {t : Board}
    (h : forRange 0 b0.nbI
        (fun b1 i => forRange 0 b1.nbJ (fun b2 j => resetCell iDataset b2 i j) b1) b0 = some t) :
    DatasetCovers b0.nbI b0.nbJ iDataset := by
  have hinv := forRange_inv
    (fun b1 i => forRange 0 b1.nbJ (fun b2 j => resetCell iDataset b2 i j) b1)
    (fun i u => (∃ dc : List Int, u = { b0 with dataColors := dc }) ∧
      ∀ k : Nat, (k : Int) < i * (b0.nbJ : Int) → k < b0.nbI * b0.nbJ →
        0 ≤ datasetIndex b0.nbI b0.nbJ iDataset k ∧
          (datasetIndex b0.nbI b0.nbJ iDataset k).toNat < DATASETS.length)
    0 b0.nbI b0 t (Int.ofNat_nonneg _)
    ⟨⟨b0.dataColors, rfl⟩, by intro k hk; omega⟩
    (by
      rintro i u u1 hi0 hi1 ⟨⟨dc, rfl⟩, hcv⟩ hu1
      have := forRange_inv (fun b2 j => resetCell iDataset b2 i j)
        (fun j u => (∃ dc : List Int, u = { b0 with dataColors := dc }) ∧
          ∀ k : Nat, (k : Int) < i * (b0.nbJ : Int) + j → k < b0.nbI * b0.nbJ →
            0 ≤ datasetIndex b0.nbI b0.nbJ iDataset k ∧
              (datasetIndex b0.nbI b0.nbJ iDataset k).toNat < DATASETS.length)
        0 b0.nbJ { b0 with dataColors := dc } u1 (Int.ofNat_nonneg _)
        ⟨⟨dc, rfl⟩, by rw [add_zero]; exact hcv⟩
        (by
          rintro j u u2 hj0 hj1 ⟨⟨dc2, rfl⟩, hcv2⟩ hu2
          have hv : isValid b0 i j := ⟨hi0, hi1, hj0, hj1⟩
          obtain ⟨hc0, hc1, hex⟩ := resetCell_covers b0 iDataset dc2 hv hu2
          refine ⟨hex, ?_⟩
          intro k hk1 hk2
          have hnn := idx_nonneg hv
          by_cases hkk : (i * (b0.nbJ : Int) + j).toNat = k
          · rw [← hkk]
            exact ⟨hc0, hc1⟩
          · exact hcv2 k (by omega) hk2)
        hu1
      refine ⟨this.1, ?_⟩
      have e : (i + 1) * (b0.nbJ : Int) = i * (b0.nbJ : Int) + b0.nbJ := by ring
      rw [e]
      exact this.2)
    h
  intro k hk
  exact hinv.2 k (by exact_mod_cast hk) hk

/-- `reset` with a dataset index in range, on a board that the dataset covers. -/
theorem reset_of_covers (b0 : Board) (iDataset : Int)
    (hlen : b0.dataColors.length = b0.nbI * b0.nbJ) (h0 : 0 ≤ iDataset) (h1 : iDataset < 20)
    (hcov : DatasetCovers b0.nbI b0.nbJ iDataset) :
    reset b0 iDataset = (findGroups (resetGrid b0 iDataset)).bind findMoves := by
  unfold reset
  rw [if_pos ⟨h0, h1⟩, reset_loop b0 iDataset hlen hcov]
  rfl

/-- `reset`, when it returns, was given an index in range and has read inside the dataset
only. -/
theorem reset_some_covers {b0 b : Board} {iDataset : Int} (h : reset b0 iDataset = some b) :
    0 ≤ iDataset ∧ iDataset < 20 ∧ DatasetCovers b0.nbI b0.nbJ iDataset := by
  unfold reset at h
  by_cases hc : 0 ≤ iDataset ∧ iDataset < 20
  · rw [if_pos hc] at h
    cases hloop : forRange 0 (b0.nbI : Int)
        (fun b1 i => forRange 0 b1.nbJ (fun b2 j => resetCell iDataset b2 i j) b1) b0 with
    | none => rw [hloop] at h; simp at h
    | some b1 => exact ⟨hc.1, hc.2, reset_loop_covers b0 iDataset hloop⟩
  · rw [if_neg hc] at h
    exact absurd h (by simp)

theorem resetGrid_wellSized {b0 : Board} (hw : WellSized b0) (iDataset : Int) :
    WellSized (resetGrid b0 iDataset) := by
  unfold WellSized resetGrid resetColors
  simp only [List.length_map, List.length_range]
  exact ⟨trivial, hw.2⟩

/-- `reset` returns whenever the index is in range and the dataset covers the board. -/
theorem reset_total {b0 : Board} {iDataset : Int} (hw : WellSized b0) (h0 : 0 ≤ iDataset)
    (h1 : iDataset < 20) (hcov : DatasetCovers b0.nbI b0.nbJ iDataset) :
    ∃ b, reset b0 iDataset = some b := by
  rw [reset_of_covers b0 iDataset hw.1 h0 h1 hcov]
  obtain ⟨t1, t2, e1, e2, _⟩ := fresh_find _ (resetGrid_wellSized hw iDataset)
  exact ⟨t2, by rw [e1]; exact e2⟩

/-- Fields of the board that `reset` returns. -/
theorem reset_fields {b0 b : Board} {iDataset : Int} (hw : WellSized b0)
    (h : reset b0 iDataset = some b) :
    b = { resetGrid b0 iDataset with
          dataGroups := b.dataGroups, groupSizes := b.groupSizes, moves := b.moves } ∧
      (findGroups b).bind findMoves = some b := by
  obtain ⟨h0, h1, hcov⟩ := reset_some_covers h
  rw [reset_of_covers b0 iDataset hw.1 h0 h1 hcov] at h
  exact ⟨(find_fields (resetGrid_wellSized hw iDataset) h).1,
    find_idem (resetGrid_wellSized hw iDataset) h⟩

/-- A board of 15 x 15 cells, the size of the default constructor, is covered by every
level of the dataset. -/
theorem covers_default (iDataset : Int) (h0 : 0 ≤ iDataset) (h1 : iDataset < 20) :
    DatasetCovers 15 15 iDataset := by
  intro k hk
  unfold datasetIndex
  rw [datasets_length]
  have hq : k / 15 < 15 := by omega
  have hr : k % 15 < 15 := Nat.mod_lt _ (by omega)
  push_cast
  omega

/-- The dataset covers a board when it has an entry for each cell of the levels up to the
one asked for. -/
theorem covers_of_le {nbI nbJ : Nat} {iDataset : Int} (h0 : 0 ≤ iDataset)
    (h : nbI * nbJ * (iDataset.toNat + 1) ≤ DATASETS.length) :
    DatasetCovers nbI nbJ iDataset := by
  intro k hk
  unfold datasetIndex
  have hJ : 0 < nbJ := by
    rcases Nat.eq_zero_or_pos nbJ with h | h
    · rw [h] at hk; simp at hk
    · exact h
  have hq : k / nbJ < nbI := by
    rw [Nat.div_lt_iff_lt_mul hJ]
    exact hk
  have hr : k % nbJ < nbJ := Nat.mod_lt _ hJ
  generalize k / nbJ = q at hq
  generalize k % nbJ = r at hr
  obtain ⟨d, hd⟩ : ∃ d : Nat, nbI = q + 1 + d := ⟨nbI - (q + 1), by omega⟩
  obtain ⟨z, hz⟩ : ∃ z : Nat, iDataset = (z : Int) := ⟨iDataset.toNat, by omega⟩
  subst hz
  simp only [Int.toNat_ofNat] at h
  have e : ((nbI : Int) - (q : Int) - 1) = (d : Int) := by rw [hd]; push_cast; ring
  rw [e]
  have e2 : (nbI : Int) * nbJ * (z : Int) + (d : Int) * nbJ + (r : Int)
      = ((nbI * nbJ * z + d * nbJ + r : Nat) : Int) := by push_cast; ring
  rw [e2]
  refine ⟨Int.ofNat_nonneg _, ?_⟩
  rw [Int.toNat_ofNat]
  have h3 : d * nbJ + r < nbI * nbJ := by
    have : d + 1 ≤ nbI := by omega
    calc d * nbJ + r < d * nbJ + nbJ := by omega
      _ = (d + 1) * nbJ := by ring
      _ ≤ nbI * nbJ := Nat.mul_le_mul_right _ this
  have h4 : nbI * nbJ * (z + 1) = nbI * nbJ * z + nbI * nbJ := by ring
  omega

/-! ## What a play does to a reachable board -/

/-- A play with a valid index on a reachable board: it returns, the move is that of a
playable cell, the score grows by the evaluation of the move, and the new board is
reachable, with the columns of the reference compaction. -/
theorem play_facts {b : Board} (h : Reachable b) (n : Int) (hn0 : 0 ≤ n)
    (hn1 : n < b.moves.length) :
    ∃ m b1, vget b.moves n = some m ∧ m ∈ b.moves ∧ play b n = some b1 ∧
      isValid b m.i m.j ∧ playable b (m.i, m.j) ∧ m = moveAt b (m.i, m.j) ∧
      b1.score = Dbl.add b.score m.eval ∧ Const b b1 ∧ Reachable b1 ∧
      Rep (colorAt b1) (-1) b1 (compactCols b (groupAt b m.i m.j)) := by
  obtain ⟨hF, A, hR, hne, hel⟩ := reachable_inv h
  obtain ⟨m, b3, b4, b5, hget, hmem, hplay, hf3, hw3, hR3, h4, h5, hf4, hf5, hF5⟩ :=
    play_spec hF hR n hn0 hn1
  obtain ⟨hv, hp, hm⟩ := move_cell hF hmem
  have hc3 : Const { b with score := Dbl.add b.score m.eval } b3 := const_of_cframe hf3
  have hc3' : Const b b3 := hc3
  have hcst : Const b b5 :=
    const_trans (const_trans hc3' (const_of_gframe hf4)) (const_of_mframe hf5)
  unfold GFrame at hf4
  unfold MFrame at hf5
  unfold CFrame at hf3
  refine ⟨m, b5, hget, hmem, hplay, hv, hp, hm, ?_, hcst, Reachable.play b n b5 h hplay, ?_⟩
  · rw [hf5]; show b4.score = _; rw [hf4]; show b3.score = _; rw [hf3]
  · rw [← playCols_eq hR hel]
    apply rep_colorAt_congr hR3
    · rw [hf5]; show b4.nbI = _; rw [hf4]
    · rw [hf5]; show b4.nbJ = _; rw [hf4]
    · rw [hf5]; show b4.dataColors = _; rw [hf4]
    · rw [hf5]; show b4.lastIs = _; rw [hf4]
    · rw [hf5]; show b4.lastJs = _; rw [hf4]

/-- A successful play had a valid index. -/
theorem play_some_index {b b1 : Board} {n : Int} (h : play b n = some b1) :
    0 ≤ n ∧ n < b.moves.length := by
  by_contra hn
  unfold play at h
  rw [if_neg hn] at h
  exact absurd h (by simp)

theorem wellSized_default : WellSized Board.default :=
  ⟨List.length_replicate _ _, List.length_replicate _ _⟩

/-- A reachable board with at least one cell has a positive colour count. -/
theorem reachable_colors {b : Board} (h : Reachable b) :
    0 < b.nbI * b.nbJ → 0 < b.nbColors := by
  induction h with
  | ctor nbI nbJ nbColors fillFunc b hb =>
    intro hN
    obtain ⟨hI, hJ, hC, _⟩ := new_fields hb
    rw [hI, hJ] at hN
    rw [hC]
    have := (new_some hb).1 0 hN
    omega
  | resetDefault iDataset b hb =>
    intro _
    have := (reset_inv wellSized_default (List.length_replicate _ _)
      (List.length_replicate _ _) hb).2.2
    rw [this.2.2.1]
    decide
  | reset b0 iDataset b h0 hb ih =>
    intro hN
    obtain ⟨hF, ⟨A, hR, _, _⟩, _⟩ := reachable_all h0
    have := (reset_inv hF.1.ws hR.hIs hR.hJs hb).2.2
    rw [this.1, this.2.1] at hN
    rw [this.2.2.1]
    exact ih hN
  | play b0 n b h0 hb ih =>
    intro hN
    obtain ⟨hF, hP, _⟩ := reachable_all h0
    have := (play_inv hF hP hb).2.2
    rw [this.1, this.2.1] at hN
    rw [this.2.2.1]
    exact ih hN

/-! ## Values of the scores -/

theorem rounding_nonneg {rnd : ℚ → ℚ} (hr : Rounding rnd) {x : ℚ} (hx : 0 ≤ x) :
    0 ≤ rnd x := by
  have := hr.mono 0 x hx
  rw [hr.zero] at this
  exact this

theorem rounding_id : Rounding id :=
  ⟨fun _ _ h => h, rfl, fun _ h => h, fun _ => rfl⟩

theorem value_add {rnd : ℚ → ℚ} {x y : Dbl} {a c : ℚ} (hx : x.value rnd = some a)
    (hy : y.value rnd = some c) : (Dbl.add x y).value rnd = some (rnd (a + c)) := by
  simp only [Dbl.value, hx, hy]

theorem value_mul {rnd : ℚ → ℚ} {x y : Dbl} {a c : ℚ} (hx : x.value rnd = some a)
    (hy : y.value rnd = some c) : (Dbl.mul x y).value rnd = some (rnd (a * c)) := by
  simp only [Dbl.value, hx, hy]

theorem value_div {rnd : ℚ → ℚ} {x y : Dbl} {a c : ℚ} (hx : x.value rnd = some a)
    (hy : y.value rnd = some c) (hc : c ≠ 0) :
    (Dbl.div x y).value rnd = some (rnd (a / c)) := by
  simp only [Dbl.value, hx, hy, if_neg hc]

theorem value_sq {rnd : ℚ → ℚ} {x : Dbl} {a : ℚ} (hx : x.value rnd = some a) :
    (Dbl.pow x (Dbl.ofInt 2)).value rnd = some (rnd (a ^ 2)) := by
  simp only [Dbl.value, hx]
  rw [if_pos (by constructor <;> norm_num)]
  norm_num
  rfl

/-- The score scale of a board with cells and colours has a positive value. -/
theorem est_value {rnd : ℚ → ℚ} (hr : Rounding rnd) {b : Board} (hE : EstOK b)
    (hN : 0 < b.nbI * b.nbJ) (hC : 0 < b.nbColors) :
    ∃ e, b.estimatedMaxScore.value rnd = some e ∧ 0 < e := by
  unfold EstOK at hE
  rw [hE]
  have hn : (0 : ℚ) < (((b.nbI : Int) * b.nbJ : Int) : ℚ) := by
    have : (0 : Int) < (b.nbI : Int) * b.nbJ := by exact_mod_cast hN
    exact_mod_cast this
  have hc : (0 : ℚ) < ((b.nbColors : Int) : ℚ) := by exact_mod_cast hC
  have hd : (Dbl.div (Dbl.ofInt ((b.nbI : Int) * b.nbJ)) (Dbl.ofInt b.nbColors)).value rnd
      = some (rnd ((((b.nbI : Int) * b.nbJ : Int) : ℚ) / ((b.nbColors : Int) : ℚ))) :=
    value_div rfl rfl (ne_of_gt hc)
  refine ⟨_, value_sq hd, hr.pos _ ?_⟩
  exact pow_pos (hr.pos _ (div_pos hn hc)) 2

/-- The evaluation of a move has a value, and the value is not negative. -/
theorem evalOfSize_value {rnd : ℚ → ℚ} (hr : Rounding rnd) {b : Board} (hE : EstOK b)
    (hN : 0 < b.nbI * b.nbJ) (hC : 0 < b.nbColors) (size : Int) :
    ∃ e, (evalOfSize b size).value rnd = some e ∧ 0 ≤ e := by
  obtain ⟨E, hEv, hEpos⟩ := est_value hr hE hN hC
  have hm : (Dbl.mul (Dbl.ofInt (max 0 (size - 2))) (Dbl.ofInt (max 0 (size - 2)))).value rnd
      = some (rnd (((max 0 (size - 2) : Int) : ℚ) * ((max 0 (size - 2) : Int) : ℚ))) :=
    value_mul rfl rfl
  refine ⟨_, value_div hm hEv (ne_of_gt hEpos), rounding_nonneg hr ?_⟩
  exact div_nonneg (rounding_nonneg hr (mul_self_nonneg _)) (le_of_lt hEpos)

/-- The score of a reachable board has a value, which is not negative and is a rounded
number. -/
theorem reachable_score {rnd : ℚ → ℚ} (hr : Rounding rnd) {b : Board} (h : Reachable b) :
    ∃ s, b.score.value rnd = some s ∧ 0 ≤ s ∧ rnd s = s := by
  induction h with
  | ctor nbI nbJ nbColors fillFunc b hb =>
    obtain ⟨_, _, _, _, _, _, hS⟩ := new_fields hb
    rw [hS]
    exact ⟨0, by simp [Dbl.value], le_refl _, hr.zero⟩
  | resetDefault iDataset b hb =>
    have hS : b.score = Dbl.ofInt 0 := by
      rw [(reset_fields wellSized_default hb).1]
      rfl
    rw [hS]
    exact ⟨0, by simp [Dbl.value], le_refl _, hr.zero⟩
  | reset b0 iDataset b h0 hb _ =>
    have hS : b.score = Dbl.ofInt 0 := by
      rw [(reset_fields (reachable_all h0).1.1.ws hb).1]
      rfl
    rw [hS]
    exact ⟨0, by simp [Dbl.value], le_refl _, hr.zero⟩
  | play b0 n b h0 hb ih =>
    obtain ⟨hn0, hn1⟩ := play_some_index hb
    obtain ⟨m, b1, _, _, hplay, hv, _, hm, hS, _, _, _⟩ := play_facts h0 n hn0 hn1
    rw [hb] at hplay
    have e := Option.some.inj hplay
    subst e
    obtain ⟨s, hs, hs0, _⟩ := ih
    have hN : 0 < b0.nbI * b0.nbJ := by
      have h1 : 0 < b0.nbI := by have := hv.1; have := hv.2.1; omega
      have h2 : 0 < b0.nbJ := by have := hv.2.2.1; have := hv.2.2.2; omega
      exact Nat.mul_pos h1 h2
    obtain ⟨e, he, he0⟩ := evalOfSize_value hr (reachable_all h0).2.2 hN
      (reachable_colors h0 hN) (sizeAt b0 (m.i, m.j))
    have hme : m.eval = evalOfSize b0 (sizeAt b0 (m.i, m.j)) := by rw [hm]; rfl
    rw [hS, hme]
    exact ⟨_, value_add hs he, rounding_nonneg hr (add_nonneg hs0 he0), hr.idem _⟩

/-! ## Claim about the growth of the score -/

theorem playSeq_reachable {b : Board} (h : Reachable b) :
    ∀ (ns : List Int) (b1 : Board), playSeq b ns = some b1 → Reachable b1 := by
  intro ns
  induction ns generalizing b with
  | nil =>
    intro b1 hb
    have := Option.some.inj hb
    subst this
    exact h
  | cons n ns ih =>
    intro b1 hb
    simp only [playSeq] at hb
    cases hp : play b n with
    | none => rw [hp] at hb; simp at hb
    | some b2 =>
      rw [hp] at hb
      exact ih (Reachable.play b n b2 h hp) b1 hb

/-- C11: for every rounding of the floating-point results (monotone, keeping zero and the
sign, idempotent) and every reachable board, `play(n)` with a valid index returns; the
evaluation of the move is `max(0, size - 2)^2 / estimatedMaxScore` for the size of the
component of its cell before the play, the new score is the old score plus this
evaluation, the colour count is positive, the evaluation has a value `e >= 0`, and the
value of the new score, the rounding of `s + e`, is at least the value `s` of the old one.
Hence along every sequence of plays the value of the score does not decrease. -/
theorem play_score_monotone (rnd : ℚ → ℚ) (hr : Rounding rnd) :
    (∀ b : Board, Reachable b → ∀ n : Int, 0 ≤ n → n < b.moves.length →
      ∃ m b1, vget b.moves n = some m ∧ play b n = some b1 ∧
        m.eval = evalOfSize b (compSize b (m.i, m.j)) ∧
        b1.score = Dbl.add b.score m.eval ∧
        0 < b.nbColors ∧
        ∃ s e, b.score.value rnd = some s ∧ m.eval.value rnd = some e ∧ 0 ≤ e ∧
          b1.score.value rnd = some (rnd (s + e)) ∧ s ≤ rnd (s + e)) ∧
    (∀ b : Board, Reachable b → ∀ (ns : List Int) (b1 : Board), playSeq b ns = some b1 →
      ∃ s s1, b.score.value rnd = some s ∧ b1.score.value rnd = some s1 ∧ s ≤ s1) := by
  have hone : ∀ b : Board, Reachable b → ∀ n : Int, 0 ≤ n → n < b.moves.length →
      ∃ m b1, vget b.moves n = some m ∧ play b n = some b1 ∧
        m.eval = evalOfSize b (compSize b (m.i, m.j)) ∧
        b1.score = Dbl.add b.score m.eval ∧
        0 < b.nbColors ∧
        ∃ s e, b.score.value rnd = some s ∧ m.eval.value rnd = some e ∧ 0 ≤ e ∧
          b1.score.value rnd = some (rnd (s + e)) ∧ s ≤ rnd (s + e) := by
    intro b h n hn0 hn1
    obtain ⟨m, b1, hget, _, hplay, hv, hp, hm, hS, _, _, _⟩ := play_facts h n hn0 hn1
    obtain ⟨hF, _, hE⟩ := reachable_all h
    have hN : 0 < b.nbI * b.nbJ := by
      have h1 : 0 < b.nbI := by have := hv.1; have := hv.2.1; omega
      have h2 : 0 < b.nbJ := by have := hv.2.2.1; have := hv.2.2.2; omega
      exact Nat.mul_pos h1 h2
    have hC := reachable_colors h hN
    have hme : m.eval = evalOfSize b (compSize b (m.i, m.j)) := by
      rw [← sizeAt_eq_compSize hF.1 hF.2.1 hv hp.1, hm]
      rfl
    obtain ⟨s, hs, _, hss⟩ := reachable_score hr h
    obtain ⟨e, he, he0⟩ := evalOfSize_value hr hE hN hC (compSize b (m.i, m.j))
    rw [← hme] at he
    refine ⟨m, b1, hget, hplay, hme, hS, hC, s, e, hs, he, he0, ?_, ?_⟩
    · rw [hS]
      exact value_add hs he
    · have := hr.mono s (s + e) (by linarith)
      rw [hss] at this
      exact this
  refine ⟨hone, ?_⟩
  intro b h ns
  induction ns generalizing b with
  | nil =>
    intro b1 hb
    have := Option.some.inj hb
    subst this
    obtain ⟨s, hs, _, _⟩ := reachable_score hr h
    exact ⟨s, s, hs, hs, le_refl _⟩
  | cons n ns ih =>
    intro b1 hb
    simp only [playSeq] at hb
    cases hp : play b n with
    | none => rw [hp] at hb; simp at hb
    | some b2 =>
      rw [hp] at hb
      obtain ⟨hn0, hn1⟩ := play_some_index hp
      obtain ⟨m, b2', _, hplay, _, _, _, s, e, hs, _, _, hs2, hle⟩ := hone b h n hn0 hn1
      rw [hp] at hplay
      have := Option.some.inj hplay
      subst this
      obtain ⟨s2, s1, hs2', hs1, hle1⟩ := ih b2 (Reachable.play b n b2 h hp) b1 hb
      rw [hs2] at hs2'
      have := Option.some.inj hs2'
      subst this
      exact ⟨s, s1, hs, hs1, le_trans hle hle1⟩

/-- C11, instance: the theorem applied to exact arithmetic, to move 0 of the board
`gapStart` and to the sequence of this one play. -/
theorem play_score_monotone_witness :
    Rounding id ∧ Reachable gapStart ∧ (0 : Int) ≤ 0 ∧ (0 : Int) < gapStart.moves.length ∧
    (∃ m b1, vget gapStart.moves 0 = some m ∧ play gapStart 0 = some b1 ∧
        m.eval = evalOfSize gapStart (compSize gapStart (m.i, m.j)) ∧
        b1.score = Dbl.add gapStart.score m.eval ∧
        0 < gapStart.nbColors ∧
        ∃ s e, gapStart.score.value id = some s ∧ m.eval.value id = some e ∧ 0 ≤ e ∧
          b1.score.value id = some (id (s + e)) ∧ s ≤ id (s + e)) ∧
    playSeq gapStart [0] = some gapBoard ∧
    (∃ s s1, gapStart.score.value id = some s ∧ gapBoard.score.value id = some s1 ∧ s ≤ s1) :=
  ⟨rounding_id, gapStart_reachable, by decide, by decide,
    (play_score_monotone id rounding_id).1 gapStart gapStart_reachable 0 (by decide)
      (by decide),
    by decide,
    (play_score_monotone id rounding_id).2 gapStart gapStart_reachable [0] gapBoard
      (by decide)⟩

/-! ## Claim about the constructor and `reset` -/

/-- Sizes of the vectors of a board that `reset` can be called on. -/
theorem callable_sizes {b : Board} (h : Reachable b ∨ b = Board.default) :
    WellSized b ∧ b.lastIs.length = b.nbJ ∧ b.lastJs.length = b.nbI ∧ EstOK b := by
  rcases h with h | h
  · obtain ⟨hF, ⟨A, hR, _, _⟩, hE⟩ := reachable_all h
    exact ⟨hF.1.ws, hR.hIs, hR.hJs, hE⟩
  · subst h
    exact ⟨wellSized_default, List.length_replicate _ _, List.length_replicate _ _,
      estOK_default⟩

theorem datasets_getD_nonneg (n : Nat) : 0 ≤ DATASETS.getD n 0 := by
  by_cases hn : n < DATASETS.length
  · have h := vget_of_lt DATASETS (n : Int) 0 (Int.ofNat_nonneg _) (by simpa using hn)
    have := datasets_nonneg h
    simpa using this
  · rw [List.getD_eq_default _ _ (by omega)]

theorem colorAt_resetColors {b : Board} {iDataset : Int}
    (hC : b.dataColors = resetColors b.nbI b.nbJ iDataset) {i j : Int} (hv : isValid b i j) :
    colorAt b i j
      = DATASETS.getD ((b.nbI : Int) * b.nbJ * iDataset + ((b.nbI : Int) - i - 1) * b.nbJ
          + j).toNat 0 := by
  unfold colorAt
  rw [hC]
  unfold resetColors
  rw [getD_map_range, if_pos (idx_toNat_lt hv), datasetIndex_cell b iDataset hv]

/-- `std::generate` writes the values of the calls 0, 1, ... in this order and leaves the
generator in its state after `n` calls. -/
theorem generate_eq {σ : Type} (gen : σ → Int × σ) :
    ∀ (n : Nat) (s : σ),
      generate gen n s = ((List.range n).map (genOutput gen s), genState gen n s) := by
  intro n
  induction n with
  | zero => intro s; rfl
  | succ n ih =>
    intro s
    simp only [generate, ih, List.range_succ_eq_map, List.map_cons, List.map_map]
    rfl

/-- The constructor with a callable fill function is the constructor on the sequence of
the values that the calls return, together with the state after `nbI * nbJ` calls. -/
theorem construct_eq {σ : Type} (nbI nbJ : Nat) (nbColors : Int) (fillFunc : σ → Int × σ)
    (s : σ) :
    Board.construct nbI nbJ nbColors fillFunc s
      = (Board.new nbI nbJ nbColors (genOutput fillFunc s)).map
          (fun b => (b, genState fillFunc (nbI * nbJ) s)) := by
  unfold Board.construct Board.new
  simp only [generate_eq]
  by_cases hc : ∀ c ∈ (List.range (nbI * nbJ)).map (genOutput fillFunc s),
      0 ≤ c ∧ c < nbColors
  · rw [if_pos hc, if_pos hc]
  · rw [if_neg hc, if_neg hc]
    rfl

theorem counted_state {σ : Type} (gen : σ → Int × σ) :
    ∀ (k : Nat) (s : σ) (c : Nat),
      genState (counted gen) k (s, c) = (genState gen k s, c + k) := by
  intro k
  induction k with
  | zero => intro s c; rfl
  | succ k ih =>
    intro s c
    show genState (counted gen) k ((gen s).2, c + 1) = _
    rw [ih]
    show (genState gen k (gen s).2, c + 1 + k) = (genState gen k (gen s).2, c + (k + 1))
    rw [Nat.add_assoc, Nat.add_comm 1 k]

theorem counted_output {σ : Type} (gen : σ → Int × σ) (s : σ) (c k : Nat) :
    genOutput (counted gen) (s, c) k = genOutput gen s k := by
  unfold genOutput
  rw [counted_state]
  rfl

/-- C12: (1) for arguments in the range of `int` with `nbI * nbJ` not overflowing, and for
every fill function (a callable with any state) whose first `nbI * nbJ` calls return values
in `[0, nbColors)`, the constructor returns; the fill function has then been called
exactly `nbI * nbJ` times (it is left in its state after that many calls, and a counter of
its calls reads `nbI * nbJ`); the board has the given dimensions and colour count, its
colours are the values of the calls in row-major order (cell `(i, j)` holds the value of
call number `i * nbJ + j`), no cell is empty, the score is 0, every `_lastIs[j] = nbI - 1`,
every `_lastJs[i] = nbJ - 1`, and its labels, sizes and moves are those that `findGroups`
and `findMoves` reproduce when run on the board. (2) `reset` with an index in `[0, 20)`, on
the default-constructed board or on a reachable one, of dimensions in the range of `int`,
that the dataset covers, returns a board of the same dimensions holding the level with
its rows reversed, with no empty cell and the same score, fill vectors and recomputed
labels and moves. (3) The dataset covers every level of a 15 x 15 board. -/
theorem new_constructs :
    (∀ (σ : Type) (nbI nbJ : Nat) (nbColors : Int) (fillFunc : σ → Int × σ) (s : σ),
      FitsInt nbI nbJ nbColors →
      (∀ k : Nat, k < nbI * nbJ →
        0 ≤ genOutput fillFunc s k ∧ genOutput fillFunc s k < nbColors) →
      ∃ b, Board.construct nbI nbJ nbColors fillFunc s
          = some (b, genState fillFunc (nbI * nbJ) s) ∧
        Board.construct nbI nbJ nbColors (counted fillFunc) (s, 0)
          = some (b, (genState fillFunc (nbI * nbJ) s, nbI * nbJ)) ∧
        Board.new nbI nbJ nbColors (genOutput fillFunc s) = some b ∧
        b.nbI = nbI ∧ b.nbJ = nbJ ∧ b.nbColors = nbColors ∧
        b.dataColors = (List.range (nbI * nbJ)).map (genOutput fillFunc s) ∧
        (∀ i j : Int, isValid b i j →
          colorAt b i j = genOutput fillFunc s (i * (nbJ : Int) + j).toNat ∧
          colorAt b i j ≠ -1) ∧
        b.score = Dbl.ofInt 0 ∧
        b.lastIs = List.replicate nbJ ((nbI : Int) - 1) ∧
        b.lastJs = List.replicate nbI ((nbJ : Int) - 1) ∧
        (findGroups b).bind findMoves = some b) ∧
    (∀ (b0 : Board) (iDataset : Int), Reachable b0 ∨ b0 = Board.default →
      FitsInt b0.nbI b0.nbJ b0.nbColors →
      0 ≤ iDataset → iDataset < 20 → DatasetCovers b0.nbI b0.nbJ iDataset →
      ∃ b, reset b0 iDataset = some b ∧
        b.nbI = b0.nbI ∧ b.nbJ = b0.nbJ ∧ b.nbColors = b0.nbColors ∧
        (∀ i j : Int, isValid b i j →
          colorAt b i j
            = DATASETS.getD ((b.nbI : Int) * b.nbJ * iDataset
                + ((b.nbI : Int) - i - 1) * b.nbJ + j).toNat 0 ∧
          colorAt b i j ≠ -1) ∧
        b.score = Dbl.ofInt 0 ∧
        b.lastIs = List.replicate b.nbJ ((b.nbI : Int) - 1) ∧
        b.lastJs = List.replicate b.nbI ((b.nbJ : Int) - 1) ∧
        (findGroups b).bind findMoves = some b) ∧
    (∀ iDataset : Int, 0 ≤ iDataset → iDataset < 20 → DatasetCovers 15 15 iDataset) := by
  refine ⟨?_, ?_, covers_default⟩
  · intro σ nbI nbJ nbColors fillFunc s _ hfill
    obtain ⟨b, hb⟩ := new_total hfill
    obtain ⟨hI, hJ, hC, hD, hlI, hlJ, hS⟩ := new_fields hb
    have hcnt : Board.new nbI nbJ nbColors (genOutput (counted fillFunc) (s, 0))
        = some b := by
      have : genOutput (counted fillFunc) (s, 0) = genOutput fillFunc s := by
        funext k
        exact counted_output fillFunc s 0 k
      rw [this]
      exact hb
    refine ⟨b, ?_, ?_, hb, hI, hJ, hC, hD, ?_, hS, hlI, hlJ,
      find_idem (blank_wellSized nbI nbJ nbColors (genOutput fillFunc s)) (new_some hb).2⟩
    · rw [construct_eq, hb]
      rfl
    · rw [construct_eq, hcnt, counted_state, Nat.zero_add]
      rfl
    · intro i j hv
      have hc := colorAt_new hb hv
      refine ⟨hc, ?_⟩
      rw [hc]
      have hlt := idx_toNat_lt hv
      rw [hI, hJ] at hlt
      have := (hfill _ hlt).1
      omega
  · intro b0 iDataset h0 _ hi0 hi1 hcov
    obtain ⟨hw, hlI, hlJ, _⟩ := callable_sizes h0
    obtain ⟨b, hb⟩ := reset_total hw hi0 hi1 hcov
    obtain ⟨hf, hidem⟩ := reset_fields hw hb
    have hI : b.nbI = b0.nbI := by rw [hf]; rfl
    have hJ : b.nbJ = b0.nbJ := by rw [hf]; rfl
    have hC : b.dataColors = resetColors b.nbI b.nbJ iDataset := by
      rw [hI, hJ, hf]; rfl
    refine ⟨b, hb, hI, hJ, by rw [hf]; rfl, ?_, by rw [hf]; rfl, ?_, ?_, hidem⟩
    · intro i j hv
      have hc := colorAt_resetColors hC hv
      refine ⟨hc, ?_⟩
      rw [hc]
      have := datasets_getD_nonneg ((b.nbI : Int) * b.nbJ * iDataset
        + ((b.nbI : Int) - i - 1) * b.nbJ + j).toNat
      omega
    · rw [hI, hJ, ← hlI, hf]; rfl
    · rw [hI, hJ, ← hlJ, hf]; rfl

/-- C12, instance: the constructor of a 2 x 2 board on the fill function `gapGen`, whose
state counts its calls, and `reset(0)` on the default-constructed board. -/
theorem new_constructs_witness :
    FitsInt 2 2 3 ∧
    (∀ k : Nat, k < 2 * 2 → 0 ≤ genOutput gapGen 0 k ∧ genOutput gapGen 0 k < 3) ∧
    (∃ b, Board.construct 2 2 3 gapGen 0 = some (b, genState gapGen (2 * 2) 0) ∧
        Board.construct 2 2 3 (counted gapGen) (0, 0)
          = some (b, (genState gapGen (2 * 2) 0, 2 * 2)) ∧
        Board.new 2 2 3 (genOutput gapGen 0) = some b ∧
        b.nbI = 2 ∧ b.nbJ = 2 ∧ b.nbColors = 3 ∧
        b.dataColors = (List.range (2 * 2)).map (genOutput gapGen 0) ∧
        (∀ i j : Int, isValid b i j →
          colorAt b i j = genOutput gapGen 0 (i * ((2 : Nat) : Int) + j).toNat ∧
          colorAt b i j ≠ -1) ∧
        b.score = Dbl.ofInt 0 ∧
        b.lastIs = List.replicate 2 (((2 : Nat) : Int) - 1) ∧
        b.lastJs = List.replicate 2 (((2 : Nat) : Int) - 1) ∧
        (findGroups b).bind findMoves = some b) ∧
    (Reachable Board.default ∨ Board.default = Board.default) ∧
    FitsInt Board.default.nbI Board.default.nbJ Board.default.nbColors ∧
    (0 : Int) ≤ 0 ∧ (0 : Int) < 20 ∧
    DatasetCovers Board.default.nbI Board.default.nbJ 0 ∧
    (∃ b, reset Board.default 0 = some b ∧
        b.nbI = Board.default.nbI ∧ b.nbJ = Board.default.nbJ ∧
        b.nbColors = Board.default.nbColors ∧
        (∀ i j : Int, isValid b i j →
          colorAt b i j
            = DATASETS.getD ((b.nbI : Int) * b.nbJ * 0
                + ((b.nbI : Int) - i - 1) * b.nbJ + j).toNat 0 ∧
          colorAt b i j ≠ -1) ∧
        b.score = Dbl.ofInt 0 ∧
        b.lastIs = List.replicate b.nbJ ((b.nbI : Int) - 1) ∧
        b.lastJs = List.replicate b.nbI ((b.nbJ : Int) - 1) ∧
        (findGroups b).bind findMoves = some b) :=
  ⟨by decide, by decide, new_constructs.1 Nat 2 2 3 gapGen 0 (by decide) (by decide),
    Or.inr rfl, by decide, by decide, by decide,
    new_constructs.2.2 0 (by decide) (by decide),
    new_constructs.2.1 Board.default 0 (Or.inr rfl) (by decide) (by decide) (by decide)
      (new_constructs.2.2 0 (by decide) (by decide))⟩

/-! ## Scenario: four cells in a line -/

/-- Values of the score scale `pow(4/2.0, 2.0)`, of the evaluation `1*1/scale` and of the
score `0.0 + 1*1/scale` in an arithmetic that represents 1, 2, 4 and 1/4 exactly. -/
theorem line_values (rnd : ℚ → ℚ) (h1 : rnd 1 = 1) (h2 : rnd 2 = 2) (h4 : rnd 4 = 4)
    (hq : rnd (1 / 4) = 1 / 4) :
    (Dbl.pow (Dbl.div (Dbl.ofInt 4) (Dbl.ofInt 2)) (Dbl.ofInt 2)).value rnd = some 4 ∧
    (Dbl.div (Dbl.mul (Dbl.ofInt 1) (Dbl.ofInt 1))
      (Dbl.pow (Dbl.div (Dbl.ofInt 4) (Dbl.ofInt 2)) (Dbl.ofInt 2))).value rnd
      = some (1 / 4) ∧
    (Dbl.add (Dbl.ofInt 0) (Dbl.div (Dbl.mul (Dbl.ofInt 1) (Dbl.ofInt 1))
      (Dbl.pow (Dbl.div (Dbl.ofInt 4) (Dbl.ofInt 2)) (Dbl.ofInt 2)))).value rnd
      = some (1 / 4) := by
  have e1 : (Dbl.div (Dbl.ofInt 4) (Dbl.ofInt 2)).value rnd = some 2 := by
    have h := @value_div rnd (Dbl.ofInt 4) (Dbl.ofInt 2) 4 2 (by simp [Dbl.value])
      (by simp [Dbl.value]) (by norm_num)
    rw [h]
    have : (4 : ℚ) / 2 = 2 := by norm_num
    rw [this, h2]
  have e2 : (Dbl.pow (Dbl.div (Dbl.ofInt 4) (Dbl.ofInt 2)) (Dbl.ofInt 2)).value rnd
      = some 4 := by
    rw [value_sq e1]
    have : (2 : ℚ) ^ 2 = 4 := by norm_num
    rw [this, h4]
  have e3 : (Dbl.mul (Dbl.ofInt 1) (Dbl.ofInt 1)).value rnd = some 1 := by
    have h := @value_mul rnd (Dbl.ofInt 1) (Dbl.ofInt 1) 1 1 (by simp [Dbl.value])
      (by simp [Dbl.value])
    rw [h]
    have : (1 : ℚ) * 1 = 1 := by norm_num
    rw [this, h1]
  have e4 : (Dbl.div (Dbl.mul (Dbl.ofInt 1) (Dbl.ofInt 1))
      (Dbl.pow (Dbl.div (Dbl.ofInt 4) (Dbl.ofInt 2)) (Dbl.ofInt 2))).value rnd
      = some (1 / 4) := by
    rw [value_div e3 e2 (by norm_num), hq]
  refine ⟨e2, e4, ?_⟩
  have h := @value_add rnd (Dbl.ofInt 0) _ 0 (1 / 4) (by simp [Dbl.value]) e4
  rw [h]
  have : (0 : ℚ) + 1 / 4 = 1 / 4 := by norm_num
  rw [this, hq]

theorem lineCol_new (A B : Int) (hA : 0 ≤ A ∧ A < 2) (hB : 0 ≤ B ∧ B < 2) (hAB : A ≠ B) :
    Board.new 4 1 2 (lineFill A B) = some (lineCol A B) := by
  have : (A = 0 ∧ B = 1) ∨ (A = 1 ∧ B = 0) := by omega
  rcases this with ⟨rfl, rfl⟩ | ⟨rfl, rfl⟩ <;> decide

theorem lineRow_new (A B : Int) (hA : 0 ≤ A ∧ A < 2) (hB : 0 ≤ B ∧ B < 2) (hAB : A ≠ B) :
    Board.new 1 4 2 (lineFill A B) = some (lineRow A B) := by
  have : (A = 0 ∧ B = 1) ∨ (A = 1 ∧ B = 0) := by omega
  rcases this with ⟨rfl, rfl⟩ | ⟨rfl, rfl⟩ <;> decide

theorem lineCol_play (A B : Int) (hA : 0 ≤ A ∧ A < 2) (hB : 0 ≤ B ∧ B < 2) (hAB : A ≠ B)
    (n : Int) (hn0 : 0 ≤ n) (hn1 : n < 3) : play (lineCol A B) n = some (lineColEnd B) := by
  have : (A = 0 ∧ B = 1) ∨ (A = 1 ∧ B = 0) := by omega
  have hn : n = 0 ∨ n = 1 ∨ n = 2 := by omega
  rcases this with ⟨rfl, rfl⟩ | ⟨rfl, rfl⟩ <;> rcases hn with rfl | rfl | rfl <;> decide

theorem lineRow_play (A B : Int) (hA : 0 ≤ A ∧ A < 2) (hB : 0 ≤ B ∧ B < 2) (hAB : A ≠ B)
    (n : Int) (hn0 : 0 ≤ n) (hn1 : n < 3) : play (lineRow A B) n = some (lineRowEnd B) := by
  have : (A = 0 ∧ B = 1) ∨ (A = 1 ∧ B = 0) := by omega
  have hn : n = 0 ∨ n = 1 ∨ n = 2 := by omega
  rcases this with ⟨rfl, rfl⟩ | ⟨rfl, rfl⟩ <;> rcases hn with rfl | rfl | rfl <;> decide

theorem lineColEnd_occupied (B : Int) (hB : 0 ≤ B ∧ B < 2) : occupied (lineColEnd B) = 1 := by
  have : B = 0 ∨ B = 1 := by omega
  rcases this with rfl | rfl <;> decide

theorem lineRowEnd_occupied (B : Int) (hB : 0 ≤ B ∧ B < 2) : occupied (lineRowEnd B) = 1 := by
  have : B = 0 ∨ B = 1 := by omega
  rcases this with rfl | rfl <;> decide

/-- C13: for the two colours `A != B` of a board with `colorCount = 2` and the fill
`A, A, A, B`, both on the 4-row, 1-column board and on the 1-row, 4-column board: the
constructor returns a board with group 0 of size 3 on the positions 0 to 2 and group 1 of
size 1 on position 3; its moves are those of the three cells of group 0, none is on the
single cell; every one of them, played, leaves one occupied cell, of colour `B`, at cell
`(0, 0)`, adds the evaluation `max(0, 3-2)^2 / estimatedMaxScore = 1*1/estimatedMaxScore`
to the score, and leaves an empty move list. In every arithmetic that represents 1, 2, 4
and 1/4 exactly, `estimatedMaxScore` is 4, the evaluation is 1/4 and the score goes from 0
to 1/4. -/
theorem line_scenario (A B : Int) (hA : 0 ≤ A ∧ A < 2) (hB : 0 ≤ B ∧ B < 2) (hAB : A ≠ B)
    (rnd : ℚ → ℚ) (h1 : rnd 1 = 1) (h2 : rnd 2 = 2) (h4 : rnd 4 = 4)
    (hq : rnd (1 / 4) = 1 / 4) :
    (∃ b, Board.new 4 1 2 (lineFill A B) = some b ∧
      b.dataColors = [A, A, A, B] ∧ b.dataGroups = [0, 0, 0, 1] ∧ b.groupSizes = [3, 1] ∧
      b.moves.map (fun m => (m.i, m.j)) = [(0, 0), (1, 0), (2, 0)] ∧
      (∀ m ∈ b.moves, groupAt b m.i m.j = 0) ∧
      evalOfSize b 3 = Dbl.div (Dbl.mul (Dbl.ofInt 1) (Dbl.ofInt 1)) b.estimatedMaxScore ∧
      b.estimatedMaxScore.value rnd = some 4 ∧ b.score.value rnd = some 0 ∧
      ∀ n : Int, 0 ≤ n → n < b.moves.length →
        ∃ m b1, vget b.moves n = some m ∧ play b n = some b1 ∧
          b1.dataColors = [B, -1, -1, -1] ∧ colorAt b1 0 0 = B ∧ occupied b1 = 1 ∧
          b1.score = Dbl.add b.score (evalOfSize b 3) ∧
          m.eval = evalOfSize b 3 ∧ m.eval.value rnd = some (1 / 4) ∧
          b1.score.value rnd = some (1 / 4) ∧
          b1.moves = [] ∧ isTerminated b1 = true) ∧
    (∃ b, Board.new 1 4 2 (lineFill A B) = some b ∧
      b.dataColors = [A, A, A, B] ∧ b.dataGroups = [0, 0, 0, 1] ∧ b.groupSizes = [3, 1] ∧
      b.moves.map (fun m => (m.i, m.j)) = [(0, 0), (0, 1), (0, 2)] ∧
      (∀ m ∈ b.moves, groupAt b m.i m.j = 0) ∧
      evalOfSize b 3 = Dbl.div (Dbl.mul (Dbl.ofInt 1) (Dbl.ofInt 1)) b.estimatedMaxScore ∧
      b.estimatedMaxScore.value rnd = some 4 ∧ b.score.value rnd = some 0 ∧
      ∀ n : Int, 0 ≤ n → n < b.moves.length →
        ∃ m b1, vget b.moves n = some m ∧ play b n = some b1 ∧
          b1.dataColors = [B, -1, -1, -1] ∧ colorAt b1 0 0 = B ∧ occupied b1 = 1 ∧
          b1.score = Dbl.add b.score (evalOfSize b 3) ∧
          m.eval = evalOfSize b 3 ∧ m.eval.value rnd = some (1 / 4) ∧
          b1.score.value rnd = some (1 / 4) ∧
          b1.moves = [] ∧ isTerminated b1 = true) := by
  obtain ⟨e2, e4, e5⟩ := line_values rnd h1 h2 h4 hq
  constructor
  · refine ⟨lineCol A B, lineCol_new A B hA hB hAB, rfl, rfl, rfl, rfl, ?_, rfl, e2,
      by simp [lineCol, Dbl.value], ?_⟩
    · intro m hm
      simp only [lineCol, List.mem_cons, List.mem_singleton, List.not_mem_nil, or_false] at hm
      rcases hm with rfl | rfl | rfl <;> rfl
    · intro n hn0 hn1
      have hn3 : n < 3 := hn1
      have hn : n = 0 ∨ n = 1 ∨ n = 2 := by omega
      have hget : ∃ m, vget (lineCol A B).moves n = some m ∧ m.eval = evalOfSize (lineCol A B) 3 := by
        rcases hn with rfl | rfl | rfl <;> exact ⟨_, rfl, rfl⟩
      obtain ⟨m, hm, hme⟩ := hget
      refine ⟨m, lineColEnd B, hm, lineCol_play A B hA hB hAB n hn0 hn3, rfl, rfl,
        lineColEnd_occupied B hB, rfl, hme, ?_, e5, rfl, rfl⟩
      rw [hme]
      exact e4
  · refine ⟨lineRow A B, lineRow_new A B hA hB hAB, rfl, rfl, rfl, rfl, ?_, rfl, e2,
      by simp [lineRow, Dbl.value], ?_⟩
    · intro m hm
      simp only [lineRow, List.mem_cons, List.mem_singleton, List.not_mem_nil, or_false] at hm
      rcases hm with rfl | rfl | rfl <;> rfl
    · intro n hn0 hn1
      have hn3 : n < 3 := hn1
      have hn : n = 0 ∨ n = 1 ∨ n = 2 := by omega
      have hget : ∃ m, vget (lineRow A B).moves n = some m ∧ m.eval = evalOfSize (lineRow A B) 3 := by
        rcases hn with rfl | rfl | rfl <;> exact ⟨_, rfl, rfl⟩
      obtain ⟨m, hm, hme⟩ := hget
      refine ⟨m, lineRowEnd B, hm, lineRow_play A B hA hB hAB n hn0 hn3, rfl, rfl,
        lineRowEnd_occupied B hB, rfl, hme, ?_, e5, rfl, rfl⟩
      rw [hme]
      exact e4

/-- C13, instance: the colours `A = 0`, `B = 1` in exact arithmetic. -/
theorem line_scenario_witness :
    ((0 : Int) ≤ 0 ∧ (0 : Int) < 2) ∧ ((0 : Int) ≤ 1 ∧ (1 : Int) < 2) ∧ (0 : Int) ≠ 1 ∧
    (id (1 : ℚ) = 1 ∧ id (2 : ℚ) = 2 ∧ id (4 : ℚ) = 4 ∧ id ((1 : ℚ) / 4) = 1 / 4) ∧
    ((∃ b, Board.new 4 1 2 (lineFill 0 1) = some b ∧
      b.dataColors = [0, 0, 0, 1] ∧ b.dataGroups = [0, 0, 0, 1] ∧ b.groupSizes = [3, 1] ∧
      b.moves.map (fun m => (m.i, m.j)) = [(0, 0), (1, 0), (2, 0)] ∧
      (∀ m ∈ b.moves, groupAt b m.i m.j = 0) ∧
      evalOfSize b 3 = Dbl.div (Dbl.mul (Dbl.ofInt 1) (Dbl.ofInt 1)) b.estimatedMaxScore ∧
      b.estimatedMaxScore.value id = some 4 ∧ b.score.value id = some 0 ∧
      ∀ n : Int, 0 ≤ n → n < b.moves.length →
        ∃ m b1, vget b.moves n = some m ∧ play b n = some b1 ∧
          b1.dataColors = [1, -1, -1, -1] ∧ colorAt b1 0 0 = 1 ∧ occupied b1 = 1 ∧
          b1.score = Dbl.add b.score (evalOfSize b 3) ∧
          m.eval = evalOfSize b 3 ∧ m.eval.value id = some (1 / 4) ∧
          b1.score.value id = some (1 / 4) ∧
          b1.moves = [] ∧ isTerminated b1 = true) ∧
    (∃ b, Board.new 1 4 2 (lineFill 0 1) = some b ∧
      b.dataColors = [0, 0, 0, 1] ∧ b.dataGroups = [0, 0, 0, 1] ∧ b.groupSizes = [3, 1] ∧
      b.moves.map (fun m => (m.i, m.j)) = [(0, 0), (0, 1), (0, 2)] ∧
      (∀ m ∈ b.moves, groupAt b m.i m.j = 0) ∧
      evalOfSize b 3 = Dbl.div (Dbl.mul (Dbl.ofInt 1) (Dbl.ofInt 1)) b.estimatedMaxScore ∧
      b.estimatedMaxScore.value id = some 4 ∧ b.score.value id = some 0 ∧
      ∀ n : Int, 0 ≤ n → n < b.moves.length →
        ∃ m b1, vget b.moves n = some m ∧ play b n = some b1 ∧
          b1.dataColors = [1, -1, -1, -1] ∧ colorAt b1 0 0 = 1 ∧ occupied b1 = 1 ∧
          b1.score = Dbl.add b.score (evalOfSize b 3) ∧
          m.eval = evalOfSize b 3 ∧ m.eval.value id = some (1 / 4) ∧
          b1.score.value id = some (1 / 4) ∧
          b1.moves = [] ∧ isTerminated b1 = true)) :=
  ⟨by decide, by decide, by decide, ⟨rfl, rfl, rfl, rfl⟩,
    line_scenario 0 1 (by decide) (by decide) (by decide) id rfl rfl rfl rfl⟩

/-! ## Counting the cells of a grid column by column -/

theorem sum_ite_countP (p : Nat → Bool) (l : List Nat) :
    (l.map (fun j => if p j then 1 else 0)).sum = l.countP p := by
  induction l with
  | nil => rfl
  | cons a l ih =>
    rw [List.map_cons, List.sum_cons, ih, List.countP_cons]
    by_cases h : p a <;> simp [h, Nat.add_comm]

theorem sum_map_add_nat (f g : Nat → Nat) (l : List Nat) :
    (l.map (fun j => f j + g j)).sum = (l.map f).sum + (l.map g).sum := by
  induction l with
  | nil => rfl
  | cons a l ih =>
    simp only [List.map_cons, List.sum_cons, ih]
    omega

/-- The cells of a grid that satisfy `f`, counted in row-major order and column by
column. -/
theorem count_grid (J : Nat) (f : Nat → Nat → Bool) :
    ∀ I : Nat, ((List.range (I * J)).filter (fun k => f (k / J) (k % J))).length
      = ((List.range J).map (fun j => ((List.range I).filter (fun i => f i j)).length)).sum := by
  intro I
  induction I with
  | zero => simp
  | succ I ih =>
    have e : (I + 1) * J = I * J + J := by ring
    rw [e, List.range_add, List.filter_append, List.length_append, ih, List.filter_map,
      List.length_map]
    have h1 : (List.range J).filter ((fun k => f (k / J) (k % J)) ∘ fun x => I * J + x)
        = (List.range J).filter (fun j => f I j) := by
      apply List.filter_congr
      intro j hj
      have hj' := List.mem_range.mp hj
      have hJ : 0 < J := by omega
      have hd : (I * J + j) / J = I := by
        rw [Nat.add_comm, Nat.add_mul_div_right _ _ hJ, Nat.div_eq_of_lt hj', Nat.zero_add]
      have hm : (I * J + j) % J = j := by
        rw [Nat.add_comm, Nat.add_mul_mod_self_right, Nat.mod_eq_of_lt hj']
      simp only [Function.comp, hd, hm]
    rw [h1]
    have h2 : (List.range J).map
        (fun j => ((List.range (I + 1)).filter (fun i => f i j)).length)
        = (List.range J).map (fun j => ((List.range I).filter (fun i => f i j)).length
            + (if f I j then 1 else 0)) := by
      apply List.map_congr_left
      intro j _
      rw [List.range_succ, List.filter_append, List.length_append]
      by_cases h : f I j <;> simp [h]
    rw [h2, sum_map_add_nat, sum_ite_countP, List.countP_eq_length_filter]

theorem cells_count_cols (b : Board) (F : Int → Int → Bool) :
    ((cells b).filter (fun a => F a.1 a.2)).length
      = ((List.range b.nbJ).map
          (fun (j : Nat) => ((List.range b.nbI).filter
            (fun (i : Nat) => F (i : Int) (j : Int))).length)).sum := by
  unfold cells
  rw [List.filter_map, List.length_map]
  exact count_grid b.nbJ (fun i j => F (i : Int) (j : Int)) b.nbI

theorem sum_length_filter_ne_nil {α : Type} [DecidableEq α] (L : List (List α)) :
    ((L.filter (fun c => c ≠ [])).map List.length).sum = (L.map List.length).sum := by
  induction L with
  | nil => rfl
  | cons c L ih =>
    by_cases h : c = [] <;> simp_all [List.filter_cons]

theorem sum_getD_length {α : Type} :
    ∀ (A : List (List α)) (n : Nat), A.length ≤ n →
      ((List.range n).map (fun j => (A.getD j []).length)).sum = (A.map List.length).sum := by
  intro A
  induction A with
  | nil =>
    intro n _
    simp
  | cons a A ih =>
    intro n hn
    obtain ⟨n1, rfl⟩ : ∃ n1, n = n1 + 1 := ⟨n - 1, by simp at hn; omega⟩
    rw [List.range_succ_eq_map, List.map_cons, List.map_map, List.sum_cons, List.map_cons,
      List.sum_cons]
    have := ih n1 (by simp at hn; omega)
    rw [← this]
    rfl

theorem length_filter_split {α : Type} (p q : α → Bool) (l : List α) :
    (l.filter p).length
      = (l.filter (fun x => p x && q x)).length + (l.filter (fun x => p x && !q x)).length := by
  induction l with
  | nil => rfl
  | cons a l ih =>
    simp only [List.filter_cons]
    by_cases hp : p a <;> by_cases hq : q a <;> simp [hp, hq, ih] <;> omega

/-- Column `j` of a packed board has as many occupied cells as its column list has
entries. -/
theorem rep_column_count {b : Board} {A : List (List Int)} (hR : Rep (colorAt b) (-1) b A)
    (hel : ∀ c ∈ A, ∀ x ∈ c, x ≠ -1) {j : Nat} (hj : j < b.nbJ) :
    ((List.range b.nbI).filter
      (fun (i : Nat) => decide (colorAt b (i : Int) (j : Int) ≠ -1))).length
      = (A.getD j []).length := by
  have hcolor : ∀ i : Nat, i < b.nbI →
      (colorAt b (i : Int) (j : Int) ≠ -1 ↔ i < (A.getD j []).length) := by
    intro i hi
    have hv : isValid b (i : Int) (j : Int) :=
      ⟨Int.ofNat_nonneg _, by exact_mod_cast hi, Int.ofNat_nonneg _, by exact_mod_cast hj⟩
    have := rep_occupied hR hel hv
    simpa using this
  have hlen : (A.getD j []).length ≤ b.nbI := by
    by_cases hjA : j < A.length
    · exact hR.lenC _ (getD_mem_of_lt A j [] hjA)
    · rw [List.getD_eq_default _ _ (by omega)]
      simp
  rw [filter_range_trunc _ _ _ hlen]
  · have : (List.range (A.getD j []).length).filter
        (fun (i : Nat) => decide (colorAt b (i : Int) (j : Int) ≠ -1))
        = List.range (A.getD j []).length := by
      rw [List.filter_eq_self]
      intro i hi
      have hi' := List.mem_range.mp hi
      exact decide_eq_true ((hcolor i (by omega)).mpr hi')
    rw [this, List.length_range]
  · intro i h1 h2
    have := (hcolor i h2).not.mpr (by omega)
    simp only [ne_eq, not_not] at this
    simp [this]

/-- A packed board has as many occupied cells as its column lists have entries. -/
theorem occupied_rep {b : Board} {A : List (List Int)} (hR : Rep (colorAt b) (-1) b A)
    (hel : ∀ c ∈ A, ∀ x ∈ c, x ≠ -1) : occupied b = (A.map List.length).sum := by
  unfold occupied
  rw [cells_count_cols b (fun i j => decide (colorAt b i j ≠ -1)),
    ← sum_getD_length A b.nbJ hR.lenA]
  congr 1
  apply List.map_congr_left
  intro j hj
  exact rep_column_count hR hel (List.mem_range.mp hj)

theorem occupied_le (b : Board) : occupied b ≤ b.nbI * b.nbJ := by
  unfold occupied
  have := List.length_filter_le (fun a : Int × Int => decide (colorAt b a.1 a.2 ≠ -1)) (cells b)
  unfold cells at this ⊢
  simpa using this

/-! ## Claim about the termination of a game -/

theorem compactCols_ne {b : Board} {g : Int} : ∀ c ∈ compactCols b g, ∀ x ∈ c, x ≠ -1 := by
  intro c hc x hx
  unfold compactCols at hc
  obtain ⟨hc1, _⟩ := List.mem_filter.mp hc
  obtain ⟨j, _, rfl⟩ := List.mem_map.mp hc1
  unfold keptCol at hx
  obtain ⟨i, hi, rfl⟩ := List.mem_map.mp hx
  have := (List.mem_filter.mp hi).2
  exact (of_decide_eq_true this).1

/-- A play removes exactly the cells of the group played, which are at least two. -/
theorem play_occupied {b : Board} (h : Reachable b) (n : Int) (hn0 : 0 ≤ n)
    (hn1 : n < b.moves.length) :
    ∃ m b1, vget b.moves n = some m ∧ play b n = some b1 ∧ Reachable b1 ∧
      occupied b1 + compSize b (m.i, m.j) = occupied b ∧ 2 ≤ compSize b (m.i, m.j) := by
  obtain ⟨m, b1, hget, _, hplay, hv, hp, _, _, hcst, hR1, hRep⟩ := play_facts h n hn0 hn1
  obtain ⟨hF, _, _⟩ := reachable_all h
  have hL := hF.1
  have hS := hF.2.1
  have hg : groupAt b m.i m.j ≠ -1 := fun hg => hp.1 ((labelled_iff hL hS hv).mp hg)
  have hsize : 2 ≤ compSize b (m.i, m.j) := by
    have h1 := hp.2
    rw [sizeAt_eq_compSize hL hS hv hp.1] at h1
    omega
  refine ⟨m, b1, hget, hplay, hR1, ?_, hsize⟩
  have e1 : occupied b1
      = ((cells b).filter (fun a => decide (colorAt b a.1 a.2 ≠ -1)
          && decide (groupAt b a.1 a.2 ≠ groupAt b m.i m.j))).length := by
    rw [occupied_rep hRep compactCols_ne]
    unfold compactCols
    rw [sum_length_filter_ne_nil, List.map_map,
      cells_count_cols b (fun i j => decide (colorAt b i j ≠ -1)
        && decide (groupAt b i j ≠ groupAt b m.i m.j))]
    congr 1
    apply List.map_congr_left
    intro j _
    unfold keptCol
    simp only [Function.comp, List.length_map]
    congr 1
    apply List.filter_congr
    intro i _
    simp only [Bool.decide_and]
  have e2 : compSize b (m.i, m.j)
      = ((cells b).filter (fun a => decide (colorAt b a.1 a.2 ≠ -1)
          && !decide (groupAt b a.1 a.2 ≠ groupAt b m.i m.j))).length := by
    unfold compSize
    congr 1
    apply List.filter_congr
    intro a ha
    have hva := mem_cells.mp ha
    by_cases hga : groupAt b a.1 a.2 = groupAt b m.i m.j
    · have hca : colorAt b a.1 a.2 ≠ -1 := by
        intro hca
        have := (labelled_iff hL hS hva).mpr hca
        rw [hga] at this
        exact hg this
      simp [hga, hca]
    · simp [hga]
  rw [e1, e2]
  unfold occupied
  exact (length_filter_split _ _ _).symm

theorem playSeq_append (ms : List Int) :
    ∀ (ns : List Int) (b : Board),
      playSeq b (ns ++ ms) = (playSeq b ns).bind (fun b1 => playSeq b1 ms) := by
  intro ns
  induction ns with
  | nil => intro b; rfl
  | cons n ns ih =>
    intro b
    simp only [List.cons_append, playSeq]
    cases play b n with
    | none => rfl
    | some b2 => exact ih b2

/-- Every play of a sequence removes at least two cells. -/
theorem playSeq_occupied :
    ∀ (ns : List Int) (b b1 : Board), Reachable b → playSeq b ns = some b1 →
      2 * ns.length + occupied b1 ≤ occupied b := by
  intro ns
  induction ns with
  | nil =>
    intro b b1 _ hb
    have := Option.some.inj hb
    subst this
    simp
  | cons n ns ih =>
    intro b b1 h hb
    simp only [playSeq] at hb
    cases hp : play b n with
    | none => rw [hp] at hb; simp at hb
    | some b2 =>
      rw [hp] at hb
      obtain ⟨hn0, hn1⟩ := play_some_index hp
      obtain ⟨m, b2', _, hplay, hR2, hocc, hsz⟩ := play_occupied h n hn0 hn1
      rw [hp] at hplay
      have := Option.some.inj hplay
      subst this
      have := ih b2 b1 hR2 hb
      simp only [List.length_cons]
      omega

/-- A game played to its end on a reachable board needs at most one play for every two
occupied cells. -/
theorem playOut_spec (pick : Board → Int)
    (hpick : ∀ b : Board, Reachable b → b.moves ≠ [] →
      0 ≤ pick b ∧ pick b < b.moves.length) :
    ∀ (fuel : Nat) (b : Board), Reachable b → occupied b ≤ 2 * fuel + 1 →
      ∃ b1, playOut pick fuel b = some b1 ∧ b1.moves = [] := by
  intro fuel
  induction fuel with
  | zero =>
    intro b h hocc
    by_cases hm : b.moves = []
    · refine ⟨b, ?_, hm⟩
      simp [playOut, isTerminated, hm]
    · obtain ⟨h0, h1⟩ := hpick b h hm
      obtain ⟨m, b1, _, _, _, hocc1, hsz⟩ := play_occupied h (pick b) h0 h1
      omega
  | succ fuel ih =>
    intro b h hocc
    by_cases hm : b.moves = []
    · refine ⟨b, ?_, hm⟩
      simp [playOut, isTerminated, hm]
    · obtain ⟨h0, h1⟩ := hpick b h hm
      obtain ⟨m, b1, _, hplay, hR1, hocc1, hsz⟩ := play_occupied h (pick b) h0 h1
      obtain ⟨b2, hb2, hm2⟩ := ih b1 hR1 (by omega)
      refine ⟨b2, ?_, hm2⟩
      have ht : isTerminated b = false := by
        unfold isTerminated
        cases hmv : b.moves with
        | nil => exact absurd hmv hm
        | cons x xs => rfl
      simp only [playOut, ht, hplay]
      exact hb2

theorem pick_zero_lt {t : Board} (hm : t.moves ≠ []) : (0 : Int) < t.moves.length := by
  have := List.length_pos.mpr hm
  exact_mod_cast this

/-- C16: on every reachable board `play(n)` with a valid index removes exactly the cells
of the component played, which are at least two: occupied cells after = occupied cells
before - size of the component. Hence every sequence of plays from a reachable board has
at most `floor(nbI * nbJ / 2)` plays, removing two cells per play at least; a sequence that
ends on a board with a move can be continued, so that a sequence that cannot be continued
ends on an empty move list; and a game in which the caller keeps playing some valid index
reaches an empty move list within `floor(nbI * nbJ / 2)` plays. -/
theorem play_terminates :
    (∀ b : Board, Reachable b → ∀ n : Int, 0 ≤ n → n < b.moves.length →
      ∃ m b1, vget b.moves n = some m ∧ play b n = some b1 ∧
        occupied b1 + compSize b (m.i, m.j) = occupied b ∧ 2 ≤ compSize b (m.i, m.j)) ∧
    (∀ b : Board, Reachable b → ∀ (ns : List Int) (b1 : Board), playSeq b ns = some b1 →
      2 * ns.length + occupied b1 ≤ occupied b ∧
      ns.length ≤ b.nbI * b.nbJ / 2 ∧
      (b1.moves ≠ [] → ∃ n b2, playSeq b (ns ++ [n]) = some b2)) ∧
    (∀ b : Board, Reachable b → ∀ pick : Board → Int,
      (∀ t : Board, Reachable t → t.moves ≠ [] → 0 ≤ pick t ∧ pick t < t.moves.length) →
      ∃ b1, playOut pick (b.nbI * b.nbJ / 2) b = some b1 ∧ b1.moves = []) := by
  refine ⟨?_, ?_, ?_⟩
  · intro b h n hn0 hn1
    obtain ⟨m, b1, hget, hplay, _, hocc, hsz⟩ := play_occupied h n hn0 hn1
    exact ⟨m, b1, hget, hplay, hocc, hsz⟩
  · intro b h ns b1 hb
    have hocc := playSeq_occupied ns b b1 h hb
    have hle := occupied_le b
    refine ⟨hocc, by omega, ?_⟩
    intro hm
    have hR1 := playSeq_reachable h ns b1 hb
    have hpos : 0 < b1.moves.length := List.length_pos.mpr hm
    obtain ⟨m, b2, _, hplay, _⟩ := play_occupied hR1 0 (le_refl _) (by exact_mod_cast hpos)
    refine ⟨0, b2, ?_⟩
    rw [playSeq_append, hb]
    simp only [Option.some_bind, playSeq, hplay]
  · intro b h pick hpick
    have hle := occupied_le b
    exact playOut_spec pick hpick _ b h (by omega)

/-- C16, instance: the board `gapStart`, its move 0, the sequence of this one play, and
the game in which the caller always plays the move of index 0. -/
theorem play_terminates_witness :
    Reachable gapStart ∧ (0 : Int) ≤ 0 ∧ (0 : Int) < gapStart.moves.length ∧
    (∃ m b1, vget gapStart.moves 0 = some m ∧ play gapStart 0 = some b1 ∧
        occupied b1 + compSize gapStart (m.i, m.j) = occupied gapStart ∧
        2 ≤ compSize gapStart (m.i, m.j)) ∧
    playSeq gapStart [0] = some gapBoard ∧
    (2 * [(0 : Int)].length + occupied gapBoard ≤ occupied gapStart ∧
      [(0 : Int)].length ≤ gapStart.nbI * gapStart.nbJ / 2 ∧
      (gapBoard.moves ≠ [] → ∃ n b2, playSeq gapStart ([0] ++ [n]) = some b2)) ∧
    (∀ t : Board, Reachable t → t.moves ≠ [] →
      0 ≤ (fun _ : Board => (0 : Int)) t ∧ (fun _ : Board => (0 : Int)) t < t.moves.length) ∧
    (∃ b1, playOut (fun _ => 0) (gapStart.nbI * gapStart.nbJ / 2) gapStart = some b1 ∧
      b1.moves = []) :=
  ⟨gapStart_reachable, by decide, by decide,
    play_terminates.1 gapStart gapStart_reachable 0 (by decide) (by decide),
    by decide,
    play_terminates.2.1 gapStart gapStart_reachable [0] gapBoard (by decide),
    fun t _ hm => ⟨le_refl _, pick_zero_lt hm⟩,
    play_terminates.2.2 gapStart gapStart_reachable (fun _ => 0)
      (fun t _ hm => ⟨le_refl _, pick_zero_lt hm⟩)⟩

/-! ## Scenario: a board of one colour -/

/-- On a board whose cells all have one colour, any two cells are connected. -/
theorem uniform_connected {b : Board} {c : Int}
    (hc : ∀ i j, isValid b i j → colorAt b i j = c) :
    ∀ a a1 : Int × Int, isValid b a.1 a.2 → isValid b a1.1 a1.2 → Connected b a a1 := by
  have hrow : ∀ j : Nat, 0 < b.nbI → j < b.nbJ → Connected b (0, 0) (0, (j : Int)) := by
    intro j hI
    induction j with
    | zero => intro _; exact Relation.ReflTransGen.refl
    | succ j ih =>
      intro hj
      have hv0 : isValid b 0 (j : Int) :=
        ⟨le_refl _, by exact_mod_cast hI, Int.ofNat_nonneg _, by exact_mod_cast (by omega : j < b.nbJ)⟩
      have hv1 : isValid b 0 ((j + 1 : Nat) : Int) :=
        ⟨le_refl _, by exact_mod_cast hI, Int.ofNat_nonneg _, by exact_mod_cast hj⟩
      refine Relation.ReflTransGen.tail (ih (by omega)) ⟨hv0, hv1, ?_, ?_⟩
      · left
        exact ⟨rfl, Or.inr (by push_cast; rfl)⟩
      · rw [hc _ _ hv0, hc _ _ hv1]
  have hcol : ∀ (j : Nat) (i : Nat), j < b.nbJ → i < b.nbI →
      Connected b (0, (j : Int)) ((i : Int), (j : Int)) := by
    intro j i hj
    induction i with
    | zero => intro _; exact Relation.ReflTransGen.refl
    | succ i ih =>
      intro hi
      have hv0 : isValid b (i : Int) (j : Int) :=
        ⟨Int.ofNat_nonneg _, by exact_mod_cast (by omega : i < b.nbI), Int.ofNat_nonneg _,
          by exact_mod_cast hj⟩
      have hv1 : isValid b ((i + 1 : Nat) : Int) (j : Int) :=
        ⟨Int.ofNat_nonneg _, by exact_mod_cast hi, Int.ofNat_nonneg _, by exact_mod_cast hj⟩
      refine Relation.ReflTransGen.tail (ih (by omega)) ⟨hv0, hv1, ?_, ?_⟩
      · right
        exact ⟨rfl, Or.inr (by push_cast; rfl)⟩
      · rw [hc _ _ hv0, hc _ _ hv1]
  have hfrom : ∀ a : Int × Int, isValid b a.1 a.2 → Connected b (0, 0) a := by
    rintro ⟨i, j⟩ hv
    have hi : i = (i.toNat : Int) := by have := hv.1; omega
    have hj : j = (j.toNat : Int) := by have := hv.2.2.1; omega
    have hI : i.toNat < b.nbI := by have := hv.1; have := hv.2.1; omega
    have hJ : j.toNat < b.nbJ := by have := hv.2.2.1; have := hv.2.2.2; omega
    show Connected b (0, 0) (i, j)
    rw [hi, hj]
    exact Relation.ReflTransGen.trans (hrow j.toNat (by omega) hJ) (hcol j.toNat i.toNat hJ hI)
  intro a a1 ha ha1
  exact Relation.ReflTransGen.trans (connected_symm (hfrom a ha)) (hfrom a1 ha1)

theorem eq_replicate_of_getD {l : List Int} {n : Nat} {x : Int} (hl : l.length = n)
    (h : ∀ k : Nat, k < n → l.getD k 0 = x) : l = List.replicate n x := by
  rw [List.eq_replicate_iff]
  refine ⟨hl, ?_⟩
  intro y hy
  obtain ⟨k, hk, rfl⟩ := List.getElem_of_mem hy
  rw [← h k (by omega), List.getD_eq_getElem _ _ hk]

/-- What an empty list of columns says of a board: no cell is occupied and the two fill
vectors hold `-1`. -/
theorem rep_nil {b : Board} (hw : WellSized b) (hR : Rep (colorAt b) (-1) b []) :
    b.dataColors = List.replicate (b.nbI * b.nbJ) (-1) ∧
      b.lastIs = List.replicate b.nbJ (-1) ∧ b.lastJs = List.replicate b.nbI (-1) := by
  refine ⟨?_, ?_, ?_⟩
  · rw [List.eq_replicate_iff]
    refine ⟨hw.1, ?_⟩
    intro y hy
    rw [← cells_map_colorAt b hw] at hy
    obtain ⟨a, ha, rfl⟩ := List.mem_map.mp hy
    rw [hR.cell _ _ (mem_cells.mp ha)]
    simp
  · apply eq_replicate_of_getD hR.hIs
    intro k hk
    rw [hR.lastI k hk]
    simp
  · apply eq_replicate_of_getD hR.hJs
    intro k hk
    rw [hR.lastJ k hk]
    simp

/-- A fresh board without occupied cell has no move. -/
theorem moves_nil_of_empty {b : Board} (hF : Fresh b)
    (hc : ∀ i j, isValid b i j → colorAt b i j = -1) : b.moves = [] := by
  rw [hF.2.2]
  rw [List.map_eq_nil_iff, List.filter_eq_nil_iff]
  intro a ha hp
  have := of_decide_eq_true hp
  exact this.1 (hc _ _ (mem_cells.mp ha))

/-- A fresh board whose cells all have one colour has one group, numbered 0, of all the
cells. -/
theorem uniform_groups {b : Board} {c : Int} (hF : Fresh b) (hN : 0 < b.nbI * b.nbJ)
    (hcne : c ≠ -1) (hc : ∀ i j, isValid b i j → colorAt b i j = c) :
    (∀ i j, isValid b i j → groupAt b i j = 0) ∧
      b.groupSizes = [((b.nbI * b.nbJ : Nat) : Int)] := by
  obtain ⟨hL, hS, _⟩ := hF
  have hI : 0 < b.nbI := Nat.pos_of_mul_pos_right hN
  have hJ : 0 < b.nbJ := Nat.pos_of_mul_pos_left hN
  have hv0 : isValid b 0 0 := ⟨le_refl _, by exact_mod_cast hI, le_refl _, by exact_mod_cast hJ⟩
  have hg0 : groupAt b 0 0 ≠ -1 := by
    intro hg
    have := (labelled_iff hL hS hv0).mp hg
    rw [hc _ _ hv0] at this
    exact hcne this
  have hall : ∀ i j, isValid b i j → groupAt b i j = groupAt b 0 0 := by
    intro i j hv
    exact closed_conn hL (uniform_connected hc (0, 0) (i, j) hv0 hv) hg0
  have hrng : 0 ≤ groupAt b 0 0 ∧ groupAt b 0 0 < (b.groupSizes.length : Int) := by
    rcases hL.rng _ (getD_mem (by rw [hL.ws.2]; exact idx_toNat_lt hv0) (-1)) with h | h
    · exact absurd h hg0
    · exact h
  have hseen : ∀ g : Nat, g < b.groupSizes.length → (g : Int) = groupAt b 0 0 := by
    intro g hg
    obtain ⟨a, ha, _, hga⟩ := hS.seen g hg
    rw [← hga]
    exact hall _ _ ha
  have hlen : b.groupSizes.length = 1 := by
    by_contra hne
    have h0 := hseen 0 (by omega)
    have h1 := hseen 1 (by omega)
    omega
  have hzero : groupAt b 0 0 = 0 := by
    have := hseen 0 (by omega)
    omega
  refine ⟨fun i j hv => by rw [hall i j hv, hzero], ?_⟩
  obtain ⟨x, hx⟩ := List.length_eq_one.mp hlen
  have hsum := groupSizes_sum hL hS
  have hocc : (cells b).filter (fun a => colorAt b a.1 a.2 ≠ -1) = cells b := by
    rw [List.filter_eq_self]
    intro a ha
    apply decide_eq_true
    rw [hc _ _ (mem_cells.mp ha)]
    exact hcne
  rw [hocc, hx] at hsum
  rw [hx]
  simp only [List.sum_cons, List.sum_nil, add_zero] at hsum
  rw [hsum]
  unfold cells
  simp

theorem compactCols_all {b : Board} {g : Int}
    (hg : ∀ i j, isValid b i j → groupAt b i j = g) : compactCols b g = [] := by
  unfold compactCols
  rw [List.filter_eq_nil_iff]
  intro c hc
  obtain ⟨j, hj, rfl⟩ := List.mem_map.mp hc
  have hj' := List.mem_range.mp hj
  have : keptCol b g j = [] := by
    unfold keptCol
    rw [List.map_eq_nil_iff, List.filter_eq_nil_iff]
    intro i hi hp
    have hi' := List.mem_range.mp hi
    have hv : isValid b (i : Int) (j : Int) :=
      ⟨Int.ofNat_nonneg _, by exact_mod_cast hi', Int.ofNat_nonneg _, by exact_mod_cast hj'⟩
    exact (of_decide_eq_true hp).2 (hg _ _ hv)
  simp [this]

/-- C14: for arguments in the range of `int` with `nbI * nbJ` not overflowing, for every
`nbI * nbJ >= 2` and every colour `c` in `[0, nbColors)`, the constructor returns, on the
fill source that always answers `c`, a board whose cells all carry `c` and the group id 0,
any two of them connected, with `groupSizes = [nbI * nbJ]`, one move per cell, each with
the evaluation `(nbI*nbJ - 2)^2 / estimatedMaxScore`. Every `play(n)` with a valid index
returns a board with every cell `-1` (no occupied cell), every `_lastIs[j]` and
`_lastJs[i]` equal to `-1`, an empty move list, and the score grown by the evaluation of
the move. -/
theorem uniform_scenario (nbI nbJ : Nat) (nbColors c : Int)
    (_hfit : FitsInt nbI nbJ nbColors) (hN : 2 ≤ nbI * nbJ) (hc0 : 0 ≤ c) (hc1 : c < nbColors) :
    ∃ b, Board.new nbI nbJ nbColors (fun _ => c) = some b ∧
      b.nbI = nbI ∧ b.nbJ = nbJ ∧
      (∀ i j, isValid b i j → colorAt b i j = c ∧ groupAt b i j = 0) ∧
      (∀ a a1 : Int × Int, isValid b a.1 a.2 → isValid b a1.1 a1.2 → Connected b a a1) ∧
      b.groupSizes = [((nbI * nbJ : Nat) : Int)] ∧
      b.moves.length = nbI * nbJ ∧
      (∀ m ∈ b.moves,
        m.eval = Dbl.div (Dbl.mul (Dbl.ofInt ((nbI : Int) * nbJ - 2))
          (Dbl.ofInt ((nbI : Int) * nbJ - 2))) b.estimatedMaxScore) ∧
      b.estimatedMaxScore
        = Dbl.pow (Dbl.div (Dbl.ofInt ((nbI : Int) * nbJ)) (Dbl.ofInt nbColors)) (Dbl.ofInt 2) ∧
      ∀ n : Int, 0 ≤ n → n < b.moves.length →
        ∃ m b1, vget b.moves n = some m ∧ play b n = some b1 ∧
          b1.dataColors = List.replicate (nbI * nbJ) (-1) ∧ occupied b1 = 0 ∧
          b1.lastIs = List.replicate nbJ (-1) ∧ b1.lastJs = List.replicate nbI (-1) ∧
          b1.moves = [] ∧ isTerminated b1 = true ∧
          b1.score = Dbl.add b.score m.eval := by
  have hfill : ∀ k : Nat, k < nbI * nbJ →
      0 ≤ (fun _ : Nat => c) k ∧ (fun _ : Nat => c) k < nbColors := fun _ _ => ⟨hc0, hc1⟩
  obtain ⟨b, hb⟩ := new_total hfill
  obtain ⟨hI, hJ, _, _, _, _, _⟩ := new_fields hb
  have hR : Reachable b := Reachable.ctor nbI nbJ nbColors (fun _ => c) b hb
  obtain ⟨hF, _, hE⟩ := reachable_all hR
  have hcne : c ≠ -1 := by omega
  have hcol : ∀ i j, isValid b i j → colorAt b i j = c := fun i j hv => colorAt_new hb hv
  have hNb : 0 < b.nbI * b.nbJ := by rw [hI, hJ]; omega
  obtain ⟨hgrp, hgs⟩ := uniform_groups hF hNb hcne hcol
  rw [hI, hJ] at hgs
  have hsize : ∀ a : Int × Int, isValid b a.1 a.2 → sizeAt b a = ((nbI * nbJ : Nat) : Int) := by
    intro a ha
    unfold sizeAt
    rw [hgrp _ _ ha, hgs]
    rfl
  have hplayable : ∀ a ∈ cells b, playable b a := by
    intro a ha
    have hv := mem_cells.mp ha
    refine ⟨by rw [hcol _ _ hv]; exact hcne, ?_⟩
    rw [hsize a hv]
    exact_mod_cast (by omega : 1 < nbI * nbJ)
  refine ⟨b, hb, hI, hJ, fun i j hv => ⟨hcol i j hv, hgrp i j hv⟩, uniform_connected hcol,
    hgs, ?_, ?_, ?_, ?_⟩
  · rw [hF.2.2, List.length_map]
    have : (cells b).filter (fun a => playable b a) = cells b := by
      rw [List.filter_eq_self]
      intro a ha
      exact decide_eq_true (hplayable a ha)
    rw [this]
    unfold cells
    rw [List.length_map, List.length_range, hI, hJ]
  · intro m hm
    obtain ⟨hv, _, hme⟩ := move_cell hF hm
    have h1 : m.eval = evalOfSize b (sizeAt b (m.i, m.j)) := by rw [hme]; rfl
    rw [h1, hsize (m.i, m.j) hv]
    unfold evalOfSize
    have : max (0 : Int) (((nbI * nbJ : Nat) : Int) - 2) = (nbI : Int) * nbJ - 2 := by
      push_cast
      have : (2 : Int) ≤ (nbI : Int) * nbJ := by exact_mod_cast hN
      omega
    rw [this]
  · rw [hE, hI, hJ]
    have := (new_fields hb).2.2.1
    rw [this]
  · intro n hn0 hn1
    obtain ⟨m, b1, hget, _, hplay, hv, _, _, hS, hcst, hR1, hRep⟩ := play_facts hR n hn0 hn1
    have hg : ∀ i j, isValid b i j → groupAt b i j = groupAt b m.i m.j := by
      intro i j hvij
      rw [hgrp i j hvij, hgrp _ _ hv]
    rw [compactCols_all hg] at hRep
    obtain ⟨hF1, _, _⟩ := reachable_all hR1
    obtain ⟨hd, hli, hlj⟩ := rep_nil hF1.1.ws hRep
    have hI1 : b1.nbI = nbI := by rw [hcst.1, hI]
    have hJ1 : b1.nbJ = nbJ := by rw [hcst.2.1, hJ]
    rw [hI1, hJ1] at hd
    rw [hJ1] at hli
    rw [hI1] at hlj
    have hemp : ∀ i j, isValid b1 i j → colorAt b1 i j = -1 := by
      intro i j hvij
      rw [hRep.cell i j hvij]
      simp
    have hmv := moves_nil_of_empty hF1 hemp
    refine ⟨m, b1, hget, hplay, hd, ?_, hli, hlj, hmv, ?_, hS⟩
    · rw [occupied_rep hRep (by intro c hc; simp at hc)]
      rfl
    · unfold isTerminated
      rw [hmv]
      rfl

/-- C14, instance: the 2 x 2 board of colour 1 with `nbColors = 3`. -/
theorem uniform_scenario_witness :
    FitsInt 2 2 3 ∧ 2 ≤ 2 * 2 ∧ (0 : Int) ≤ 1 ∧ (1 : Int) < 3 ∧
    ∃ b, Board.new 2 2 3 (fun _ => 1) = some b ∧
      b.nbI = 2 ∧ b.nbJ = 2 ∧
      (∀ i j, isValid b i j → colorAt b i j = 1 ∧ groupAt b i j = 0) ∧
      (∀ a a1 : Int × Int, isValid b a.1 a.2 → isValid b a1.1 a1.2 → Connected b a a1) ∧
      b.groupSizes = [((2 * 2 : Nat) : Int)] ∧
      b.moves.length = 2 * 2 ∧
      (∀ m ∈ b.moves,
        m.eval = Dbl.div (Dbl.mul (Dbl.ofInt (((2 : Nat) : Int) * (2 : Nat) - 2))
          (Dbl.ofInt (((2 : Nat) : Int) * (2 : Nat) - 2))) b.estimatedMaxScore) ∧
      b.estimatedMaxScore
        = Dbl.pow (Dbl.div (Dbl.ofInt (((2 : Nat) : Int) * (2 : Nat))) (Dbl.ofInt 3))
            (Dbl.ofInt 2) ∧
      ∀ n : Int, 0 ≤ n → n < b.moves.length →
        ∃ m b1, vget b.moves n = some m ∧ play b n = some b1 ∧
          b1.dataColors = List.replicate (2 * 2) (-1) ∧ occupied b1 = 0 ∧
          b1.lastIs = List.replicate 2 (-1) ∧ b1.lastJs = List.replicate 2 (-1) ∧
          b1.moves = [] ∧ isTerminated b1 = true ∧
          b1.score = Dbl.add b.score m.eval :=
  ⟨by decide, by decide, by decide, by decide,
    uniform_scenario 2 2 3 1 (by decide) (by decide) (by decide) (by decide)⟩

/-! ## Scenario: no two neighbours of equal colour -/

/-- Without two neighbours of equal colour a cell is connected to itself only. -/
theorem isolated_connected {b : Board}
    (hne : ∀ a c : Int × Int, isValid b a.1 a.2 → isValid b c.1 c.2 → Adj a c →
      colorAt b a.1 a.2 ≠ colorAt b c.1 c.2)
    {a c : Int × Int} (h : Connected b a c) : a = c := by
  rcases Relation.ReflTransGen.cases_head h with h | ⟨x, hs, _⟩
  · exact h
  · exact absurd hs.2.2.2 (hne a x hs.1 hs.2.1 hs.2.2.1)

theorem cells_nodup (b : Board) : (cells b).Nodup := by
  refine List.Pairwise.imp ?_ (cells_pairwise b)
  intro a c hlt hac
  rw [hac] at hlt
  exact lt_irrefl _ hlt

theorem length_le_one_of_eq {α : Type} {l : List α} (hn : l.Nodup)
    (h : ∀ x ∈ l, ∀ y ∈ l, x = y) : l.length ≤ 1 := by
  match l, hn, h with
  | [], _, _ => simp
  | [_], _, _ => simp
  | x :: y :: l, hn, h =>
    have hxy := h x (List.mem_cons_self _ _) y (List.mem_cons_of_mem _ (List.mem_cons_self _ _))
    rw [List.nodup_cons] at hn
    exact absurd (hxy ▸ List.mem_cons_self _ _) hn.1

/-- A fresh board without empty cell and without two neighbours of equal colour has one
group of size 1 per cell and no move. -/
theorem isolated_groups {b : Board} (hF : Fresh b)
    (hfull : ∀ i j, isValid b i j → colorAt b i j ≠ -1)
    (hne : ∀ a c : Int × Int, isValid b a.1 a.2 → isValid b c.1 c.2 → Adj a c →
      colorAt b a.1 a.2 ≠ colorAt b c.1 c.2) :
    (∀ a c : Int × Int, isValid b a.1 a.2 → isValid b c.1 c.2 →
      groupAt b a.1 a.2 = groupAt b c.1 c.2 → a = c) ∧
    b.groupSizes = List.replicate (b.nbI * b.nbJ) 1 ∧ b.moves = [] := by
  obtain ⟨hL, hS, hM⟩ := hF
  have hinj : ∀ a c : Int × Int, isValid b a.1 a.2 → isValid b c.1 c.2 →
      groupAt b a.1 a.2 = groupAt b c.1 c.2 → a = c := by
    intro a c ha hc hg
    have hga : groupAt b a.1 a.2 ≠ -1 :=
      fun h => hfull _ _ ha ((labelled_iff hL hS ha).mp h)
    exact isolated_connected hne (hL.conn a c ha hc hga hg)
  have hone : ∀ g : Nat, g < b.groupSizes.length → b.groupSizes.getD g 0 = 1 := by
    intro g hg
    obtain ⟨hcnt, hpos⟩ := groupSizes_count hL hS g hg
    have hle : ((cells b).filter (fun a => groupAt b a.1 a.2 = (g : Int))).length ≤ 1 := by
      apply length_le_one_of_eq ((cells_nodup b).filter _)
      intro x hx y hy
      obtain ⟨hx1, hx2⟩ := List.mem_filter.mp hx
      obtain ⟨hy1, hy2⟩ := List.mem_filter.mp hy
      have ex := of_decide_eq_true hx2
      have ey := of_decide_eq_true hy2
      exact hinj x y (mem_cells.mp hx1) (mem_cells.mp hy1) (by rw [ex, ey])
    rw [hcnt]
    exact_mod_cast (by omega :
      ((cells b).filter (fun a => groupAt b a.1 a.2 = (g : Int))).length = 1)
  have hrep : b.groupSizes = List.replicate b.groupSizes.length 1 :=
    eq_replicate_of_getD rfl hone
  have hsum := groupSizes_sum hL hS
  have hocc : (cells b).filter (fun a => colorAt b a.1 a.2 ≠ -1) = cells b := by
    rw [List.filter_eq_self]
    intro a ha
    exact decide_eq_true (hfull _ _ (mem_cells.mp ha))
  rw [hocc] at hsum
  have hlen : b.groupSizes.length = b.nbI * b.nbJ := by
    rw [hrep, List.sum_replicate] at hsum
    unfold cells at hsum
    simp only [List.length_replicate, List.length_map, List.length_range, nsmul_eq_mul,
      mul_one] at hsum
    exact_mod_cast hsum
  have hgs : b.groupSizes = List.replicate (b.nbI * b.nbJ) 1 := by
    rw [← hlen]
    exact hrep
  refine ⟨hinj, hgs, ?_⟩
  rw [hM, List.map_eq_nil_iff, List.filter_eq_nil_iff]
  intro a _ hp
  have h1 := (of_decide_eq_true hp).2
  unfold sizeAt at h1
  rw [hgs] at h1
  by_cases hk : (groupAt b a.1 a.2).toNat < b.nbI * b.nbJ
  · rw [List.getD_eq_getElem _ _ (by simpa using hk)] at h1
    simp at h1
  · rw [List.getD_eq_default _ _ (by simpa using hk)] at h1
    omega

theorem toNat_idx {nbJ : Nat} {i j : Int} (hi : 0 ≤ i) (hj : 0 ≤ j) :
    (i * (nbJ : Int) + j).toNat = i.toNat * nbJ + j.toNat := by
  obtain ⟨n, rfl⟩ : ∃ n : Nat, i = (n : Int) := ⟨i.toNat, by omega⟩
  obtain ⟨m, rfl⟩ : ∃ m : Nat, j = (m : Int) := ⟨j.toNat, by omega⟩
  have : ((n : Int) * (nbJ : Int) + (m : Int)) = ((n * nbJ + m : Nat) : Int) := by
    push_cast
    rfl
  rw [this]
  exact Int.toNat_ofNat _

theorem checkerFill_cell {nbJ i j : Nat} (hj : j < nbJ) :
    checkerFill nbJ (i * nbJ + j) = (((i + j) % 2 : Nat) : Int) := by
  unfold checkerFill
  have hJ : 0 < nbJ := by omega
  have hd : (i * nbJ + j) / nbJ = i := by
    rw [Nat.add_comm, Nat.add_mul_div_right _ _ hJ, Nat.div_eq_of_lt hj, Nat.zero_add]
  have hm : (i * nbJ + j) % nbJ = j := by
    rw [Nat.add_comm, Nat.add_mul_mod_self_right, Nat.mod_eq_of_lt hj]
  rw [hd, hm]

/-- C15: for arguments in the range of `int` with `nbI * nbJ` not overflowing: (1) for
every fill source with outputs in `[0, nbColors)` that gives no two 4-adjacent cells the
same colour, the constructor returns a fully filled board on which two cells with the same
group id are the same cell, `groupSizes` has `nbI * nbJ` entries all equal to 1, the move
list is empty and `isTerminated()` is true. (2) The two-colour checkerboard
`colour(i, j) = (i + j) mod 2` is such a board, for all these dimensions. -/
theorem checkerboard_scenario :
    (∀ (nbI nbJ : Nat) (nbColors : Int) (fillFunc : Nat → Int),
      FitsInt nbI nbJ nbColors →
      (∀ k : Nat, k < nbI * nbJ → 0 ≤ fillFunc k ∧ fillFunc k < nbColors) →
      (∀ i j i1 j1 : Nat, i < nbI → j < nbJ → i1 < nbI → j1 < nbJ →
        Adj ((i : Int), (j : Int)) ((i1 : Int), (j1 : Int)) →
        fillFunc (i * nbJ + j) ≠ fillFunc (i1 * nbJ + j1)) →
      ∃ b, Board.new nbI nbJ nbColors fillFunc = some b ∧
        (∀ i j, isValid b i j → colorAt b i j ≠ -1) ∧
        (∀ a c : Int × Int, isValid b a.1 a.2 → isValid b c.1 c.2 →
          groupAt b a.1 a.2 = groupAt b c.1 c.2 → a = c) ∧
        b.groupSizes = List.replicate (nbI * nbJ) 1 ∧
        b.moves = [] ∧ isTerminated b = true) ∧
    (∀ nbI nbJ : Nat, FitsInt nbI nbJ 2 →
      ∃ b, Board.new nbI nbJ 2 (checkerFill nbJ) = some b ∧
        (∀ i j : Nat, i < nbI → j < nbJ →
          colorAt b (i : Int) (j : Int) = (((i + j) % 2 : Nat) : Int)) ∧
        b.groupSizes = List.replicate (nbI * nbJ) 1 ∧
        b.moves = [] ∧ isTerminated b = true) := by
  have hgen : ∀ (nbI nbJ : Nat) (nbColors : Int) (fillFunc : Nat → Int),
      FitsInt nbI nbJ nbColors →
      (∀ k : Nat, k < nbI * nbJ → 0 ≤ fillFunc k ∧ fillFunc k < nbColors) →
      (∀ i j i1 j1 : Nat, i < nbI → j < nbJ → i1 < nbI → j1 < nbJ →
        Adj ((i : Int), (j : Int)) ((i1 : Int), (j1 : Int)) →
        fillFunc (i * nbJ + j) ≠ fillFunc (i1 * nbJ + j1)) →
      ∃ b, Board.new nbI nbJ nbColors fillFunc = some b ∧
        (∀ i j, isValid b i j → colorAt b i j ≠ -1) ∧
        (∀ a c : Int × Int, isValid b a.1 a.2 → isValid b c.1 c.2 →
          groupAt b a.1 a.2 = groupAt b c.1 c.2 → a = c) ∧
        b.groupSizes = List.replicate (nbI * nbJ) 1 ∧
        b.moves = [] ∧ isTerminated b = true := by
    intro nbI nbJ nbColors fillFunc _ hfill hadj
    obtain ⟨b, hb⟩ := new_total hfill
    obtain ⟨hI, hJ, _, _, _, _, _⟩ := new_fields hb
    obtain ⟨hF, _, _⟩ := new_inv hb
    have hcol : ∀ i j, isValid b i j →
        colorAt b i j = fillFunc (i.toNat * nbJ + j.toNat) := by
      intro i j hv
      rw [colorAt_new hb hv, toNat_idx hv.1 hv.2.2.1]
    have hfull : ∀ i j, isValid b i j → colorAt b i j ≠ -1 := by
      intro i j hv
      rw [colorAt_new hb hv]
      have hlt := idx_toNat_lt hv
      rw [hI, hJ] at hlt
      have := (hfill _ hlt).1
      omega
    have hne : ∀ a c : Int × Int, isValid b a.1 a.2 → isValid b c.1 c.2 → Adj a c →
        colorAt b a.1 a.2 ≠ colorAt b c.1 c.2 := by
      intro a c ha hc hac
      rw [hcol _ _ ha, hcol _ _ hc]
      have ha1 : a.1 = (a.1.toNat : Int) := by have := ha.1; omega
      have ha2 : a.2 = (a.2.toNat : Int) := by have := ha.2.2.1; omega
      have hc1 : c.1 = (c.1.toNat : Int) := by have := hc.1; omega
      have hc2 : c.2 = (c.2.toNat : Int) := by have := hc.2.2.1; omega
      apply hadj
      · have := ha.1; have := ha.2.1; rw [hI] at this; omega
      · have := ha.2.2.1; have := ha.2.2.2; rw [hJ] at this; omega
      · have := hc.1; have := hc.2.1; rw [hI] at this; omega
      · have := hc.2.2.1; have := hc.2.2.2; rw [hJ] at this; omega
      · unfold Adj at hac ⊢
        simp only
        rw [← ha1, ← ha2, ← hc1, ← hc2]
        exact hac
    obtain ⟨hinj, hgs, hmv⟩ := isolated_groups hF hfull hne
    rw [hI, hJ] at hgs
    refine ⟨b, hb, hfull, hinj, hgs, hmv, ?_⟩
    unfold isTerminated
    rw [hmv]
    rfl
  refine ⟨hgen, ?_⟩
  intro nbI nbJ hfit
  have hfill : ∀ k : Nat, k < nbI * nbJ →
      0 ≤ checkerFill nbJ k ∧ checkerFill nbJ k < 2 := by
    intro k _
    unfold checkerFill
    have := Nat.mod_lt (k / nbJ + k % nbJ) (by omega : 0 < 2)
    constructor
    · exact Int.ofNat_nonneg _
    · exact_mod_cast this
  have hadj : ∀ i j i1 j1 : Nat, i < nbI → j < nbJ → i1 < nbI → j1 < nbJ →
      Adj ((i : Int), (j : Int)) ((i1 : Int), (j1 : Int)) →
      checkerFill nbJ (i * nbJ + j) ≠ checkerFill nbJ (i1 * nbJ + j1) := by
    intro i j i1 j1 _ hj _ hj1 hac
    rw [checkerFill_cell hj, checkerFill_cell hj1]
    unfold Adj at hac
    simp only at hac
    intro he
    have he' : (i + j) % 2 = (i1 + j1) % 2 := by exact_mod_cast he
    omega
  obtain ⟨b, hb, _, _, hgs, hmv, ht⟩ := hgen nbI nbJ 2 (checkerFill nbJ) hfit hfill hadj
  refine ⟨b, hb, ?_, hgs, hmv, ht⟩
  intro i j hi hj
  obtain ⟨hI, hJ, _⟩ := new_fields hb
  have hv : isValid b (i : Int) (j : Int) :=
    ⟨Int.ofNat_nonneg _, by rw [hI]; exact_mod_cast hi, Int.ofNat_nonneg _,
      by rw [hJ]; exact_mod_cast hj⟩
  rw [colorAt_new hb hv, toNat_idx (Int.ofNat_nonneg _) (Int.ofNat_nonneg _)]
  simp only [Int.toNat_ofNat]
  exact checkerFill_cell hj

/-- C15, instance: the 2 x 2 checkerboard, taken both as a fill source without equal
neighbours and as the checkerboard of the second part. -/
theorem checkerboard_scenario_witness :
    FitsInt 2 2 2 ∧ FitsInt 3 2 2 ∧
    (∀ k : Nat, k < 2 * 2 → 0 ≤ checkerFill 2 k ∧ checkerFill 2 k < 2) ∧
    (∀ i j i1 j1 : Nat, i < 2 → j < 2 → i1 < 2 → j1 < 2 →
      Adj ((i : Int), (j : Int)) ((i1 : Int), (j1 : Int)) →
      checkerFill 2 (i * 2 + j) ≠ checkerFill 2 (i1 * 2 + j1)) ∧
    (∃ b, Board.new 2 2 2 (checkerFill 2) = some b ∧
        (∀ i j, isValid b i j → colorAt b i j ≠ -1) ∧
        (∀ a c : Int × Int, isValid b a.1 a.2 → isValid b c.1 c.2 →
          groupAt b a.1 a.2 = groupAt b c.1 c.2 → a = c) ∧
        b.groupSizes = List.replicate (2 * 2) 1 ∧
        b.moves = [] ∧ isTerminated b = true) ∧
    (∃ b, Board.new 3 2 2 (checkerFill 2) = some b ∧
        (∀ i j : Nat, i < 3 → j < 2 →
          colorAt b (i : Int) (j : Int) = (((i + j) % 2 : Nat) : Int)) ∧
        b.groupSizes = List.replicate (3 * 2) 1 ∧
        b.moves = [] ∧ isTerminated b = true) :=
  ⟨by decide, by decide, by decide, by
      intro i j i1 j1 hi hj hi1 hj1 hac
      rw [checkerFill_cell hj, checkerFill_cell hj1]
      unfold Adj at hac
      simp only at hac
      intro he
      have he' : (i + j) % 2 = (i1 + j1) % 2 := by exact_mod_cast he
      omega,
    checkerboard_scenario.1 2 2 2 (checkerFill 2) (by decide) (by decide) (by
      intro i j i1 j1 hi hj hi1 hj1 hac
      rw [checkerFill_cell hj, checkerFill_cell hj1]
      unfold Adj at hac
      simp only at hac
      intro he
      have he' : (i + j) % 2 = (i1 + j1) % 2 := by exact_mod_cast he
      omega),
    checkerboard_scenario.2 3 2 (by decide)⟩

/-! ## Claim about two moves on one component -/

/-- `play(n)` on a fresh board is the common part `playWith` run for the group id of the
cell of the move and for its evaluation. -/
theorem play_eq_playWith {b : Board} (hF : Fresh b) {n : Int} {m : Move}
    (hm : vget b.moves n = some m) :
    play b n = playWith b (groupAt b m.i m.j) m.eval := by
  obtain ⟨h0, hl, hget⟩ := vget_eq_some hm
  have hmem : m ∈ b.moves := by
    rw [← hget m]
    exact getD_mem_of_lt _ _ _ hl
  obtain ⟨hv, hp, _⟩ := move_cell hF hmem
  have hL := hF.1
  have hS := hF.2.1
  have hg : groupAt b m.i m.j ≠ -1 := fun hg => hp.1 ((labelled_iff hL hS hv).mp hg)
  have hrng : 0 ≤ groupAt b m.i m.j ∧ groupAt b m.i m.j < (b.dataGroups.length : Int) := by
    rcases hL.rng _ (getD_mem (by rw [hL.ws.2]; exact idx_toNat_lt hv) (-1)) with h | h
    · exact absurd h hg
    · have h1 : 0 ≤ groupAt b m.i m.j ∧ groupAt b m.i m.j < (b.groupSizes.length : Int) := h
      have := groupSizes_length_le hL hS
      omega
  unfold play playWith
  rw [if_pos ⟨h0, by omega⟩, hm]
  simp only
  rw [ind_of_valid hv]
  simp only [Option.some_bind]
  rw [vget_groups hL.ws hv]
  simp only
  exact (if_pos hrng).trans rfl

/-- C17: on every reachable board, two moves whose cells are connected (belong to the same
component) carry the same group id and the same evaluation, and `play` returns the same
board for both indices: all the fields are equal, the score included. -/
theorem play_same_component (b : Board) (h : Reachable b) (n1 n2 : Int) (m1 m2 : Move)
    (hm1 : vget b.moves n1 = some m1) (hm2 : vget b.moves n2 = some m2)
    (hc : Connected b (m1.i, m1.j) (m2.i, m2.j)) :
    groupAt b m1.i m1.j = groupAt b m2.i m2.j ∧ m1.eval = m2.eval ∧
      ∃ b1, play b n1 = some b1 ∧ play b n2 = some b1 := by
  obtain ⟨hF, _, _⟩ := reachable_all h
  obtain ⟨h0, hl, hget⟩ := vget_eq_some hm1
  obtain ⟨h02, hl2, hget2⟩ := vget_eq_some hm2
  have hmem1 : m1 ∈ b.moves := by
    rw [← hget m1]
    exact getD_mem_of_lt _ _ _ hl
  have hmem2 : m2 ∈ b.moves := by
    rw [← hget2 m2]
    exact getD_mem_of_lt _ _ _ hl2
  obtain ⟨hv1, hp1, he1⟩ := move_cell hF hmem1
  obtain ⟨hv2, hp2, he2⟩ := move_cell hF hmem2
  have hg1 : groupAt b m1.i m1.j ≠ -1 :=
    fun hg => hp1.1 ((labelled_iff hF.1 hF.2.1 hv1).mp hg)
  have hgrp : groupAt b m2.i m2.j = groupAt b m1.i m1.j := closed_conn hF.1 hc hg1
  have hev : m1.eval = m2.eval := by
    have e1 : m1.eval = evalOfSize b (sizeAt b (m1.i, m1.j)) := by rw [he1]; rfl
    have e2 : m2.eval = evalOfSize b (sizeAt b (m2.i, m2.j)) := by rw [he2]; rfl
    rw [e1, e2]
    unfold sizeAt
    rw [hgrp]
  obtain ⟨_, b1, _, _, hplay, _⟩ := play_facts h n1 h0 (by omega)
  refine ⟨hgrp.symm, hev, b1, hplay, ?_⟩
  rw [play_eq_playWith hF hm2, hgrp, ← hev, ← play_eq_playWith hF hm1]
  exact hplay

theorem gapStart_row_step : SameStep gapStart ((1 : Int), (0 : Int)) ((1 : Int), (1 : Int)) :=
  ⟨by decide, by decide, Or.inl ⟨rfl, Or.inr rfl⟩, by decide⟩

/-- C17, instance: the moves 0 and 1 of the board `gapStart`, on the cells `(1, 0)` and
`(1, 1)` of its upper row. -/
theorem play_same_component_witness :
    Reachable gapStart ∧
    vget gapStart.moves 0 = some ⟨1, 0, 2, evalOfSize gapStart 2⟩ ∧
    vget gapStart.moves 1 = some ⟨1, 1, 2, evalOfSize gapStart 2⟩ ∧
    Connected gapStart ((1 : Int), (0 : Int)) ((1 : Int), (1 : Int)) ∧
    (groupAt gapStart 1 0 = groupAt gapStart 1 1 ∧
      (⟨1, 0, 2, evalOfSize gapStart 2⟩ : Move).eval
        = (⟨1, 1, 2, evalOfSize gapStart 2⟩ : Move).eval ∧
      ∃ b1, play gapStart 0 = some b1 ∧ play gapStart 1 = some b1) :=
  ⟨gapStart_reachable, by decide, by decide,
    Relation.ReflTransGen.single gapStart_row_step,
    play_same_component gapStart gapStart_reachable 0 1 ⟨1, 0, 2, evalOfSize gapStart 2⟩
      ⟨1, 1, 2, evalOfSize gapStart 2⟩ (by decide) (by decide)
      (Relation.ReflTransGen.single gapStart_row_step)⟩

/-! ## Claim about the determinism of `reset` -/

theorem board_eq {a b : Board} (h1 : a.nbI = b.nbI) (h2 : a.nbJ = b.nbJ)
    (h3 : a.nbColors = b.nbColors) (h4 : a.estimatedMaxScore = b.estimatedMaxScore)
    (h5 : a.dataColors = b.dataColors) (h6 : a.dataGroups = b.dataGroups)
    (h7 : a.groupSizes = b.groupSizes) (h8 : a.lastIs = b.lastIs) (h9 : a.lastJs = b.lastJs)
    (h10 : a.score = b.score) (h11 : a.moves = b.moves) : a = b := by
  cases a
  cases b
  simp only at h1 h2 h3 h4 h5 h6 h7 h8 h9 h10 h11
  subst h1 h2 h3 h4 h5 h6 h7 h8 h9 h10 h11
  rfl

/-- `reset` gives the same result on two boards of equal dimensions and colour count
whose vectors have the sizes of the class. -/
theorem reset_congr {b1 b2 : Board} (h1 : Reachable b1 ∨ b1 = Board.default)
    (h2 : Reachable b2 ∨ b2 = Board.default) (hI : b1.nbI = b2.nbI) (hJ : b1.nbJ = b2.nbJ)
    (hC : b1.nbColors = b2.nbColors) (iDataset : Int) :
    reset b1 iDataset = reset b2 iDataset := by
  obtain ⟨hw1, hlI1, hlJ1, hE1⟩ := callable_sizes h1
  obtain ⟨hw2, hlI2, hlJ2, hE2⟩ := callable_sizes h2
  by_cases hv : 0 ≤ iDataset ∧ iDataset < 20 ∧ DatasetCovers b1.nbI b1.nbJ iDataset
  · obtain ⟨h0, h20, hcov⟩ := hv
    have hcov2 : DatasetCovers b2.nbI b2.nbJ iDataset := by rw [← hI, ← hJ]; exact hcov
    rw [reset_of_covers b1 iDataset hw1.1 h0 h20 hcov,
      reset_of_covers b2 iDataset hw2.1 h0 h20 hcov2]
    apply find_congr
    · unfold EstOK at hE1 hE2
      apply board_eq
      · exact hI
      · exact hJ
      · exact hC
      · show b1.estimatedMaxScore = b2.estimatedMaxScore
        rw [hE1, hE2, hI, hJ, hC]
      · show resetColors b1.nbI b1.nbJ iDataset = resetColors b2.nbI b2.nbJ iDataset
        rw [hI, hJ]
      · rfl
      · rfl
      · show List.replicate b1.lastIs.length ((b1.nbI : Int) - 1)
          = List.replicate b2.lastIs.length ((b2.nbI : Int) - 1)
        rw [hlI1, hlI2, hI, hJ]
      · show List.replicate b1.lastJs.length ((b1.nbJ : Int) - 1)
          = List.replicate b2.lastJs.length ((b2.nbJ : Int) - 1)
        rw [hlJ1, hlJ2, hI, hJ]
      · rfl
      · rfl
    · show b1.dataGroups.length = b2.dataGroups.length
      rw [hw1.2, hw2.2, hI, hJ]
  · have hn1 : reset b1 iDataset = none := by
      cases hr : reset b1 iDataset with
      | none => rfl
      | some c => exact absurd (reset_some_covers hr) hv
    have hn2 : reset b2 iDataset = none := by
      cases hr : reset b2 iDataset with
      | none => rfl
      | some c =>
        have := reset_some_covers hr
        rw [← hI, ← hJ] at this
        exact absurd this hv
    rw [hn1, hn2]

/-- C18: for two boards of the same dimensions and colour count, each reachable or
default-constructed, and one dataset index: `reset` gives the same result on both (every
field of the two boards is equal, nothing of the state before the reset survives), hence
the same boards after one and the same sequence of plays; and when the index is in
`[0, 20)` and the dataset covers the board, `reset` returns on both, with score 0. -/
theorem reset_deterministic (b1 b2 : Board) (h1 : Reachable b1 ∨ b1 = Board.default)
    (h2 : Reachable b2 ∨ b2 = Board.default) (hI : b1.nbI = b2.nbI) (hJ : b1.nbJ = b2.nbJ)
    (hC : b1.nbColors = b2.nbColors) (iDataset : Int) :
    reset b1 iDataset = reset b2 iDataset ∧
    (∀ ns : List Int,
      (reset b1 iDataset).bind (fun b => playSeq b ns)
        = (reset b2 iDataset).bind (fun b => playSeq b ns)) ∧
    (0 ≤ iDataset → iDataset < 20 → DatasetCovers b1.nbI b1.nbJ iDataset →
      ∃ b, reset b1 iDataset = some b ∧ reset b2 iDataset = some b ∧
        b.score = Dbl.ofInt 0 ∧ Reachable b) := by
  have he := reset_congr h1 h2 hI hJ hC iDataset
  refine ⟨he, fun ns => by rw [he], ?_⟩
  intro h0 h20 hcov
  obtain ⟨hw1, _, _, _⟩ := callable_sizes h1
  obtain ⟨b, hb⟩ := reset_total hw1 h0 h20 hcov
  refine ⟨b, hb, by rw [← he]; exact hb, ?_, ?_⟩
  · rw [(reset_fields hw1 hb).1]
    rfl
  · rcases h1 with h1 | h1
    · exact Reachable.reset b1 iDataset b h1 hb
    · subst h1
      exact Reachable.resetDefault iDataset b hb

/-- C18, instance: the boards `gapStart` (fresh from its constructor) and `gapBoard`
(after a play), reset to the first entries of the dataset. -/
theorem reset_deterministic_witness :
    (Reachable gapStart ∨ gapStart = Board.default) ∧
    (Reachable gapBoard ∨ gapBoard = Board.default) ∧
    gapStart.nbI = gapBoard.nbI ∧ gapStart.nbJ = gapBoard.nbJ ∧
    gapStart.nbColors = gapBoard.nbColors ∧
    (0 : Int) ≤ 0 ∧ (0 : Int) < 20 ∧ DatasetCovers gapStart.nbI gapStart.nbJ 0 ∧
    reset gapStart 0 = reset gapBoard 0 ∧
    (∀ ns : List Int,
      (reset gapStart 0).bind (fun b => playSeq b ns)
        = (reset gapBoard 0).bind (fun b => playSeq b ns)) ∧
    (∃ b, reset gapStart 0 = some b ∧ reset gapBoard 0 = some b ∧
        b.score = Dbl.ofInt 0 ∧ Reachable b) :=
  ⟨Or.inl gapStart_reachable, Or.inl gapBoard_reachable, rfl, rfl, rfl, by decide, by decide,
    covers_of_le (le_refl _) (by rw [datasets_length]; decide),
    (reset_deterministic gapStart gapBoard (Or.inl gapStart_reachable)
      (Or.inl gapBoard_reachable) rfl rfl rfl 0).1,
    (reset_deterministic gapStart gapBoard (Or.inl gapStart_reachable)
      (Or.inl gapBoard_reachable) rfl rfl rfl 0).2.1,
    (reset_deterministic gapStart gapBoard (Or.inl gapStart_reachable)
      (Or.inl gapBoard_reachable) rfl rfl rfl 0).2.2 (by decide) (by decide)
      (covers_of_le (le_refl _) (by rw [datasets_length]; decide))⟩

/-! ## Claim about running `findMoves` twice -/

/-- On a fresh board every non-empty cell carries a group id in `[0, groupSizes.size())`. -/
theorem fresh_group_range {b : Board} (hF : Fresh b) :
    ∀ i j, isValid b i j → colorAt b i j ≠ -1 →
      0 ≤ groupAt b i j ∧ groupAt b i j < (b.groupSizes.length : Int) := by
  intro i j hv hc
  have hgn : groupAt b i j ≠ -1 := fun hg => hc ((labelled_iff hF.1 hF.2.1 hv).mp hg)
  rcases hF.1.rng _ (getD_mem (by rw [hF.1.ws.2]; exact idx_toNat_lt hv) (-1)) with h | h
  · exact absurd h hgn
  · exact h

/-- C19: on every board whose two cell vectors have `nbI * nbJ` entries and whose
non-empty cells all carry a group id in `[0, groupSizes.size())`, `findMoves` returns a
board that differs from the given one in the move list only, and `findMoves` run on that
board returns it unchanged: the second run yields the same move list as the first. On a
reachable board `findMoves` changes nothing at all. -/
theorem findMoves_idempotent :
    (∀ b : Board, WellSized b →
      (∀ i j, isValid b i j → colorAt b i j ≠ -1 →
        0 ≤ groupAt b i j ∧ groupAt b i j < (b.groupSizes.length : Int)) →
      ∃ b1, findMoves b = some b1 ∧ findMoves b1 = some b1 ∧
        b1 = { b with moves := b1.moves }) ∧
    (∀ b : Board, Reachable b → findMoves b = some b) := by
  have hgen : ∀ b : Board, WellSized b →
      (∀ i j, isValid b i j → colorAt b i j ≠ -1 →
        0 ≤ groupAt b i j ∧ groupAt b i j < (b.groupSizes.length : Int)) →
      ∃ b1, findMoves b = some b1 ∧ findMoves b1 = some b1 ∧
        b1 = { b with moves := b1.moves } := by
    intro b hw hg
    obtain ⟨b1, h1, hM, _⟩ := findMoves_spec b hw hg
    refine ⟨b1, h1, ?_, hM⟩
    unfold MFrame at hM
    rw [hM, findMoves_moves]
    have h1' := h1
    rw [hM] at h1'
    exact h1'
  refine ⟨hgen, ?_⟩
  intro b h
  obtain ⟨hF, _, _⟩ := reachable_all h
  obtain ⟨b1, h1, hM, hmv⟩ := findMoves_spec b hF.1.ws (fresh_group_range hF)
  rw [h1]
  congr 1
  unfold MFrame at hM
  rw [hM, hmv, ← hF.2.2]

/-- C19, instance: the board `gapStart`. -/
theorem findMoves_idempotent_witness :
    WellSized gapStart ∧
    (∀ i j, isValid gapStart i j → colorAt gapStart i j ≠ -1 →
      0 ≤ groupAt gapStart i j ∧ groupAt gapStart i j < (gapStart.groupSizes.length : Int)) ∧
    (∃ b1, findMoves gapStart = some b1 ∧ findMoves b1 = some b1 ∧
      b1 = { gapStart with moves := b1.moves }) ∧
    Reachable gapStart ∧ findMoves gapStart = some gapStart :=
  ⟨by decide, fresh_group_range (reachable_all gapStart_reachable).1,
    findMoves_idempotent.1 gapStart (by decide)
      (fresh_group_range (reachable_all gapStart_reachable).1),
    gapStart_reachable, findMoves_idempotent.2 gapStart gapStart_reachable⟩

/-! ## Claim about the assertions and the vector accesses of `play` -/

theorem contractI_some {t t1 : Board} {i j : Int} (h : contractI t i j = some t1) :
    ∃ l, vget t.lastIs j = some l ∧ 0 ≤ l := by
  unfold contractI at h
  cases hl : vget t.lastIs j with
  | none => rw [hl] at h; simp at h
  | some l =>
    rw [hl] at h
    simp only at h
    by_cases h0 : l ≥ 0
    · exact ⟨l, rfl, h0⟩
    · rw [if_neg h0] at h
      exact absurd h (by simp)

theorem contractJ_some {t t1 : Board} {j : Int} (h : contractJ t j = some t1) :
    vget t.lastIs j = some (-1) := by
  unfold contractJ at h
  cases hl : vget t.lastIs j with
  | none => rw [hl] at h; simp at h
  | some l =>
    rw [hl] at h
    simp only at h
    by_cases h0 : l = -1
    · rw [h0]
    · rw [if_neg h0] at h
      exact absurd h (by simp)

/-- C20: in the model a failed assertion and an out-of-range vector access make the
operation return `none`, and every caller passes `none` on. (1) On every reachable board
`play(n)` with `0 <= n < moves.size()` returns a board: none of the assertions and
accesses of `play`, `contractI`, `contractJ`, `findGroups`, `findMoves` and `ind` fails, and
the fuel of the loops suffices. The cell of the move is valid, its group id `g` satisfies
`0 <= g < groupSizes.size() <= dataGroups.size() = nbI * nbJ`, and on the board returned
every non-empty cell has a group id in `[0, groupSizes.size())`, as `findMoves` asserts.
(2) What a returned value says: `ind(i, j)` was called on a valid cell, a vector was read
or written inside its bounds, `contractI(i, j)` was called with `_lastIs[j] >= 0` and
`contractJ(j)` with `_lastIs[j] == -1`. -/
theorem play_safe :
    (∀ b : Board, Reachable b → ∀ n : Int, 0 ≤ n → n < b.moves.length →
      ∃ m g b1, vget b.moves n = some m ∧ isValid b m.i m.j ∧
        (ind b m.i m.j).bind (vget b.dataGroups) = some g ∧
        0 ≤ g ∧ g < b.groupSizes.length ∧
        b.groupSizes.length ≤ b.dataGroups.length ∧ b.dataGroups.length = b.nbI * b.nbJ ∧
        play b n = some b1 ∧
        (∀ i j, isValid b1 i j → colorAt b1 i j ≠ -1 →
          0 ≤ groupAt b1 i j ∧ groupAt b1 i j < (b1.groupSizes.length : Int))) ∧
    (∀ (t : Board) (i j k : Int), ind t i j = some k → isValid t i j) ∧
    (∀ (v : List Int) (k x : Int), vget v k = some x → 0 ≤ k ∧ k.toNat < v.length) ∧
    (∀ (v w : List Int) (k x : Int), vset v k x = some w → 0 ≤ k ∧ k.toNat < v.length) ∧
    (∀ (t t1 : Board) (i j : Int), contractI t i j = some t1 →
      ∃ l, vget t.lastIs j = some l ∧ 0 ≤ l) ∧
    (∀ (t t1 : Board) (j : Int), contractJ t j = some t1 → vget t.lastIs j = some (-1)) := by
  refine ⟨?_, ?_, ?_, ?_, ?_, ?_⟩
  · intro b h n hn0 hn1
    obtain ⟨m, b1, hget, _, hplay, hv, hp, _, _, _, hR1, _⟩ := play_facts h n hn0 hn1
    obtain ⟨hF, _, _⟩ := reachable_all h
    obtain ⟨hF1, _, _⟩ := reachable_all hR1
    have hrng := fresh_group_range hF m.i m.j hv hp.1
    refine ⟨m, groupAt b m.i m.j, b1, hget, hv, ?_, hrng.1, hrng.2,
      groupSizes_length_le hF.1 hF.2.1, hF.1.ws.2, hplay, fresh_group_range hF1⟩
    rw [ind_of_valid hv]
    exact vget_groups hF.1.ws hv
  · intro t i j k h
    exact (ind_eq_some h).1
  · intro v k x h
    obtain ⟨h0, h1, _⟩ := vget_eq_some h
    exact ⟨h0, h1⟩
  · intro v w k x h
    obtain ⟨h0, h1, _⟩ := vset_eq_some h
    exact ⟨h0, h1⟩
  · intro t t1 i j h
    exact contractI_some h
  · intro t t1 j h
    exact contractJ_some h

/-- C20, instance: move 0 of the board `gapStart`. -/
theorem play_safe_witness :
    Reachable gapStart ∧ (0 : Int) ≤ 0 ∧ (0 : Int) < gapStart.moves.length ∧
    ∃ m g b1, vget gapStart.moves 0 = some m ∧ isValid gapStart m.i m.j ∧
      (ind gapStart m.i m.j).bind (vget gapStart.dataGroups) = some g ∧
      0 ≤ g ∧ g < gapStart.groupSizes.length ∧
      gapStart.groupSizes.length ≤ gapStart.dataGroups.length ∧
      gapStart.dataGroups.length = gapStart.nbI * gapStart.nbJ ∧
      play gapStart 0 = some b1 ∧
      (∀ i j, isValid b1 i j → colorAt b1 i j ≠ -1 →
        0 ≤ groupAt b1 i j ∧ groupAt b1 i j < (b1.groupSizes.length : Int)) :=
  ⟨gapStart_reachable, by decide, by decide,
    play_safe.1 gapStart gapStart_reachable 0 (by decide) (by decide)⟩

/-! ## Claim about the common value of the fill widths -/

theorem forLoop_keep {σ α : Type} (body : σ → Int → Option σ) (f : σ → α)
    (hb : ∀ t i t1, body t i = some t1 → f t1 = f t) :
    ∀ (n : Nat) (i0 : Int) (s s1 : σ), forLoop body n i0 s = some s1 → f s1 = f s := by
  intro n
  induction n with
  | zero =>
    intro i0 s s1 h
    have := Option.some.inj h
    rw [← this]
  | succ n ih =>
    intro i0 s s1 h
    simp only [forLoop] at h
    cases hs : body s i0 with
    | none => rw [hs] at h; simp at h
    | some s2 =>
      rw [hs] at h
      rw [ih (i0 + 1) s2 s1 h, hb s i0 s2 hs]

theorem forRange_keep {σ α : Type} (body : σ → Int → Option σ) (f : σ → α)
    (hb : ∀ t i t1, body t i = some t1 → f t1 = f t) {lo hi : Int} {s s1 : σ}
    (h : forRange lo hi body s = some s1) : f s1 = f s :=
  forLoop_keep body f hb _ _ s s1 h

theorem contractIStep_keep {j0 : Int} {t t1 : Board} {i : Int}
    (h : contractIStep j0 t i = some t1) : t1.lastJs = t.lastJs := by
  unfold contractIStep at h
  cases h1 : ind t i j0 with
  | none => rw [h1] at h; simp at h
  | some k =>
    cases h2 : ind t (i + 1) j0 with
    | none => rw [h1, h2] at h; simp at h
    | some k1 =>
      rw [h1, h2] at h
      simp only at h
      cases h3 : vget t.dataColors k1 with
      | none => rw [h3] at h; simp at h
      | some c =>
        rw [h3] at h
        simp only at h
        cases h4 : vset t.dataColors k c with
        | none => rw [h4] at h; simp at h
        | some dc =>
          rw [h4] at h
          simp only at h
          cases h5 : vget t.dataGroups k1 with
          | none => rw [h5] at h; simp at h
          | some g =>
            rw [h5] at h
            simp only at h
            cases h6 : vset t.dataGroups k g with
            | none => rw [h6] at h; simp at h
            | some dg =>
              rw [h6] at h
              rw [← Option.some.inj h]

/-- Source: `contractI` does not write `_lastJs`. -/
theorem contractI_lastJs {t t1 : Board} {i0 j0 : Int} (h : contractI t i0 j0 = some t1) :
    t1.lastJs = t.lastJs := by
  unfold contractI at h
  cases hl : vget t.lastIs j0 with
  | none => rw [hl] at h; simp at h
  | some l =>
    rw [hl] at h
    simp only at h
    by_cases h0 : l ≥ 0
    · rw [if_pos h0] at h
      cases hloop : forRange i0 l (contractIStep j0) t with
      | none => rw [hloop] at h; simp at h
      | some b1 =>
        rw [hloop] at h
        simp only at h
        have hk := forRange_keep (contractIStep j0) (fun u => u.lastJs)
          (fun u i u1 hu => contractIStep_keep hu) hloop
        simp only at hk
        cases h1 : ind b1 l j0 with
        | none => rw [h1] at h; simp at h
        | some k =>
          rw [h1] at h
          simp only at h
          cases h2 : vset b1.dataColors k (-1) with
          | none => rw [h2] at h; simp at h
          | some dc =>
            cases h3 : vset b1.dataGroups k (-1) with
            | none => rw [h2, h3] at h; simp at h
            | some dg =>
              cases h4 : vset b1.lastIs j0 (l - 1) with
              | none => rw [h2, h3, h4] at h; simp at h
              | some li =>
                rw [h2, h3, h4] at h
                rw [← Option.some.inj h]
                exact hk
    · rw [if_neg h0] at h
      exact absurd h (by simp)

theorem contractJLast_keep {t t1 : Board} {j : Int} (h : contractJLast t j = some t1) :
    t1.lastJs = t.lastJs ∧ t1.nbI = t.nbI := by
  unfold contractJLast at h
  cases h1 : vget t.lastIs (j + 1) with
  | none => rw [h1] at h; simp at h
  | some x =>
    rw [h1] at h
    simp only at h
    cases h2 : vset t.lastIs j x with
    | none => rw [h2] at h; simp at h
    | some li =>
      rw [h2] at h
      rw [← Option.some.inj h]
      exact ⟨rfl, rfl⟩

theorem contractJStep_keep {i : Int} {t t1 : Board} {j : Int}
    (h : contractJStep i t j = some t1) : t1.lastJs = t.lastJs ∧ t1.nbI = t.nbI := by
  unfold contractJStep at h
  cases h1 : ind t i j with
  | none => rw [h1] at h; simp at h
  | some k =>
    cases h2 : ind t i (j + 1) with
    | none => rw [h1, h2] at h; simp at h
    | some k1 =>
      rw [h1, h2] at h
      simp only at h
      cases h3 : vget t.dataColors k1 with
      | none => rw [h3] at h; simp at h
      | some c =>
        rw [h3] at h
        simp only at h
        cases h4 : vset t.dataColors k c with
        | none => rw [h4] at h; simp at h
        | some dc =>
          rw [h4] at h
          rw [← Option.some.inj h]
          exact ⟨rfl, rfl⟩

/-- Source: one row of `contractJ` decrements `_lastJs[i]` when it is at least `j0` and
leaves the other entries alone. -/
theorem contractJRow_lastJs {j0 : Int} {t t1 : Board} {i : Int}
    (h : contractJRow j0 t i = some t1) :
    t1.nbI = t.nbI ∧
    ∃ lj, vget t.lastJs i = some lj ∧
      t1.lastJs = if lj ≥ j0 then t.lastJs.set i.toNat (lj - 1) else t.lastJs := by
  unfold contractJRow at h
  cases hl : vget t.lastJs i with
  | none => rw [hl] at h; simp at h
  | some lj =>
    rw [hl] at h
    simp only at h
    by_cases h0 : lj ≥ j0
    · rw [if_pos h0] at h
      cases hloop : forRange j0 lj (contractJStep i) t with
      | none => rw [hloop] at h; simp at h
      | some b1 =>
        rw [hloop] at h
        simp only at h
        have hk := forRange_keep (contractJStep i) (fun u => (u.lastJs, u.nbI))
          (fun u j u1 hu => by
            obtain ⟨e1, e2⟩ := contractJStep_keep hu
            simp only [e1, e2]) hloop
        simp only [Prod.mk.injEq] at hk
        cases h1 : ind b1 i lj with
        | none => rw [h1] at h; simp at h
        | some k =>
          rw [h1] at h
          simp only at h
          cases h2 : vset b1.dataColors k (-1) with
          | none => rw [h2] at h; simp at h
          | some dc =>
            cases h3 : vset b1.lastJs i (lj - 1) with
            | none => rw [h2, h3] at h; simp at h
            | some ljs =>
              rw [h2, h3] at h
              obtain ⟨_, _, hset⟩ := vset_eq_some h3
              rw [← Option.some.inj h]
              refine ⟨hk.2, lj, rfl, ?_⟩
              rw [if_pos h0]
              show ljs = _
              rw [hset, hk.1]
    · rw [if_neg h0] at h
      rw [← Option.some.inj h]
      exact ⟨rfl, lj, rfl, by rw [if_neg h0]⟩

/-- Source: `contractJ(j0)` decrements every `_lastJs[i]` that is at least `j0` and
leaves the others alone. -/
theorem contractJ_lastJs {t t1 : Board} {j0 : Int} (h : contractJ t j0 = some t1) :
    ∀ i : Nat, i < t.nbI →
      t1.lastJs.getD i 0
        = if j0 ≤ t.lastJs.getD i 0 then t.lastJs.getD i 0 - 1 else t.lastJs.getD i 0 := by
  unfold contractJ at h
  cases hl : vget t.lastIs j0 with
  | none => rw [hl] at h; simp at h
  | some l =>
    rw [hl] at h
    simp only at h
    by_cases h0 : l = -1
    · rw [if_pos h0] at h
      cases hj : vget t.lastJs 0 with
      | none => rw [hj] at h; simp at h
      | some lj0 =>
        rw [hj] at h
        simp only at h
        cases hloop : forRange j0 lj0 contractJLast t with
        | none => rw [hloop] at h; simp at h
        | some b1 =>
          rw [hloop] at h
          simp only at h
          have hk := forRange_keep contractJLast (fun u => (u.lastJs, u.nbI))
            (fun u j u1 hu => by
              obtain ⟨e1, e2⟩ := contractJLast_keep hu
              simp only [e1, e2]) hloop
          simp only [Prod.mk.injEq] at hk
          cases hs : vset b1.lastIs lj0 (-1) with
          | none => rw [hs] at h; simp at h
          | some li =>
            rw [hs] at h
            simp only at h
            have hinv := forRange_inv (contractJRow j0)
              (fun p u => u.nbI = t.nbI ∧
                (∀ i : Nat, (i : Int) < p →
                  u.lastJs.getD i 0
                    = if j0 ≤ t.lastJs.getD i 0 then t.lastJs.getD i 0 - 1
                      else t.lastJs.getD i 0) ∧
                (∀ i : Nat, p ≤ (i : Int) → u.lastJs.getD i 0 = t.lastJs.getD i 0))
              0 b1.nbI { b1 with lastIs := li } t1 (Int.ofNat_nonneg _)
              ⟨hk.2, by intro i hi; omega, by intro i _; show b1.lastJs.getD i 0 = _; rw [hk.1]⟩
              (by
                rintro p u u1 hp0 hp1 ⟨hI, hlow, hhigh⟩ hu
                obtain ⟨hI1, lj, hget, hset⟩ := contractJRow_lastJs hu
                obtain ⟨_, hlt, hval⟩ := vget_eq_some hget
                have hlj : lj = t.lastJs.getD p.toNat 0 := by
                  rw [← hval 0, hhigh p.toNat (by omega)]
                refine ⟨by rw [hI1, hI], ?_, ?_⟩
                · intro i hi
                  by_cases hip : (i : Int) < p
                  · rw [hset]
                    by_cases hc : lj ≥ j0
                    · rw [if_pos hc, getD_set_ne _ _ _ _ _ (by omega)]
                      exact hlow i hip
                    · rw [if_neg hc]
                      exact hlow i hip
                  · have hip2 : p.toNat = i := by omega
                    rw [hset, ← hip2, ← hlj]
                    by_cases hc : lj ≥ j0
                    · rw [if_pos hc, if_pos hc, getD_set_eq _ _ _ _ hlt]
                    · rw [if_neg hc, if_neg hc, hval 0]
                · intro i hi
                  rw [hset]
                  by_cases hc : lj ≥ j0
                  · rw [if_pos hc, getD_set_ne _ _ _ _ _ (by omega)]
                    exact hhigh i (by omega)
                  · rw [if_neg hc]
                    exact hhigh i (by omega))
              h
            intro i hi
            rw [hk.2] at hinv
            exact hinv.2.1 i (by exact_mod_cast hi)
    · rw [if_neg h0] at h
      exact absurd h (by simp)

/-- The non-empty columns of a packed board are the columns of its representation. -/
theorem nonEmptyCols_rep {b : Board} {A : List (List Int)} (hR : Rep (colorAt b) (-1) b A)
    (hne : ∀ c ∈ A, c ≠ []) (hel : ∀ c ∈ A, ∀ x ∈ c, x ≠ -1) :
    nonEmptyCols b = A.length := by
  unfold nonEmptyCols
  rw [filter_range_trunc _ A.length b.nbJ hR.lenA]
  · have : (List.range A.length).filter
        (fun (j : Nat) =>
          (List.range b.nbI).any
            (fun (i : Nat) => decide (colorAt b (i : Int) (j : Int) ≠ -1)))
        = List.range A.length := by
      rw [List.filter_eq_self]
      intro j hj
      have hjA := List.mem_range.mp hj
      have hpos := rep_column_pos hne hjA
      have hI : 0 < b.nbI := by
        have := hR.lenC _ (getD_mem_of_lt A j [] hjA)
        omega
      have hv : isValid b ((0 : Nat) : Int) (j : Int) :=
        ⟨le_refl _, by exact_mod_cast hI, Int.ofNat_nonneg _,
          by have := hR.lenA; exact_mod_cast (by omega : j < b.nbJ)⟩
      rw [List.any_eq_true]
      refine ⟨0, List.mem_range.mpr hI, decide_eq_true ?_⟩
      rw [rep_occupied hR hel hv]
      simpa using hpos
    rw [this, List.length_range]
  · intro j h1 h2
    rw [Bool.eq_false_iff]
    intro hany
    rw [List.any_eq_true] at hany
    obtain ⟨i, hi, hc⟩ := hany
    have hi' := List.mem_range.mp hi
    have hv : isValid b (i : Int) (j : Int) :=
      ⟨Int.ofNat_nonneg _, by exact_mod_cast hi', Int.ofNat_nonneg _, by exact_mod_cast h2⟩
    have := (rep_occupied hR hel hv).mp (of_decide_eq_true hc)
    simp only [Int.toNat_ofNat] at this
    have := getD_nonempty_lt A j (by omega)
    omega

theorem slideStart_new : Board.new 2 2 3 slideFill = some slideStart := by decide

theorem slideBoard_play : play slideStart 0 = some slideBoard := by decide

theorem slideBoard_reachable : Reachable slideBoard :=
  Reachable.play slideStart 0 slideBoard
    (Reachable.ctor 2 2 3 slideFill slideStart slideStart_new) slideBoard_play

/-- C21: (1) in every reachable state all the entries of `_lastJs` are one common value
`L`, which is the number of non-empty columns minus one and lies in `[-1, nbJ - 1]`; every
column `j <= L` is non-empty, with `_lastIs[j] >= 0` and its cell of row 0 occupied; every
column `j > L` is entirely empty, with `_lastIs[j] == -1`. (2) `contractI` (vertical
gravity), when it returns, has left `_lastJs` as it was. (3) `contractJ(j0)` (a column
contraction), when it returns, has decremented by one every `_lastJs[i]` that was at least
`j0` and left the others alone; in `play` it is called with `j0 <= _lastJs[0]`, on entries
that are all equal, so that it decrements every entry. -/
theorem reachable_lastJs_common :
    (∀ b : Board, Reachable b →
      ∃ L : Int, b.lastJs = List.replicate b.nbI L ∧
        L = (nonEmptyCols b : Int) - 1 ∧ -1 ≤ L ∧ L < b.nbJ ∧
        b.lastIs.length = b.nbJ ∧
        (∀ j : Nat, j < b.nbJ → (j : Int) ≤ L →
          0 ≤ b.lastIs.getD j 0 ∧ colorAt b 0 (j : Int) ≠ -1) ∧
        (∀ j : Nat, j < b.nbJ → L < (j : Int) →
          b.lastIs.getD j 0 = -1 ∧ ∀ i : Int, isValid b i (j : Int) → colorAt b i (j : Int) = -1)) ∧
    (∀ (t t1 : Board) (i0 j0 : Int), contractI t i0 j0 = some t1 → t1.lastJs = t.lastJs) ∧
    (∀ (t t1 : Board) (j0 : Int), contractJ t j0 = some t1 →
      ∀ i : Nat, i < t.nbI →
        t1.lastJs.getD i 0
          = if j0 ≤ t.lastJs.getD i 0 then t.lastJs.getD i 0 - 1 else t.lastJs.getD i 0) := by
  refine ⟨?_, fun t t1 i0 j0 h => contractI_lastJs h, fun t t1 j0 h => contractJ_lastJs h⟩
  intro b h
  obtain ⟨_, A, hR, hne, hel⟩ := reachable_inv h
  have hlenA := hR.lenA
  refine ⟨(A.length : Int) - 1, eq_replicate_of_getD hR.hJs (fun i hi => hR.lastJ i hi),
    by rw [nonEmptyCols_rep hR hne hel], by omega, by omega, hR.hIs, ?_, ?_⟩
  · intro j hj hjL
    have hjA : j < A.length := by omega
    have hpos := rep_column_pos hne hjA
    have hI : 0 < b.nbI := by
      have := hR.lenC _ (getD_mem_of_lt A j [] hjA)
      omega
    have hv : isValid b 0 (j : Int) :=
      ⟨le_refl _, by exact_mod_cast hI, Int.ofNat_nonneg _, by exact_mod_cast hj⟩
    refine ⟨by rw [hR.lastI j hj]; omega, ?_⟩
    rw [rep_occupied hR hel hv]
    simpa using hpos
  · intro j hj hjL
    have hjA : A.length ≤ j := by omega
    have hemp : A.getD j [] = [] := List.getD_eq_default _ _ hjA
    refine ⟨by rw [hR.lastI j hj, hemp]; rfl, ?_⟩
    intro i hv
    by_contra hc
    have := (rep_occupied hR hel hv).mp hc
    simp only [Int.toNat_ofNat, hemp, List.length_nil] at this
    omega

/-- C21, instance: the board `slideBoard`, on which a column has slid to the left, and
the two contractions that `play` runs on `gapStart` and on `slideStart`. -/
theorem reachable_lastJs_common_witness :
    Reachable slideBoard ∧
    (∃ L : Int, slideBoard.lastJs = List.replicate slideBoard.nbI L ∧
        L = (nonEmptyCols slideBoard : Int) - 1 ∧ -1 ≤ L ∧ L < slideBoard.nbJ ∧
        slideBoard.lastIs.length = slideBoard.nbJ ∧
        (∀ j : Nat, j < slideBoard.nbJ → (j : Int) ≤ L →
          0 ≤ slideBoard.lastIs.getD j 0 ∧ colorAt slideBoard 0 (j : Int) ≠ -1) ∧
        (∀ j : Nat, j < slideBoard.nbJ → L < (j : Int) →
          slideBoard.lastIs.getD j 0 = -1 ∧
            ∀ i : Int, isValid slideBoard i (j : Int) → colorAt slideBoard i (j : Int) = -1)) ∧
    (contractI gapStart 1 0).isSome = true ∧
    (∀ t1 : Board, contractI gapStart 1 0 = some t1 → t1.lastJs = gapStart.lastJs) ∧
    (contractJ { slideStart with lastIs := [-1, 1] } 0).isSome = true ∧
    (∀ t1 : Board, contractJ { slideStart with lastIs := [-1, 1] } 0 = some t1 →
      ∀ i : Nat, i < 2 →
        t1.lastJs.getD i 0
          = if (0 : Int) ≤ slideStart.lastJs.getD i 0 then slideStart.lastJs.getD i 0 - 1
            else slideStart.lastJs.getD i 0) :=
  ⟨slideBoard_reachable, reachable_lastJs_common.1 slideBoard slideBoard_reachable,
    by decide,
    fun t1 h => reachable_lastJs_common.2.1 gapStart t1 1 0 h,
    by decide,
    fun t1 h => reachable_lastJs_common.2.2 { slideStart with lastIs := [-1, 1] } t1 0 h⟩

end Samegame
